import Mathlib

/-!
ServiceLocator.hpp: a shallow embedding of the resolution engine.

The engine of `src/ServiceLocator.hpp` is embedded as state-passing functions over a `World`
that holds every `ServiceLocator` object, the deferred-callback list of every root `Context`,
the objects allocated so far and a trace of the creation functions invoked so far.

* A `boost::shared_ptr<IFace>` is an `Option Nat`: `none` is the empty pointer, `some a` the
  object at address `a`; pointer equality is equality of addresses.
* A `boost::typeindex::type_index` is identified with its demangled name (what `getTypeName`
  returns), so `TypeId` is `String`.
* A `Context` is its chain of frames, innermost (`this`) first, the root `Context` last.
* Client code (constructors `TImpl(SLContext_sptr)`, factory functions, deferred callbacks) is
  given by the sequence of engine calls it performs on the context it receives (`Script`); the
  table `cls` maps a concrete type to the script of its constructor.
* Recursion through client code is bounded by a fuel argument; a thrown exception is an
  `Except.error` and the world reached so far is kept next to it.
-/

namespace ServiceLocator

/-! ## Data model -/

/-- Type identity (`boost::typeindex::type_index`), identified by the demangled type name. -/
abbrev TypeId := String

/-- A shared pointer to an instance: `none` is the empty pointer, `some a` the object at `a`. -/
abbrev Ptr := Option Nat

/-- Engine calls performed by a piece of client code on the `Context` it is handed:
`sl->resolve<T>(n)`, `sl->tryResolve<T>(n)`, `sl->afterResolve(fn)`. -/
inductive Script where
  | done
  | resolve (t : TypeId) (n : String) (rest : Script)
  | tryResolve (t : TypeId) (n : String) (rest : Script)
  | afterResolve (fn : Script) (rest : Script)
deriving DecidableEq, Repr

/-- The stored callables (`boost::function`) a binding can hold in `m_fnGet` / `m_fnCreate`,
named after the functor structs of the source. -/
inductive Fn where
  /-- A default-constructed `boost::function`. -/
  | empty
  /-- FunctorY: returns the bound instance (`toInstance`). -/
  | functorY (m_instance : Ptr)
  /-- Functor4a: returns the cached singleton. -/
  | functor4a (m_singleton : Ptr)
  /-- Functor4: creates through `m_fnCreate`, then rebinds `m_fnGet` to Functor4a. -/
  | functor4
  /-- Functor7: `toSelf`, `new IFace(sl)`. -/
  | functor7 (t : TypeId)
  /-- Functor8: `toSelfNoDependancy`, `new IFace()`. -/
  | functor8 (t : TypeId)
  /-- Functor9: `to<TImpl>`, `new TImpl(sl)`. -/
  | functor9 (t : TypeId)
  /-- Functor10: `toNoDependancy<TImpl>`, `new TImpl()`. -/
  | functor10 (t : TypeId)
  /-- Functor12: `to<TImpl>(fnCreate)`; the factory runs `m_fn` and returns a new object,
  or `NULL` when `yieldsNull`. -/
  | functor12 (t : TypeId) (m_fn : Script) (yieldsNull : Bool)
  /-- Functor13, stored by `alias(name)`; its body reads `sl->resolve<IFace>(m_name)`. The
  source declares the call operator with the return type
  `boost::function<boost::shared_ptr<TImpl>>` and keeps `m_name` as a reference to the string
  of the caller, so a program that calls `alias(name)` is not accepted by the compiler; the
  constructor stands for the body as it is written, with the name held by value. -/
  | functor13 (t : TypeId) (m_name : String)
  /-- Functor15, stored by `alias<IAlias>(name)`; its body reads
  `sl->resolve<IAlias>(m_name)`, declared like Functor13. -/
  | functor15 (t : TypeId) (m_name : String)
deriving DecidableEq, Repr

/-- The exceptions of the source, plus the failures of the embedding itself. -/
inductive ServiceLocatorException where
  | DuplicateBindingException (m_message : String)
  | RecursiveResolveException (m_message : String)
  | BindingIssueException (m_message : String)
  | UnableToResolveException (m_message : String)
  /-- Calling an empty `boost::function`. -/
  | bad_function_call
  /-- Following an index that names no locator or binding. -/
  | dangling
  /-- The fuel of the embedding ran out. -/
  | outOfFuel
deriving DecidableEq, Repr

/-- The per-`Context` fields: requested capability key and the concrete type once recorded. -/
structure Frame where
  m_interfaceType : TypeId
  m_name : String
  m_concreteType : Option TypeId
deriving DecidableEq, Repr

/-- A `Context`: the owning locator `m_sl`, the root context `m_root` (an index into the
deferred-callback lists) and the chain `this, m_parent, m_parent->m_parent, ...`. -/
structure Context where
  m_sl : Nat
  m_root : Nat
  frames : List Frame
deriving DecidableEq, Repr

/-- `std::map<std::string, V>`: an association list kept in ascending key order. -/
abbrev Map (V : Type) := List (String × V)

/-- `shared_ptr_binding`: the two stored callables. -/
structure shared_ptr_binding where
  m_fnGet : Fn
  m_fnCreate : Fn
deriving DecidableEq, Repr

/-- `TypedServiceLocator<IFace>`: `m_bindings`. -/
abbrev TypedServiceLocator := Map shared_ptr_binding

/-- A pointer to a binding: the locator that owns it, its capability type and its name. -/
structure BindingRef where
  loc : Nat
  type : TypeId
  name : String
deriving DecidableEq, Repr

/-- The fields of one `ServiceLocator` object. -/
structure Locator where
  m_typed_locators : Map TypedServiceLocator
  m_eagerBindings : List BindingRef
  m_parent : Option Nat
  m_context : Nat
deriving DecidableEq, Repr

/-- An object allocated by a creation function: its concrete type, the results of the engine
calls its constructor made, and the context the constructor received. -/
structure Obj where
  type : TypeId
  fields : List Ptr
  slc : Context
deriving DecidableEq, Repr

/-- The whole engine state. -/
structure World where
  locators : List Locator
  /-- The list `m_fnAfterResolveList` of every root `Context`; `[]` stands for `NULL`. -/
  fnAfterResolveLists : List (List Script)
  heap : List Obj
  /-- Trace of creation-function invocations, one entry per invocation; nothing reads it. -/
  created : List BindingRef
deriving DecidableEq, Repr

/-- Result of an engine call: the value or the exception thrown, and the world reached. -/
abbrev Out (α : Type) := Except ServiceLocatorException α × World

/-! ## Ordered maps -/

/-- Order of `std::string` keys (lexicographic on the characters). -/
def keyLt (a b : String) : Bool := decide (a.data < b.data)

/-- Lookup, `std::map::find`. -/
def Map.find {V : Type} : Map V → String → Option V
  | [], _ => none
  | (k, v) :: rest, key => if k = key then some v else Map.find rest key

/-- Insertion of a key that is not in the map, at its place in the key order. -/
def Map.insertSorted {V : Type} : Map V → String → V → Map V
  | [], key, val => [(key, val)]
  | (k, v) :: rest, key, val =>
    if keyLt key k then (key, val) :: (k, v) :: rest
    else (k, v) :: Map.insertSorted rest key val

/-- Insertion, `std::map::insert`: an existing entry is kept. -/
def Map.insert {V : Type} (m : Map V) (key : String) (val : V) : Map V :=
  match Map.find m key with
  | some _ => m
  | none => Map.insertSorted m key val

/-- Update through a pointer to an existing entry. -/
def Map.modify {V : Type} (f : V → V) : Map V → String → Map V
  | [], _ => []
  | (k, v) :: rest, key => if k = key then (k, f v) :: rest else (k, v) :: Map.modify f rest key

/-! ## Context -/

/-- Constructor `Context(boost::weak_ptr<ServiceLocator> sl)`: a root context, whose interface
type is `typeid(void)` and whose name is empty. -/
def Context.root (sl root : Nat) : Context :=
  ⟨sl, root, [⟨"void", "", none⟩]⟩

/-- Constructor `Context(Context* parent, interfaceType, name)`. -/
def Context.child (parent : Context) (interfaceType : TypeId) (name : String) : Context :=
  ⟨parent.m_sl, parent.m_root, ⟨interfaceType, name, none⟩ :: parent.frames⟩

/-- Accessor `getName`. -/
def Context.getName (this : Context) : String :=
  match this.frames with
  | [] => ""
  | f :: _ => f.m_name

/-- Accessor `getInterfaceTypeName`. -/
def Context.getInterfaceTypeName (this : Context) : String :=
  match this.frames with
  | [] => ""
  | f :: _ => f.m_interfaceType

/-- The test `this == m_root`: exactly the contexts without `m_parent`. -/
def Context.isRoot (this : Context) : Bool :=
  match this.frames with
  | _ :: _ :: _ => false
  | _ => true

/-- Method `setConcreteType`. -/
def Context.setConcreteType (this : Context) (concreteType : TypeId) :
    Except ServiceLocatorException Context :=
  match this.frames with
  | [] => .error .dangling
  | f :: parents =>
    match f.m_concreteType with
    | some _ => .error (.BindingIssueException "Concrete type on Context already set")
    | none =>
      .ok ⟨this.m_sl, this.m_root, ⟨f.m_interfaceType, f.m_name, some concreteType⟩ :: parents⟩

/-- One step of the diagnostic path: what `getResolvePath` appends for `this`. -/
def Frame.step (path : String) (f : Frame) : String :=
  let path := path ++ ("resolve<" ++ f.m_interfaceType ++ ">(" ++ f.m_name ++ ")")
  match f.m_concreteType with
  | some c => path ++ (".to<" ++ c ++ ">")
  | none => path

/-- Method `getResolvePath` on the chain of frames. -/
def getResolvePathOf : List Frame → String
  | [] => ""
  | [f] => f.step ""
  | f :: p :: rest =>
    match rest with
    | [] => f.step ""
    | _ :: _ => f.step (getResolvePathOf (p :: rest) ++ " -> ")

/-- Method `getResolvePath`. -/
def Context.getResolvePath (this : Context) : String :=
  getResolvePathOf this.frames

/-- Method `checkRecursiveResolve(resolveCtx, compareCtx)`, `compareCtx` given by its chain. -/
def checkRecursiveResolve (resolveCtx : Context) :
    List Frame → Except ServiceLocatorException Unit
  | [] => .ok ()
  | compareCtx :: parents =>
    if resolveCtx.getInterfaceTypeName = compareCtx.m_interfaceType
        ∧ resolveCtx.getName = compareCtx.m_name then
      .error (.RecursiveResolveException ("Recursive resolve path = " ++ resolveCtx.getResolvePath))
    else checkRecursiveResolve resolveCtx parents

/-! ## World access -/

/-- Method `getTypedServiceLocator<IFace>(false)`: the registry of `IFace`, if there is one. -/
def Locator.getTypedServiceLocator (sl : Locator) (IFace : TypeId) : Option TypedServiceLocator :=
  Map.find sl.m_typed_locators IFace

/-- The binding a `BindingRef` points to. -/
def World.binding? (w : World) (ref : BindingRef) : Option shared_ptr_binding :=
  match w.locators[ref.loc]? with
  | none => none
  | some sl =>
    match sl.getTypedServiceLocator ref.type with
    | none => none
    | some nsl => Map.find nsl ref.name

/-- Apply `f` to the binding a `BindingRef` points to. -/
def World.modifyBinding (w : World) (ref : BindingRef)
    (f : shared_ptr_binding → shared_ptr_binding) : World :=
  match w.locators[ref.loc]? with
  | none => w
  | some sl =>
    let typed := Map.modify (fun nsl => Map.modify f nsl ref.name) sl.m_typed_locators ref.type
    ⟨w.locators.set ref.loc ⟨typed, sl.m_eagerBindings, sl.m_parent, sl.m_context⟩,
      w.fnAfterResolveLists, w.heap, w.created⟩

/-- Assignment `m_ibinding->m_fnGet = fn`. -/
def World.setFnGet (w : World) (ref : BindingRef) (fn : Fn) : World :=
  w.modifyBinding ref (fun b => { b with m_fnGet := fn })

/-- Record that the creation function of the binding `ref` is being invoked. -/
def World.traceCreate (w : World) (ref : BindingRef) : World :=
  { w with created := w.created ++ [ref] }

/-- Allocate an object; its address is the next free index of the heap. -/
def World.alloc (w : World) (o : Obj) : World :=
  { w with heap := w.heap ++ [o] }

/-- Method `afterResolve(fnAfterResolve)`: push onto the list of the resolution root. -/
def World.pushAfterResolve (w : World) (root : Nat) (fn : Script) : World :=
  { w with fnAfterResolveLists :=
      w.fnAfterResolveLists.set root ((w.fnAfterResolveLists.getD root []) ++ [fn]) }

/-- A new root `Context` of locator `sl`, with its (empty) deferred list. -/
def World.newRootContext (w : World) (sl : Nat) : Context × World :=
  (Context.root sl w.fnAfterResolveLists.length,
   { w with fnAfterResolveLists := w.fnAfterResolveLists ++ [[]] })

/-! ## Client code and creation functions -/

/-- Run a piece of client code on the context `sl`, collecting the resolved pointers. -/
def runScript (res tryRes : Context → TypeId → String → World → Out Ptr) (sl : Context) :
    Script → List Ptr → World → Out (List Ptr)
  | .done, fields, w => (.ok fields, w)
  | .resolve t n rest, fields, w =>
    match res sl t n w with
    | (.error e, w1) => (.error e, w1)
    | (.ok p, w1) => runScript res tryRes sl rest (fields ++ [p]) w1
  | .tryResolve t n rest, fields, w =>
    match tryRes sl t n w with
    | (.error e, w1) => (.error e, w1)
    | (.ok p, w1) => runScript res tryRes sl rest (fields ++ [p]) w1
  | .afterResolve fn rest, fields, w =>
    runScript res tryRes sl rest fields (w.pushAfterResolve sl.m_root fn)

/-- Functor7 / Functor9 (`body` is the constructor of `t`), Functor8 / Functor10 (`body` is
empty) and Functor12 (`body` is the factory): record the concrete type, run the client code,
wrap the new object in a shared pointer (or yield the empty pointer). -/
def construct (res tryRes : Context → TypeId → String → World → Out Ptr) (ref : BindingRef)
    (t : TypeId) (body : Script) (yieldsNull : Bool) (sl : Context) (w : World) :
    Out (Ptr × Context) :=
  let w := w.traceCreate ref
  match sl.setConcreteType t with
  | .error e => (.error e, w)
  | .ok sl1 =>
    match runScript res tryRes sl1 body [] w with
    | (.error e, w1) => (.error e, w1)
    | (.ok fields, w1) =>
      if yieldsNull then (.ok (none, sl1), w1)
      else (.ok (some w1.heap.length, sl1), w1.alloc ⟨t, fields, sl1⟩)

/-- Functor13 / Functor15, the body as written: forward to `sl->resolve<TImpl>(m_name)`. No
compiled program reaches it, because the declaration of the call operator is ill-formed. -/
def forward (res : Context → TypeId → String → World → Out Ptr) (ref : BindingRef)
    (t : TypeId) (m_name : String) (sl : Context) (w : World) : Out (Ptr × Context) :=
  match res sl t m_name (w.traceCreate ref) with
  | (.error e, w1) => (.error e, w1)
  | (.ok p, w1) => (.ok (p, sl), w1)

/-- The loop of `afterResolve()`: each callback receives a brand-new root context. -/
def runCallbacks (res tryRes : Context → TypeId → String → World → Out Ptr) (m_sl : Nat) :
    List Script → World → Out Unit
  | [], w => (.ok (), w)
  | fn :: fns, w =>
    let (ctx, w0) := w.newRootContext m_sl
    match runScript res tryRes ctx fn [] w0 with
    | (.error e, w1) => (.error e, w1)
    | (.ok _, w1) => runCallbacks res tryRes m_sl fns w1

/-- Method `afterResolve()`: only the root context runs (and then deletes) its list. -/
def Context.afterResolve (res tryRes : Context → TypeId → String → World → Out Ptr)
    (this : Context) (w : World) : Out Unit :=
  if this.isRoot then
    match w.fnAfterResolveLists.getD this.m_root [] with
    | [] => (.ok (), w)
    | fn :: fns =>
      match runCallbacks res tryRes this.m_sl (fn :: fns) w with
      | (.error e, w1) => (.error e, w1)
      | (.ok _, w1) =>
        (.ok (), { w1 with fnAfterResolveLists := w1.fnAfterResolveLists.set this.m_root [] })
  else (.ok (), w)

/-- Method `TypedServiceLocator::tryResolve(name, slc)`; `get` is `ibinding->get(slc)`. -/
def TypedServiceLocator.tryResolve (get : Fn → Context → World → Out (Ptr × Context))
    (nsl : TypedServiceLocator) (name : String) (slc : Context) (w : World) :
    Out (Ptr × Context) :=
  match Map.find nsl name with
  | none => (.ok (none, slc), w)
  | some ibinding => get ibinding.m_fnGet slc w

/-- The message of `UnableToResolveException` built in `m_resolve`. -/
def unableToResolve (slc : Context) : ServiceLocatorException :=
  .UnableToResolveException
    ("Unable to resolve <" ++ slc.getInterfaceTypeName ++ ">  resolve path = " ++ slc.getResolvePath)

/-! ## The resolution engine -/

mutual

/-- Invocation of a stored callable of the binding `ref` on the context `sl`; returns the
pointer and `sl` with the concrete type the callable recorded. -/
def invoke (cls : TypeId → Script) :
    Nat → BindingRef → Fn → Context → World → Out (Ptr × Context)
  | 0, _, _, _, w => (.error .outOfFuel, w)
  | fuel + 1, ref, fn, sl, w =>
    match fn with
    | .empty => (.error .bad_function_call, w)
    | .functorY m_instance => (.ok (m_instance, sl), w)
    | .functor4a m_singleton => (.ok (m_singleton, sl), w)
    | .functor4 =>
      match w.binding? ref with
      | none => (.error .dangling, w)
      | some m_ibinding =>
        match invoke cls fuel ref m_ibinding.m_fnCreate sl w with
        | (.error e, w1) => (.error e, w1)
        | (.ok (m_sing, sl1), w1) => (.ok (m_sing, sl1), w1.setFnGet ref (.functor4a m_sing))
    | .functor7 t =>
      construct (Context.resolve cls fuel) (Context.tryResolve cls fuel) ref t (cls t) false sl w
    | .functor8 t =>
      construct (Context.resolve cls fuel) (Context.tryResolve cls fuel) ref t .done false sl w
    | .functor9 t =>
      construct (Context.resolve cls fuel) (Context.tryResolve cls fuel) ref t (cls t) false sl w
    | .functor10 t =>
      construct (Context.resolve cls fuel) (Context.tryResolve cls fuel) ref t .done false sl w
    | .functor12 t m_fn yieldsNull =>
      construct (Context.resolve cls fuel) (Context.tryResolve cls fuel) ref t m_fn yieldsNull sl w
    | .functor13 t m_name => forward (Context.resolve cls fuel) ref t m_name sl w
    | .functor15 t m_name => forward (Context.resolve cls fuel) ref t m_name sl w

/-- Method `ServiceLocator::m_resolve<IFace>(slc)` of the locator `self`. -/
def m_resolve (cls : TypeId → Script) : Nat → TypeId → Nat → Context → World → Out Ptr
  | 0, _, _, _, w => (.error .outOfFuel, w)
  | fuel + 1, IFace, self, slc, w =>
    match w.locators[self]? with
    | none => (.error .dangling, w)
    | some sl =>
      match sl.getTypedServiceLocator IFace with
      | none =>
        match sl.m_parent with
        | none => (.error (unableToResolve slc), w)
        | some m_parent => m_resolve cls fuel IFace m_parent slc w
      | some nsl =>
        match TypedServiceLocator.tryResolve (invoke cls fuel ⟨self, IFace, slc.getName⟩)
            nsl slc.getName slc w with
        | (.error e, w1) => (.error e, w1)
        | (.ok (some a, _), w1) => (.ok (some a), w1)
        | (.ok (none, slc1), w1) =>
          match sl.m_parent with
          | none => (.error (unableToResolve slc1), w1)
          | some m_parent => m_resolve cls fuel IFace m_parent slc1 w1

/-- Method `ServiceLocator::m_tryResolve<IFace>(slc)` of the locator `self`. -/
def m_tryResolve (cls : TypeId → Script) : Nat → TypeId → Nat → Context → World → Out Ptr
  | 0, _, _, _, w => (.error .outOfFuel, w)
  | fuel + 1, IFace, self, slc, w =>
    match w.locators[self]? with
    | none => (.error .dangling, w)
    | some sl =>
      match sl.getTypedServiceLocator IFace with
      | none =>
        match sl.m_parent with
        | none => (.ok none, w)
        | some m_parent => m_tryResolve cls fuel IFace m_parent slc w
      | some nsl =>
        match TypedServiceLocator.tryResolve (invoke cls fuel ⟨self, IFace, slc.getName⟩)
            nsl slc.getName slc w with
        | (.error e, w1) => (.error e, w1)
        | (.ok (some a, _), w1) => (.ok (some a), w1)
        | (.ok (none, slc1), w1) =>
          match sl.m_parent with
          | none => (.ok none, w1)
          | some m_parent => m_tryResolve cls fuel IFace m_parent slc1 w1

/-- Method `Context::resolve<IFace>(named)`. -/
def Context.resolve (cls : TypeId → Script) : Nat → Context → TypeId → String → World → Out Ptr
  | 0, _, _, _, w => (.error .outOfFuel, w)
  | fuel + 1, this, IFace, named, w =>
    let ctx := this.child IFace named
    match checkRecursiveResolve ctx this.frames with
    | .error e => (.error e, w)
    | .ok _ =>
      match m_resolve cls fuel IFace this.m_sl ctx w with
      | (.error e, w1) => (.error e, w1)
      | (.ok ptr, w1) =>
        match Context.afterResolve (Context.resolve cls fuel) (Context.tryResolve cls fuel)
            this w1 with
        | (.error e, w2) => (.error e, w2)
        | (.ok _, w2) => (.ok ptr, w2)

/-- Method `Context::tryResolve<IFace>(named)`. -/
def Context.tryResolve (cls : TypeId → Script) :
    Nat → Context → TypeId → String → World → Out Ptr
  | 0, _, _, _, w => (.error .outOfFuel, w)
  | fuel + 1, this, IFace, named, w =>
    let ctx := this.child IFace named
    match checkRecursiveResolve ctx this.frames with
    | .error e => (.error e, w)
    | .ok _ =>
      match m_tryResolve cls fuel IFace this.m_sl ctx w with
      | (.error e, w1) => (.error e, w1)
      | (.ok ptr, w1) =>
        match Context.afterResolve (Context.resolve cls fuel) (Context.tryResolve cls fuel)
            this w1 with
        | (.error e, w2) => (.error e, w2)
        | (.ok _, w2) => (.ok ptr, w2)

end

/-! ## Configuration -/

/-- Static method `ServiceLocator::create()`: a new root locator with its root context. -/
def create (w : World) : Nat × World :=
  (w.locators.length,
   ⟨w.locators ++ [⟨[], [], none, w.fnAfterResolveLists.length⟩],
    w.fnAfterResolveLists ++ [[]], w.heap, w.created⟩)

/-- Method `ServiceLocator::enter()`: a new child locator of `self` with its root context. -/
def enter (self : Nat) (w : World) : Nat × World :=
  (w.locators.length,
   ⟨w.locators ++ [⟨[], [], some self, w.fnAfterResolveLists.length⟩],
    w.fnAfterResolveLists ++ [[]], w.heap, w.created⟩)

/-- Method `TypedServiceLocator::canResolve(name)`. -/
def TypedServiceLocator.canResolve (nsl : TypedServiceLocator) (name : String) : Bool :=
  (Map.find nsl name).isSome

/-- Method `TypedServiceLocator::bind(name, eagerBindings)`: the registry with the new, still
unconfigured binding, or `DuplicateBindingException`. The message names the type by its
`TypeId`; the source prints `typeid(IFace).name()` there, the implementation's spelling of the
same type. -/
def TypedServiceLocator.bind (IFace : TypeId) (nsl : TypedServiceLocator) (name : String) :
    Except ServiceLocatorException TypedServiceLocator :=
  if nsl.canResolve name then
    .error (.DuplicateBindingException ("Duplicate binding for <" ++ IFace ++ "> named " ++ name))
  else .ok (Map.insert nsl name ⟨.empty, .empty⟩)

/-- Method `ServiceLocator::bind<IFace>(named)` of the locator `self`: the registry of `IFace`
is created when missing (`getTypedServiceLocator<IFace>(true)`), then asked to bind. -/
def bind (IFace : TypeId) (named : String) (self : Nat) (w : World) : Out BindingRef :=
  match w.locators[self]? with
  | none => (.error .dangling, w)
  | some sl =>
    let typed := Map.insert sl.m_typed_locators IFace []
    let nsl := (Map.find typed IFace).getD []
    match TypedServiceLocator.bind IFace nsl named with
    | .error e =>
      (.error e, ⟨w.locators.set self ⟨typed, sl.m_eagerBindings, sl.m_parent, sl.m_context⟩,
        w.fnAfterResolveLists, w.heap, w.created⟩)
    | .ok nsl1 =>
      (.ok ⟨self, IFace, named⟩,
       ⟨w.locators.set self
          ⟨Map.modify (fun _ => nsl1) typed IFace, sl.m_eagerBindings, sl.m_parent, sl.m_context⟩,
        w.fnAfterResolveLists, w.heap, w.created⟩)

/-- Assignment `m_ibinding->m_fnGet = m_ibinding->m_fnCreate = fn`. -/
def World.setFns (w : World) (ref : BindingRef) (fn : Fn) : World :=
  w.modifyBinding ref (fun _ => ⟨fn, fn⟩)

/-- Clause `toInstance(boost::shared_ptr<IFace> instance)`. -/
def to_clause.toInstance (ref : BindingRef) (inst : Ptr) (w : World) : World :=
  w.setFnGet ref (.functorY inst)

/-- Clause `toSelf()`. -/
def to_clause.toSelf (ref : BindingRef) (w : World) : World :=
  w.setFns ref (.functor7 ref.type)

/-- Clause `toSelfNoDependancy()`. -/
def to_clause.toSelfNoDependancy (ref : BindingRef) (w : World) : World :=
  w.setFns ref (.functor8 ref.type)

/-- Clause `to<TImpl>()`. -/
def to_clause.to (ref : BindingRef) (TImpl : TypeId) (w : World) : World :=
  w.setFns ref (.functor9 TImpl)

/-- Clause `toNoDependancy<TImpl>()`. -/
def to_clause.toNoDependancy (ref : BindingRef) (TImpl : TypeId) (w : World) : World :=
  w.setFns ref (.functor10 TImpl)

/-- Clause `to<TImpl>(fnCreate)`. -/
def to_clause.toFn (ref : BindingRef) (TImpl : TypeId) (fnCreate : Script) (yieldsNull : Bool)
    (w : World) : World :=
  w.setFns ref (.functor12 TImpl fnCreate yieldsNull)

/-- Clause `alias(name)`, as written; instantiating it does not compile (see Functor13). -/
def to_clause.alias (ref : BindingRef) (name : String) (w : World) : World :=
  w.setFns ref (.functor13 ref.type name)

/-- Clause `alias<IAlias>(name)`, as written; instantiating it does not compile (see
Functor15). -/
def to_clause.aliasOf (ref : BindingRef) (IAlias : TypeId) (name : String) (w : World) : World :=
  w.setFns ref (.functor15 IAlias name)

/-- Clause `asSingleton()`. -/
def as_clause.asSingleton (ref : BindingRef) (w : World) : World :=
  w.setFnGet ref .functor4

/-- Clause `asTransient()`. -/
def as_clause.asTransient (ref : BindingRef) (w : World) : World :=
  w.modifyBinding ref (fun b => ⟨b.m_fnCreate, b.m_fnCreate⟩)

/-- Statement `sl->bind<IFace>(named).clause`: bind, then configure the new binding; when the
bind throws, the clause is not reached. -/
def bindWith (IFace : TypeId) (named : String) (self : Nat)
    (clause : BindingRef → World → World) (w : World) : World :=
  match bind IFace named self w with
  | (.ok ref, w1) => clause ref w1
  | (.error _, w1) => w1

/-- The context `m_context` of the locator `self`, as `getContext()` returns it. -/
def World.m_context (w : World) (self : Nat) : Context :=
  match w.locators[self]? with
  | none => Context.root self 0
  | some sl => Context.root self sl.m_context

/-! ## Probing, visiting and eager instantiation -/

/-- Method `ServiceLocator::_canResolve<IFace>(slc)` of the locator `self`: the parent is asked
only when this locator has no registry of `IFace` at all. -/
def _canResolve : Nat → TypeId → Nat → Context → World → Out Bool
  | 0, _, _, _, w => (.error .outOfFuel, w)
  | fuel + 1, IFace, self, slc, w =>
    match w.locators[self]? with
    | none => (.error .dangling, w)
    | some sl =>
      match sl.getTypedServiceLocator IFace with
      | none =>
        match sl.m_parent with
        | none => (.ok false, w)
        | some m_parent => _canResolve fuel IFace m_parent slc w
      | some nsl => (.ok (nsl.canResolve slc.getName), w)

/-- Method `Context::canResolve<IFace>(named)`: no cycle check, no `afterResolve()`. -/
def Context.canResolve (fuel : Nat) (this : Context) (IFace : TypeId) (named : String)
    (w : World) : Out Bool :=
  let ctx := this.child IFace named
  _canResolve fuel IFace this.m_sl ctx w

/-- Method `shared_ptr_binding::get(slc)` through a pointer to the binding. -/
def BindingRef.get (cls : TypeId → Script) (fuel : Nat) (binding : BindingRef) (slc : Context)
    (w : World) : Out (Ptr × Context) :=
  match w.binding? binding with
  | none => (.error .dangling, w)
  | some ibinding => invoke cls fuel binding ibinding.m_fnGet slc w

/-- Call `Functor<IFace>::operator()(binding)` of the visitor of `resolveAll`: the child context
carries the empty name, whatever the name of the binding is. -/
def Functor.call (get : BindingRef → Context → World → Out (Ptr × Context)) (m_ctx : Context)
    (IFace : TypeId) (binding : BindingRef) (m_all : List Ptr) (w : World) : Out (List Ptr) :=
  let ctx := m_ctx.child IFace ""
  match checkRecursiveResolve ctx m_ctx.frames with
  | .error e => (.error e, w)
  | .ok _ =>
    match get binding ctx w with
    | (.error e, w1) => (.error e, w1)
    | (.ok (p, _), w1) => (.ok (m_all ++ [p]), w1)

/-- Method `TypedServiceLocator::visitAll(fnVisit)` of the registry of `IFace` in the locator
`self`: the loop over the nodes of `m_bindings`, given by their keys in map order; each binding
is read when it is visited. -/
def TypedServiceLocator.visitAll (fnVisit : BindingRef → List Ptr → World → Out (List Ptr))
    (self : Nat) (IFace : TypeId) : List String → List Ptr → World → Out (List Ptr)
  | [], m_all, w => (.ok m_all, w)
  | name :: rest, m_all, w =>
    match fnVisit ⟨self, IFace, name⟩ m_all w with
    | (.error e, w1) => (.error e, w1)
    | (.ok m_all1, w1) => TypedServiceLocator.visitAll fnVisit self IFace rest m_all1 w1

/-- Method `ServiceLocator::_visitAll<IFace>(fnVisit)` of the locator `self`, for the visitor
of `resolveAll` on the context `m_ctx`: the own registry first, then the parent. The first
number bounds the walk over the parents, `fuel` the calls made by the visitor. -/
def _visitAll (cls : TypeId → Script) (fuel : Nat) :
    Nat → TypeId → Nat → Context → List Ptr → World → Out (List Ptr)
  | 0, _, _, _, _, w => (.error .outOfFuel, w)
  | depth + 1, IFace, self, m_ctx, m_all, w =>
    match w.locators[self]? with
    | none => (.error .dangling, w)
    | some sl =>
      let visited : Out (List Ptr) :=
        match sl.getTypedServiceLocator IFace with
        | none => (.ok m_all, w)
        | some nsl =>
          TypedServiceLocator.visitAll (Functor.call (BindingRef.get cls fuel) m_ctx IFace)
            self IFace (nsl.map Prod.fst) m_all w
      match visited with
      | (.error e, w1) => (.error e, w1)
      | (.ok m_all1, w1) =>
        match sl.m_parent with
        | none => (.ok m_all1, w1)
        | some m_parent => _visitAll cls fuel depth IFace m_parent m_ctx m_all1 w1

/-- Method `Context::resolveAll<IFace>(all)`; the result is the vector `all` after the call
(when the call throws, the elements pushed so far are not reported). -/
def Context.resolveAll (cls : TypeId → Script) (fuel : Nat) (this : Context) (IFace : TypeId)
    (all : List Ptr) (w : World) : Out (List Ptr) :=
  match _visitAll cls fuel fuel IFace this.m_sl this all w with
  | (.error e, w1) => (.error e, w1)
  | (.ok all1, w1) =>
    match Context.afterResolve (Context.resolve cls fuel) (Context.tryResolve cls fuel)
        this w1 with
    | (.error e, w2) => (.error e, w2)
    | (.ok _, w2) => (.ok all1, w2)

/-- Clause `eagerly()`: push the binding onto the eager list of the locator it was bound on. -/
def eagerly_clause.eagerly (ref : BindingRef) (w : World) : World :=
  match w.locators[ref.loc]? with
  | none => w
  | some sl =>
    ⟨w.locators.set ref.loc
        ⟨sl.m_typed_locators, sl.m_eagerBindings ++ [ref], sl.m_parent, sl.m_context⟩,
      w.fnAfterResolveLists, w.heap, w.created⟩

/-- Method `shared_ptr_binding::eagerBind(slc)`: the child context carries the empty name; the
instance is dropped. -/
def BindingRef.eagerBind (cls : TypeId → Script) (fuel : Nat) (binding : BindingRef)
    (slc : Context) (w : World) : Out Unit :=
  let ctx := slc.child binding.type ""
  match w.binding? binding with
  | none => (.error .dangling, w)
  | some ibinding =>
    match invoke cls fuel binding ibinding.m_fnGet ctx w with
    | (.error e, w1) => (.error e, w1)
    | (.ok _, w1) => (.ok (), w1)

/-- The loop of `getContext()` over `m_eagerBindings`. -/
def eagerLoop (cls : TypeId → Script) (fuel : Nat) (m_context : Context) :
    List BindingRef → World → Out Unit
  | [], w => (.ok (), w)
  | eagerBinding :: rest, w =>
    match eagerBinding.eagerBind cls fuel m_context w with
    | (.error e, w1) => (.error e, w1)
    | (.ok _, w1) => eagerLoop cls fuel m_context rest w1

/-- Statement `m_eagerBindings.clear()` of the locator `self`. -/
def World.clearEager (w : World) (self : Nat) : World :=
  match w.locators[self]? with
  | none => w
  | some sl =>
    ⟨w.locators.set self ⟨sl.m_typed_locators, [], sl.m_parent, sl.m_context⟩,
      w.fnAfterResolveLists, w.heap, w.created⟩

/-- Method `ServiceLocator::getContext()` of the locator `self`: a non-empty eager list is
run and then cleared; a throwing eager binding leaves the list as it is. -/
def getContext (cls : TypeId → Script) (fuel : Nat) (self : Nat) (w : World) : Out Context :=
  match w.locators[self]? with
  | none => (.error .dangling, w)
  | some sl =>
    match sl.m_eagerBindings with
    | [] => (.ok (Context.root self sl.m_context), w)
    | eagerBinding :: rest =>
      match eagerLoop cls fuel (Context.root self sl.m_context) (eagerBinding :: rest) w with
      | (.error e, w1) => (.error e, w1)
      | (.ok _, w1) => (.ok (Context.root self sl.m_context), w1.clearEager self)

/-! ## Providers -/

/-- Constructor `Context(boost::weak_ptr<ServiceLocator> sl, interfaceType, name)`: a root
context (`m_root` is the context itself, there is no parent) that carries a capability key. -/
def Context.rootFor (sl root : Nat) (interfaceType : TypeId) (name : String) : Context :=
  ⟨sl, root, [⟨interfaceType, name, none⟩]⟩

/-- Call `Functor2<IFace>::operator()(name)`: a new root context for the key `(IFace, name)`,
`m_resolve` on the locator `m_sl` without a cycle check, then `afterResolve()` of that context.
The list of the new context, which its constructor does not initialise, is taken as `NULL`. -/
def Functor2.call (cls : TypeId → Script) (fuel : Nat) (m_sl : Nat) (IFace : TypeId)
    (name : String) (w : World) : Out Ptr :=
  let ctx := Context.rootFor m_sl w.fnAfterResolveLists.length IFace name
  match m_resolve cls fuel IFace m_sl ctx
      { w with fnAfterResolveLists := w.fnAfterResolveLists ++ [[]] } with
  | (.error e, w1) => (.error e, w1)
  | (.ok ptr, w1) =>
    match Context.afterResolve (Context.resolve cls fuel) (Context.tryResolve cls fuel)
        ctx w1 with
    | (.error e, w2) => (.error e, w2)
    | (.ok _, w2) => (.ok ptr, w2)

/-- Call `Functor3<IFace>::operator()(name)`: as Functor2, with `m_tryResolve`. -/
def Functor3.call (cls : TypeId → Script) (fuel : Nat) (m_sl : Nat) (IFace : TypeId)
    (name : String) (w : World) : Out Ptr :=
  let ctx := Context.rootFor m_sl w.fnAfterResolveLists.length IFace name
  match m_tryResolve cls fuel IFace m_sl ctx
      { w with fnAfterResolveLists := w.fnAfterResolveLists ++ [[]] } with
  | (.error e, w1) => (.error e, w1)
  | (.ok ptr, w1) =>
    match Context.afterResolve (Context.resolve cls fuel) (Context.tryResolve cls fuel)
        ctx w1 with
    | (.error e, w2) => (.error e, w2)
    | (.ok _, w2) => (.ok ptr, w2)

/-- Method `Context::provider<IFace>()`, statement by statement: `Functor2<IFace> visit(sl);
return visit();`. The functor is called on the spot, with the default argument `""` for the
name, and what the method hands back is the outcome of that call. -/
def Context.provider (cls : TypeId → Script) (fuel : Nat) (this : Context) (IFace : TypeId)
    (w : World) : Out Ptr :=
  Functor2.call cls fuel this.m_sl IFace "" w

/-- Method `Context::tryProvider<IFace>()`: `Functor3<IFace> visit(sl); return visit();`. -/
def Context.tryProvider (cls : TypeId → Script) (fuel : Nat) (this : Context) (IFace : TypeId)
    (w : World) : Out Ptr :=
  Functor3.call cls fuel this.m_sl IFace "" w

/-! ## Modules -/

/-- A statement of the body of a module's `load()`: `bind<IFace>(named)` followed by the
clauses that configure the new binding. -/
structure BindStatement where
  IFace : TypeId
  named : String
  clause : BindingRef → World → World

/-- Method `Module::bind<IFace>(named)`: `return m_sl->bind<IFace>(named);`. -/
def Module.bind (m_sl : Nat) (IFace : TypeId) (named : String) (w : World) : Out BindingRef :=
  ServiceLocator.bind IFace named m_sl w

/-- Method `load()` of a module whose body is the given statements, each a call of
`Module::bind` followed by its clauses; a bind that throws ends the body. -/
def Module.load (m_sl : Nat) : List BindStatement → World → Out Unit
  | [], w => (.ok (), w)
  | s :: rest, w =>
    match Module.bind m_sl s.IFace s.named w with
    | (.error e, w1) => (.error e, w1)
    | (.ok ref, w1) => Module.load m_sl rest (s.clause ref w1)

/-- Method `ServiceLocator::modules()` of the locator `self`: its `module_clause`, which holds
`m_sl = m_this`. -/
def modules (self : Nat) : Nat := self

/-- Method `module_clause::add<TModule>()`: `module->m_sl = m_sl; module->load();`, for the
module class whose `load()` has the body `TModule`. -/
def module_clause.add (m_sl : Nat) (TModule : List BindStatement) (w : World) : Out Unit :=
  Module.load m_sl TModule w

/-! ## Locator chains -/

/-- `Unbound w t n l d`: no locator on the parent chain of `l` (which has `d` further
locators and ends in a locator without parent) holds a binding of type `t` named `n`. -/
inductive Unbound (w : World) (t : TypeId) (n : String) : Nat → Nat → Prop
  | root {l : Nat} {sl : Locator} : w.locators[l]? = some sl → w.binding? ⟨l, t, n⟩ = none →
      sl.m_parent = none → Unbound w t n l 0
  | up {l p d : Nat} {sl : Locator} : w.locators[l]? = some sl → w.binding? ⟨l, t, n⟩ = none →
      sl.m_parent = some p → Unbound w t n p d → Unbound w t n l (d + 1)

/-- `Nearest w t n l d o`: `o` is the first locator on the parent chain of `l`, `d` parents
up, that holds a binding of type `t` named `n`. -/
inductive Nearest (w : World) (t : TypeId) (n : String) : Nat → Nat → Nat → Prop
  | here {l : Nat} {b : shared_ptr_binding} : w.binding? ⟨l, t, n⟩ = some b → Nearest w t n l 0 l
  | up {l p d o : Nat} {sl : Locator} : w.locators[l]? = some sl →
      w.binding? ⟨l, t, n⟩ = none → sl.m_parent = some p → Nearest w t n p d o →
      Nearest w t n l (d + 1) o

/-- The steps of the diagnostic path of a chain of frames, outermost resolve first; the root
context (the last frame of the chain) contributes no step. -/
def pathSteps (frames : List Frame) : List String :=
  (frames.dropLast.reverse).map (Frame.step "")

/-- The body of `Context::resolve` after its cycle check: the outcome `r` of the lookup,
followed on success by `afterResolve()`. -/
def Context.finish (cls : TypeId → Script) (fuel : Nat) (this : Context) (r : Out Ptr) :
    Out Ptr :=
  match r with
  | (.error e, w1) => (.error e, w1)
  | (.ok ptr, w1) =>
    match Context.afterResolve (Context.resolve cls fuel) (Context.tryResolve cls fuel)
        this w1 with
    | (.error e, w2) => (.error e, w2)
    | (.ok _, w2) => (.ok ptr, w2)

/-- The outcome of `m_resolve` at the locator that owns the binding `ref`, whose stored
callable is `fnGet`: the callable is invoked on the request context; a non-empty instance is
returned, an empty one sends the lookup on to `parent`. -/
def served (cls : TypeId → Script) (fuel : Nat) (ref : BindingRef) (fnGet : Fn)
    (parent : Option Nat) (slc : Context) (w : World) : Out Ptr :=
  match invoke cls fuel ref fnGet slc w with
  | (.error e, w1) => (.error e, w1)
  | (.ok (some a, _), w1) => (.ok (some a), w1)
  | (.ok (none, slc1), w1) =>
    match parent with
    | none => (.error (unableToResolve slc1), w1)
    | some p => m_resolve cls fuel ref.type p slc1 w1

/-! ## What a resolution may change -/

/-- The stored callables that return a fixed pointer: FunctorY and Functor4a. -/
def Fn.isStored : Fn → Bool
  | .functorY _ => true
  | .functor4a _ => true
  | _ => false

/-- What no resolution changes in a locator: the keys of its registries and of their bindings
in map order, its eager list, its parent and its root context. -/
def Locator.shape (sl : Locator) :
    List (String × List String) × List BindingRef × Option Nat × Nat :=
  (sl.m_typed_locators.map (fun e => (e.1, e.2.map Prod.fst)), sl.m_eagerBindings,
    sl.m_parent, sl.m_context)

/-- `Evolves w w'`: the world `w'` differs from `w` at most by what resolutions do. Every
locator keeps its parent; every registry keeps its keys; a binding keeps its creation
function, and keeps `m_fnGet` unless that was Functor4 (a singleton not yet instantiated),
which can only become Functor4a (the cached singleton); the shape of every locator stays;
objects and trace entries are only added, and none is added for a binding whose `m_fnGet`
returns a stored pointer. -/
structure Evolves (w w' : World) : Prop where
  parent : ∀ l : Nat, (w'.locators[l]?).map Locator.m_parent = (w.locators[l]?).map Locator.m_parent
  unbound : ∀ ref, w.binding? ref = none → w'.binding? ref = none
  binding : ∀ ref b, w.binding? ref = some b →
    ∃ b', w'.binding? ref = some b' ∧ b'.m_fnCreate = b.m_fnCreate
      ∧ (b.m_fnGet ≠ .functor4 → b'.m_fnGet = b.m_fnGet)
  cached : ∀ ref b b', w.binding? ref = some b → w'.binding? ref = some b' →
    b'.m_fnGet = b.m_fnGet ∨ (b.m_fnGet = .functor4 ∧ ∃ p, b'.m_fnGet = .functor4a p)
  heap : ∃ more, w'.heap = w.heap ++ more
  created : ∀ ref b, w.binding? ref = some b → b.m_fnGet.isStored = true →
    w'.created.count ref = w.created.count ref
  trace : ∃ more, w'.created = w.created ++ more
  lists : w.fnAfterResolveLists.length ≤ w'.fnAfterResolveLists.length
  shape : w'.locators.map Locator.shape = w.locators.map Locator.shape

/-- `Invokable w ref fn`: `fn` is what the engine invokes for the binding `ref` in `w`, its
`m_fnGet`, or its `m_fnCreate` from inside Functor4. -/
def Invokable (w : World) (ref : BindingRef) (fn : Fn) : Prop :=
  ∃ b, w.binding? ref = some b ∧ (b.m_fnGet = fn ∨ (b.m_fnGet = .functor4 ∧ b.m_fnCreate = fn))

/-- A resolver (`Context::resolve` or `Context::tryResolve` at some fuel) whose every call
leaves a world that evolves from the one it started in. -/
def ResEvolves (res : Context → TypeId → String → World → Out Ptr) : Prop :=
  ∀ this t n w, Evolves w (res this t n w).2

/-! ## No re-entrance below a request -/

/-- `Guarded kt kn ctx`: the context `ctx` is not a root context and its chain holds a
context with the key `(kt, kn)`, so the cycle check refuses every request for that key. -/
def Guarded (kt : TypeId) (kn : String) (ctx : Context) : Prop :=
  ctx.isRoot = false ∧ ∃ f ∈ ctx.frames, f.m_interfaceType = kt ∧ f.m_name = kn

/-- `KeepsKey kt kn w w'`: between `w` and `w'` no creation function of a binding with the
key `(kt, kn)` was invoked. -/
def KeepsKey (kt : TypeId) (kn : String) (w w' : World) : Prop :=
  ∀ r : BindingRef, r.type = kt → r.name = kn → w'.created.count r = w.created.count r

/-- A resolver that, called on a guarded context, invokes no creation function of a binding
with the guarded key. -/
def ResKeeps (kt : TypeId) (kn : String)
    (res : Context → TypeId → String → World → Out Ptr) : Prop :=
  ∀ this t n w, Guarded kt kn this → KeepsKey kt kn w (res this t n w).2

/-- `SameRequest sl sl1`: the contexts agree except for the concrete types recorded. -/
def SameRequest (sl sl1 : Context) : Prop :=
  sl1.m_sl = sl.m_sl ∧ sl1.m_root = sl.m_root
    ∧ sl1.frames.map (fun f => (f.m_interfaceType, f.m_name))
        = sl.frames.map (fun f => (f.m_interfaceType, f.m_name))

/-- The stored callables that create: Functor7 to Functor15, what the clauses `toSelf`,
`to` and `alias` put into `m_fnCreate`. -/
def Fn.isCreation : Fn → Bool
  | .functor7 _ => true
  | .functor8 _ => true
  | .functor9 _ => true
  | .functor10 _ => true
  | .functor12 _ _ _ => true
  | .functor13 _ _ => true
  | .functor15 _ _ => true
  | _ => false

/-- Consecutive calls: `k` times `this->resolve<t>(n)`, stopping at the first exception. -/
def resolveTimes (cls : TypeId → Script) (fuel : Nat) (this : Context) (t : TypeId)
    (n : String) : Nat → World → Out (List Ptr)
  | 0, w => (.ok [], w)
  | k + 1, w =>
    match Context.resolve cls fuel this t n w with
    | (.error e, w1) => (.error e, w1)
    | (.ok p, w1) =>
      match resolveTimes cls fuel this t n k w1 with
      | (.error e, w2) => (.error e, w2)
      | (.ok ps, w2) => (.ok (p :: ps), w2)

/-- A sequence of `resolve` calls on one context, each for its own key; an exception ends the
call that threw it, and the next call is made in the world reached. -/
def resolveSeq (cls : TypeId → Script) (fuel : Nat) (this : Context) :
    List (TypeId × String) → World → World
  | [], w => w
  | (t, n) :: reqs, w => resolveSeq cls fuel this reqs (Context.resolve cls fuel this t n w).2

/-- The concrete types of the objects that the fields of the object at `p` point to: the
dependencies the instance was built from. -/
def World.fieldTypes (w : World) (p : Ptr) : List (Option TypeId) :=
  match p with
  | none => []
  | some a =>
    match w.heap[a]? with
    | none => []
    | some o => o.fields.map (fun q => (q.bind (fun i => w.heap[i]?)).map Obj.type)

/-! ## The throwing and the non-throwing lookup -/

/-- What `m_resolve` makes of the outcome `r` of `m_tryResolve`: the empty pointer that ends
the walk becomes the `UnableToResolveException` thrown for the request context `slc`, every
other outcome (an instance, or an exception out of a creation function) is kept. -/
def throwIfEmpty (slc : Context) (r : Out Ptr) : Out Ptr :=
  match r with
  | (.ok none, w) => (.error (unableToResolve slc), w)
  | (.ok (some a), w) => (.ok (some a), w)
  | (.error e, w) => (.error e, w)

/-! ## Parent chains -/

/-- `Rooted w l d`: the parent chain of the locator `l` has `d` further locators and ends in
a locator without parent. -/
inductive Rooted (w : World) : Nat → Nat → Prop
  | root {l : Nat} {sl : Locator} : w.locators[l]? = some sl → sl.m_parent = none → Rooted w l 0
  | up {l p d : Nat} {sl : Locator} : w.locators[l]? = some sl → sl.m_parent = some p →
      Rooted w p d → Rooted w l (d + 1)

/-! ## What `resolveAll` visits -/

/-- The bindings of `IFace` registered on the locator `l`, in the order of its registry. -/
def World.bindingsOf (w : World) (l : Nat) (IFace : TypeId) : List BindingRef :=
  match w.locators[l]? with
  | none => []
  | some sl => ((sl.getTypedServiceLocator IFace).getD []).map (fun e => ⟨l, IFace, e.1⟩)

/-- `Visited w t l d refs`: `refs` lists the bindings of `t` on the parent chain of `l` (which
has `d` further locators and ends in a locator without parent): those of `l` in registry
order, then those of its parent, and so on up to the root. -/
inductive Visited (w : World) (t : TypeId) : Nat → Nat → List BindingRef → Prop
  | root {l : Nat} {sl : Locator} : w.locators[l]? = some sl → sl.m_parent = none →
      Visited w t l 0 (w.bindingsOf l t)
  | up {l p d : Nat} {sl : Locator} {refs : List BindingRef} : w.locators[l]? = some sl →
      sl.m_parent = some p → Visited w t p d refs → Visited w t l (d + 1) (w.bindingsOf l t ++ refs)

/-- One binding after the other, in the order of the list: each is invoked on a new child
context of `m_ctx` and its instance is appended to the vector; an exception ends the run. -/
def resolveEach (cls : TypeId → Script) (fuel : Nat) (m_ctx : Context) (IFace : TypeId) :
    List BindingRef → List Ptr → World → Out (List Ptr)
  | [], m_all, w => (.ok m_all, w)
  | ref :: refs, m_all, w =>
    match Functor.call (BindingRef.get cls fuel) m_ctx IFace ref m_all w with
    | (.error e, w1) => (.error e, w1)
    | (.ok m_all1, w1) => resolveEach cls fuel m_ctx IFace refs m_all1 w1

/-- The end of `Context::resolveAll`: the outcome `r` of the visit, followed on success by
`afterResolve()`. -/
def Context.finishAll (cls : TypeId → Script) (fuel : Nat) (this : Context)
    (r : Out (List Ptr)) : Out (List Ptr) :=
  match r with
  | (.error e, w1) => (.error e, w1)
  | (.ok all1, w1) =>
    match Context.afterResolve (Context.resolve cls fuel) (Context.tryResolve cls fuel)
        this w1 with
    | (.error e, w2) => (.error e, w2)
    | (.ok _, w2) => (.ok all1, w2)

/-- Keys in strictly ascending order, each below the next. -/
def ascending : List String → Bool
  | [] => true
  | [_] => true
  | a :: b :: rest => keyLt a b && ascending (b :: rest)

/-- The order invariant of `std::map`: in every locator the names of every registry are in
strictly ascending order. -/
def World.ascending (w : World) : Bool :=
  w.locators.all (fun sl => sl.m_typed_locators.all (fun e => ServiceLocator.ascending (e.2.map Prod.fst)))

/-! ## Deferred callbacks -/

/-- `Queues r w w'`: between `w` and `w'` no deferred callback was run and none was dropped.
No root context was created (a callback run creates one), the list of every root context
other than `r` is as it was, and the list of `r` is the old one followed by the callbacks
registered in between. -/
def Queues (r : Nat) (w w' : World) : Prop :=
  w'.fnAfterResolveLists.length = w.fnAfterResolveLists.length
    ∧ (∀ i : Nat, i ≠ r → w'.fnAfterResolveLists[i]? = w.fnAfterResolveLists[i]?)
    ∧ ∃ registered, w'.fnAfterResolveLists.getD r [] = w.fnAfterResolveLists.getD r [] ++ registered

/-- `Below r ctx`: the context `ctx` is a nested context of the resolution root `r`. -/
def Below (r : Nat) (ctx : Context) : Prop :=
  ctx.isRoot = false ∧ ctx.m_root = r

/-- A resolver that, called on a nested context of the root `r`, runs and drops no deferred
callback. -/
def ResQueues (r : Nat) (res : Context → TypeId → String → World → Out Ptr) : Prop :=
  ∀ this t n w, Below r this → Queues r w (res this t n w).2

/-- What `afterResolve()` does on a root context: the callbacks of its list are run one after
the other in the order of the list, then the list is emptied; a callback that throws ends the
run and leaves the list as it is. -/
def Context.drain (res tryRes : Context → TypeId → String → World → Out Ptr)
    (this : Context) (w : World) : Out Unit :=
  match runCallbacks res tryRes this.m_sl (w.fnAfterResolveLists.getD this.m_root []) w with
  | (.error e, w1) => (.error e, w1)
  | (.ok _, w1) =>
    (.ok (), { w1 with fnAfterResolveLists := w1.fnAfterResolveLists.set this.m_root [] })

/-! ## A singleton is created once -/

/-- The keys that a piece of client code requests from the context it runs on. -/
def Script.requests : Script → List (TypeId × String)
  | .done => []
  | .resolve t n rest => (t, n) :: rest.requests
  | .tryResolve t n rest => (t, n) :: rest.requests
  | .afterResolve _ rest => rest.requests

/-- The keys that a creation function requests from the context it is invoked on. -/
def Fn.requests (cls : TypeId → Script) : Fn → List (TypeId × String)
  | .functor7 t => (cls t).requests
  | .functor9 t => (cls t).requests
  | .functor12 _ m_fn _ => m_fn.requests
  | .functor13 t m => [(t, m)]
  | .functor15 t m => [(t, m)]
  | _ => []

/-- `Blocked keys ctx`: the context `ctx` is not a root context and its chain holds a context
for one of the keys `keys`. -/
def Blocked (keys : List (TypeId × String)) (ctx : Context) : Prop :=
  ctx.isRoot = false ∧ ∃ f ∈ ctx.frames, (f.m_interfaceType, f.m_name) ∈ keys

/-- `Fails r`: the call threw. -/
def Fails {α : Type} (r : Out α) : Prop := ∃ e w, r = (.error e, w)

/-- `IsSingleton w ref F`: the binding `ref` is a singleton with the creation function `F`,
instantiated (Functor4a) or not yet (Functor4). -/
def IsSingleton (w : World) (ref : BindingRef) (F : Fn) : Prop :=
  ∃ b, w.binding? ref = some b ∧ b.m_fnCreate = F
    ∧ (b.m_fnGet = .functor4 ∨ ∃ p, b.m_fnGet = .functor4a p)

/-- One for a singleton that is not instantiated yet, zero otherwise. -/
def World.pending (w : World) (ref : BindingRef) : Nat :=
  match w.binding? ref with
  | some b => if b.m_fnGet = .functor4 then 1 else 0
  | none => 0

/-- The invocations of the creation function of `ref` so far, plus the one that is still to
come when the singleton is not instantiated yet. -/
def World.due (w : World) (ref : BindingRef) : Nat :=
  w.created.count ref + w.pending ref

/-- `OkKeeps ref w r`: if the call with the outcome `r`, made in `w`, returned, then it did
not invoke the creation function of `ref`. -/
def OkKeeps {α : Type} (ref : BindingRef) (w : World) (r : Out α) : Prop :=
  ∀ v w1, r = (.ok v, w1) → w1.created.count ref = w.created.count ref

/-- `OkDue ref w r`: if the call with the outcome `r`, made in `w`, returned, then it left
`due ref` as it was: it instantiated the singleton with one invocation of its creation
function, or it did not invoke that function. -/
def OkDue {α : Type} (ref : BindingRef) (w : World) (r : Out α) : Prop :=
  ∀ v w1, r = (.ok v, w1) → w1.due ref = w.due ref

/-! ## Sequences of resolves -/

/-- A sequence of `resolve` calls on one context, each for its own key: the outcome of every
call (the pointer returned or the exception thrown), and the world reached at the end. -/
def resolveResults (cls : TypeId → Script) (fuel : Nat) (this : Context) :
    List (TypeId × String) → World → List (Except ServiceLocatorException Ptr) × World
  | [], w => ([], w)
  | (t, n) :: reqs, w =>
    ((Context.resolve cls fuel this t n w).1
        :: (resolveResults cls fuel this reqs (Context.resolve cls fuel this t n w).2).1,
      (resolveResults cls fuel this reqs (Context.resolve cls fuel this t n w).2).2)

/-! ## Configuring a locator directly -/

/-- The statements of a module body made on the locator itself: `self->bind<IFace>(named)`
followed by the clauses, one statement after the other; a bind that throws ends the run. -/
def configure (self : Nat) : List BindStatement → World → Out Unit
  | [], w => (.ok (), w)
  | s :: rest, w =>
    match bind s.IFace s.named self w with
    | (.error e, w1) => (.error e, w1)
    | (.ok ref, w1) => configure self rest (s.clause ref w1)

/-- The walk of the test classes over the parents of the context they are constructed on:
`while (slcp->getParent() != NULL) contextPath += slcp->getInterfaceTypeName() + "->"`. -/
def contextPath : List Frame → String
  | [] => ""
  | [_] => ""
  | f :: p :: rest => (f.m_interfaceType ++ "->") ++ contextPath (p :: rest)

/-! ## Configuring one locator -/

/-- `ConfiguredOn c w w'`: the world `w'` is reached from `w` by configuration statements made
on the locator `c`: calls of `bind` (throwing or not), clauses that assign to the stored
callables of one of its bindings (`to`, `toSelf`, `toInstance`, `alias`, `asSingleton`,
`asTransient`, ...), and `eagerly()`. -/
inductive ConfiguredOn (c : Nat) : World → World → Prop
  | start (w : World) : ConfiguredOn c w w
  | bind {w w' : World} (t : TypeId) (n : String) :
      ConfiguredOn c w w' → ConfiguredOn c w (ServiceLocator.bind t n c w').2
  | clause {w w' : World} (t : TypeId) (n : String)
      (f : shared_ptr_binding → shared_ptr_binding) :
      ConfiguredOn c w w' → ConfiguredOn c w (w'.modifyBinding ⟨c, t, n⟩ f)
  | eagerly {w w' : World} (t : TypeId) (n : String) :
      ConfiguredOn c w w' → ConfiguredOn c w (eagerly_clause.eagerly ⟨c, t, n⟩ w')

/-! ## A failed creation -/

/-- `KeepsBinding kt kn w w'`: every binding with the key `(kt, kn)` is in `w'` what it was in
`w`. -/
def KeepsBinding (kt : TypeId) (kn : String) (w w' : World) : Prop :=
  ∀ r : BindingRef, r.type = kt → r.name = kn → w'.binding? r = w.binding? r

/-- A resolver that, called on a guarded context, changes no binding with the guarded key. -/
def ResStays (kt : TypeId) (kn : String)
    (res : Context → TypeId → String → World → Out Ptr) : Prop :=
  ∀ this t n w, Guarded kt kn this → KeepsBinding kt kn w (res this t n w).2

/-! ## The worlds a program reaches -/

/-- `Built w`: the world `w` is reached from the state without any locator by `create()`,
by `enter()` on a locator that exists, by configuration statements on a locator, and by
resolutions. -/
inductive Built : World → Prop
  | init : Built ⟨[], [], [], []⟩
  | create {w : World} : Built w → Built (ServiceLocator.create w).2
  | enter {w : World} (self : Nat) : self < w.locators.length → Built w →
      Built (ServiceLocator.enter self w).2
  | configure {w w' : World} (c : Nat) : Built w → ConfiguredOn c w w' → Built w'
  | resolve {w w' : World} : Built w → Evolves w w' → Built w'

/-- `ParentsBelow w`: the parent of every locator was created before it. -/
def ParentsBelow (w : World) : Prop :=
  ∀ (l p : Nat), (w.locators[l]?).map Locator.m_parent = some (some p) → p < l

/-! ## The keys on a context chain -/

/-- The capability keys of the contexts of a chain, this context first, the root last. -/
def Context.keys (c : Context) : List (TypeId × String) :=
  c.frames.map (fun f => (f.m_interfaceType, f.m_name))

/-- `Distinct c`: the capability keys of the contexts on the chain of `c` are pairwise
distinct. -/
def Distinct (c : Context) : Prop := c.keys.Nodup

/-- `Builds w w'`: between `w` and `w'` objects were only added, and every object added was
built by a creation function on a context chain with pairwise distinct keys. -/
def Builds (w w' : World) : Prop :=
  ∃ more, w'.heap = w.heap ++ more ∧ ∀ o ∈ more, Distinct o.slc

/-- A resolver that, called on a chain with pairwise distinct keys, reaches creation
functions only on such chains. -/
def ResBuilds (res : Context → TypeId → String → World → Out Ptr) : Prop :=
  ∀ this t n w, Distinct this → Builds w (res this t n w).2

/-! ## Resolves that run no deferred callback -/

/-- `Settled cls fuel this t n k w`: in `k` consecutive calls `resolve` of the key `(t, n)` on
the context `this`, made with the given fuel from the world `w`, the lookup of each call
leaves no deferred callback pending on the root context `this`, so that `afterResolve()` at
the end of the call has nothing to run. -/
def Settled (cls : TypeId → Script) (fuel : Nat) (this : Context) (t : TypeId) (n : String) :
    Nat → World → Prop
  | 0, _ => True
  | k + 1, w =>
    (this.isRoot = true →
      (m_resolve cls (fuel - 1) t this.m_sl (this.child t n) w).2.fnAfterResolveLists.getD
        this.m_root [] = [])
    ∧ Settled cls fuel this t n k (Context.resolve cls fuel this t n w).2

/-! ## The lists of the other root contexts -/

/-- `Others r w w'`: between `w` and `w'` no deferred-callback list was removed, and the list
of every root context of `w` other than `r` stayed as it was. -/
def Others (r : Nat) (w w' : World) : Prop :=
  w.fnAfterResolveLists.length ≤ w'.fnAfterResolveLists.length
    ∧ ∀ i : Nat, i ≠ r → i < w.fnAfterResolveLists.length →
        w'.fnAfterResolveLists[i]? = w.fnAfterResolveLists[i]?

/-- A resolver whose calls touch the list of no root context but that of the calling
context. -/
def ResOthers (res : Context → TypeId → String → World → Out Ptr) : Prop :=
  ∀ this t n w, Others this.m_root w (res this t n w).2

/-! ## Two runs side by side -/

/-- Relocation of an address (or of the index of a root context) from one run to another.
The two runs share the entries below `m`; then the first run has `g` entries of its own and
the second run `k`; what follows corresponds again. -/
def relocate (m g k a : Nat) : Nat := if a < m then a else a - g + k

/-- How the addresses of one run map to those of another: the objects below the address `m`
and the root contexts below the index `q` are shared, the first run then has `g` objects and
`h` root contexts of its own, the second run `k` and `e`. -/
structure Shift where
  m : Nat
  g : Nat
  k : Nat
  q : Nat
  h : Nat
  e : Nat
deriving Repr

/-- The address in the other run. -/
def Shift.addr (s : Shift) (a : Nat) : Nat := relocate s.m s.g s.k a

/-- The index of the root context in the other run. -/
def Shift.root (s : Shift) (r : Nat) : Nat := relocate s.q s.h s.e r

/-- The pointer in the other run. -/
def Shift.ptr (s : Shift) (p : Ptr) : Ptr := p.map s.addr

/-- The stored callable in the other run: a stored pointer is relocated. -/
def Shift.fn (s : Shift) : Fn → Fn
  | .empty => .empty
  | .functorY p => .functorY (s.ptr p)
  | .functor4a p => .functor4a (s.ptr p)
  | .functor4 => .functor4
  | .functor7 t => .functor7 t
  | .functor8 t => .functor8 t
  | .functor9 t => .functor9 t
  | .functor10 t => .functor10 t
  | .functor12 t m_fn yieldsNull => .functor12 t m_fn yieldsNull
  | .functor13 t m_name => .functor13 t m_name
  | .functor15 t m_name => .functor15 t m_name

/-- The binding in the other run. -/
def Shift.binding (s : Shift) (b : shared_ptr_binding) : shared_ptr_binding :=
  ⟨s.fn b.m_fnGet, s.fn b.m_fnCreate⟩

/-- The context in the other run: same locator, same chain, the root context relocated. -/
def Shift.ctx (s : Shift) (c : Context) : Context := ⟨c.m_sl, s.root c.m_root, c.frames⟩

/-- The outcome in the other run: the same exception or the mapped value. -/
def Shift.result {α : Type} (f : α → α) (r : Except ServiceLocatorException α) :
    Except ServiceLocatorException α :=
  match r with
  | .error e => .error e
  | .ok v => .ok (f v)

/-- An address that has a counterpart in the other run: a shared one, or one past the objects
that only the first run has. -/
def Shift.live (s : Shift) (a : Nat) : Prop := a < s.m ∨ s.m + s.g ≤ a

/-- A pointer that is empty or has a counterpart in the other run. -/
def Shift.livePtr (s : Shift) (p : Ptr) : Prop := ∀ a, p = some a → s.live a

/-- A stored callable whose stored pointer, if any, has a counterpart in the other run. -/
def Shift.liveFn (s : Shift) : Fn → Prop
  | .functorY p => s.livePtr p
  | .functor4a p => s.livePtr p
  | _ => True

/-- A root context that has a counterpart in the other run: a shared one that is in `Q`, or
one past the root contexts that only the first run has. -/
def Shift.liveRoot (s : Shift) (Q : Nat → Prop) (r : Nat) : Prop :=
  (r < s.q ∧ Q r) ∨ s.q + s.h ≤ r

/-- `Relocated S Q s wB wA`: seen from the locators in `S` and from the root contexts that
are live, the world `wA` is the world `wB` with the addresses relocated by `s`. The locators
in `S` have the same parents, which are in `S` again, and the same bindings up to relocation
of the pointers they store, which are live; every live object of `wB` is in `wA` at the
relocated address, with the same type and the relocated fields, which are live; the
deferred-callback lists of the live root contexts are the same. -/
structure Relocated (S Q : Nat → Prop) (s : Shift) (wB wA : World) : Prop where
  parent : ∀ l : Nat, S l →
    (wA.locators[l]?).map Locator.m_parent = (wB.locators[l]?).map Locator.m_parent
  closed : ∀ l p : Nat, S l → (wB.locators[l]?).map Locator.m_parent = some (some p) → S p
  binding : ∀ ref : BindingRef, S ref.loc → wA.binding? ref = (wB.binding? ref).map s.binding
  stored : ∀ (ref : BindingRef) (b : shared_ptr_binding), S ref.loc → wB.binding? ref = some b →
    s.liveFn b.m_fnGet ∧ s.liveFn b.m_fnCreate
  heapLen : wA.heap.length + s.g = wB.heap.length + s.k
  heapLow : s.m + s.g ≤ wB.heap.length
  heapObj : ∀ (a : Nat) (o : Obj), s.live a → wB.heap[a]? = some o →
    ∃ o1, wA.heap[s.addr a]? = some o1 ∧ o1.type = o.type ∧ o1.fields = o.fields.map s.ptr
      ∧ ∀ p ∈ o.fields, s.livePtr p
  listsLen : wA.fnAfterResolveLists.length + s.h = wB.fnAfterResolveLists.length + s.e
  listsLow : s.q + s.h ≤ wB.fnAfterResolveLists.length
  lists : ∀ r : Nat, s.liveRoot Q r →
    wA.fnAfterResolveLists.getD (s.root r) [] = wB.fnAfterResolveLists.getD r []

/-- `Within S Q s c`: the context `c` belongs to a locator in `S`, and its root context is
live. -/
def Within (S Q : Nat → Prop) (s : Shift) (c : Context) : Prop :=
  S c.m_sl ∧ s.liveRoot Q c.m_root

/-- `Similar f P R oB oA`: the outcome `oA` is the outcome `oB` with the value mapped by `f`,
the worlds reached are related by `R`, and the value of `oB` satisfies `P`. -/
def Similar {α : Type} (f : α → α) (P : α → Prop) (R : World → World → Prop)
    (oB oA : Out α) : Prop :=
  ∃ wA1, oA = (Shift.result f oB.1, wA1) ∧ R oB.2 wA1 ∧ ∀ v, oB.1 = .ok v → P v

/-- A resolver that, run in two related worlds on the same context, has the same outcome up
to relocation and leaves related worlds. -/
def ResRelocated (S Q : Nat → Prop) (s : Shift)
    (res : Context → TypeId → String → World → Out Ptr) : Prop :=
  ∀ this t n wB wA, Within S Q s this → Relocated S Q s wB wA →
    Similar s.ptr s.livePtr (Relocated S Q s) (res this t n wB) (res (s.ctx this) t n wA)

/-- The world `w` without the bindings of the locator `c`: its registries and its list of
eager bindings are empty. -/
def World.withoutBindings (w : World) (c : Nat) : World :=
  match w.locators[c]? with
  | none => w
  | some sl =>
    ⟨w.locators.set c ⟨[], [], sl.m_parent, sl.m_context⟩, w.fnAfterResolveLists, w.heap,
      w.created⟩

/-- `Avoids w c l`: the parent chain of the locator `l` ends in a locator without parent and
does not pass through the locator `c`: `l` is neither `c` nor one of its descendants. -/
inductive Avoids (w : World) (c : Nat) : Nat → Prop
  | root {l : Nat} {sl : Locator} : l ≠ c → w.locators[l]? = some sl → sl.m_parent = none →
      Avoids w c l
  | up {l p : Nat} {sl : Locator} : l ≠ c → w.locators[l]? = some sl → sl.m_parent = some p →
      Avoids w c p → Avoids w c l

/-- A pointer that is empty or the address of one of the first `n` objects. -/
def inHeap (n : Nat) : Ptr → Bool
  | none => true
  | some a => decide (a < n)

/-- A stored callable whose stored pointer, if any, is the address of one of the first `n`
objects. -/
def Fn.inHeap (n : Nat) : Fn → Bool
  | .functorY p => ServiceLocator.inHeap n p
  | .functor4a p => ServiceLocator.inHeap n p
  | _ => true

/-- No pointer of the world dangles: every pointer stored in a binding or in a field of an
object is the address of an object of the heap. -/
def World.closed (w : World) : Bool :=
  w.locators.all (fun sl =>
      sl.m_typed_locators.all (fun reg =>
        reg.2.all (fun e =>
          e.2.m_fnGet.inHeap w.heap.length && e.2.m_fnCreate.inHeap w.heap.length)))
    && w.heap.all (fun o => o.fields.all (fun p => ServiceLocator.inHeap w.heap.length p))

/-- A sequence of `resolve` calls, each on its own context and for its own key: the outcome of
each call, and the world reached. An exception ends the call that threw it, and the next call
is made in the world reached. -/
def resolveFrom (cls : TypeId → Script) (fuel : Nat) :
    List (Context × TypeId × String) → World →
      List (Except ServiceLocatorException Ptr) × World
  | [], w => ([], w)
  | (this, t, n) :: rest, w =>
    ((Context.resolve cls fuel this t n w).1
        :: (resolveFrom cls fuel rest (Context.resolve cls fuel this t n w).2).1,
      (resolveFrom cls fuel rest (Context.resolve cls fuel this t n w).2).2)

/-! ## Configurations of the test-suite -/

/-- The state before any locator exists. -/
def World.init : World := ⟨[], [], [], []⟩

/-- Constructors of the classes of `ServiceLocatorTests.cpp`: `TestC(slc)` calls
`slc->tryResolve<ITest>()`, the other constructors make no engine call. -/
def testClasses : TypeId → Script :=
  fun t => if t = "TestC" then .tryResolve "ITest" "" .done else .done

/-- SECTION "Named binding": `ITest` bound under the names `X` and `Y` on one locator. -/
def namedWorld : World :=
  let (sl, w) := create World.init
  let w := bindWith "ITest" "X" sl (fun r => to_clause.to r "TestA") w
  bindWith "ITest" "Y" sl (fun r => to_clause.to r "TestB") w

/-- SECTION "Deep binding": `ITest` bound to `TestA` and `TestC` to itself. -/
def deepWorld : World :=
  let (sl, w) := create World.init
  let w := bindWith "ITest" "" sl (fun r => to_clause.to r "TestA") w
  bindWith "TestC" "" sl (fun r => to_clause.toSelf r) w

/-- A factory binding whose factory function returns `NULL`. -/
def nullFactoryWorld : World :=
  let (sl, w) := create World.init
  bindWith "ITest" "" sl (fun r => to_clause.toFn r "TestA" .done true) w

/-- SECTION "Nested locator", first statement: the root binds `ITest` to `TestA`. -/
def nestedRoot : World :=
  bindWith "ITest" "" 0 (fun r => to_clause.to r "TestA") (create World.init).2

/-- SECTION "Nested locator": the root binds `ITest` to `TestA`, `child1` overrides it with
`TestB`, `child2` has no binding of its own. -/
def nestedWorld : World :=
  let (child1, w) := enter 0 nestedRoot
  let (_, w) := enter 0 w
  bindWith "ITest" "" child1 (fun r => to_clause.to r "TestB") w

/-- Two classes that need each other: `CA(slc)` resolves `B` and `CB(slc)` resolves `A`. -/
def cycleClasses : TypeId → Script :=
  fun t => if t = "CA" then .resolve "B" "" .done
    else if t = "CB" then .resolve "A" "" .done else .done

/-- One locator on which `A` is bound to `CA` and `B` to `CB`. -/
def cycleWorld : World :=
  let (sl, w) := create World.init
  let w := bindWith "A" "" sl (fun r => to_clause.to r "CA") w
  bindWith "B" "" sl (fun r => to_clause.to r "CB") w

/-- SECTION "Basic type binding as Singleton": `bind<ITest>().to<TestA>().asSingleton()`. -/
def singletonWorld : World :=
  bindWith "ITest" "" 0 (fun r w => as_clause.asSingleton r (to_clause.to r "TestA" w))
    (create World.init).2

/-- SECTION "Basic type binding as transient": `bind<ITest>().to<TestA>()`. -/
def transientWorld : World :=
  bindWith "ITest" "" 0 (fun r => to_clause.to r "TestA") (create World.init).2

/-- A root locator with the singleton `TestC` (whose constructor asks for `ITest`) and
`ITest` bound to `TestA`. -/
def leakRoot : World :=
  let w := bindWith "TestC" "" 0 (fun r w => as_clause.asSingleton r (to_clause.toSelf r w))
    (create World.init).2
  bindWith "ITest" "" 0 (fun r => to_clause.to r "TestA") w

/-- The root of `leakRoot` with a child locator that overrides `ITest` with `TestB`. -/
def leakWorld : World :=
  bindWith "ITest" "" 1 (fun r => to_clause.to r "TestB") (enter 0 leakRoot).2

/-- The root of `leakRoot` with a child locator that has no binding of its own. -/
def leakControl : World := (enter 0 leakRoot).2

/-! ## Configurations of the example programs -/

/-- Constructors of `example_service_locator/main.cpp`: `Monkey(slc)` resolves its food
`IFood` named `Monkey`, `Human(slc)` resolves `IFood` named `Human`. -/
def zooClasses : TypeId → Script :=
  fun t => if t = "Monkey" then .resolve "IFood" "Monkey" .done
    else if t = "Human" then .resolve "IFood" "Human" .done else .done

/-- The monkey of the example without its food: `IAnimal` named `Monkey` is bound to `Monkey`,
and no `IFood` is bound. -/
def hungryWorld : World :=
  bindWith "IAnimal" "Monkey" 0 (fun r => to_clause.to r "Monkey") (create World.init).2

/-- SECTION "Basic type binding to Instance": `bind<TestNoSL>().toInstance(sa)`, where the
object `sa` was allocated by the test itself, at address 0. -/
def instanceWorld : World :=
  bindWith "TestNoSL" "" 0 (fun r => to_clause.toInstance r (some 0))
    ((create World.init).2.alloc ⟨"TestNoSL", [], Context.root 0 0⟩)

/-- The root binds `ITest` (unnamed) to `TestA`; a child locator binds `ITest` under the name
`X` to `TestB`, so the child has a registry of `ITest` that lacks the unnamed key. -/
def shadowWorld : World :=
  bindWith "ITest" "X" 1 (fun r => to_clause.to r "TestB") (enter 0 nestedRoot).2

/-- SECTION "Resolve All bindings of type", with the two statements in the opposite order:
`ITest` named `B` is bound to `TestB` first, then `ITest` named `A` to `TestA`. -/
def allWorld : World :=
  let w := bindWith "ITest" "B" 0 (fun r => to_clause.to r "TestB") (create World.init).2
  bindWith "ITest" "A" 0 (fun r => to_clause.to r "TestA") w

/-- A decorator: the constructor `Wrapper(slc)` asks for the unnamed `ITest` it wraps. -/
def wrapClasses : TypeId → Script :=
  fun t => if t = "Wrapper" then .resolve "ITest" "" .done else .done

/-- The unnamed `ITest` is bound to `TestA`, and `ITest` named `W` to the decorator. -/
def wrapWorld : World :=
  let w := bindWith "ITest" "" 0 (fun r => to_clause.to r "TestA") (create World.init).2
  bindWith "ITest" "W" 0 (fun r => to_clause.to r "Wrapper") w

/-! ## Classes that defer work with `afterResolve` -/

/-- Constructors: `Outer(slc)` resolves `Inner`; `Inner(slc)` registers a callback that
resolves `Log` on the context it receives; `Broken(slc)` registers the same callback and then
resolves `Missing`, which nobody binds. -/
def deferClasses : TypeId → Script :=
  fun t => if t = "Outer" then .resolve "Inner" "" .done
    else if t = "Inner" then .afterResolve (.resolve "Log" "" .done) .done
    else if t = "Broken" then .afterResolve (.resolve "Log" "" .done) (.resolve "Missing" "" .done)
    else .done

/-- One locator that binds `Outer`, `Inner`, `Broken` and `Log` to themselves and `ITest` to
`TestA`. -/
def deferWorld : World :=
  let w := bindWith "Outer" "" 0 (fun r => to_clause.toSelf r) (create World.init).2
  let w := bindWith "Inner" "" 0 (fun r => to_clause.toSelf r) w
  let w := bindWith "Broken" "" 0 (fun r => to_clause.toSelf r) w
  let w := bindWith "Log" "" 0 (fun r => to_clause.toSelfNoDependancy r) w
  bindWith "ITest" "" 0 (fun r => to_clause.to r "TestA") w

/-- The state `deferWorld` is left in by the failed `resolve<Broken>()` on its context. -/
def brokenWorld : World :=
  (Context.resolve deferClasses 6 (deferWorld.m_context 0) "Broken" "" deferWorld).2

/-! ## Eager bindings -/

/-- SECTION "Eager binding":
`bind<TestEager>().toSelfNoDependancy().asSingleton().eagerly()`. -/
def eagerWorld : World :=
  bindWith "TestEager" "" 0
    (fun r w => eagerly_clause.eagerly r (as_clause.asSingleton r (to_clause.toSelfNoDependancy r w)))
    (create World.init).2

/-- The monkey of the example as an eager singleton, its food not bound yet. -/
def eagerMonkey : World :=
  bindWith "IAnimal" "Monkey" 0
    (fun r w => eagerly_clause.eagerly r (as_clause.asSingleton r (to_clause.to r "Monkey" w)))
    (create World.init).2

/-- The monkey and, bound after it, its food `Banana`, both eager singletons: the eager list
holds the monkey first, whose constructor resolves the food. -/
def eagerZoo : World :=
  bindWith "IFood" "Monkey" 0
    (fun r w => eagerly_clause.eagerly r
      (as_clause.asSingleton r (to_clause.toNoDependancy r "Banana" w)))
    eagerMonkey

/-- The state `eagerZoo` is in after its first `getContext()`. -/
def eagerZooStarted : World := (getContext zooClasses 6 0 eagerZoo).2

/-! ## Modules of the test-suite -/

/-- Class `TestAModule`: `load()` is `bind<ITest>().to<TestA>().asSingleton();`. -/
def TestAModule : List BindStatement :=
  [⟨"ITest", "", fun r w => as_clause.asSingleton r (to_clause.to r "TestA" w)⟩]

/-- Class `TestCModule`: `load()` is `bind<TestC>().toSelf();`. -/
def TestCModule : List BindStatement :=
  [⟨"TestC", "", fun r w => to_clause.toSelf r w⟩]

/-- SECTION "Module loading": `sl->modules().add<TestAModule>().add<TestCModule>()`. -/
def moduleWorld : World :=
  (module_clause.add (modules 0) TestCModule
    (module_clause.add (modules 0) TestAModule (create World.init).2).2).2

/-- SECTION "Transient Destructor": `bind<TransientDestructor>().toSelf()`; the constructor
`TransientDestructor(slc)` makes no engine call. -/
def destructorWorld : World :=
  bindWith "TransientDestructor" "" 0 (fun r => to_clause.toSelf r) (create World.init).2

/-- The locator of `moduleWorld` with a child locator that has no binding of its own. -/
def moduleChild : World := (enter 0 moduleWorld).2

/-- The state `moduleChild` is in after `resolve<ITest>()` on the context of the child. -/
def moduleResolved : World :=
  (Context.resolve testClasses 5 (moduleChild.m_context 1) "ITest" "" moduleChild).2

/-! ## A singleton whose creation fails -/

/-- The monkey of the example as a singleton, its food not bound yet:
`bind<IAnimal>("Monkey").to<Monkey>().asSingleton()`. -/
def hungrySingleton : World :=
  bindWith "IAnimal" "Monkey" 0
    (fun r w => as_clause.asSingleton r (to_clause.to r "Monkey" w)) (create World.init).2

/-- The state `hungrySingleton` is left in by the failed `resolve<IAnimal>("Monkey")`. -/
def hungryFailed : World :=
  (Context.resolve zooClasses 8 (hungrySingleton.m_context 0) "IAnimal" "Monkey"
    hungrySingleton).2

/-- After the failed resolve the food is bound: `bind<IFood>("Monkey").toNoDependancy<Banana>()`. -/
def fedWorld : World :=
  bindWith "IFood" "Monkey" 0 (fun r => to_clause.toNoDependancy r "Banana") hungryFailed

/-- The state `fedWorld` is in after `resolve<IAnimal>("Monkey")`. -/
def fedResolved : World :=
  (Context.resolve zooClasses 8 (fedWorld.m_context 0) "IAnimal" "Monkey" fedWorld).2

/-! ## Bindings that yield the empty pointer -/

/-- The root binds `ITest` to `TestA`; a child locator binds `ITest` to a factory that returns
`NULL`: `child->bind<ITest>().to<TestB>(factory)`. -/
def nullChildWorld : World :=
  bindWith "ITest" "" 1 (fun r => to_clause.toFn r "TestB" .done true) (enter 0 nestedRoot).2

/-- The root binds `ITest` to `TestA`; a child locator binds `ITest` to an empty pointer:
`child->bind<ITest>().toInstance(boost::shared_ptr<ITest>())`. -/
def emptyInstanceWorld : World :=
  bindWith "ITest" "" 1 (fun r => to_clause.toInstance r none) (enter 0 nestedRoot).2

/-! ## Callbacks registered from several contexts -/

/-- Constructors: `First(slc)` registers a callback that resolves `LogA`, resolves `Second`,
then registers a callback that resolves `LogC`; `Second(slc)` registers a callback that
resolves `LogB`. -/
def orderClasses : TypeId → Script :=
  fun t => if t = "First" then
      .afterResolve (.resolve "LogA" "" .done)
        (.resolve "Second" "" (.afterResolve (.resolve "LogC" "" .done) .done))
    else if t = "Second" then .afterResolve (.resolve "LogB" "" .done) .done
    else .done

/-- One locator that binds `First`, `Second`, `LogA`, `LogB` and `LogC` to themselves. -/
def orderWorld : World :=
  let w := bindWith "First" "" 0 (fun r => to_clause.toSelf r) (create World.init).2
  let w := bindWith "Second" "" 0 (fun r => to_clause.toSelf r) w
  let w := bindWith "LogA" "" 0 (fun r => to_clause.toSelfNoDependancy r) w
  let w := bindWith "LogB" "" 0 (fun r => to_clause.toSelfNoDependancy r) w
  bindWith "LogC" "" 0 (fun r => to_clause.toSelfNoDependancy r) w

/-! ## A singleton whose factory returns `NULL` -/

/-- The root binds `ITest` to `TestA`; a child locator binds `ITest` to a factory that returns
`NULL`, as a singleton: `child->bind<ITest>().to<TestB>(factory).asSingleton()`. -/
def nullSingletonChild : World :=
  bindWith "ITest" "" 1
    (fun r w => as_clause.asSingleton r (to_clause.toFn r "TestB" .done true w))
    (enter 0 nestedRoot).2

/-- The state `nullSingletonChild` is in after the first `resolve<ITest>()` on the context of
the child, which fails. -/
def nullSingletonTried : World :=
  (Context.resolve testClasses 6 (nullSingletonChild.m_context 1) "ITest" ""
    nullSingletonChild).2

/-- The locators of `nullSingletonChild` and a grandchild locator without bindings, entered
from the child. -/
def nullSingletonFamily : World := (enter 1 nullSingletonChild).2

/-! ## A constructor that probes for an optional capability -/

/-- The constructor `Probe(slc)` asks with `tryResolve` for the unnamed `ITest`. -/
def probeClasses : TypeId → Script :=
  fun t => if t = "Probe" then .tryResolve "ITest" "" .done else .done

/-- One locator that binds `ITest` named `P` to `Probe`; the unnamed `ITest` is not bound. -/
def probeWorld : World :=
  bindWith "ITest" "P" 0 (fun r => to_clause.to r "Probe") (create World.init).2

/-! ## A transient object created again by a deferred callback -/

/-- Constructors: `Job(slc)` resolves `Pool`; `Pool(slc)` registers a callback that resolves
`Job` on the context it receives. -/
def poolClasses : TypeId → Script :=
  fun t => if t = "Job" then .resolve "Pool" "" .done
    else if t = "Pool" then .afterResolve (.resolve "Job" "" .done) .done
    else .done

/-- One locator: `bind<Job>().toSelf()` (transient) and
`bind<Pool>().toSelf().asSingleton()`. -/
def poolWorld : World :=
  let w := bindWith "Job" "" 0 (fun r => to_clause.toSelf r) (create World.init).2
  bindWith "Pool" "" 0 (fun r w => as_clause.asSingleton r (to_clause.toSelf r w)) w

/-! ## The fallback walk over the locator chain -/

theorem m_resolve_miss (cls : TypeId → Script) (fuel : Nat) {w : World} {t : TypeId} {l : Nat}
    {sl : Locator} (slc : Context) (hl : w.locators[l]? = some sl)
    (hb : w.binding? ⟨l, t, slc.getName⟩ = none) :
    m_resolve cls (fuel + 1) t l slc w =
      match sl.m_parent with
      | none => (.error (unableToResolve slc), w)
      | some p => m_resolve cls fuel t p slc w := by
  simp only [World.binding?, hl] at hb
  simp only [m_resolve, hl]
  cases hreg : sl.getTypedServiceLocator t with
  | none => rfl
  | some nsl =>
    simp only [hreg] at hb
    simp only [TypedServiceLocator.tryResolve, hb]

theorem m_tryResolve_miss (cls : TypeId → Script) (fuel : Nat) {w : World} {t : TypeId} {l : Nat}
    {sl : Locator} (slc : Context) (hl : w.locators[l]? = some sl)
    (hb : w.binding? ⟨l, t, slc.getName⟩ = none) :
    m_tryResolve cls (fuel + 1) t l slc w =
      match sl.m_parent with
      | none => (.ok none, w)
      | some p => m_tryResolve cls fuel t p slc w := by
  simp only [World.binding?, hl] at hb
  simp only [m_tryResolve, hl]
  cases hreg : sl.getTypedServiceLocator t with
  | none => rfl
  | some nsl =>
    simp only [hreg] at hb
    simp only [TypedServiceLocator.tryResolve, hb]

theorem m_resolve_hit (cls : TypeId → Script) (fuel : Nat) {w : World} {t : TypeId} {l : Nat}
    {b : shared_ptr_binding} (slc : Context) (hb : w.binding? ⟨l, t, slc.getName⟩ = some b) :
    m_resolve cls (fuel + 1) t l slc w =
      served cls fuel ⟨l, t, slc.getName⟩ b.m_fnGet ((w.locators[l]?).bind Locator.m_parent)
        slc w := by
  simp only [World.binding?] at hb
  cases hl : w.locators[l]? with
  | none => simp [hl] at hb
  | some sl =>
    simp only [hl] at hb
    cases hreg : sl.getTypedServiceLocator t with
    | none => simp [hreg] at hb
    | some nsl =>
      simp only [hreg] at hb
      simp only [m_resolve, hl, hreg, TypedServiceLocator.tryResolve, hb, Option.some_bind, served]

theorem m_resolve_walk (cls : TypeId → Script) {w : World} {t : TypeId} {n : String}
    {l d o : Nat} (h : Nearest w t n l d o) (slc : Context) (hn : slc.getName = n) (fuel : Nat) :
    m_resolve cls (fuel + d) t l slc w = m_resolve cls fuel t o slc w := by
  induction h with
  | here _ => rfl
  | up hl hb hp _ ih =>
    subst hn
    rw [← Nat.add_assoc, m_resolve_miss cls _ slc hl hb, hp]
    exact ih

theorem m_tryResolve_walk (cls : TypeId → Script) {w : World} {t : TypeId} {n : String}
    {l d o : Nat} (h : Nearest w t n l d o) (slc : Context) (hn : slc.getName = n) (fuel : Nat) :
    m_tryResolve cls (fuel + d) t l slc w = m_tryResolve cls fuel t o slc w := by
  induction h with
  | here _ => rfl
  | up hl hb hp _ ih =>
    subst hn
    rw [← Nat.add_assoc, m_tryResolve_miss cls _ slc hl hb, hp]
    exact ih

theorem m_resolve_unbound (cls : TypeId → Script) {w : World} {t : TypeId} {n : String}
    {l d : Nat} (h : Unbound w t n l d) (slc : Context) (hn : slc.getName = n) :
    ∀ fuel, d + 1 ≤ fuel → m_resolve cls fuel t l slc w = (.error (unableToResolve slc), w) := by
  induction h with
  | root hl hb hp =>
    intro fuel hf
    obtain ⟨k, rfl⟩ : ∃ k, fuel = k + 1 := ⟨fuel - 1, by omega⟩
    subst hn
    rw [m_resolve_miss cls _ slc hl hb, hp]
  | up hl hb hp _ ih =>
    intro fuel hf
    obtain ⟨k, rfl⟩ : ∃ k, fuel = k + 1 := ⟨fuel - 1, by omega⟩
    rw [m_resolve_miss cls _ slc hl (hn ▸ hb), hp]
    exact ih k (by omega)

theorem m_tryResolve_unbound (cls : TypeId → Script) {w : World} {t : TypeId} {n : String}
    {l d : Nat} (h : Unbound w t n l d) (slc : Context) (hn : slc.getName = n) :
    ∀ fuel, d + 1 ≤ fuel → m_tryResolve cls fuel t l slc w = (.ok none, w) := by
  induction h with
  | root hl hb hp =>
    intro fuel hf
    obtain ⟨k, rfl⟩ : ∃ k, fuel = k + 1 := ⟨fuel - 1, by omega⟩
    subst hn
    rw [m_tryResolve_miss cls _ slc hl hb, hp]
  | up hl hb hp _ ih =>
    intro fuel hf
    obtain ⟨k, rfl⟩ : ∃ k, fuel = k + 1 := ⟨fuel - 1, by omega⟩
    rw [m_tryResolve_miss cls _ slc hl (hn ▸ hb), hp]
    exact ih k (by omega)

/-! ## Cycle detection -/

theorem child_getName (this : Context) (t : TypeId) (n : String) :
    (this.child t n).getName = n := rfl

theorem child_getInterfaceTypeName (this : Context) (t : TypeId) (n : String) :
    (this.child t n).getInterfaceTypeName = t := rfl

theorem checkRecursiveResolve_ok (ctx : Context) (frames : List Frame)
    (h : ∀ f ∈ frames, ¬ (f.m_interfaceType = ctx.getInterfaceTypeName ∧ f.m_name = ctx.getName)) :
    checkRecursiveResolve ctx frames = .ok () := by
  induction frames with
  | nil => rfl
  | cons f rest ih =>
    have hf := h f (List.mem_cons_self _ _)
    have hne : ¬ (ctx.getInterfaceTypeName = f.m_interfaceType ∧ ctx.getName = f.m_name) :=
      fun hc => hf ⟨hc.1.symm, hc.2.symm⟩
    simp only [checkRecursiveResolve, hne, if_false]
    exact ih (fun g hg => h g (List.mem_cons_of_mem _ hg))

theorem checkRecursiveResolve_error (ctx : Context) (frames : List Frame)
    (h : ∃ f ∈ frames, f.m_interfaceType = ctx.getInterfaceTypeName ∧ f.m_name = ctx.getName) :
    checkRecursiveResolve ctx frames =
      .error (.RecursiveResolveException ("Recursive resolve path = " ++ ctx.getResolvePath)) := by
  induction frames with
  | nil => obtain ⟨f, hf, _⟩ := h; cases hf
  | cons f rest ih =>
    by_cases hc : ctx.getInterfaceTypeName = f.m_interfaceType ∧ ctx.getName = f.m_name
    · simp only [checkRecursiveResolve, hc, and_self, if_true]
    · simp only [checkRecursiveResolve, hc, if_false]
      apply ih
      obtain ⟨g, hg, hk⟩ := h
      rcases List.mem_cons.1 hg with rfl | hg
      · exact absurd ⟨hk.1.symm, hk.2.symm⟩ hc
      · exact ⟨g, hg, hk⟩

theorem resolve_eq_finish (cls : TypeId → Script) (fuel : Nat) (this : Context) (t : TypeId)
    (n : String) (w : World)
    (hcyc : ∀ f ∈ this.frames, ¬ (f.m_interfaceType = t ∧ f.m_name = n)) :
    Context.resolve cls (fuel + 1) this t n w =
      Context.finish cls fuel this (m_resolve cls fuel t this.m_sl (this.child t n) w) := by
  have hchk : checkRecursiveResolve (this.child t n) this.frames = .ok () :=
    checkRecursiveResolve_ok _ _ hcyc
  simp only [Context.resolve, hchk, Context.finish]

theorem resolve_of_cycle (cls : TypeId → Script) (fuel : Nat) (this : Context) (t : TypeId)
    (n : String) (w : World)
    (hcyc : ∃ f ∈ this.frames, f.m_interfaceType = t ∧ f.m_name = n) :
    Context.resolve cls (fuel + 1) this t n w =
      (.error (.RecursiveResolveException
        ("Recursive resolve path = " ++ (this.child t n).getResolvePath)), w) := by
  have hchk := checkRecursiveResolve_error (this.child t n) this.frames hcyc
  simp only [Context.resolve, hchk]

theorem afterResolve_idle (res tryRes : Context → TypeId → String → World → Out Ptr)
    (this : Context) (w : World)
    (hq : this.isRoot = true → w.fnAfterResolveLists.getD this.m_root [] = []) :
    Context.afterResolve res tryRes this w = (.ok (), w) := by
  unfold Context.afterResolve
  cases hr : this.isRoot with
  | false => simp
  | true =>
    have h := hq hr
    simp only [↓reduceIte]
    rw [h]


/-! ## Ordered maps and binding pointers -/

theorem Map.find_insertSorted {V : Type} (m : Map V) (k : String) (v : V) (key : String)
    (hk : Map.find m k = none) :
    Map.find (Map.insertSorted m k v) key = if key = k then some v else Map.find m key := by
  induction m with
  | nil =>
    by_cases h : key = k
    · subst h; simp [Map.insertSorted, Map.find]
    · have h2 : ¬ k = key := fun e => h e.symm
      simp [Map.insertSorted, Map.find, h, h2]
  | cons e rest ih =>
    obtain ⟨k0, v0⟩ := e
    have h0 : ¬ k0 = k := by
      intro e; simp [Map.find, e] at hk
    have hrest : Map.find rest k = none := by
      simpa [Map.find, h0] using hk
    by_cases hlt : keyLt k k0 = true
    · by_cases h : key = k
      · subst h; simp [Map.insertSorted, Map.find, hlt]
      · have h2 : ¬ k = key := fun e => h e.symm
        simp [Map.insertSorted, Map.find, hlt, h, h2]
    · by_cases h : key = k
      · subst h
        simp only [Map.insertSorted, hlt, Map.find, ih hrest, h0]
        simp
      · simp only [Map.insertSorted, hlt, Map.find, ih hrest, h]
        simp

theorem Map.find_insert {V : Type} (m : Map V) (k : String) (v : V) (key : String) :
    Map.find (Map.insert m k v) key =
      if key = k then (match Map.find m k with | some x => some x | none => some v)
      else Map.find m key := by
  unfold Map.insert
  cases hk : Map.find m k with
  | some x =>
    by_cases h : key = k
    · subst h; simp [hk]
    · simp [h]
  | none =>
    simp only [Map.find_insertSorted m k v key hk]

theorem Map.find_modify {V : Type} (f : V → V) (m : Map V) (k : String) (key : String) :
    Map.find (Map.modify f m k) key =
      if key = k then (Map.find m k).map f else Map.find m key := by
  induction m with
  | nil => simp [Map.modify, Map.find]
  | cons e rest ih =>
    obtain ⟨k0, v0⟩ := e
    by_cases h0 : k0 = k
    · subst h0
      by_cases h : key = k0
      · subst h; simp [Map.modify, Map.find]
      · have h2 : ¬ k0 = key := fun e => h e.symm
        simp [Map.modify, Map.find, h, h2]
    · by_cases h : key = k
      · subst h
        simp only [Map.modify, h0, if_false, Map.find, ih, if_true]
      · simp only [Map.modify, h0, if_false, Map.find, ih, h]

theorem binding?_modifyBinding (w : World) (ref : BindingRef)
    (f : shared_ptr_binding → shared_ptr_binding) (r : BindingRef) :
    (w.modifyBinding ref f).binding? r =
      if r = ref then (w.binding? ref).map f else w.binding? r := by
  obtain ⟨l, t, n⟩ := ref
  obtain ⟨l', t', n'⟩ := r
  simp only [World.modifyBinding, World.binding?]
  cases hl : w.locators[l]? with
  | none =>
    by_cases e : (⟨l', t', n'⟩ : BindingRef) = ⟨l, t, n⟩
    · cases e; simp [hl]
    · simp [e]
  | some sl =>
    have hlt : l < w.locators.length := by
      rcases Nat.lt_or_ge l w.locators.length with h | h
      · exact h
      · rw [List.getElem?_eq_none h] at hl; cases hl
    by_cases el : l' = l
    · subst el
      simp only [List.getElem?_set_self, hlt, Locator.getTypedServiceLocator, Map.find_modify, hl]
      by_cases et : t' = t
      · subst et
        cases hreg : Map.find sl.m_typed_locators t' with
        | none => simp
        | some nsl =>
          by_cases en : n' = n
          · subst en; simp [Map.find_modify]
          · have : ¬ (⟨l', t', n'⟩ : BindingRef) = ⟨l', t', n⟩ := fun e => en (by cases e; rfl)
            simp [Map.find_modify, en, this]
      · have : ¬ (⟨l', t', n'⟩ : BindingRef) = ⟨l', t, n⟩ := fun e => et (by cases e; rfl)
        simp [et, this]
    · have : ¬ (⟨l', t', n'⟩ : BindingRef) = ⟨l, t, n⟩ := fun e => el (by cases e; rfl)
      have hne : ¬ l = l' := fun e => el e.symm
      simp [this, List.getElem?_set_ne hne]

theorem locators_modifyBinding (w : World) (ref : BindingRef)
    (f : shared_ptr_binding → shared_ptr_binding) (l : Nat) :
    ((w.modifyBinding ref f).locators[l]?).map Locator.m_parent
      = (w.locators[l]?).map Locator.m_parent := by
  simp only [World.modifyBinding]
  cases hl : w.locators[ref.loc]? with
  | none => rfl
  | some sl =>
    by_cases e : ref.loc = l
    · subst e
      have hlt : ref.loc < w.locators.length := by
        rcases Nat.lt_or_ge ref.loc w.locators.length with h | h
        · exact h
        · rw [List.getElem?_eq_none h] at hl; cases hl
      simp [List.getElem?_set_self, hlt, hl]
    · simp [List.getElem?_set_ne e]

theorem find_insert_getD (typed : Map TypedServiceLocator) (t : TypeId) :
    (Map.find (Map.insert typed t []) t).getD [] = (Map.find typed t).getD [] := by
  rw [Map.find_insert]
  cases Map.find typed t <;> simp


theorem Map.keys_modify {V : Type} (f : V → V) (m : Map V) (k : String) :
    (Map.modify f m k).map Prod.fst = m.map Prod.fst := by
  induction m with
  | nil => rfl
  | cons e rest ih =>
    obtain ⟨k0, v0⟩ := e
    by_cases h0 : k0 = k
    · simp [Map.modify, h0]
    · simp [Map.modify, h0, ih]

theorem Map.shape_modify (f : shared_ptr_binding → shared_ptr_binding)
    (m : Map TypedServiceLocator) (t : TypeId) (n : String) :
    (Map.modify (fun nsl => Map.modify f nsl n) m t).map (fun e => (e.1, e.2.map Prod.fst))
      = m.map (fun e => (e.1, e.2.map Prod.fst)) := by
  induction m with
  | nil => rfl
  | cons e rest ih =>
    obtain ⟨k0, v0⟩ := e
    by_cases h0 : k0 = t
    · simp [Map.modify, h0, Map.keys_modify]
    · simp only [Map.modify, h0, if_false, List.map_cons, ih]

theorem map_set_of_eq {α β : Type} (g : α → β) (l : List α) (i : Nat) (x y : α)
    (hi : l[i]? = some y) (hx : g x = g y) : (l.set i x).map g = l.map g := by
  induction l generalizing i with
  | nil => rfl
  | cons a rest ih =>
    cases i with
    | zero =>
      simp only [List.getElem?_cons_zero, Option.some.injEq] at hi
      subst hi
      simp [hx]
    | succ j =>
      simp only [List.getElem?_cons_succ] at hi
      simp [ih j hi]

theorem shape_modifyBinding (w : World) (ref : BindingRef)
    (f : shared_ptr_binding → shared_ptr_binding) :
    (w.modifyBinding ref f).locators.map Locator.shape = w.locators.map Locator.shape := by
  simp only [World.modifyBinding]
  cases hl : w.locators[ref.loc]? with
  | none => rfl
  | some sl =>
    simp only []
    apply map_set_of_eq Locator.shape w.locators ref.loc _ sl hl
    simp only [Locator.shape, Map.shape_modify]

/-! ## The diagnostic path -/

theorem intercalate_go_append (sep : String) (l : List String) (x acc : String) :
    String.intercalate.go acc sep (l ++ [x]) = String.intercalate.go acc sep l ++ sep ++ x := by
  induction l generalizing acc with
  | nil => simp [String.intercalate.go]
  | cons a rest ih =>
    show String.intercalate.go (acc ++ sep ++ a) sep (rest ++ [x]) = _
    rw [ih]
    rfl

theorem intercalate_append_singleton (sep : String) (l : List String) (x : String) :
    String.intercalate sep (l ++ [x]) =
      match l with
      | [] => x
      | _ :: _ => String.intercalate sep l ++ sep ++ x := by
  cases l with
  | nil => simp [String.intercalate, String.intercalate.go]
  | cons a rest =>
    simp only [List.cons_append, String.intercalate, intercalate_go_append]

theorem Frame.step_eq_append (f : Frame) (path : String) :
    f.step path = path ++ f.step "" := by
  unfold Frame.step
  cases f.m_concreteType with
  | none => simp [String.append_assoc]
  | some c => simp [String.append_assoc]

theorem pathSteps_cons (f p : Frame) (rest : List Frame) :
    pathSteps (f :: p :: rest) = pathSteps (p :: rest) ++ [f.step ""] := by
  simp [pathSteps, List.dropLast]

theorem getResolvePathOf_eq (f p : Frame) (rest : List Frame) :
    getResolvePathOf (f :: p :: rest) = String.intercalate " -> " (pathSteps (f :: p :: rest)) := by
  induction rest generalizing f p with
  | nil => simp [getResolvePathOf, pathSteps, String.intercalate, String.intercalate.go]
  | cons q r ih =>
    rw [pathSteps_cons, intercalate_append_singleton]
    have hne : pathSteps (p :: q :: r) = pathSteps (q :: r) ++ [p.step ""] := pathSteps_cons p q r
    have hshape : ∃ a l, pathSteps (p :: q :: r) = a :: l := by
      rw [hne]
      cases pathSteps (q :: r) with
      | nil => exact ⟨_, _, rfl⟩
      | cons a l => exact ⟨a, l ++ [p.step ""], rfl⟩
    obtain ⟨a, l, hal⟩ := hshape
    have ih' := ih p q
    rw [hal] at ih' ⊢
    simp only [getResolvePathOf]
    rw [Frame.step_eq_append]
    simp only [getResolvePathOf] at ih'
    rw [ih']

/-! ## Effect of `enter` and `bind` on the registries -/

theorem binding?_congr {w w' : World} (r : BindingRef)
    (h : w'.locators[r.loc]? = w.locators[r.loc]?) : w'.binding? r = w.binding? r := by
  simp only [World.binding?, h]

theorem binding?_some_lt {w : World} {r : BindingRef} {b : shared_ptr_binding}
    (h : w.binding? r = some b) : r.loc < w.locators.length := by
  rcases Nat.lt_or_ge r.loc w.locators.length with hlt | hge
  · exact hlt
  · simp [World.binding?, List.getElem?_eq_none hge] at h

theorem getElem?_some_lt {α : Type} {l : List α} {i : Nat} {a : α} (h : l[i]? = some a) :
    i < l.length := by
  rcases Nat.lt_or_ge i l.length with hlt | hge
  · exact hlt
  · rw [List.getElem?_eq_none hge] at h; cases h

theorem enter_old (p : Nat) (w : World) {l : Nat} (hl : l < w.locators.length) :
    ((enter p w).2.locators)[l]? = (w.locators)[l]? := by
  show (w.locators ++ [(⟨[], [], some p, w.fnAfterResolveLists.length⟩ : Locator)])[l]?
    = w.locators[l]?
  exact List.getElem?_append_left hl

theorem enter_new (p : Nat) (w : World) :
    ((enter p w).2.locators)[w.locators.length]?
      = some ⟨[], [], some p, w.fnAfterResolveLists.length⟩ := by
  simp [enter]

theorem enter_length (p : Nat) (w : World) :
    (enter p w).2.locators.length = w.locators.length + 1 := by
  simp [enter]

theorem bind_fresh_eq (w : World) (t : TypeId) (n : String) (c : Nat) (sl : Locator)
    (hl : w.locators[c]? = some sl) (hb : w.binding? ⟨c, t, n⟩ = none) :
    bind t n c w = (.ok ⟨c, t, n⟩,
      ⟨w.locators.set c
        ⟨Map.modify
          (fun _ => Map.insert ((Map.find sl.m_typed_locators t).getD []) n ⟨.empty, .empty⟩)
          (Map.insert sl.m_typed_locators t []) t,
         sl.m_eagerBindings, sl.m_parent, sl.m_context⟩,
       w.fnAfterResolveLists, w.heap, w.created⟩)
    ∧ Map.find ((Map.find sl.m_typed_locators t).getD []) n = none := by
  have hfind : Map.find ((Map.find sl.m_typed_locators t).getD []) n = none := by
    simp only [World.binding?, hl, Locator.getTypedServiceLocator] at hb
    cases hreg : Map.find sl.m_typed_locators t with
    | none => simp [Map.find]
    | some nsl => simpa [hreg] using hb
  have hbind : TypedServiceLocator.bind t ((Map.find sl.m_typed_locators t).getD []) n
      = .ok (Map.insert ((Map.find sl.m_typed_locators t).getD []) n ⟨.empty, .empty⟩) := by
    simp [TypedServiceLocator.bind, TypedServiceLocator.canResolve, hfind]
  refine ⟨?_, hfind⟩
  unfold bind
  simp only [hl]
  rw [find_insert_getD, hbind]

theorem bind_fresh (w : World) (t : TypeId) (n : String) (c : Nat) (sl : Locator)
    (hl : w.locators[c]? = some sl) (hb : w.binding? ⟨c, t, n⟩ = none) :
    (bind t n c w).1 = .ok ⟨c, t, n⟩
    ∧ (∀ r, (bind t n c w).2.binding? r
        = if r = ⟨c, t, n⟩ then some ⟨.empty, .empty⟩ else w.binding? r)
    ∧ (∀ l : Nat, ((bind t n c w).2.locators[l]?).map Locator.m_parent
        = (w.locators[l]?).map Locator.m_parent) := by
  have hlt : c < w.locators.length := getElem?_some_lt hl
  obtain ⟨heq, hfind⟩ := bind_fresh_eq w t n c sl hl hb
  rw [heq]
  refine ⟨rfl, ?_, ?_⟩
  · intro r
    obtain ⟨l', t', n'⟩ := r
    simp only [World.binding?]
    by_cases el : l' = c
    · subst el
      simp only [List.getElem?_set_self hlt, Locator.getTypedServiceLocator, Map.find_modify,
        Map.find_insert, hl]
      by_cases et : t' = t
      · subst et
        by_cases en : n' = n
        · subst en
          cases hreg : Map.find sl.m_typed_locators t' <;>
            simp only [hreg, Option.getD] at hfind <;>
            simp [hfind, Map.find_insert, Map.find]
        · have hne : ¬ (⟨l', t', n'⟩ : BindingRef) = ⟨l', t', n⟩ := fun e => en (by cases e; rfl)
          have en2 : ¬ n = n' := fun e => en e.symm
          cases hreg : Map.find sl.m_typed_locators t' <;>
            simp [en, en2, hne, Map.find, Map.find_insert]
      · have hne : ¬ (⟨l', t', n'⟩ : BindingRef) = ⟨l', t, n⟩ := fun e => et (by cases e; rfl)
        simp [et, hne]
    · have hne : ¬ (⟨l', t', n'⟩ : BindingRef) = ⟨c, t, n⟩ := fun e => el (by cases e; rfl)
      have hne2 : ¬ c = l' := fun e => el e.symm
      simp [hne, List.getElem?_set_ne hne2]
  · intro l
    by_cases e : c = l
    · subst e; simp [List.getElem?_set_self hlt, hl]
    · simp [List.getElem?_set_ne e]

theorem bind_of_map_eq {α β : Type} {a b : Option α} {f : α → Option β}
    (h : a.map f = b.map f) : a.bind f = b.bind f := by
  cases a <;> cases b <;> simp_all

theorem getElem?_of_map_parent {locs : List Locator} {l : Nat} {q : Option Nat}
    (h : (locs[l]?).map Locator.m_parent = some q) :
    ∃ sl, locs[l]? = some sl ∧ sl.m_parent = q := by
  cases hl : locs[l]? with
  | none => simp [hl] at h
  | some sl => exact ⟨sl, rfl, by simpa [hl] using h⟩

/-! ## Resolutions only add objects and cache singletons -/

theorem Evolves.refl (w : World) : Evolves w w :=
  ⟨fun _ => rfl, fun _ h => h, fun _ b h => ⟨b, h, rfl, fun _ => rfl⟩,
    fun _ b b' h h' => by rw [h] at h'; cases h'; exact Or.inl rfl, ⟨[], by simp⟩,
    fun _ _ _ _ => rfl, ⟨[], by simp⟩, Nat.le_refl _, rfl⟩

theorem Evolves.trans {w w1 w2 : World} (h1 : Evolves w w1) (h2 : Evolves w1 w2) :
    Evolves w w2 := by
  refine ⟨fun l => (h2.parent l).trans (h1.parent l), fun r h => h2.unbound r (h1.unbound r h),
    ?_, ?_, ?_, ?_, ?_, Nat.le_trans h1.lists h2.lists, h2.shape.trans h1.shape⟩
  · intro r b hb
    obtain ⟨b1, hb1, hc1, hg1⟩ := h1.binding r b hb
    obtain ⟨b2, hb2, hc2, hg2⟩ := h2.binding r b1 hb1
    refine ⟨b2, hb2, hc2.trans hc1, fun hne => ?_⟩
    have e1 := hg1 hne
    rw [hg2 (by rw [e1]; exact hne), e1]
  · intro r b b2 hb hb2
    obtain ⟨b1, hb1, _, _⟩ := h1.binding r b hb
    rcases h1.cached r b b1 hb hb1 with e1 | ⟨e4, p, ep⟩
    · rcases h2.cached r b1 b2 hb1 hb2 with e2 | ⟨e4', p, ep⟩
      · exact Or.inl (e2.trans e1)
      · exact Or.inr ⟨e1 ▸ e4', p, ep⟩
    · rcases h2.cached r b1 b2 hb1 hb2 with e2 | ⟨e4', _, _⟩
      · exact Or.inr ⟨e4, p, e2.trans ep⟩
      · rw [ep] at e4'; cases e4'
  · obtain ⟨m1, hm1⟩ := h1.heap
    obtain ⟨m2, hm2⟩ := h2.heap
    exact ⟨m1 ++ m2, by rw [hm2, hm1, List.append_assoc]⟩
  · intro r b hb hs
    obtain ⟨b1, hb1, _, hg1⟩ := h1.binding r b hb
    have hne : b.m_fnGet ≠ .functor4 := by
      intro e; rw [e] at hs; cases hs
    have e1 := hg1 hne
    rw [h2.created r b1 hb1 (by rw [e1]; exact hs), h1.created r b hb hs]
  · obtain ⟨m1, hm1⟩ := h1.trace
    obtain ⟨m2, hm2⟩ := h2.trace
    exact ⟨m1 ++ m2, by rw [hm2, hm1, List.append_assoc]⟩

theorem Evolves.of_locators_eq {w w' : World} (hl : w'.locators = w.locators)
    (hh : ∃ more, w'.heap = w.heap ++ more) (hc : w'.created = w.created)
    (hq : w.fnAfterResolveLists.length ≤ w'.fnAfterResolveLists.length) : Evolves w w' := by
  have hb : ∀ r, w'.binding? r = w.binding? r := fun r => binding?_congr r (by rw [hl])
  exact ⟨fun l => by rw [hl], fun r h => by rw [hb r]; exact h,
    fun r b h => ⟨b, by rw [hb r]; exact h, rfl, fun _ => rfl⟩,
    fun r b b' h h' => by rw [hb r, h] at h'; cases h'; exact Or.inl rfl, hh,
    fun _ _ _ _ => by rw [hc], ⟨[], by rw [hc]; simp⟩, hq, by rw [hl]⟩

theorem Evolves.alloc (w : World) (o : Obj) : Evolves w (w.alloc o) :=
  Evolves.of_locators_eq rfl ⟨[o], rfl⟩ rfl (Nat.le_refl _)

theorem Evolves.pushAfterResolve (w : World) (root : Nat) (fn : Script) :
    Evolves w (w.pushAfterResolve root fn) :=
  Evolves.of_locators_eq rfl ⟨[], by simp [World.pushAfterResolve]⟩ rfl
    (by simp [World.pushAfterResolve])

theorem Evolves.newRootContext (w : World) (sl : Nat) : Evolves w (w.newRootContext sl).2 :=
  Evolves.of_locators_eq rfl ⟨[], by simp [World.newRootContext]⟩ rfl
    (by simp [World.newRootContext])

theorem Evolves.clearList (w : World) (root : Nat) :
    Evolves w { w with fnAfterResolveLists := w.fnAfterResolveLists.set root [] } :=
  Evolves.of_locators_eq rfl ⟨[], by simp⟩ rfl (by simp)

theorem Evolves.traceCreate (w : World) (ref : BindingRef)
    (h : ∀ b, w.binding? ref = some b → b.m_fnGet.isStored = false) :
    Evolves w (w.traceCreate ref) := by
  have hb : ∀ r, (w.traceCreate ref).binding? r = w.binding? r := fun r => binding?_congr r rfl
  refine ⟨fun l => rfl, fun r h => by rw [hb r]; exact h,
    fun r b h => ⟨b, by rw [hb r]; exact h, rfl, fun _ => rfl⟩,
    fun r b b' h h' => by rw [hb r, h] at h'; cases h'; exact Or.inl rfl,
    ⟨[], by simp [World.traceCreate]⟩, ?_, ⟨[ref], rfl⟩, Nat.le_refl _, rfl⟩
  intro r b hrb hs
  have hne : r ≠ ref := by
    intro e; subst e
    rw [h b hrb] at hs; cases hs
  simp [World.traceCreate, List.count_append, List.count_singleton, hne.symm]

theorem Evolves.setFnGet {w w1 : World} (h : Evolves w w1) (ref : BindingRef)
    (b : shared_ptr_binding) (hb : w.binding? ref = some b) (hf : b.m_fnGet = .functor4)
    (q : Ptr) : Evolves w (w1.setFnGet ref (.functor4a q)) := by
  obtain ⟨b1, hb1, hc1, _⟩ := h.binding ref b hb
  have hcr : (w1.setFnGet ref (.functor4a q)).created = w1.created := by
    simp only [World.setFnGet, World.modifyBinding]
    split <;> rfl
  refine ⟨fun l => ?_, fun r hr => ?_, fun r br hr => ?_, fun r br br' hr hr' => ?_, ?_,
    fun r br hr hs => ?_, by rw [hcr]; exact h.trace, ?_,
    by rw [World.setFnGet, shape_modifyBinding]; exact h.shape⟩
  · rw [World.setFnGet, locators_modifyBinding]; exact h.parent l
  · rw [World.setFnGet, binding?_modifyBinding]
    by_cases e : r = ref
    · subst e; rw [hb] at hr; cases hr
    · rw [if_neg e]; exact h.unbound r hr
  · rw [World.setFnGet, binding?_modifyBinding]
    by_cases e : r = ref
    · subst e
      rw [hb] at hr; cases hr
      rw [if_pos rfl, hb1]
      exact ⟨_, rfl, hc1, fun hne => absurd hf hne⟩
    · rw [if_neg e]; exact h.binding r br hr
  · rw [World.setFnGet, binding?_modifyBinding] at hr'
    by_cases e : r = ref
    · subst e
      rw [hb] at hr; cases hr
      rw [if_pos rfl, hb1] at hr'
      cases hr'
      exact Or.inr ⟨hf, q, rfl⟩
    · rw [if_neg e] at hr'; exact h.cached r br br' hr hr'
  · obtain ⟨m, hm⟩ := h.heap
    refine ⟨m, ?_⟩
    rw [← hm]
    simp only [World.setFnGet, World.modifyBinding]
    split <;> rfl
  · rw [hcr]; exact h.created r br hr hs
  · have : (w1.setFnGet ref (.functor4a q)).fnAfterResolveLists = w1.fnAfterResolveLists := by
      simp only [World.setFnGet, World.modifyBinding]
      split <;> rfl
    rw [this]; exact h.lists

theorem runScript_evolves {res tryRes : Context → TypeId → String → World → Out Ptr}
    (hr : ResEvolves res) (ht : ResEvolves tryRes) (sl : Context) :
    ∀ (script : Script) (fields : List Ptr) (w : World),
      Evolves w (runScript res tryRes sl script fields w).2 := by
  intro script
  induction script with
  | done => intro fields w; exact Evolves.refl w
  | resolve t n rest ih =>
    intro fields w
    have h := hr sl t n w
    simp only [runScript]
    rcases hres : res sl t n w with ⟨r, w1⟩
    rw [hres] at h
    cases r with
    | error e => exact h
    | ok p => exact h.trans (ih _ _)
  | tryResolve t n rest ih =>
    intro fields w
    have h := ht sl t n w
    simp only [runScript]
    rcases hres : tryRes sl t n w with ⟨r, w1⟩
    rw [hres] at h
    cases r with
    | error e => exact h
    | ok p => exact h.trans (ih _ _)
  | afterResolve fn rest _ ih =>
    intro fields w
    simp only [runScript]
    exact (Evolves.pushAfterResolve w sl.m_root fn).trans (ih _ _)

theorem construct_evolves {res tryRes : Context → TypeId → String → World → Out Ptr}
    (hr : ResEvolves res) (ht : ResEvolves tryRes) (ref : BindingRef) (t : TypeId)
    (body : Script) (yieldsNull : Bool) (sl : Context) (w : World)
    (hns : ∀ b, w.binding? ref = some b → b.m_fnGet.isStored = false) :
    Evolves w (construct res tryRes ref t body yieldsNull sl w).2 := by
  have h0 := Evolves.traceCreate w ref hns
  simp only [construct]
  cases hset : sl.setConcreteType t with
  | error e => exact h0
  | ok sl1 =>
    have h1 := runScript_evolves hr ht sl1 body [] (w.traceCreate ref)
    simp only []
    rcases hrun : runScript res tryRes sl1 body [] (w.traceCreate ref) with ⟨r, w1⟩
    rw [hrun] at h1
    cases r with
    | error e => exact h0.trans h1
    | ok fields =>
      cases yieldsNull with
      | true => exact h0.trans h1
      | false => exact (h0.trans h1).trans (Evolves.alloc _ _)

theorem forward_evolves {res : Context → TypeId → String → World → Out Ptr}
    (hr : ResEvolves res) (ref : BindingRef) (t : TypeId) (m_name : String) (sl : Context)
    (w : World) (hns : ∀ b, w.binding? ref = some b → b.m_fnGet.isStored = false) :
    Evolves w (forward res ref t m_name sl w).2 := by
  have h0 := Evolves.traceCreate w ref hns
  have h1 := hr sl t m_name (w.traceCreate ref)
  simp only [forward]
  rcases hres : res sl t m_name (w.traceCreate ref) with ⟨r, w1⟩
  rw [hres] at h1
  cases r with
  | error e => exact h0.trans h1
  | ok p => exact h0.trans h1

theorem runCallbacks_evolves {res tryRes : Context → TypeId → String → World → Out Ptr}
    (hr : ResEvolves res) (ht : ResEvolves tryRes) (m_sl : Nat) :
    ∀ (fns : List Script) (w : World), Evolves w (runCallbacks res tryRes m_sl fns w).2 := by
  intro fns
  induction fns with
  | nil => intro w; exact Evolves.refl w
  | cons fn fns ih =>
    intro w
    have h0 := Evolves.newRootContext w m_sl
    have h1 := runScript_evolves hr ht (w.newRootContext m_sl).1 fn [] (w.newRootContext m_sl).2
    simp only [runCallbacks]
    rcases hrun : runScript res tryRes (w.newRootContext m_sl).1 fn []
      (w.newRootContext m_sl).2 with ⟨r, w1⟩
    rw [hrun] at h1
    cases r with
    | error e => exact h0.trans h1
    | ok p => exact (h0.trans h1).trans (ih _)

theorem afterResolve_evolves {res tryRes : Context → TypeId → String → World → Out Ptr}
    (hr : ResEvolves res) (ht : ResEvolves tryRes) (this : Context) (w : World) :
    Evolves w (Context.afterResolve res tryRes this w).2 := by
  unfold Context.afterResolve
  split
  · split
    · exact Evolves.refl w
    · rename_i fn fns _
      have h1 := runCallbacks_evolves hr ht this.m_sl (fn :: fns) w
      rcases hrun : runCallbacks res tryRes this.m_sl (fn :: fns) w with ⟨r, w1⟩
      rw [hrun] at h1
      cases r with
      | error e => exact h1
      | ok p => exact h1.trans (Evolves.clearList _ _)
  · exact Evolves.refl w

theorem Invokable.not_stored {w : World} {ref : BindingRef} {fn : Fn} (h : Invokable w ref fn)
    (hfn : fn.isStored = false) : ∀ b, w.binding? ref = some b → b.m_fnGet.isStored = false := by
  intro b hb
  obtain ⟨b0, hb0, hor⟩ := h
  rw [hb0] at hb; cases hb
  rcases hor with e | ⟨e, _⟩
  · rw [e]; exact hfn
  · rw [e]; rfl

theorem lookup_evolves_step (cls : TypeId → Script) (fuel : Nat)
    (look : Nat → TypeId → Nat → Context → World → Out Ptr) (miss : Context → World → Out Ptr)
    (hmiss : ∀ slc w, (miss slc w).2 = w)
    (ihinv : ∀ ref fn sl w, Invokable w ref fn → Evolves w (invoke cls fuel ref fn sl w).2)
    (ihlook : ∀ t l slc w, Evolves w (look fuel t l slc w).2)
    (t : TypeId) (l : Nat) (slc : Context) (w : World) (sl : Locator)
    (hl : w.locators[l]? = some sl) :
    Evolves w
      (match sl.getTypedServiceLocator t with
        | none =>
          match sl.m_parent with
          | none => miss slc w
          | some m_parent => look fuel t m_parent slc w
        | some nsl =>
          match TypedServiceLocator.tryResolve (invoke cls fuel ⟨l, t, slc.getName⟩)
              nsl slc.getName slc w with
          | (.error e, w1) => (.error e, w1)
          | (.ok (some a, _), w1) => (.ok (some a), w1)
          | (.ok (none, slc1), w1) =>
            match sl.m_parent with
            | none => miss slc1 w1
            | some m_parent => look fuel t m_parent slc1 w1).2 := by
  cases hreg : sl.getTypedServiceLocator t with
  | none =>
    cases hp : sl.m_parent with
    | none => simp only [hmiss]; exact Evolves.refl w
    | some p => exact ihlook _ _ _ _
  | some nsl =>
    simp only [TypedServiceLocator.tryResolve]
    cases hfind : Map.find nsl slc.getName with
    | none =>
      cases hp : sl.m_parent with
      | none => simp only [hmiss]; exact Evolves.refl w
      | some p => exact ihlook _ _ _ _
    | some b =>
      have hinv : Invokable w ⟨l, t, slc.getName⟩ b.m_fnGet :=
        ⟨b, by simp only [World.binding?, hl, hreg, hfind], Or.inl rfl⟩
      have h1 := ihinv _ _ slc w hinv
      simp only []
      rcases hres : invoke cls fuel ⟨l, t, slc.getName⟩ b.m_fnGet slc w with ⟨r, w1⟩
      rw [hres] at h1
      cases r with
      | error e => exact h1
      | ok v =>
        obtain ⟨ptr, slc1⟩ := v
        cases ptr with
        | some a => exact h1
        | none =>
          cases hp : sl.m_parent with
          | none => simp only [hmiss]; exact h1
          | some p => exact h1.trans (ihlook _ _ _ _)

theorem finish_evolves {res tryRes : Context → TypeId → String → World → Out Ptr}
    (hr : ResEvolves res) (ht : ResEvolves tryRes) (this : Context) (w : World) (r : Out Ptr)
    (h : Evolves w r.2) :
    Evolves w
      (match r with
        | (.error e, w1) => ((.error e, w1) : Out Ptr)
        | (.ok ptr, w1) =>
          match Context.afterResolve res tryRes this w1 with
          | (.error e, w2) => (.error e, w2)
          | (.ok _, w2) => (.ok ptr, w2)).2 := by
  obtain ⟨v, w1⟩ := r
  cases v with
  | error e => exact h
  | ok ptr =>
    have h2 := afterResolve_evolves hr ht this w1
    simp only []
    rcases hres : Context.afterResolve res tryRes this w1 with ⟨r2, w2⟩
    rw [hres] at h2
    cases r2 with
    | error e => exact h.trans h2
    | ok u => exact h.trans h2

/-- Every engine call leaves a world that evolves from the one it started in. -/
theorem engine_evolves (cls : TypeId → Script) : ∀ fuel : Nat,
    (∀ ref fn sl w, Invokable w ref fn → Evolves w (invoke cls fuel ref fn sl w).2)
    ∧ (∀ t l slc w, Evolves w (m_resolve cls fuel t l slc w).2)
    ∧ (∀ t l slc w, Evolves w (m_tryResolve cls fuel t l slc w).2)
    ∧ ResEvolves (Context.resolve cls fuel)
    ∧ ResEvolves (Context.tryResolve cls fuel) := by
  intro fuel
  induction fuel with
  | zero =>
    refine ⟨fun _ _ _ w _ => ?_, fun _ _ _ w => ?_, fun _ _ _ w => ?_, fun _ _ _ w => ?_,
      fun _ _ _ w => ?_⟩
    · simp only [invoke]; exact Evolves.refl w
    · simp only [m_resolve]; exact Evolves.refl w
    · simp only [m_tryResolve]; exact Evolves.refl w
    · simp only [Context.resolve]; exact Evolves.refl w
    · simp only [Context.tryResolve]; exact Evolves.refl w
  | succ fuel ih =>
    obtain ⟨ihinv, ihm, iht, ihr, ihtr⟩ := ih
    refine ⟨?_, ?_, ?_, ?_, ?_⟩
    · intro ref fn sl w hinv
      cases fn with
      | empty => simp only [invoke]; exact Evolves.refl w
      | functorY p => simp only [invoke]; exact Evolves.refl w
      | functor4a p => simp only [invoke]; exact Evolves.refl w
      | functor4 =>
        simp only [invoke]
        cases hb : w.binding? ref with
        | none => exact Evolves.refl w
        | some b =>
          have hf4 : b.m_fnGet = .functor4 := by
            obtain ⟨b0, hb0, hor⟩ := hinv
            rw [hb] at hb0; cases hb0
            rcases hor with e | ⟨e, _⟩ <;> exact e
          have h1 := ihinv ref b.m_fnCreate sl w ⟨b, hb, Or.inr ⟨hf4, rfl⟩⟩
          simp only []
          rcases hres : invoke cls fuel ref b.m_fnCreate sl w with ⟨r, w1⟩
          rw [hres] at h1
          cases r with
          | error e => exact h1
          | ok v => exact Evolves.setFnGet h1 ref b hb hf4 _
      | functor7 t =>
        simp only [invoke]; exact construct_evolves ihr ihtr _ _ _ _ _ _ (hinv.not_stored rfl)
      | functor8 t =>
        simp only [invoke]; exact construct_evolves ihr ihtr _ _ _ _ _ _ (hinv.not_stored rfl)
      | functor9 t =>
        simp only [invoke]; exact construct_evolves ihr ihtr _ _ _ _ _ _ (hinv.not_stored rfl)
      | functor10 t =>
        simp only [invoke]; exact construct_evolves ihr ihtr _ _ _ _ _ _ (hinv.not_stored rfl)
      | functor12 t m_fn yn =>
        simp only [invoke]; exact construct_evolves ihr ihtr _ _ _ _ _ _ (hinv.not_stored rfl)
      | functor13 t m =>
        simp only [invoke]; exact forward_evolves ihr _ _ _ _ _ (hinv.not_stored rfl)
      | functor15 t m =>
        simp only [invoke]; exact forward_evolves ihr _ _ _ _ _ (hinv.not_stored rfl)
    · intro t l slc w
      simp only [m_resolve]
      cases hl : w.locators[l]? with
      | none => exact Evolves.refl w
      | some sl =>
        exact lookup_evolves_step cls fuel (m_resolve cls)
          (fun slc w => (.error (unableToResolve slc), w)) (fun _ _ => rfl) ihinv ihm
          t l slc w sl hl
    · intro t l slc w
      simp only [m_tryResolve]
      cases hl : w.locators[l]? with
      | none => exact Evolves.refl w
      | some sl =>
        exact lookup_evolves_step cls fuel (m_tryResolve cls)
          (fun _ w => (.ok none, w)) (fun _ _ => rfl) ihinv iht t l slc w sl hl
    · intro this t n w
      simp only [Context.resolve]
      cases hchk : checkRecursiveResolve (this.child t n) this.frames with
      | error e => exact Evolves.refl w
      | ok u => exact finish_evolves ihr ihtr this w _ (ihm _ _ _ _)
    · intro this t n w
      simp only [Context.tryResolve]
      cases hchk : checkRecursiveResolve (this.child t n) this.frames with
      | error e => exact Evolves.refl w
      | ok u => exact finish_evolves ihr ihtr this w _ (iht _ _ _ _)

theorem resolveSeq_evolves (cls : TypeId → Script) (fuel : Nat) (this : Context) :
    ∀ (reqs : List (TypeId × String)) (w : World), Evolves w (resolveSeq cls fuel this reqs w) := by
  intro reqs
  induction reqs with
  | nil => intro w; exact Evolves.refl w
  | cons r reqs ih =>
    intro w
    obtain ⟨t, n⟩ := r
    exact ((engine_evolves cls fuel).2.2.2.1 this t n w).trans (ih _)

/-! ## The cycle check prevents re-entrance -/

theorem KeepsKey.self (kt : TypeId) (kn : String) (w : World) : KeepsKey kt kn w w :=
  fun _ _ _ => rfl

theorem KeepsKey.andThen {kt : TypeId} {kn : String} {w w1 w2 : World}
    (h1 : KeepsKey kt kn w w1) (h2 : KeepsKey kt kn w1 w2) : KeepsKey kt kn w w2 :=
  fun r ht hn => Eq.trans (h2 r ht hn) (h1 r ht hn)

theorem KeepsKey.of_created_eq {kt : TypeId} {kn : String} {w w' : World}
    (h : w'.created = w.created) : KeepsKey kt kn w w' :=
  fun _ _ _ => by rw [h]

theorem KeepsKey.traceOther (kt : TypeId) (kn : String) (w : World) (ref : BindingRef)
    (h : ¬ (ref.type = kt ∧ ref.name = kn)) : KeepsKey kt kn w (w.traceCreate ref) := by
  intro r ht hn
  have hne : ¬ ref = r := by
    intro e; subst e; exact h ⟨ht, hn⟩
  simp [World.traceCreate, List.count_append, List.count_singleton, hne]

theorem setFnGet_created (w : World) (ref : BindingRef) (fn : Fn) :
    (w.setFnGet ref fn).created = w.created := by
  simp only [World.setFnGet, World.modifyBinding]
  split <;> rfl

theorem Guarded.setConcreteType {kt : TypeId} {kn : String} {sl sl1 : Context} {t : TypeId}
    (h : Guarded kt kn sl) (hset : sl.setConcreteType t = .ok sl1) : Guarded kt kn sl1 := by
  obtain ⟨m_sl, m_root, frames⟩ := sl
  cases frames with
  | nil => simp [Context.setConcreteType] at hset
  | cons f parents =>
    simp only [Context.setConcreteType] at hset
    cases hc : f.m_concreteType with
    | some c => simp [hc] at hset
    | none =>
      simp only [hc] at hset
      cases hset
      obtain ⟨hr, g, hg, hk⟩ := h
      refine ⟨?_, ?_⟩
      · cases parents with
        | nil => simp [Context.isRoot] at hr
        | cons p ps => rfl
      · rcases List.mem_cons.1 hg with rfl | hg
        · exact ⟨_, List.mem_cons_self _ _, hk⟩
        · exact ⟨g, List.mem_cons_of_mem _ hg, hk⟩

theorem Guarded.child {kt : TypeId} {kn : String} {this : Context} (h : Guarded kt kn this)
    (t : TypeId) (n : String) : Guarded kt kn (this.child t n) := by
  obtain ⟨hr, g, hg, hk⟩ := h
  refine ⟨?_, g, List.mem_cons_of_mem _ hg, hk⟩
  obtain ⟨m_sl, m_root, frames⟩ := this
  cases frames with
  | nil => cases hg
  | cons f ps => rfl

theorem afterResolve_not_root (res tryRes : Context → TypeId → String → World → Out Ptr)
    (this : Context) (w : World) (h : this.isRoot = false) :
    Context.afterResolve res tryRes this w = (.ok (), w) := by
  simp [Context.afterResolve, h]

theorem runScript_keeps {kt : TypeId} {kn : String}
    {res tryRes : Context → TypeId → String → World → Out Ptr}
    (hr : ResKeeps kt kn res) (ht : ResKeeps kt kn tryRes) (sl : Context)
    (hg : Guarded kt kn sl) :
    ∀ (script : Script) (fields : List Ptr) (w : World),
      KeepsKey kt kn w (runScript res tryRes sl script fields w).2 := by
  intro script
  induction script with
  | done => intro fields w; exact KeepsKey.self kt kn w
  | resolve t n rest ih =>
    intro fields w
    have h := hr sl t n w hg
    simp only [runScript]
    rcases hres : res sl t n w with ⟨r, w1⟩
    rw [hres] at h
    cases r with
    | error e => exact h
    | ok p => exact h.andThen (ih _ _)
  | tryResolve t n rest ih =>
    intro fields w
    have h := ht sl t n w hg
    simp only [runScript]
    rcases hres : tryRes sl t n w with ⟨r, w1⟩
    rw [hres] at h
    cases r with
    | error e => exact h
    | ok p => exact h.andThen (ih _ _)
  | afterResolve fn rest _ ih =>
    intro fields w
    simp only [runScript]
    have h0 : KeepsKey kt kn w (w.pushAfterResolve sl.m_root fn) :=
      KeepsKey.of_created_eq rfl
    exact h0.andThen (ih _ _)

theorem construct_keeps_after_trace {kt : TypeId} {kn : String}
    {res tryRes : Context → TypeId → String → World → Out Ptr}
    (hr : ResKeeps kt kn res) (ht : ResKeeps kt kn tryRes) (ref : BindingRef) (t : TypeId)
    (body : Script) (yieldsNull : Bool) (sl : Context) (w : World) (hg : Guarded kt kn sl) :
    KeepsKey kt kn (w.traceCreate ref) (construct res tryRes ref t body yieldsNull sl w).2 := by
  simp only [construct]
  cases hset : sl.setConcreteType t with
  | error e => exact KeepsKey.self _ _ _
  | ok sl1 =>
    have h1 := runScript_keeps hr ht sl1 (hg.setConcreteType hset) body [] (w.traceCreate ref)
    simp only []
    rcases hrun : runScript res tryRes sl1 body [] (w.traceCreate ref) with ⟨r, w1⟩
    rw [hrun] at h1
    cases r with
    | error e => exact h1
    | ok fields =>
      cases yieldsNull with
      | true => exact h1
      | false => exact h1.andThen (KeepsKey.of_created_eq rfl)

theorem forward_keeps_after_trace {kt : TypeId} {kn : String}
    {res : Context → TypeId → String → World → Out Ptr}
    (hr : ResKeeps kt kn res) (ref : BindingRef) (t : TypeId) (m_name : String) (sl : Context)
    (w : World) (hg : Guarded kt kn sl) :
    KeepsKey kt kn (w.traceCreate ref) (forward res ref t m_name sl w).2 := by
  have h1 := hr sl t m_name (w.traceCreate ref) hg
  simp only [forward]
  rcases hres : res sl t m_name (w.traceCreate ref) with ⟨r, w1⟩
  rw [hres] at h1
  cases r with
  | error e => exact h1
  | ok p => exact h1

theorem SameRequest.same (sl : Context) : SameRequest sl sl := ⟨rfl, rfl, rfl⟩

theorem SameRequest.of_setConcreteType {sl sl1 : Context} {t : TypeId}
    (hset : sl.setConcreteType t = .ok sl1) : SameRequest sl sl1 := by
  obtain ⟨m_sl, m_root, frames⟩ := sl
  cases frames with
  | nil => simp [Context.setConcreteType] at hset
  | cons f parents =>
    simp only [Context.setConcreteType] at hset
    cases hc : f.m_concreteType with
    | some c => simp [hc] at hset
    | none =>
      simp only [hc] at hset
      cases hset
      exact ⟨rfl, rfl, rfl⟩

theorem SameRequest.getName {sl sl1 : Context} (h : SameRequest sl sl1) :
    sl1.getName = sl.getName := by
  obtain ⟨_, _, hf⟩ := h
  obtain ⟨a, b, frames⟩ := sl
  obtain ⟨a1, b1, frames1⟩ := sl1
  cases frames <;> cases frames1 <;> simp_all [Context.getName]

theorem SameRequest.guarded {kt : TypeId} {kn : String} {sl sl1 : Context}
    (h : SameRequest sl sl1) (hg : Guarded kt kn sl) : Guarded kt kn sl1 := by
  obtain ⟨_, _, hf⟩ := h
  obtain ⟨hr, g, hgm, hk⟩ := hg
  have hlen : sl1.frames.length = sl.frames.length := by
    have := congrArg List.length hf
    simpa using this
  refine ⟨?_, ?_⟩
  · obtain ⟨a, b, frames⟩ := sl
    obtain ⟨a1, b1, frames1⟩ := sl1
    cases frames with
    | nil => cases hgm
    | cons f ps =>
      cases ps with
      | nil => simp [Context.isRoot] at hr
      | cons p ps =>
        cases frames1 with
        | nil => simp at hlen
        | cons f1 ps1 =>
          cases ps1 with
          | nil => simp at hlen
          | cons p1 ps1 => rfl
  · have hmem : (g.m_interfaceType, g.m_name)
        ∈ sl1.frames.map (fun f => (f.m_interfaceType, f.m_name)) := by
      rw [hf]; exact List.mem_map_of_mem _ hgm
    obtain ⟨g1, hg1, he⟩ := List.mem_map.1 hmem
    refine ⟨g1, hg1, ?_⟩
    have h1 : g1.m_interfaceType = g.m_interfaceType := congrArg Prod.fst he
    have h2 : g1.m_name = g.m_name := congrArg Prod.snd he
    rw [h1, h2]; exact hk

theorem construct_sameRequest {res tryRes : Context → TypeId → String → World → Out Ptr}
    {ref : BindingRef} {t : TypeId} {body : Script} {yieldsNull : Bool} {sl sl1 : Context}
    {w w1 : World} {p : Ptr}
    (h : construct res tryRes ref t body yieldsNull sl w = (.ok (p, sl1), w1)) :
    SameRequest sl sl1 := by
  simp only [construct] at h
  cases hset : sl.setConcreteType t with
  | error e => simp [hset] at h
  | ok sl0 =>
    simp only [hset] at h
    rcases hrun : runScript res tryRes sl0 body [] (w.traceCreate ref) with ⟨r, w0⟩
    rw [hrun] at h
    cases r with
    | error e => simp at h
    | ok fields =>
      cases yieldsNull with
      | true =>
        simp only [if_true, Prod.mk.injEq, Except.ok.injEq] at h
        obtain ⟨⟨_, rfl⟩, _⟩ := h
        exact SameRequest.of_setConcreteType hset
      | false =>
        simp only [Bool.false_eq_true, if_false, Prod.mk.injEq, Except.ok.injEq] at h
        obtain ⟨⟨_, rfl⟩, _⟩ := h
        exact SameRequest.of_setConcreteType hset

theorem forward_sameRequest {res : Context → TypeId → String → World → Out Ptr}
    {ref : BindingRef} {t : TypeId} {m_name : String} {sl sl1 : Context} {w w1 : World} {p : Ptr}
    (h : forward res ref t m_name sl w = (.ok (p, sl1), w1)) : SameRequest sl sl1 := by
  simp only [forward] at h
  rcases hres : res sl t m_name (w.traceCreate ref) with ⟨r, w0⟩
  rw [hres] at h
  cases r with
  | error e => simp at h
  | ok q =>
    simp only [Prod.mk.injEq, Except.ok.injEq] at h
    obtain ⟨⟨_, rfl⟩, _⟩ := h
    exact SameRequest.same sl

theorem invoke_sameRequest (cls : TypeId → Script) :
    ∀ (fuel : Nat) (ref : BindingRef) (fn : Fn) (sl : Context) (w : World) (p : Ptr)
      (sl1 : Context) (w1 : World),
      invoke cls fuel ref fn sl w = (.ok (p, sl1), w1) → SameRequest sl sl1 := by
  intro fuel
  induction fuel with
  | zero => intro ref fn sl w p sl1 w1 h; simp [invoke] at h
  | succ fuel ih =>
    intro ref fn sl w p sl1 w1 h
    cases fn with
    | empty => simp [invoke] at h
    | functorY q =>
      simp only [invoke, Prod.mk.injEq, Except.ok.injEq] at h
      obtain ⟨⟨_, rfl⟩, _⟩ := h
      exact SameRequest.same sl
    | functor4a q =>
      simp only [invoke, Prod.mk.injEq, Except.ok.injEq] at h
      obtain ⟨⟨_, rfl⟩, _⟩ := h
      exact SameRequest.same sl
    | functor4 =>
      simp only [invoke] at h
      cases hb : w.binding? ref with
      | none => simp [hb] at h
      | some b =>
        simp only [hb] at h
        rcases hres : invoke cls fuel ref b.m_fnCreate sl w with ⟨r, w0⟩
        rw [hres] at h
        cases r with
        | error e => simp at h
        | ok v =>
          obtain ⟨q, sl0⟩ := v
          simp only [Prod.mk.injEq, Except.ok.injEq] at h
          obtain ⟨⟨_, rfl⟩, _⟩ := h
          exact ih _ _ _ _ _ _ _ hres
    | functor7 t => simp only [invoke] at h; exact construct_sameRequest h
    | functor8 t => simp only [invoke] at h; exact construct_sameRequest h
    | functor9 t => simp only [invoke] at h; exact construct_sameRequest h
    | functor10 t => simp only [invoke] at h; exact construct_sameRequest h
    | functor12 t m_fn yn => simp only [invoke] at h; exact construct_sameRequest h
    | functor13 t m => simp only [invoke] at h; exact forward_sameRequest h
    | functor15 t m => simp only [invoke] at h; exact forward_sameRequest h

theorem lookup_keeps_step {kt : TypeId} {kn : String} (cls : TypeId → Script) (fuel : Nat)
    (look : Nat → TypeId → Nat → Context → World → Out Ptr) (miss : Context → World → Out Ptr)
    (hmiss : ∀ slc w, (miss slc w).2 = w)
    (ihinv : ∀ ref fn sl w, ¬ (ref.type = kt ∧ ref.name = kn) → Guarded kt kn sl →
      KeepsKey kt kn w (invoke cls fuel ref fn sl w).2)
    (ihinv_ctx : ∀ ref fn sl w p sl1 w1, invoke cls fuel ref fn sl w = (.ok (p, sl1), w1) →
      Guarded kt kn sl → Guarded kt kn sl1 ∧ sl1.getName = sl.getName)
    (ihlook : ∀ t l slc w, ¬ (t = kt ∧ slc.getName = kn) → Guarded kt kn slc →
      KeepsKey kt kn w (look fuel t l slc w).2)
    (t : TypeId) (l : Nat) (slc : Context) (w : World) (sl : Locator)
    (hk : ¬ (t = kt ∧ slc.getName = kn)) (hg : Guarded kt kn slc) :
    KeepsKey kt kn w
      (match sl.getTypedServiceLocator t with
        | none =>
          match sl.m_parent with
          | none => miss slc w
          | some m_parent => look fuel t m_parent slc w
        | some nsl =>
          match TypedServiceLocator.tryResolve (invoke cls fuel ⟨l, t, slc.getName⟩)
              nsl slc.getName slc w with
          | (.error e, w1) => (.error e, w1)
          | (.ok (some a, _), w1) => (.ok (some a), w1)
          | (.ok (none, slc1), w1) =>
            match sl.m_parent with
            | none => miss slc1 w1
            | some m_parent => look fuel t m_parent slc1 w1).2 := by
  cases hreg : sl.getTypedServiceLocator t with
  | none =>
    cases hp : sl.m_parent with
    | none => simp only [hmiss]; exact KeepsKey.self _ _ w
    | some p => exact ihlook _ _ _ _ hk hg
  | some nsl =>
    simp only [TypedServiceLocator.tryResolve]
    cases hfind : Map.find nsl slc.getName with
    | none =>
      cases hp : sl.m_parent with
      | none => simp only [hmiss]; exact KeepsKey.self _ _ w
      | some p => exact ihlook _ _ _ _ hk hg
    | some b =>
      have h1 := ihinv ⟨l, t, slc.getName⟩ b.m_fnGet slc w hk hg
      simp only []
      rcases hres : invoke cls fuel ⟨l, t, slc.getName⟩ b.m_fnGet slc w with ⟨r, w1⟩
      rw [hres] at h1
      cases r with
      | error e => exact h1
      | ok v =>
        obtain ⟨ptr, slc1⟩ := v
        cases ptr with
        | some a => exact h1
        | none =>
          obtain ⟨hg1, hn1⟩ := ihinv_ctx _ _ _ _ _ _ _ hres hg
          cases hp : sl.m_parent with
          | none => simp only [hmiss]; exact h1
          | some p => exact h1.andThen (ihlook _ _ _ _ (by rw [hn1]; exact hk) hg1)

/-- Below a request for the key `(kt, kn)`, no engine call invokes the creation function of a
binding with that key: the cycle check refuses the request before any lookup. -/
theorem engine_keeps (cls : TypeId → Script) (kt : TypeId) (kn : String) : ∀ fuel : Nat,
    (∀ ref fn sl w, ¬ (ref.type = kt ∧ ref.name = kn) → Guarded kt kn sl →
      KeepsKey kt kn w (invoke cls fuel ref fn sl w).2)
    ∧ (∀ t l slc w, ¬ (t = kt ∧ slc.getName = kn) → Guarded kt kn slc →
      KeepsKey kt kn w (m_resolve cls fuel t l slc w).2)
    ∧ (∀ t l slc w, ¬ (t = kt ∧ slc.getName = kn) → Guarded kt kn slc →
      KeepsKey kt kn w (m_tryResolve cls fuel t l slc w).2)
    ∧ ResKeeps kt kn (Context.resolve cls fuel)
    ∧ ResKeeps kt kn (Context.tryResolve cls fuel) := by
  intro fuel
  induction fuel with
  | zero =>
    refine ⟨fun _ _ _ w _ _ => ?_, fun _ _ _ w _ _ => ?_, fun _ _ _ w _ _ => ?_,
      fun _ _ _ w _ => ?_, fun _ _ _ w _ => ?_⟩
    · simp only [invoke]; exact KeepsKey.self _ _ w
    · simp only [m_resolve]; exact KeepsKey.self _ _ w
    · simp only [m_tryResolve]; exact KeepsKey.self _ _ w
    · simp only [Context.resolve]; exact KeepsKey.self _ _ w
    · simp only [Context.tryResolve]; exact KeepsKey.self _ _ w
  | succ fuel ih =>
    obtain ⟨ihinv, ihm, iht, ihr, ihtr⟩ := ih
    have hctx : ∀ ref fn sl w p sl1 w1, invoke cls fuel ref fn sl w = (.ok (p, sl1), w1) →
        Guarded kt kn sl → Guarded kt kn sl1 ∧ sl1.getName = sl.getName :=
      fun ref fn sl w p sl1 w1 h hg =>
        have hs := invoke_sameRequest cls fuel ref fn sl w p sl1 w1 h
        ⟨hs.guarded hg, hs.getName⟩
    refine ⟨?_, ?_, ?_, ?_, ?_⟩
    · intro ref fn sl w hk hg
      have htr := KeepsKey.traceOther kt kn w ref hk
      cases fn with
      | empty => simp only [invoke]; exact KeepsKey.self _ _ w
      | functorY p => simp only [invoke]; exact KeepsKey.self _ _ w
      | functor4a p => simp only [invoke]; exact KeepsKey.self _ _ w
      | functor4 =>
        simp only [invoke]
        cases hb : w.binding? ref with
        | none => exact KeepsKey.self _ _ w
        | some b =>
          have h1 := ihinv ref b.m_fnCreate sl w hk hg
          simp only []
          rcases hres : invoke cls fuel ref b.m_fnCreate sl w with ⟨r, w1⟩
          rw [hres] at h1
          cases r with
          | error e => exact h1
          | ok v => exact h1.andThen (KeepsKey.of_created_eq (setFnGet_created _ _ _))
      | functor7 t =>
        simp only [invoke]; exact htr.andThen (construct_keeps_after_trace ihr ihtr _ _ _ _ _ _ hg)
      | functor8 t =>
        simp only [invoke]; exact htr.andThen (construct_keeps_after_trace ihr ihtr _ _ _ _ _ _ hg)
      | functor9 t =>
        simp only [invoke]; exact htr.andThen (construct_keeps_after_trace ihr ihtr _ _ _ _ _ _ hg)
      | functor10 t =>
        simp only [invoke]; exact htr.andThen (construct_keeps_after_trace ihr ihtr _ _ _ _ _ _ hg)
      | functor12 t m_fn yn =>
        simp only [invoke]; exact htr.andThen (construct_keeps_after_trace ihr ihtr _ _ _ _ _ _ hg)
      | functor13 t m =>
        simp only [invoke]; exact htr.andThen (forward_keeps_after_trace ihr _ _ _ _ _ hg)
      | functor15 t m =>
        simp only [invoke]; exact htr.andThen (forward_keeps_after_trace ihr _ _ _ _ _ hg)
    · intro t l slc w hk hg
      simp only [m_resolve]
      cases hl : w.locators[l]? with
      | none => exact KeepsKey.self _ _ w
      | some sl =>
        exact lookup_keeps_step cls fuel (m_resolve cls)
          (fun slc w => (.error (unableToResolve slc), w)) (fun _ _ => rfl) ihinv hctx ihm
          t l slc w sl hk hg
    · intro t l slc w hk hg
      simp only [m_tryResolve]
      cases hl : w.locators[l]? with
      | none => exact KeepsKey.self _ _ w
      | some sl =>
        exact lookup_keeps_step cls fuel (m_tryResolve cls)
          (fun _ w => (.ok none, w)) (fun _ _ => rfl) ihinv hctx iht t l slc w sl hk hg
    · intro this t n w hg
      simp only [Context.resolve]
      cases hchk : checkRecursiveResolve (this.child t n) this.frames with
      | error e => exact KeepsKey.self _ _ w
      | ok u =>
        have hk : ¬ (t = kt ∧ (this.child t n).getName = kn) := by
          rintro ⟨rfl, hn⟩
          have hn' : n = kn := hn
          subst hn'
          rw [checkRecursiveResolve_error (this.child t n) this.frames hg.2] at hchk
          cases hchk
        have h1 := ihm t this.m_sl (this.child t n) w hk (hg.child t n)
        simp only []
        rcases hres : m_resolve cls fuel t this.m_sl (this.child t n) w with ⟨r, w1⟩
        rw [hres] at h1
        cases r with
        | error e => exact h1
        | ok ptr => simp only [afterResolve_not_root _ _ this w1 hg.1]; exact h1
    · intro this t n w hg
      simp only [Context.tryResolve]
      cases hchk : checkRecursiveResolve (this.child t n) this.frames with
      | error e => exact KeepsKey.self _ _ w
      | ok u =>
        have hk : ¬ (t = kt ∧ (this.child t n).getName = kn) := by
          rintro ⟨rfl, hn⟩
          have hn' : n = kn := hn
          subst hn'
          rw [checkRecursiveResolve_error (this.child t n) this.frames hg.2] at hchk
          cases hchk
        have h1 := iht t this.m_sl (this.child t n) w hk (hg.child t n)
        simp only []
        rcases hres : m_tryResolve cls fuel t this.m_sl (this.child t n) w with ⟨r, w1⟩
        rw [hres] at h1
        cases r with
        | error e => exact h1
        | ok ptr => simp only [afterResolve_not_root _ _ this w1 hg.1]; exact h1

/-! ## Lifecycle: what a resolve served by a binding does -/

theorem Nearest.evolves {w w' : World} (h : Evolves w w') {t : TypeId} {n : String}
    {l d o : Nat} (hn : Nearest w t n l d o) : Nearest w' t n l d o := by
  induction hn with
  | here hb =>
    obtain ⟨b', hb', _, _⟩ := h.binding _ _ hb
    exact Nearest.here hb'
  | @up l p d o sl hl hb hp _ ih =>
    obtain ⟨sl', hsl', hpar⟩ := getElem?_of_map_parent
      (show (w'.locators[l]?).map Locator.m_parent = some (some p) by
        rw [h.parent l, hl]; simp [hp])
    exact Nearest.up hsl' (h.unbound _ hb) hpar ih

theorem getD_set_self_nil {α : Type} (l : List (List α)) (i : Nat) :
    (l.set i []).getD i [] = [] := by
  by_cases h : i < l.length
  · rw [List.getD_eq_getElem?_getD, List.getElem?_set_self h]; rfl
  · rw [List.getD_eq_getElem?_getD, List.getElem?_eq_none (by simpa using h)]; rfl

theorem afterResolve_clears {res tryRes : Context → TypeId → String → World → Out Ptr}
    {this : Context} {w w' : World} {u : Unit}
    (h : Context.afterResolve res tryRes this w = (.ok u, w')) (hr : this.isRoot = true) :
    w'.fnAfterResolveLists.getD this.m_root [] = [] := by
  unfold Context.afterResolve at h
  simp only [hr, if_true] at h
  split at h
  · rename_i hnil
    simp only [Prod.mk.injEq] at h
    rw [← h.2]; exact hnil
  · rename_i fn fns _
    rcases hrun : runCallbacks res tryRes this.m_sl (fn :: fns) w with ⟨r, w1⟩
    rw [hrun] at h
    cases r with
    | error e => simp at h
    | ok v =>
      simp only [Prod.mk.injEq] at h
      rw [← h.2]
      exact getD_set_self_nil _ _

theorem resolve_served (cls : TypeId → Script) (w : World) (this : Context)
    (t : TypeId) (n : String) (d o fuel : Nat) (b : shared_ptr_binding) (a : Nat)
    (slc1 : Context) (w1 w2 : World)
    (hnear : Nearest w t n this.m_sl d o)
    (hb : w.binding? ⟨o, t, n⟩ = some b)
    (hcyc : ∀ f ∈ this.frames, ¬ (f.m_interfaceType = t ∧ f.m_name = n))
    (hget : invoke cls fuel ⟨o, t, n⟩ b.m_fnGet (this.child t n) w = (.ok (some a, slc1), w1))
    (hafter : Context.afterResolve (Context.resolve cls (fuel + 1 + d))
      (Context.tryResolve cls (fuel + 1 + d)) this w1 = (.ok (), w2)) :
    Context.resolve cls (fuel + 1 + d + 1) this t n w = (.ok (some a), w2) := by
  rw [resolve_eq_finish cls _ this t n w hcyc,
    m_resolve_walk cls hnear (this.child t n) rfl (fuel + 1),
    m_resolve_hit cls fuel (this.child t n) hb]
  simp only [served, child_getName, hget, Context.finish, hafter]

theorem resolve_cached (cls : TypeId → Script) (w : World) (this : Context)
    (t : TypeId) (n : String) (d o k : Nat) (b : shared_ptr_binding) (a : Nat)
    (hnear : Nearest w t n this.m_sl d o)
    (hb : w.binding? ⟨o, t, n⟩ = some b)
    (hfn : b.m_fnGet = .functor4a (some a) ∨ b.m_fnGet = .functorY (some a))
    (hcyc : ∀ f ∈ this.frames, ¬ (f.m_interfaceType = t ∧ f.m_name = n))
    (hq : this.isRoot = true → w.fnAfterResolveLists.getD this.m_root [] = [])
    (hk : d + 3 ≤ k) :
    Context.resolve cls k this t n w = (.ok (some a), w) := by
  obtain ⟨j, rfl⟩ : ∃ j, k = (j + 1) + 1 + d + 1 := ⟨k - d - 3, by omega⟩
  apply resolve_served cls w this t n d o (j + 1) b a (this.child t n) w w hnear hb hcyc
  · rcases hfn with e | e <;> rw [e] <;> simp only [invoke]
  · exact afterResolve_idle _ _ this w hq

theorem resolveTimes_cached (cls : TypeId → Script) (w : World) (this : Context)
    (t : TypeId) (n : String) (fuel : Nat) (a : Nat)
    (h : Context.resolve cls fuel this t n w = (.ok (some a), w)) :
    ∀ k, resolveTimes cls fuel this t n k w = (.ok (List.replicate k (some a)), w) := by
  intro k
  induction k with
  | zero => rfl
  | succ k ih => simp only [resolveTimes, h, ih, List.replicate_succ]

theorem invoke_creation_count (cls : TypeId → Script) (fuel : Nat) (ref : BindingRef) (fn : Fn)
    (sl : Context) (w : World) (hfn : fn.isCreation = true)
    (hg : Guarded ref.type ref.name sl) :
    (invoke cls (fuel + 1) ref fn sl w).2.created.count ref = w.created.count ref + 1 := by
  obtain ⟨_, _, _, ihr, ihtr⟩ := engine_keeps cls ref.type ref.name fuel
  have htr : (w.traceCreate ref).created.count ref = w.created.count ref + 1 := by
    simp [World.traceCreate, List.count_append, List.count_singleton]
  cases fn with
  | empty => cases hfn
  | functorY p => cases hfn
  | functor4a p => cases hfn
  | functor4 => cases hfn
  | functor7 t =>
    simp only [invoke]
    rw [construct_keeps_after_trace ihr ihtr ref _ _ _ sl w hg ref rfl rfl, htr]
  | functor8 t =>
    simp only [invoke]
    rw [construct_keeps_after_trace ihr ihtr ref _ _ _ sl w hg ref rfl rfl, htr]
  | functor9 t =>
    simp only [invoke]
    rw [construct_keeps_after_trace ihr ihtr ref _ _ _ sl w hg ref rfl rfl, htr]
  | functor10 t =>
    simp only [invoke]
    rw [construct_keeps_after_trace ihr ihtr ref _ _ _ sl w hg ref rfl rfl, htr]
  | functor12 t m_fn yn =>
    simp only [invoke]
    rw [construct_keeps_after_trace ihr ihtr ref _ _ _ sl w hg ref rfl rfl, htr]
  | functor13 t m =>
    simp only [invoke]
    rw [forward_keeps_after_trace ihr ref _ _ sl w hg ref rfl rfl, htr]
  | functor15 t m =>
    simp only [invoke]
    rw [forward_keeps_after_trace ihr ref _ _ sl w hg ref rfl rfl, htr]

theorem guarded_child_self (this : Context) (t : TypeId) (n : String)
    (hne : this.frames ≠ []) : Guarded t n (this.child t n) := by
  refine ⟨?_, ⟨t, n, none⟩, List.mem_cons_self _ _, rfl, rfl⟩
  obtain ⟨a, b, frames⟩ := this
  cases frames with
  | nil => exact absurd rfl hne
  | cons f ps => rfl

theorem invoke_functor4 (cls : TypeId → Script) (fuel : Nat) (ref : BindingRef) (sl : Context)
    (w : World) (b : shared_ptr_binding) (hb : w.binding? ref = some b) :
    invoke cls (fuel + 1) ref .functor4 sl w =
      match invoke cls fuel ref b.m_fnCreate sl w with
      | (.error e, w1) => (.error e, w1)
      | (.ok (m_sing, sl1), w1) => (.ok (m_sing, sl1), w1.setFnGet ref (.functor4a m_sing)) := by
  have h : invoke cls (fuel + 1) ref .functor4 sl w =
      match w.binding? ref with
      | none => (.error .dangling, w)
      | some m_ibinding =>
        match invoke cls fuel ref m_ibinding.m_fnCreate sl w with
        | (.error e, w1) => (.error e, w1)
        | (.ok (m_sing, sl1), w1) =>
          (.ok (m_sing, sl1), w1.setFnGet ref (.functor4a m_sing)) := rfl
  rw [h, hb]

theorem m_resolve_walk_ok (cls : TypeId → Script) {w : World} {t : TypeId} {n : String}
    {l d o : Nat} (h : Nearest w t n l d o) (slc : Context) (hn : slc.getName = n) :
    ∀ (F : Nat) (p : Ptr) (wm : World), m_resolve cls F t l slc w = (.ok p, wm) →
      ∃ F', F = F' + d ∧ m_resolve cls F' t o slc w = (.ok p, wm) := by
  induction h with
  | here _ => intro F p wm hm; exact ⟨F, rfl, hm⟩
  | @up l q d o sl hl hb hp _ ih =>
    intro F p wm hm
    cases F with
    | zero => simp [m_resolve] at hm
    | succ F0 =>
      subst hn
      rw [m_resolve_miss cls F0 slc hl hb, hp] at hm
      obtain ⟨F', hF, hm'⟩ := ih F0 p wm hm
      exact ⟨F', by omega, hm'⟩

theorem Evolves.heap_le {w w' : World} (h : Evolves w w') : w.heap.length ≤ w'.heap.length := by
  obtain ⟨m, hm⟩ := h.heap
  rw [hm, List.length_append]; omega

theorem Evolves.count_le {w w' : World} (h : Evolves w w') (r : BindingRef) :
    w.created.count r ≤ w'.created.count r := by
  obtain ⟨m, hm⟩ := h.trace
  rw [hm, List.count_append]; omega

theorem construct_fresh {res tryRes : Context → TypeId → String → World → Out Ptr}
    (hr : ResEvolves res) (ht : ResEvolves tryRes) (ref : BindingRef) (T : TypeId)
    (body : Script) (sl sl1 : Context) (w w2 : World) (p : Ptr)
    (h : construct res tryRes ref T body false sl w = (.ok (p, sl1), w2)) :
    ∃ a, p = some a ∧ w.heap.length ≤ a ∧ a < w2.heap.length := by
  simp only [construct] at h
  cases hset : sl.setConcreteType T with
  | error e => simp [hset] at h
  | ok sl0 =>
    simp only [hset] at h
    have h1 := runScript_evolves hr ht sl0 body [] (w.traceCreate ref)
    rcases hrun : runScript res tryRes sl0 body [] (w.traceCreate ref) with ⟨r, w0⟩
    rw [hrun] at h h1
    cases r with
    | error e => simp at h
    | ok fields =>
      simp only [Bool.false_eq_true, if_false, Prod.mk.injEq, Except.ok.injEq] at h
      obtain ⟨⟨rfl, _⟩, rfl⟩ := h
      refine ⟨w0.heap.length, rfl, ?_, ?_⟩
      · exact h1.heap_le
      · simp [World.alloc]

/-- The object-creating callables of a transient binding: `toSelf()`, `to<T>()` and a factory
that returns a new object. -/
theorem invoke_transient_fresh (cls : TypeId → Script) (G : Nat) (ref : BindingRef) (fn : Fn)
    (T : TypeId) (body : Script)
    (hkind : fn = .functor7 T ∨ fn = .functor9 T ∨ fn = .functor12 T body false)
    (sl sl1 : Context) (w w2 : World) (p : Ptr)
    (h : invoke cls G ref fn sl w = (.ok (p, sl1), w2)) :
    ∃ a, p = some a ∧ w.heap.length ≤ a ∧ a < w2.heap.length := by
  cases G with
  | zero => simp [invoke] at h
  | succ H =>
    obtain ⟨_, _, _, ihr, ihtr⟩ := engine_evolves cls H
    rcases hkind with e | e | e <;> subst e <;> simp only [invoke] at h <;>
      exact construct_fresh ihr ihtr _ _ _ _ _ _ _ _ h

theorem transient_step (cls : TypeId → Script) (w : World) (this : Context)
    (t : TypeId) (n : String) (d o fuel : Nat) (b : shared_ptr_binding) (T : TypeId)
    (body : Script) (p : Ptr) (w1 : World)
    (hctx : this.frames ≠ [])
    (hnear : Nearest w t n this.m_sl d o)
    (hb : w.binding? ⟨o, t, n⟩ = some b)
    (hkind : b.m_fnGet = .functor7 T ∨ b.m_fnGet = .functor9 T
      ∨ b.m_fnGet = .functor12 T body false)
    (hcyc : ∀ f ∈ this.frames, ¬ (f.m_interfaceType = t ∧ f.m_name = n))
    (hres : Context.resolve cls fuel this t n w = (.ok p, w1)) :
    ∃ a, p = some a ∧ w.heap.length ≤ a ∧ a < w1.heap.length
      ∧ w.created.count ⟨o, t, n⟩ + 1 ≤ w1.created.count ⟨o, t, n⟩ := by
  cases fuel with
  | zero => simp [Context.resolve] at hres
  | succ F =>
    rw [resolve_eq_finish cls F this t n w hcyc] at hres
    rcases hm : m_resolve cls F t this.m_sl (this.child t n) w with ⟨r, wm⟩
    rw [hm] at hres
    cases r with
    | error e => simp [Context.finish] at hres
    | ok q =>
      simp only [Context.finish] at hres
      obtain ⟨_, _, _, ihr, ihtr⟩ := engine_evolves cls F
      have hev := afterResolve_evolves ihr ihtr this wm
      rcases haft : Context.afterResolve (Context.resolve cls F) (Context.tryResolve cls F)
        this wm with ⟨r2, w2⟩
      rw [haft] at hres hev
      cases r2 with
      | error e => simp at hres
      | ok u =>
        simp only [Prod.mk.injEq, Except.ok.injEq] at hres
        obtain ⟨rfl, rfl⟩ := hres
        obtain ⟨F', _, hm'⟩ := m_resolve_walk_ok cls hnear (this.child t n) rfl F q wm hm
        cases F' with
        | zero => simp [m_resolve] at hm'
        | succ G =>
          rw [m_resolve_hit cls G (this.child t n) hb] at hm'
          simp only [served, child_getName] at hm'
          cases G with
          | zero => simp [invoke] at hm'
          | succ H =>
            rcases hinv : invoke cls (H + 1) ⟨o, t, n⟩ b.m_fnGet (this.child t n) w
              with ⟨r3, w3⟩
            have hfresh := fun sl1 p0 (e : r3 = .ok (p0, sl1)) =>
              invoke_transient_fresh cls (H + 1) ⟨o, t, n⟩ b.m_fnGet T body hkind
                (this.child t n) sl1 w w3 p0 (by rw [hinv, e])
            have hcr : b.m_fnGet.isCreation = true := by
              rcases hkind with e | e | e <;> rw [e] <;> rfl
            have hcount : w3.created.count ⟨o, t, n⟩ = w.created.count ⟨o, t, n⟩ + 1 := by
              have hc := invoke_creation_count cls H ⟨o, t, n⟩ b.m_fnGet (this.child t n) w
                hcr (guarded_child_self this t n hctx)
              rw [hinv] at hc; exact hc
            rw [hinv] at hm'
            cases r3 with
            | error e => simp at hm'
            | ok v =>
              obtain ⟨p0, sl1⟩ := v
              obtain ⟨a, rfl, hlo, hhi⟩ := hfresh sl1 p0 rfl
              simp only [Prod.mk.injEq, Except.ok.injEq] at hm'
              obtain ⟨rfl, rfl⟩ := hm'
              refine ⟨a, rfl, hlo, Nat.lt_of_lt_of_le hhi hev.heap_le, ?_⟩
              rw [← hcount]; exact hev.count_le _

theorem transient_times (cls : TypeId → Script) (this : Context) (t : TypeId) (n : String)
    (d o fuel : Nat) (T : TypeId) (body : Script) (hctx : this.frames ≠ [])
    (hcyc : ∀ f ∈ this.frames, ¬ (f.m_interfaceType = t ∧ f.m_name = n)) :
    ∀ (k : Nat) (w : World) (b : shared_ptr_binding) (ps : List Ptr) (w' : World),
      Nearest w t n this.m_sl d o → w.binding? ⟨o, t, n⟩ = some b →
      (b.m_fnGet = .functor7 T ∨ b.m_fnGet = .functor9 T
        ∨ b.m_fnGet = .functor12 T body false) →
      resolveTimes cls fuel this t n k w = (.ok ps, w') →
      ps.length = k
      ∧ (∀ p ∈ ps, ∃ a, p = some a ∧ w.heap.length ≤ a ∧ a < w'.heap.length)
      ∧ ps.Pairwise (fun p q => p ≠ q)
      ∧ w.created.count ⟨o, t, n⟩ + k ≤ w'.created.count ⟨o, t, n⟩
      ∧ w.heap.length ≤ w'.heap.length := by
  intro k
  induction k with
  | zero =>
    intro w b ps w' _ _ _ hrun
    simp only [resolveTimes, Prod.mk.injEq, Except.ok.injEq] at hrun
    obtain ⟨rfl, rfl⟩ := hrun
    simp
  | succ k ih =>
    intro w b ps w' hnear hb hkind hrun
    simp only [resolveTimes] at hrun
    have hev := (engine_evolves cls fuel).2.2.2.1 this t n w
    rcases hres : Context.resolve cls fuel this t n w with ⟨r, w1⟩
    rw [hres] at hrun hev
    cases r with
    | error e => simp at hrun
    | ok p =>
      simp only [] at hrun
      rcases hrest : resolveTimes cls fuel this t n k w1 with ⟨r2, w2⟩
      rw [hrest] at hrun
      cases r2 with
      | error e => simp at hrun
      | ok ps' =>
        simp only [Prod.mk.injEq, Except.ok.injEq] at hrun
        obtain ⟨rfl, rfl⟩ := hrun
        obtain ⟨a, rfl, hlo, hhi, hcnt⟩ := transient_step cls w this t n d o fuel b T body p w1
          hctx hnear hb hkind hcyc hres
        obtain ⟨b1, hb1, _, hg1⟩ := hev.binding _ _ hb
        have hne4 : b.m_fnGet ≠ .functor4 := by
          rcases hkind with e | e | e <;> rw [e] <;> simp
        have hkind1 : b1.m_fnGet = .functor7 T ∨ b1.m_fnGet = .functor9 T
            ∨ b1.m_fnGet = .functor12 T body false := by rw [hg1 hne4]; exact hkind
        obtain ⟨hlen, hall, hpw, hcnt', hheap⟩ :=
          ih w1 b1 ps' w2 (Nearest.evolves hev hnear) hb1 hkind1 hrest
        refine ⟨by simp [hlen], ?_, ?_, by omega, by omega⟩
        · intro q hq
          rcases List.mem_cons.1 hq with rfl | hq
          · exact ⟨a, rfl, hlo, by omega⟩
          · obtain ⟨a', rfl, hlo', hhi'⟩ := hall q hq
            exact ⟨a', rfl, by omega, hhi'⟩
        · refine List.Pairwise.cons ?_ hpw
          intro q hq
          obtain ⟨a', rfl, hlo', _⟩ := hall q hq
          intro e
          cases e
          omega

theorem lookup_transient_count (cls : TypeId → Script) (w : World) (this : Context)
    (t : TypeId) (n : String) (d o G : Nat) (b : shared_ptr_binding) (T : TypeId)
    (body : Script) (hctx : this.frames ≠ [])
    (hnear : Nearest w t n this.m_sl d o)
    (hb : w.binding? ⟨o, t, n⟩ = some b)
    (hkind : b.m_fnGet = .functor7 T ∨ b.m_fnGet = .functor9 T
      ∨ b.m_fnGet = .functor12 T body false) :
    (m_resolve cls (G + 1 + 1 + d) t this.m_sl (this.child t n) w).2.created.count ⟨o, t, n⟩
      = w.created.count ⟨o, t, n⟩ + 1 := by
  rw [m_resolve_walk cls hnear (this.child t n) rfl (G + 1 + 1),
    m_resolve_hit cls (G + 1) (this.child t n) hb]
  simp only [served, child_getName]
  have hcr : b.m_fnGet.isCreation = true := by
    rcases hkind with e | e | e <;> rw [e] <;> rfl
  have hc := invoke_creation_count cls G ⟨o, t, n⟩ b.m_fnGet (this.child t n) w
    hcr (guarded_child_self this t n hctx)
  rcases hinv : invoke cls (G + 1) ⟨o, t, n⟩ b.m_fnGet (this.child t n) w with ⟨r3, w3⟩
  rw [hinv] at hc
  cases r3 with
  | error e => exact hc
  | ok v =>
    obtain ⟨p0, sl1⟩ := v
    obtain ⟨a, rfl, _, _⟩ := invoke_transient_fresh cls (G + 1) ⟨o, t, n⟩ b.m_fnGet T body hkind
      (this.child t n) sl1 w w3 p0 hinv
    exact hc

/-! ## The non-throwing lookup -/

theorem tryResolve_eq_finish (cls : TypeId → Script) (fuel : Nat) (this : Context) (t : TypeId)
    (n : String) (w : World)
    (hcyc : ∀ f ∈ this.frames, ¬ (f.m_interfaceType = t ∧ f.m_name = n)) :
    Context.tryResolve cls (fuel + 1) this t n w =
      Context.finish cls fuel this (m_tryResolve cls fuel t this.m_sl (this.child t n) w) := by
  have hchk : checkRecursiveResolve (this.child t n) this.frames = .ok () :=
    checkRecursiveResolve_ok _ _ hcyc
  simp only [Context.tryResolve, hchk, Context.finish]

theorem tryResolve_of_cycle (cls : TypeId → Script) (fuel : Nat) (this : Context) (t : TypeId)
    (n : String) (w : World)
    (hcyc : ∃ f ∈ this.frames, f.m_interfaceType = t ∧ f.m_name = n) :
    Context.tryResolve cls (fuel + 1) this t n w =
      (.error (.RecursiveResolveException
        ("Recursive resolve path = " ++ (this.child t n).getResolvePath)), w) := by
  have hchk := checkRecursiveResolve_error (this.child t n) this.frames hcyc
  simp only [Context.tryResolve, hchk]

theorem m_tryResolve_stored (cls : TypeId → Script) (fuel : Nat) {w : World} {t : TypeId}
    {l : Nat} {b : shared_ptr_binding} {a : Nat} (slc : Context)
    (hb : w.binding? ⟨l, t, slc.getName⟩ = some b)
    (hfn : b.m_fnGet = .functor4a (some a) ∨ b.m_fnGet = .functorY (some a)) :
    m_tryResolve cls (fuel + 2) t l slc w = (.ok (some a), w) := by
  simp only [World.binding?] at hb
  cases hl : w.locators[l]? with
  | none => simp [hl] at hb
  | some sl =>
    simp only [hl] at hb
    cases hreg : sl.getTypedServiceLocator t with
    | none => simp [hreg] at hb
    | some nsl =>
      simp only [hreg] at hb
      rcases hfn with e | e <;>
        simp only [m_tryResolve, hl, hreg, TypedServiceLocator.tryResolve, hb, e, invoke]

theorem tryResolve_cached (cls : TypeId → Script) (w : World) (this : Context)
    (t : TypeId) (n : String) (d o k : Nat) (b : shared_ptr_binding) (a : Nat)
    (hnear : Nearest w t n this.m_sl d o)
    (hb : w.binding? ⟨o, t, n⟩ = some b)
    (hfn : b.m_fnGet = .functor4a (some a) ∨ b.m_fnGet = .functorY (some a))
    (hcyc : ∀ f ∈ this.frames, ¬ (f.m_interfaceType = t ∧ f.m_name = n))
    (hq : this.isRoot = true → w.fnAfterResolveLists.getD this.m_root [] = [])
    (hk : d + 3 ≤ k) :
    Context.tryResolve cls k this t n w = (.ok (some a), w) := by
  obtain ⟨j, rfl⟩ : ∃ j, k = ((j + 2) + d) + 1 := ⟨k - d - 3, by omega⟩
  rw [tryResolve_eq_finish cls _ this t n w hcyc,
    m_tryResolve_walk cls hnear (this.child t n) rfl (j + 2),
    m_tryResolve_stored cls j (this.child t n) hb hfn]
  simp only [Context.finish, afterResolve_idle _ _ this w hq]

theorem SameRequest.compose {a b c : Context} (h1 : SameRequest a b) (h2 : SameRequest b c) :
    SameRequest a c :=
  ⟨h2.1.trans h1.1, h2.2.1.trans h1.2.1, h2.2.2.trans h1.2.2⟩

theorem tryResolve_get_sameRequest (cls : TypeId → Script) (fuel : Nat) (ref : BindingRef)
    (nsl : TypedServiceLocator) (name : String) (slc slc1 : Context) (w w1 : World) (p : Ptr)
    (h : TypedServiceLocator.tryResolve (invoke cls fuel ref) nsl name slc w
      = (.ok (p, slc1), w1)) : SameRequest slc slc1 := by
  unfold TypedServiceLocator.tryResolve at h
  split at h
  · simp only [Prod.mk.injEq, Except.ok.injEq] at h
    obtain ⟨⟨_, rfl⟩, _⟩ := h
    exact SameRequest.same slc
  · exact invoke_sameRequest cls fuel ref _ slc w p slc1 w1 h

theorem m_resolve_eq_throwIfEmpty (cls : TypeId → Script) :
    ∀ (fuel : Nat) (t : TypeId) (l : Nat) (slc : Context) (w : World),
      ∃ slc1, SameRequest slc slc1 ∧
        m_resolve cls fuel t l slc w = throwIfEmpty slc1 (m_tryResolve cls fuel t l slc w) := by
  intro fuel
  induction fuel with
  | zero => intro t l slc w; exact ⟨slc, SameRequest.same slc, rfl⟩
  | succ fuel ih =>
    intro t l slc w
    simp only [m_resolve, m_tryResolve]
    cases hl : w.locators[l]? with
    | none => exact ⟨slc, SameRequest.same slc, rfl⟩
    | some sl =>
      simp only []
      cases hreg : sl.getTypedServiceLocator t with
      | none =>
        simp only []
        cases hp : sl.m_parent with
        | none => exact ⟨slc, SameRequest.same slc, rfl⟩
        | some p => exact ih t p slc w
      | some nsl =>
        simp only []
        rcases hget : TypedServiceLocator.tryResolve (invoke cls fuel ⟨l, t, slc.getName⟩)
          nsl slc.getName slc w with ⟨r, w1⟩
        cases r with
        | error e => exact ⟨slc, SameRequest.same slc, rfl⟩
        | ok v =>
          obtain ⟨q, slc1⟩ := v
          have hsame := tryResolve_get_sameRequest cls fuel _ nsl _ slc slc1 w w1 q hget
          cases q with
          | some a => exact ⟨slc, SameRequest.same slc, rfl⟩
          | none =>
            simp only []
            cases hp : sl.m_parent with
            | none => exact ⟨slc1, hsame, rfl⟩
            | some p =>
              obtain ⟨slc2, h2, e2⟩ := ih t p slc1 w1
              exact ⟨slc2, hsame.compose h2, e2⟩

/-! ## The probe `canResolve` -/

theorem _canResolve_state : ∀ (fuel : Nat) (t : TypeId) (l : Nat) (slc : Context) (w : World),
    (_canResolve fuel t l slc w).2 = w := by
  intro fuel
  induction fuel with
  | zero => intro t l slc w; rfl
  | succ fuel ih =>
    intro t l slc w
    simp only [_canResolve]
    cases hl : w.locators[l]? with
    | none => rfl
    | some sl =>
      simp only []
      cases hreg : sl.getTypedServiceLocator t with
      | none =>
        simp only []
        cases hp : sl.m_parent with
        | none => rfl
        | some p => exact ih t p slc w
      | some nsl => rfl

theorem _canResolve_total {w : World} {l d : Nat} (h : Rooted w l d) (t : TypeId)
    (slc : Context) : ∀ fuel, d < fuel → ∃ b, _canResolve fuel t l slc w = (.ok b, w) := by
  induction h with
  | @root l sl hl hp =>
    intro fuel hf
    obtain ⟨k, rfl⟩ : ∃ k, fuel = k + 1 := ⟨fuel - 1, by omega⟩
    simp only [_canResolve, hl, hp]
    cases hreg : sl.getTypedServiceLocator t with
    | none => exact ⟨false, rfl⟩
    | some nsl => exact ⟨_, rfl⟩
  | @up l p d sl hl hp _ ih =>
    intro fuel hf
    obtain ⟨k, rfl⟩ : ∃ k, fuel = k + 1 := ⟨fuel - 1, by omega⟩
    simp only [_canResolve, hl, hp]
    cases hreg : sl.getTypedServiceLocator t with
    | none => exact ih k (by omega)
    | some nsl => exact ⟨_, rfl⟩

/-! ## The visit of `resolveAll` -/

theorem get_evolves (cls : TypeId → Script) (fuel : Nat) (ref : BindingRef) (slc : Context)
    (w : World) : Evolves w (BindingRef.get cls fuel ref slc w).2 := by
  unfold BindingRef.get
  cases hb : w.binding? ref with
  | none => exact Evolves.refl w
  | some b => exact (engine_evolves cls fuel).1 ref b.m_fnGet slc w ⟨b, hb, Or.inl rfl⟩

theorem call_evolves (cls : TypeId → Script) (fuel : Nat) (m_ctx : Context) (t : TypeId)
    (ref : BindingRef) (m_all : List Ptr) (w : World) :
    Evolves w (Functor.call (BindingRef.get cls fuel) m_ctx t ref m_all w).2 := by
  unfold Functor.call
  simp only []
  cases checkRecursiveResolve (m_ctx.child t "") m_ctx.frames with
  | error e => exact Evolves.refl w
  | ok u =>
    simp only []
    have h := get_evolves cls fuel ref (m_ctx.child t "") w
    rcases hg : BindingRef.get cls fuel ref (m_ctx.child t "") w with ⟨r, w1⟩
    rw [hg] at h
    cases r with
    | error e => exact h
    | ok v => exact h

theorem resolveEach_evolves (cls : TypeId → Script) (fuel : Nat) (m_ctx : Context)
    (t : TypeId) : ∀ (refs : List BindingRef) (m_all : List Ptr) (w : World),
    Evolves w (resolveEach cls fuel m_ctx t refs m_all w).2 := by
  intro refs
  induction refs with
  | nil => intro m_all w; exact Evolves.refl w
  | cons ref refs ih =>
    intro m_all w
    simp only [resolveEach]
    have h := call_evolves cls fuel m_ctx t ref m_all w
    rcases hc : Functor.call (BindingRef.get cls fuel) m_ctx t ref m_all w with ⟨r, w1⟩
    rw [hc] at h
    cases r with
    | error e => exact h
    | ok v => exact h.trans (ih v w1)

theorem resolveEach_append (cls : TypeId → Script) (fuel : Nat) (m_ctx : Context)
    (t : TypeId) (xs ys : List BindingRef) : ∀ (m_all : List Ptr) (w : World),
    resolveEach cls fuel m_ctx t (xs ++ ys) m_all w =
      match resolveEach cls fuel m_ctx t xs m_all w with
      | (.error e, w1) => (.error e, w1)
      | (.ok m_all1, w1) => resolveEach cls fuel m_ctx t ys m_all1 w1 := by
  induction xs with
  | nil => intro m_all w; rfl
  | cons ref refs ih =>
    intro m_all w
    simp only [List.cons_append, resolveEach]
    rcases hc : Functor.call (BindingRef.get cls fuel) m_ctx t ref m_all w with ⟨r, w1⟩
    cases r with
    | error e => rfl
    | ok v => exact ih v w1

theorem resolveEach_length (cls : TypeId → Script) (fuel : Nat) (m_ctx : Context)
    (t : TypeId) : ∀ (refs : List BindingRef) (m_all out : List Ptr) (w w1 : World),
    resolveEach cls fuel m_ctx t refs m_all w = (.ok out, w1) →
      ∃ rs, out = m_all ++ rs ∧ rs.length = refs.length := by
  intro refs
  induction refs with
  | nil =>
    intro m_all out w w1 h
    simp only [resolveEach, Prod.mk.injEq, Except.ok.injEq] at h
    exact ⟨[], by simp [h.1], rfl⟩
  | cons ref refs ih =>
    intro m_all out w w1 h
    simp only [resolveEach] at h
    rcases hc : Functor.call (BindingRef.get cls fuel) m_ctx t ref m_all w with ⟨r, w0⟩
    rw [hc] at h
    cases r with
    | error e => simp at h
    | ok v =>
      obtain ⟨rs, hrs, hlen⟩ := ih v out w0 w1 h
      have hv : ∃ p, v = m_all ++ [p] := by
        unfold Functor.call at hc
        simp only [] at hc
        cases hchk : checkRecursiveResolve (m_ctx.child t "") m_ctx.frames with
        | error e => simp [hchk] at hc
        | ok u =>
          simp only [hchk] at hc
          rcases hg : BindingRef.get cls fuel ref (m_ctx.child t "") w with ⟨r2, w2⟩
          rw [hg] at hc
          cases r2 with
          | error e => simp at hc
          | ok pc =>
            simp only [Prod.mk.injEq, Except.ok.injEq] at hc
            exact ⟨pc.1, hc.1.symm⟩
      obtain ⟨p, rfl⟩ := hv
      exact ⟨p :: rs, by simp [hrs], by simp [hlen]⟩

theorem visitAll_eq_resolveEach (cls : TypeId → Script) (fuel : Nat) (m_ctx : Context)
    (t : TypeId) (l : Nat) : ∀ (names : List String) (m_all : List Ptr) (w : World),
    TypedServiceLocator.visitAll (Functor.call (BindingRef.get cls fuel) m_ctx t) l t names
        m_all w
      = resolveEach cls fuel m_ctx t (names.map (fun n => ⟨l, t, n⟩)) m_all w := by
  intro names
  induction names with
  | nil => intro m_all w; rfl
  | cons n names ih =>
    intro m_all w
    simp only [TypedServiceLocator.visitAll, List.map_cons, resolveEach]
    rcases hc : Functor.call (BindingRef.get cls fuel) m_ctx t ⟨l, t, n⟩ m_all w with ⟨r, w1⟩
    cases r with
    | error e => rfl
    | ok v => exact ih v w1

theorem Map.find_map {V U : Type} (g : V → U) (m : Map V) (t : String) :
    Map.find (m.map (fun e => (e.1, g e.2))) t = (Map.find m t).map g := by
  induction m with
  | nil => rfl
  | cons e rest ih =>
    obtain ⟨k, v⟩ := e
    by_cases h : k = t
    · simp [Map.find, h]
    · simp only [List.map_cons, Map.find, h, if_false, ih]

theorem getElem?_shape {w w1 : World}
    (h : w1.locators.map Locator.shape = w.locators.map Locator.shape) (l : Nat) :
    (w1.locators[l]?).map Locator.shape = (w.locators[l]?).map Locator.shape := by
  rw [← List.getElem?_map, ← List.getElem?_map, h]

theorem bindingsOf_eq_shape (w : World) (l : Nat) (t : TypeId) :
    w.bindingsOf l t =
      match (w.locators[l]?).map Locator.shape with
      | none => []
      | some s => ((Map.find s.1 t).getD []).map (fun n => ⟨l, t, n⟩) := by
  unfold World.bindingsOf
  cases hl : w.locators[l]? with
  | none => rfl
  | some sl =>
    simp only [Option.map_some', Locator.shape, Locator.getTypedServiceLocator]
    rw [Map.find_map (fun nsl : TypedServiceLocator => nsl.map Prod.fst)]
    cases Map.find sl.m_typed_locators t with
    | none => rfl
    | some nsl => simp

theorem bindingsOf_shape {w w1 : World}
    (h : w1.locators.map Locator.shape = w.locators.map Locator.shape) (l : Nat) (t : TypeId) :
    w1.bindingsOf l t = w.bindingsOf l t := by
  rw [bindingsOf_eq_shape, bindingsOf_eq_shape, getElem?_shape h]

theorem parent_of_shape {w w1 : World}
    (h : w1.locators.map Locator.shape = w.locators.map Locator.shape) {l : Nat} {sl : Locator}
    (hl : w.locators[l]? = some sl) :
    ∃ sl1, w1.locators[l]? = some sl1 ∧ sl1.m_parent = sl.m_parent
      ∧ sl1.m_eagerBindings = sl.m_eagerBindings ∧ sl1.m_context = sl.m_context := by
  have hs := getElem?_shape h l
  rw [hl] at hs
  cases hl1 : w1.locators[l]? with
  | none => simp [hl1] at hs
  | some sl1 =>
    simp only [hl1, Option.map_some', Option.some.injEq, Locator.shape, Prod.mk.injEq] at hs
    exact ⟨sl1, rfl, hs.2.2.1, hs.2.1, hs.2.2.2⟩

theorem Visited.shape {w w1 : World}
    (h : w1.locators.map Locator.shape = w.locators.map Locator.shape) {t : TypeId}
    {l d : Nat} {refs : List BindingRef} (hv : Visited w t l d refs) :
    Visited w1 t l d refs := by
  induction hv with
  | @root l sl hl hp =>
    obtain ⟨sl1, hl1, hp1, _⟩ := parent_of_shape h hl
    rw [← bindingsOf_shape h l t]
    exact Visited.root hl1 (hp1.trans hp)
  | @up l p d sl refs hl hp _ ih =>
    obtain ⟨sl1, hl1, hp1, _⟩ := parent_of_shape h hl
    rw [← bindingsOf_shape h l t]
    exact Visited.up hl1 (hp1.trans hp) ih

theorem _visitAll_eq_resolveEach (cls : TypeId → Script) (fuel : Nat) (m_ctx : Context)
    (t : TypeId) : ∀ (depth l d : Nat) (refs : List BindingRef) (m_all : List Ptr) (w : World),
    Visited w t l d refs → d < depth →
      _visitAll cls fuel depth t l m_ctx m_all w = resolveEach cls fuel m_ctx t refs m_all w := by
  intro depth
  induction depth with
  | zero => intro l d refs m_all w _ hd; omega
  | succ depth ih =>
    intro l d refs m_all w hv hd
    have hown : ∀ sl, w.locators[l]? = some sl →
        (match sl.getTypedServiceLocator t with
          | none => ((.ok m_all, w) : Out (List Ptr))
          | some nsl =>
            TypedServiceLocator.visitAll (Functor.call (BindingRef.get cls fuel) m_ctx t)
              l t (nsl.map Prod.fst) m_all w)
          = resolveEach cls fuel m_ctx t (w.bindingsOf l t) m_all w := by
      intro sl hl
      simp only [World.bindingsOf, hl]
      cases hreg : sl.getTypedServiceLocator t with
      | none => rfl
      | some nsl =>
        simp only [Option.getD_some]
        rw [visitAll_eq_resolveEach]
        simp [List.map_map, Function.comp_def]
    cases hv with
    | root hl hp =>
      simp only [_visitAll, hl, hown _ hl, hp]
      rcases resolveEach cls fuel m_ctx t (w.bindingsOf l t) m_all w with ⟨r, w1⟩
      cases r <;> rfl
    | up hl hp hrest =>
      simp only [_visitAll, hl, hown _ hl, hp]
      rw [resolveEach_append]
      have hev := resolveEach_evolves cls fuel m_ctx t (w.bindingsOf l t) m_all w
      rcases hown1 : resolveEach cls fuel m_ctx t (w.bindingsOf l t) m_all w with ⟨r, w1⟩
      rw [hown1] at hev
      cases r with
      | error e => rfl
      | ok v =>
        exact ih _ _ _ v w1 (hrest.shape hev.shape) (by omega)

theorem resolveAll_eq_finishAll (cls : TypeId → Script) (fuel : Nat) (this : Context)
    (t : TypeId) (out : List Ptr) (w : World) (d : Nat) (refs : List BindingRef)
    (hv : Visited w t this.m_sl d refs) (hd : d < fuel) :
    Context.resolveAll cls fuel this t out w
      = Context.finishAll cls fuel this (resolveEach cls fuel this t refs out w) := by
  unfold Context.resolveAll Context.finishAll
  rw [_visitAll_eq_resolveEach cls fuel this t fuel this.m_sl d refs out w hv hd]

theorem resolveAll_length (cls : TypeId → Script) (fuel : Nat) (this : Context)
    (t : TypeId) (out : List Ptr) (w : World) (d : Nat) (refs : List BindingRef)
    (hv : Visited w t this.m_sl d refs) (hd : d < fuel) (out1 : List Ptr) (w1 : World)
    (h : Context.resolveAll cls fuel this t out w = (.ok out1, w1)) :
    ∃ rs, out1 = out ++ rs ∧ rs.length = refs.length := by
  rw [resolveAll_eq_finishAll cls fuel this t out w d refs hv hd] at h
  unfold Context.finishAll at h
  rcases he : resolveEach cls fuel this t refs out w with ⟨r, w0⟩
  rw [he] at h
  cases r with
  | error e => simp at h
  | ok v =>
    simp only [] at h
    rcases ha : Context.afterResolve (Context.resolve cls fuel) (Context.tryResolve cls fuel)
      this w0 with ⟨r2, w2⟩
    rw [ha] at h
    cases r2 with
    | error e => simp at h
    | ok u =>
      simp only [Prod.mk.injEq, Except.ok.injEq] at h
      rw [← h.1]
      exact resolveEach_length cls fuel this t refs out v w w0 he

/-! ## The key order of the registries -/

theorem keyLt_iff (a b : String) : keyLt a b = true ↔ a < b := by
  simp [keyLt, String.lt_iff_toList_lt]

theorem keyLt_of_not {a b : String} (h : ¬ keyLt a b = true) (hne : b ≠ a) :
    keyLt b a = true := by
  rw [keyLt_iff]
  have h1 : ¬ a < b := by rw [← keyLt_iff]; exact h
  rcases lt_trichotomy a b with h2 | h2 | h2
  · exact absurd h2 h1
  · exact absurd h2.symm hne
  · exact h2

theorem ascending_cons (a : String) (l : List String) :
    ascending (a :: l) = true ↔
      (∀ b, l.head? = some b → keyLt a b = true) ∧ ascending l = true := by
  cases l with
  | nil => simp [ascending]
  | cons b rest => simp [ascending]

theorem head?_insertSorted {V : Type} (m : Map V) (k : String) (v : V) (b : String)
    (h : ((Map.insertSorted m k v).map Prod.fst).head? = some b) :
    b = k ∨ (m.map Prod.fst).head? = some b := by
  cases m with
  | nil => left; simpa [Map.insertSorted] using h.symm
  | cons e rest =>
    obtain ⟨k0, v0⟩ := e
    by_cases hlt : keyLt k k0 = true
    · left; simpa [Map.insertSorted, hlt] using h.symm
    · right; simpa [Map.insertSorted, hlt] using h

theorem ascending_insertSorted {V : Type} (m : Map V) (k : String) (v : V)
    (hk : Map.find m k = none) (h : ascending (m.map Prod.fst) = true) :
    ascending ((Map.insertSorted m k v).map Prod.fst) = true := by
  induction m with
  | nil => rfl
  | cons e rest ih =>
    obtain ⟨k0, v0⟩ := e
    have h0 : ¬ k0 = k := by
      intro e; simp [Map.find, e] at hk
    have hrest : Map.find rest k = none := by
      simpa [Map.find, h0] using hk
    by_cases hlt : keyLt k k0 = true
    · simp only [Map.insertSorted, hlt, if_true, List.map_cons]
      simp only [List.map_cons] at h
      simp [ascending, hlt, h]
    · have hlt0 : keyLt k k0 = false := by simpa using hlt
      simp only [Map.insertSorted, hlt0, Bool.false_eq_true, if_false, List.map_cons]
      simp only [List.map_cons] at h
      rw [ascending_cons] at h ⊢
      refine ⟨fun b hb => ?_, ih hrest h.2⟩
      rcases head?_insertSorted rest k v b hb with e | e
      · subst e; exact keyLt_of_not hlt h0
      · exact h.1 b e

theorem ascending_insert {V : Type} (m : Map V) (k : String) (v : V)
    (h : ascending (m.map Prod.fst) = true) :
    ascending ((Map.insert m k v).map Prod.fst) = true := by
  unfold Map.insert
  cases hk : Map.find m k with
  | some x => exact h
  | none => exact ascending_insertSorted m k v hk h

theorem World.ascending_eq_shape (w : World) :
    w.ascending = (w.locators.map Locator.shape).all
      (fun s => s.1.all (fun e => ServiceLocator.ascending e.2)) := by
  unfold World.ascending
  induction w.locators with
  | nil => rfl
  | cons sl rest ih =>
    simp only [List.all_cons, List.map_cons, ih]
    congr 1
    simp only [Locator.shape]
    generalize sl.m_typed_locators = m
    induction m with
    | nil => rfl
    | cons e rest2 ih2 => simp only [List.all_cons, List.map_cons, ih2]

theorem ascending_of_shape {w w1 : World}
    (h : w1.locators.map Locator.shape = w.locators.map Locator.shape) :
    w1.ascending = w.ascending := by
  rw [World.ascending_eq_shape, World.ascending_eq_shape, h]

theorem ascending_registry {w : World} (h : w.ascending = true) {l : Nat} {sl : Locator}
    {t : TypeId} {nsl : TypedServiceLocator} (hl : w.locators[l]? = some sl)
    (hreg : sl.getTypedServiceLocator t = some nsl) :
    ascending (nsl.map Prod.fst) = true := by
  have hmem : sl ∈ w.locators := by
    obtain ⟨hlt, he⟩ := List.getElem?_eq_some.1 hl
    rw [← he]; exact List.getElem_mem _
  have hsl := (List.all_eq_true.1 h) sl hmem
  have hfind : ∀ (m : Map TypedServiceLocator), Map.find m t = some nsl → (t, nsl) ∈ m := by
    intro m
    induction m with
    | nil => intro hm; simp [Map.find] at hm
    | cons e rest ih =>
      obtain ⟨k, v⟩ := e
      intro hm
      by_cases hk : k = t
      · simp only [Map.find, hk, if_true, Option.some.injEq] at hm
        subst hm; subst hk; exact List.mem_cons_self _ _
      · simp only [Map.find, hk, if_false] at hm
        exact List.mem_cons_of_mem _ (ih hm)
  exact (List.all_eq_true.1 hsl) (t, nsl) (hfind _ hreg)

theorem ascending_bindingsOf {w : World} (h : w.ascending = true) (l : Nat) (t : TypeId) :
    ascending ((w.bindingsOf l t).map BindingRef.name) = true := by
  cases hl : w.locators[l]? with
  | none => simp [World.bindingsOf, hl, ascending]
  | some sl =>
    cases hreg : sl.getTypedServiceLocator t with
    | none => simp [World.bindingsOf, hl, hreg, ascending]
    | some nsl =>
      have hr := ascending_registry h hl hreg
      simpa [World.bindingsOf, hl, hreg, List.map_map, Function.comp_def] using hr

theorem Map.mem_insert {V : Type} (m : Map V) (k : String) (v : V) (e : String × V)
    (h : e ∈ Map.insert m k v) : e = (k, v) ∨ e ∈ m := by
  unfold Map.insert at h
  cases hk : Map.find m k with
  | some x => rw [hk] at h; exact Or.inr h
  | none =>
    rw [hk] at h
    simp only [] at h
    clear hk
    induction m with
    | nil => left; simpa [Map.insertSorted] using h
    | cons e0 rest ih =>
      obtain ⟨k0, v0⟩ := e0
      by_cases hlt : keyLt k k0 = true
      · simp only [Map.insertSorted, hlt, if_true, List.mem_cons] at h
        rcases h with h | h | h
        · exact Or.inl h
        · exact Or.inr (h ▸ List.mem_cons_self _ _)
        · exact Or.inr (List.mem_cons_of_mem _ h)
      · have hlt0 : keyLt k k0 = false := by simpa using hlt
        simp only [Map.insertSorted, hlt0, Bool.false_eq_true, if_false, List.mem_cons] at h
        rcases h with h | h
        · exact Or.inr (h ▸ List.mem_cons_self _ _)
        · rcases ih h with h2 | h2
          · exact Or.inl h2
          · exact Or.inr (List.mem_cons_of_mem _ h2)

theorem Map.mem_modify {V : Type} (f : V → V) (m : Map V) (k : String) (e : String × V)
    (h : e ∈ Map.modify f m k) : e ∈ m ∨ ∃ v, e = (k, f v) := by
  induction m with
  | nil => simp [Map.modify] at h
  | cons e0 rest ih =>
    obtain ⟨k0, v0⟩ := e0
    by_cases h0 : k0 = k
    · simp only [Map.modify, h0, if_true, List.mem_cons] at h
      rcases h with h | h
      · exact Or.inr ⟨v0, h⟩
      · exact Or.inl (List.mem_cons_of_mem _ h)
    · simp only [Map.modify, h0, if_false, List.mem_cons] at h
      rcases h with h | h
      · exact Or.inl (h ▸ List.mem_cons_self _ _)
      · rcases ih h with h2 | h2
        · exact Or.inl (List.mem_cons_of_mem _ h2)
        · exact Or.inr h2

theorem World.ascending_iff (w : World) :
    w.ascending = true ↔ ∀ sl ∈ w.locators, ∀ e ∈ sl.m_typed_locators,
      ServiceLocator.ascending (e.2.map Prod.fst) = true := by
  simp only [World.ascending, List.all_eq_true]

theorem ascending_set (w : World) (self : Nat) (sl1 : Locator) (lists : List (List Script))
    (heap : List Obj) (created : List BindingRef) (h : w.ascending = true)
    (h1 : ∀ e ∈ sl1.m_typed_locators, ServiceLocator.ascending (e.2.map Prod.fst) = true) :
    World.ascending ⟨w.locators.set self sl1, lists, heap, created⟩ = true := by
  rw [World.ascending_iff] at h ⊢
  intro sl hsl e he
  rcases List.mem_or_eq_of_mem_set hsl with hm | hm
  · exact h sl hm e he
  · subst hm; exact h1 e he

theorem ascending_append (w : World) (sl1 : Locator) (lists : List (List Script))
    (heap : List Obj) (created : List BindingRef) (h : w.ascending = true)
    (h1 : sl1.m_typed_locators = []) :
    World.ascending ⟨w.locators ++ [sl1], lists, heap, created⟩ = true := by
  rw [World.ascending_iff] at h ⊢
  intro sl hsl e he
  rcases List.mem_append.1 hsl with hm | hm
  · exact h sl hm e he
  · simp only [List.mem_singleton] at hm
    subst hm; rw [h1] at he; cases he

theorem create_ascending (w : World) (h : w.ascending = true) :
    (create w).2.ascending = true :=
  ascending_append w _ _ _ _ h rfl

theorem enter_ascending (self : Nat) (w : World) (h : w.ascending = true) :
    (enter self w).2.ascending = true :=
  ascending_append w _ _ _ _ h rfl

theorem bind_ascending (t : TypeId) (n : String) (self : Nat) (w : World)
    (h : w.ascending = true) : (bind t n self w).2.ascending = true := by
  unfold bind
  cases hl : w.locators[self]? with
  | none => exact h
  | some sl =>
    simp only []
    have hsl : ∀ e ∈ sl.m_typed_locators, ServiceLocator.ascending (e.2.map Prod.fst) = true := by
      have hmem : sl ∈ w.locators := by
        obtain ⟨hlt, he⟩ := List.getElem?_eq_some.1 hl
        rw [← he]; exact List.getElem_mem _
      exact (World.ascending_iff w).1 h sl hmem
    have htyped : ∀ e ∈ Map.insert sl.m_typed_locators t [],
        ServiceLocator.ascending (e.2.map Prod.fst) = true := by
      intro e he
      rcases Map.mem_insert _ _ _ e he with h2 | h2
      · subst h2; rfl
      · exact hsl e h2
    have hnsl : ServiceLocator.ascending
        (((Map.find (Map.insert sl.m_typed_locators t []) t).getD []).map Prod.fst) = true := by
      cases hf : Map.find (Map.insert sl.m_typed_locators t []) t with
      | none => rfl
      | some nsl =>
        have hmem : ∀ (m : Map TypedServiceLocator), Map.find m t = some nsl → (t, nsl) ∈ m := by
          intro m
          induction m with
          | nil => intro hm; simp [Map.find] at hm
          | cons e rest ih =>
            obtain ⟨k, v⟩ := e
            intro hm
            by_cases hk : k = t
            · simp only [Map.find, hk, if_true, Option.some.injEq] at hm
              subst hm; subst hk; exact List.mem_cons_self _ _
            · simp only [Map.find, hk, if_false] at hm
              exact List.mem_cons_of_mem _ (ih hm)
        exact htyped _ (hmem _ hf)
    cases hb : TypedServiceLocator.bind t
        ((Map.find (Map.insert sl.m_typed_locators t []) t).getD []) n with
    | error e => exact ascending_set w self _ _ _ _ h htyped
    | ok nsl1 =>
      refine ascending_set w self _ _ _ _ h ?_
      intro e he
      rcases Map.mem_modify _ _ _ e he with h2 | ⟨v, h2⟩
      · exact htyped e h2
      · subst h2
        unfold TypedServiceLocator.bind at hb
        split at hb
        · cases hb
        · simp only [Except.ok.injEq] at hb
          subst hb
          exact ascending_insert _ _ _ hnsl

theorem modifyBinding_ascending (w : World) (ref : BindingRef)
    (f : shared_ptr_binding → shared_ptr_binding) (h : w.ascending = true) :
    (w.modifyBinding ref f).ascending = true := by
  rw [ascending_of_shape (shape_modifyBinding w ref f)]; exact h

theorem bindWith_ascending (t : TypeId) (n : String) (self : Nat)
    (clause : BindingRef → World → World)
    (hc : ∀ r w, w.ascending = true → (clause r w).ascending = true) (w : World)
    (h : w.ascending = true) : (bindWith t n self clause w).ascending = true := by
  have hb := bind_ascending t n self w h
  unfold bindWith
  rcases hbind : bind t n self w with ⟨r, w1⟩
  rw [hbind] at hb
  cases r with
  | ok ref => exact hc ref w1 hb
  | error e => exact hb

/-! ## Nested resolves only register deferred callbacks -/

theorem Queues.idle (r : Nat) (w : World) : Queues r w w :=
  ⟨rfl, fun _ _ => rfl, [], by simp⟩

theorem Queues.followedBy {r : Nat} {w w1 w2 : World} (h1 : Queues r w w1) (h2 : Queues r w1 w2) :
    Queues r w w2 := by
  obtain ⟨a1, b1, c1, d1⟩ := h1
  obtain ⟨a2, b2, c2, d2⟩ := h2
  exact ⟨a2.trans a1, fun i hi => (b2 i hi).trans (b1 i hi), c1 ++ c2,
    by rw [d2, d1, List.append_assoc]⟩

theorem Queues.of_lists_eq {r : Nat} {w w' : World}
    (h : w'.fnAfterResolveLists = w.fnAfterResolveLists) : Queues r w w' :=
  ⟨by rw [h], fun _ _ => by rw [h], [], by rw [h]; simp⟩

theorem Queues.push (r : Nat) (w : World) (fn : Script) :
    Queues r w (w.pushAfterResolve r fn) := by
  refine ⟨by simp [World.pushAfterResolve], fun i hi => ?_, ?_⟩
  · simp only [World.pushAfterResolve]
    rw [List.getElem?_set_ne (fun e => hi e.symm)]
  · simp only [World.pushAfterResolve]
    by_cases hlt : r < w.fnAfterResolveLists.length
    · refine ⟨[fn], ?_⟩
      rw [List.getD_eq_getElem?_getD, List.getElem?_set_self hlt]
      rfl
    · refine ⟨[], ?_⟩
      rw [List.set_eq_of_length_le (by omega)]
      simp

theorem setFnGet_lists (w : World) (ref : BindingRef) (fn : Fn) :
    (w.setFnGet ref fn).fnAfterResolveLists = w.fnAfterResolveLists := by
  simp only [World.setFnGet, World.modifyBinding]
  split <;> rfl

theorem SameRequest.below {r : Nat} {sl sl1 : Context} (h : SameRequest sl sl1)
    (hb : Below r sl) : Below r sl1 := by
  obtain ⟨_, hroot, hf⟩ := h
  refine ⟨?_, hroot.trans hb.2⟩
  have hr := hb.1
  have hlen : sl1.frames.length = sl.frames.length := by
    have := congrArg List.length hf
    simpa using this
  obtain ⟨a, b, frames⟩ := sl
  obtain ⟨a1, b1, frames1⟩ := sl1
  cases frames with
  | nil => simp [Context.isRoot] at hr
  | cons f ps =>
    cases ps with
    | nil => simp [Context.isRoot] at hr
    | cons g qs =>
      cases frames1 with
      | nil => simp at hlen
      | cons f1 ps1 =>
        cases ps1 with
        | nil => simp at hlen
        | cons g1 qs1 => rfl

theorem Below.of_child {r : Nat} {this : Context} (h : this.m_root = r) (hne : this.frames ≠ [])
    (t : TypeId) (n : String) : Below r (this.child t n) := by
  refine ⟨?_, h⟩
  obtain ⟨a, b, frames⟩ := this
  cases frames with
  | nil => exact absurd rfl hne
  | cons f ps => rfl

theorem Below.frames_ne {r : Nat} {ctx : Context} (h : Below r ctx) : ctx.frames ≠ [] := by
  intro e
  have hr := h.1
  obtain ⟨a, b, frames⟩ := ctx
  simp only at e
  subst e
  simp [Context.isRoot] at hr

theorem runScript_queues {r : Nat} {res tryRes : Context → TypeId → String → World → Out Ptr}
    (hr : ResQueues r res) (ht : ResQueues r tryRes) (sl : Context) (hg : Below r sl) :
    ∀ (script : Script) (fields : List Ptr) (w : World),
      Queues r w (runScript res tryRes sl script fields w).2 := by
  intro script
  induction script with
  | done => intro fields w; exact Queues.idle r w
  | resolve t n rest ih =>
    intro fields w
    have h := hr sl t n w hg
    simp only [runScript]
    rcases hres : res sl t n w with ⟨v, w1⟩
    rw [hres] at h
    cases v with
    | error e => exact h
    | ok p => exact h.followedBy (ih _ _)
  | tryResolve t n rest ih =>
    intro fields w
    have h := ht sl t n w hg
    simp only [runScript]
    rcases hres : tryRes sl t n w with ⟨v, w1⟩
    rw [hres] at h
    cases v with
    | error e => exact h
    | ok p => exact h.followedBy (ih _ _)
  | afterResolve fn rest _ ih =>
    intro fields w
    simp only [runScript]
    have h0 : Queues r w (w.pushAfterResolve sl.m_root fn) := by
      rw [hg.2]; exact Queues.push r w fn
    exact h0.followedBy (ih _ _)

theorem construct_queues {r : Nat} {res tryRes : Context → TypeId → String → World → Out Ptr}
    (hr : ResQueues r res) (ht : ResQueues r tryRes) (ref : BindingRef) (t : TypeId)
    (body : Script) (yieldsNull : Bool) (sl : Context) (w : World) (hg : Below r sl) :
    Queues r w (construct res tryRes ref t body yieldsNull sl w).2 := by
  have h0 : Queues r w (w.traceCreate ref) := Queues.of_lists_eq rfl
  simp only [construct]
  cases hset : sl.setConcreteType t with
  | error e => exact h0
  | ok sl1 =>
    have hg1 : Below r sl1 := (SameRequest.of_setConcreteType hset).below hg
    have h1 := runScript_queues hr ht sl1 hg1 body [] (w.traceCreate ref)
    simp only []
    rcases hrun : runScript res tryRes sl1 body [] (w.traceCreate ref) with ⟨v, w1⟩
    rw [hrun] at h1
    cases v with
    | error e => exact h0.followedBy h1
    | ok fields =>
      cases yieldsNull with
      | true => exact h0.followedBy h1
      | false => exact (h0.followedBy h1).followedBy (Queues.of_lists_eq rfl)

theorem forward_queues {r : Nat} {res : Context → TypeId → String → World → Out Ptr}
    (hr : ResQueues r res) (ref : BindingRef) (t : TypeId) (m_name : String) (sl : Context)
    (w : World) (hg : Below r sl) : Queues r w (forward res ref t m_name sl w).2 := by
  have h0 : Queues r w (w.traceCreate ref) := Queues.of_lists_eq rfl
  have h1 := hr sl t m_name (w.traceCreate ref) hg
  simp only [forward]
  rcases hres : res sl t m_name (w.traceCreate ref) with ⟨v, w1⟩
  rw [hres] at h1
  cases v with
  | error e => exact h0.followedBy h1
  | ok p => exact h0.followedBy h1

theorem lookup_queues_step {r : Nat} (cls : TypeId → Script) (fuel : Nat)
    (look : Nat → TypeId → Nat → Context → World → Out Ptr) (miss : Context → World → Out Ptr)
    (hmiss : ∀ slc w, (miss slc w).2 = w)
    (ihinv : ∀ ref fn sl w, Below r sl → Queues r w (invoke cls fuel ref fn sl w).2)
    (ihlook : ∀ t l slc w, Below r slc → Queues r w (look fuel t l slc w).2)
    (t : TypeId) (l : Nat) (slc : Context) (w : World) (sl : Locator) (hg : Below r slc) :
    Queues r w
      (match sl.getTypedServiceLocator t with
        | none =>
          match sl.m_parent with
          | none => miss slc w
          | some m_parent => look fuel t m_parent slc w
        | some nsl =>
          match TypedServiceLocator.tryResolve (invoke cls fuel ⟨l, t, slc.getName⟩)
              nsl slc.getName slc w with
          | (.error e, w1) => (.error e, w1)
          | (.ok (some a, _), w1) => (.ok (some a), w1)
          | (.ok (none, slc1), w1) =>
            match sl.m_parent with
            | none => miss slc1 w1
            | some m_parent => look fuel t m_parent slc1 w1).2 := by
  cases hreg : sl.getTypedServiceLocator t with
  | none =>
    cases hp : sl.m_parent with
    | none => simp only [hmiss]; exact Queues.idle _ w
    | some p => exact ihlook _ _ _ _ hg
  | some nsl =>
    simp only [TypedServiceLocator.tryResolve]
    cases hfind : Map.find nsl slc.getName with
    | none =>
      cases hp : sl.m_parent with
      | none => simp only [hmiss]; exact Queues.idle _ w
      | some p => exact ihlook _ _ _ _ hg
    | some b =>
      have h1 := ihinv ⟨l, t, slc.getName⟩ b.m_fnGet slc w hg
      simp only []
      rcases hres : invoke cls fuel ⟨l, t, slc.getName⟩ b.m_fnGet slc w with ⟨v, w1⟩
      rw [hres] at h1
      cases v with
      | error e => exact h1
      | ok v =>
        obtain ⟨ptr, slc1⟩ := v
        cases ptr with
        | some a => exact h1
        | none =>
          have hg1 : Below r slc1 :=
            (invoke_sameRequest cls fuel _ _ slc w _ slc1 w1 hres).below hg
          cases hp : sl.m_parent with
          | none => simp only [hmiss]; exact h1
          | some p => exact h1.followedBy (ihlook _ _ _ _ hg1)

/-- Below a resolution root no engine call runs or drops a deferred callback: the calls only
register callbacks, on the list of the root. -/
theorem engine_queues (cls : TypeId → Script) (r : Nat) : ∀ fuel : Nat,
    (∀ ref fn sl w, Below r sl → Queues r w (invoke cls fuel ref fn sl w).2)
    ∧ (∀ t l slc w, Below r slc → Queues r w (m_resolve cls fuel t l slc w).2)
    ∧ (∀ t l slc w, Below r slc → Queues r w (m_tryResolve cls fuel t l slc w).2)
    ∧ ResQueues r (Context.resolve cls fuel)
    ∧ ResQueues r (Context.tryResolve cls fuel) := by
  intro fuel
  induction fuel with
  | zero =>
    refine ⟨fun _ _ _ w _ => ?_, fun _ _ _ w _ => ?_, fun _ _ _ w _ => ?_,
      fun _ _ _ w _ => ?_, fun _ _ _ w _ => ?_⟩
    · simp only [invoke]; exact Queues.idle _ w
    · simp only [m_resolve]; exact Queues.idle _ w
    · simp only [m_tryResolve]; exact Queues.idle _ w
    · simp only [Context.resolve]; exact Queues.idle _ w
    · simp only [Context.tryResolve]; exact Queues.idle _ w
  | succ fuel ih =>
    obtain ⟨ihinv, ihm, iht, ihr, ihtr⟩ := ih
    refine ⟨?_, ?_, ?_, ?_, ?_⟩
    · intro ref fn sl w hg
      cases fn with
      | empty => simp only [invoke]; exact Queues.idle _ w
      | functorY p => simp only [invoke]; exact Queues.idle _ w
      | functor4a p => simp only [invoke]; exact Queues.idle _ w
      | functor4 =>
        simp only [invoke]
        cases hb : w.binding? ref with
        | none => exact Queues.idle _ w
        | some b =>
          have h1 := ihinv ref b.m_fnCreate sl w hg
          simp only []
          rcases hres : invoke cls fuel ref b.m_fnCreate sl w with ⟨v, w1⟩
          rw [hres] at h1
          cases v with
          | error e => exact h1
          | ok v => exact h1.followedBy (Queues.of_lists_eq (setFnGet_lists _ _ _))
      | functor7 t => simp only [invoke]; exact construct_queues ihr ihtr _ _ _ _ _ _ hg
      | functor8 t => simp only [invoke]; exact construct_queues ihr ihtr _ _ _ _ _ _ hg
      | functor9 t => simp only [invoke]; exact construct_queues ihr ihtr _ _ _ _ _ _ hg
      | functor10 t => simp only [invoke]; exact construct_queues ihr ihtr _ _ _ _ _ _ hg
      | functor12 t m_fn yn =>
        simp only [invoke]; exact construct_queues ihr ihtr _ _ _ _ _ _ hg
      | functor13 t m => simp only [invoke]; exact forward_queues ihr _ _ _ _ _ hg
      | functor15 t m => simp only [invoke]; exact forward_queues ihr _ _ _ _ _ hg
    · intro t l slc w hg
      simp only [m_resolve]
      cases hl : w.locators[l]? with
      | none => exact Queues.idle _ w
      | some sl =>
        exact lookup_queues_step cls fuel (m_resolve cls)
          (fun slc w => (.error (unableToResolve slc), w)) (fun _ _ => rfl) ihinv ihm
          t l slc w sl hg
    · intro t l slc w hg
      simp only [m_tryResolve]
      cases hl : w.locators[l]? with
      | none => exact Queues.idle _ w
      | some sl =>
        exact lookup_queues_step cls fuel (m_tryResolve cls)
          (fun _ w => (.ok none, w)) (fun _ _ => rfl) ihinv iht t l slc w sl hg
    · intro this t n w hg
      simp only [Context.resolve]
      cases hchk : checkRecursiveResolve (this.child t n) this.frames with
      | error e => exact Queues.idle _ w
      | ok u =>
        have h1 := ihm t this.m_sl (this.child t n) w (Below.of_child hg.2 hg.frames_ne t n)
        simp only []
        rcases hres : m_resolve cls fuel t this.m_sl (this.child t n) w with ⟨v, w1⟩
        rw [hres] at h1
        cases v with
        | error e => exact h1
        | ok ptr => simp only [afterResolve_not_root _ _ this w1 hg.1]; exact h1
    · intro this t n w hg
      simp only [Context.tryResolve]
      cases hchk : checkRecursiveResolve (this.child t n) this.frames with
      | error e => exact Queues.idle _ w
      | ok u =>
        have h1 := iht t this.m_sl (this.child t n) w (Below.of_child hg.2 hg.frames_ne t n)
        simp only []
        rcases hres : m_tryResolve cls fuel t this.m_sl (this.child t n) w with ⟨v, w1⟩
        rw [hres] at h1
        cases v with
        | error e => exact h1
        | ok ptr => simp only [afterResolve_not_root _ _ this w1 hg.1]; exact h1

theorem set_nil_of_getD {α : Type} (l : List (List α)) (i : Nat) (h : l.getD i [] = []) :
    l.set i [] = l := by
  induction l generalizing i with
  | nil => rfl
  | cons a rest ih =>
    cases i with
    | zero =>
      simp only [List.getD_cons_zero] at h
      subst h; rfl
    | succ j =>
      simp only [List.getD_cons_succ] at h
      simp only [List.set_cons_succ, ih j h]

theorem afterResolve_root (res tryRes : Context → TypeId → String → World → Out Ptr)
    (this : Context) (w : World) (hroot : this.isRoot = true) :
    Context.afterResolve res tryRes this w = Context.drain res tryRes this w := by
  unfold Context.afterResolve Context.drain
  simp only [hroot, if_true]
  cases hq : w.fnAfterResolveLists.getD this.m_root [] with
  | nil =>
    simp only [runCallbacks]
    rw [set_nil_of_getD _ _ hq]
  | cons fn fns => rfl

theorem resolve_top_level (cls : TypeId → Script) (fuel : Nat) (this : Context) (t : TypeId)
    (n : String) (w : World) (hroot : this.isRoot = true)
    (hcyc : ∀ f ∈ this.frames, ¬ (f.m_interfaceType = t ∧ f.m_name = n)) :
    Context.resolve cls (fuel + 1) this t n w =
      match m_resolve cls fuel t this.m_sl (this.child t n) w with
      | (.error e, w1) => (.error e, w1)
      | (.ok p, w1) =>
        match Context.drain (Context.resolve cls fuel) (Context.tryResolve cls fuel) this w1 with
        | (.error e, w2) => (.error e, w2)
        | (.ok _, w2) => (.ok p, w2) := by
  rw [resolve_eq_finish cls fuel this t n w hcyc]
  unfold Context.finish
  rcases m_resolve cls fuel t this.m_sl (this.child t n) w with ⟨r, w1⟩
  cases r with
  | error e => rfl
  | ok p => simp only [afterResolve_root _ _ this w1 hroot]

/-! ## A creation function does not succeed below a request of its own -/

theorem Fails.of_eq {α : Type} {r : Out α} {e : ServiceLocatorException} {w : World}
    (h : r = (.error e, w)) : Fails r := ⟨e, w, h⟩

theorem Fails.not_ok {α : Type} {r : Out α} {v : α} {w : World} (h : Fails r)
    (hok : r = (.ok v, w)) : False := by
  obtain ⟨e, w1, he⟩ := h
  rw [he] at hok
  cases hok

theorem resolve_fails_on_cycle (cls : TypeId → Script) (fuel : Nat) (this : Context)
    (t : TypeId) (n : String) (w : World)
    (h : ∃ f ∈ this.frames, f.m_interfaceType = t ∧ f.m_name = n) :
    Fails (Context.resolve cls fuel this t n w) := by
  cases fuel with
  | zero => exact ⟨_, _, rfl⟩
  | succ k => exact ⟨_, _, resolve_of_cycle cls k this t n w h⟩

theorem tryResolve_fails_on_cycle (cls : TypeId → Script) (fuel : Nat) (this : Context)
    (t : TypeId) (n : String) (w : World)
    (h : ∃ f ∈ this.frames, f.m_interfaceType = t ∧ f.m_name = n) :
    Fails (Context.tryResolve cls fuel this t n w) := by
  cases fuel with
  | zero => exact ⟨_, _, rfl⟩
  | succ k => exact ⟨_, _, tryResolve_of_cycle cls k this t n w h⟩

theorem runScript_fails {res tryRes : Context → TypeId → String → World → Out Ptr}
    (sl : Context)
    (hr : ∀ t n w, (∃ f ∈ sl.frames, f.m_interfaceType = t ∧ f.m_name = n) →
      Fails (res sl t n w))
    (ht : ∀ t n w, (∃ f ∈ sl.frames, f.m_interfaceType = t ∧ f.m_name = n) →
      Fails (tryRes sl t n w)) :
    ∀ (script : Script) (fields : List Ptr) (w : World),
      (∃ f ∈ sl.frames, (f.m_interfaceType, f.m_name) ∈ script.requests) →
      Fails (runScript res tryRes sl script fields w) := by
  intro script
  induction script with
  | done =>
    intro fields w h
    obtain ⟨f, _, hf⟩ := h
    simp [Script.requests] at hf
  | resolve t n rest ih =>
    intro fields w h
    simp only [runScript]
    rcases hres : res sl t n w with ⟨r, w1⟩
    cases r with
    | error e => exact ⟨e, w1, rfl⟩
    | ok p =>
      simp only []
      apply ih
      obtain ⟨f, hf, hk⟩ := h
      simp only [Script.requests, List.mem_cons, Prod.mk.injEq] at hk
      rcases hk with hk | hk
      · exact absurd hres (fun hc => (hr t n w ⟨f, hf, hk⟩).not_ok hc)
      · exact ⟨f, hf, hk⟩
  | tryResolve t n rest ih =>
    intro fields w h
    simp only [runScript]
    rcases hres : tryRes sl t n w with ⟨r, w1⟩
    cases r with
    | error e => exact ⟨e, w1, rfl⟩
    | ok p =>
      simp only []
      apply ih
      obtain ⟨f, hf, hk⟩ := h
      simp only [Script.requests, List.mem_cons, Prod.mk.injEq] at hk
      rcases hk with hk | hk
      · exact absurd hres (fun hc => (ht t n w ⟨f, hf, hk⟩).not_ok hc)
      · exact ⟨f, hf, hk⟩
  | afterResolve fn rest _ ih =>
    intro fields w h
    simp only [runScript]
    exact ih _ _ h

theorem setConcreteType_keys {sl sl1 : Context} {t : TypeId}
    (h : sl.setConcreteType t = .ok sl1) {keys : List (TypeId × String)}
    (hk : ∃ f ∈ sl.frames, (f.m_interfaceType, f.m_name) ∈ keys) :
    ∃ f ∈ sl1.frames, (f.m_interfaceType, f.m_name) ∈ keys := by
  have hs := (SameRequest.of_setConcreteType h).2.2
  obtain ⟨f, hf, hfk⟩ := hk
  have hmem : (f.m_interfaceType, f.m_name)
      ∈ sl1.frames.map (fun f => (f.m_interfaceType, f.m_name)) := by
    rw [hs]; exact List.mem_map_of_mem _ hf
  obtain ⟨g, hg, hgk⟩ := List.mem_map.1 hmem
  exact ⟨g, hg, by rw [hgk]; exact hfk⟩

theorem construct_fails {res tryRes : Context → TypeId → String → World → Out Ptr}
    (hr : ∀ sl t n w, (∃ f ∈ sl.frames, f.m_interfaceType = t ∧ f.m_name = n) →
      Fails (res sl t n w))
    (ht : ∀ sl t n w, (∃ f ∈ sl.frames, f.m_interfaceType = t ∧ f.m_name = n) →
      Fails (tryRes sl t n w))
    (ref : BindingRef) (t : TypeId) (body : Script) (yieldsNull : Bool) (sl : Context)
    (w : World) (hk : ∃ f ∈ sl.frames, (f.m_interfaceType, f.m_name) ∈ body.requests) :
    Fails (construct res tryRes ref t body yieldsNull sl w) := by
  simp only [construct]
  cases hset : sl.setConcreteType t with
  | error e => exact ⟨e, _, rfl⟩
  | ok sl1 =>
    obtain ⟨e, w1, he⟩ := runScript_fails sl1 (hr sl1) (ht sl1) body [] (w.traceCreate ref)
      (setConcreteType_keys hset hk)
    simp only [he]
    exact ⟨e, w1, rfl⟩

theorem invoke_fails (cls : TypeId → Script) (fuel : Nat) (r : BindingRef) (F : Fn)
    (sl : Context) (w : World)
    (hk : ∃ f ∈ sl.frames, (f.m_interfaceType, f.m_name) ∈ F.requests cls) :
    Fails (invoke cls fuel r F sl w) := by
  cases fuel with
  | zero => exact ⟨_, _, rfl⟩
  | succ k =>
    have hr := fun sl t n w h => resolve_fails_on_cycle cls k sl t n w h
    have ht := fun sl t n w h => tryResolve_fails_on_cycle cls k sl t n w h
    have hnil : ∀ {P : Prop}, (∃ f ∈ sl.frames, (f.m_interfaceType, f.m_name)
        ∈ ([] : List (TypeId × String))) → P := by
      intro P h
      obtain ⟨f, _, hf⟩ := h
      cases hf
    cases F with
    | empty => exact hnil hk
    | functorY p => exact hnil hk
    | functor4a p => exact hnil hk
    | functor4 => exact hnil hk
    | functor7 t => simp only [invoke]; exact construct_fails hr ht _ _ _ _ _ _ hk
    | functor8 t => exact hnil hk
    | functor9 t => simp only [invoke]; exact construct_fails hr ht _ _ _ _ _ _ hk
    | functor10 t => exact hnil hk
    | functor12 t m_fn yn => simp only [invoke]; exact construct_fails hr ht _ _ _ _ _ _ hk
    | functor13 t m =>
      simp only [invoke, forward]
      obtain ⟨f, hf, hfk⟩ := hk
      simp only [Fn.requests, List.mem_singleton, Prod.mk.injEq] at hfk
      obtain ⟨e, w1, he⟩ := hr sl t m (w.traceCreate r) ⟨f, hf, hfk⟩
      simp only [he]
      exact ⟨e, w1, rfl⟩
    | functor15 t m =>
      simp only [invoke, forward]
      obtain ⟨f, hf, hfk⟩ := hk
      simp only [Fn.requests, List.mem_singleton, Prod.mk.injEq] at hfk
      obtain ⟨e, w1, he⟩ := hr sl t m (w.traceCreate r) ⟨f, hf, hfk⟩
      simp only [he]
      exact ⟨e, w1, rfl⟩

/-! ## Below a request of its creation function a singleton is not created -/

theorem OkKeeps.of_fails {α : Type} {ref : BindingRef} {w : World} {r : Out α}
    (h : Fails r) : OkKeeps ref w r :=
  fun _ _ hok => (h.not_ok hok).elim

theorem OkKeeps.of_error {α : Type} (ref : BindingRef) (w w1 : World)
    (e : ServiceLocatorException) : OkKeeps ref w ((.error e, w1) : Out α) :=
  fun _ _ hok => by cases hok

theorem OkKeeps.of_count {α : Type} {ref : BindingRef} {w w1 : World} (v : α)
    (h : w1.created.count ref = w.created.count ref) : OkKeeps ref w ((.ok v, w1) : Out α) := by
  intro v2 w2 hok
  simp only [Prod.mk.injEq] at hok
  rw [← hok.2]; exact h

theorem IsSingleton.after {w w1 : World} {ref : BindingRef} {F : Fn}
    (h : IsSingleton w ref F) (hev : Evolves w w1) : IsSingleton w1 ref F := by
  obtain ⟨b, hb, hc, hg⟩ := h
  obtain ⟨b1, hb1, hc1, _⟩ := hev.binding ref b hb
  refine ⟨b1, hb1, hc1.trans hc, ?_⟩
  rcases hev.cached ref b b1 hb hb1 with e | ⟨_, p, e⟩
  · rw [e]; exact hg
  · exact Or.inr ⟨p, e⟩

theorem IsSingleton.of_binding_eq {w w1 : World} {ref : BindingRef} {F : Fn}
    (h : IsSingleton w ref F) (he : w1.binding? ref = w.binding? ref) : IsSingleton w1 ref F := by
  obtain ⟨b, hb, hc, hg⟩ := h
  exact ⟨b, he.trans hb, hc, hg⟩

theorem IsSingleton.invokable {w : World} {ref : BindingRef} {F fn : Fn}
    (h : IsSingleton w ref F) (hi : Invokable w ref fn) :
    fn = .functor4 ∨ (∃ p, fn = .functor4a p) ∨ fn = F := by
  obtain ⟨b, hb, hc, hg⟩ := h
  obtain ⟨b1, hb1, hfn⟩ := hi
  rw [hb] at hb1
  cases hb1
  rcases hfn with e | ⟨_, e⟩
  · rcases hg with g | ⟨p, g⟩
    · exact Or.inl (e.symm.trans g)
    · exact Or.inr (Or.inl ⟨p, e.symm.trans g⟩)
  · exact Or.inr (Or.inr (e.symm.trans hc))

theorem Blocked.of_sameRequest {keys : List (TypeId × String)} {sl sl1 : Context}
    (h : Blocked keys sl) (hs : SameRequest sl sl1) : Blocked keys sl1 := by
  refine ⟨(hs.below (r := sl.m_root) ⟨h.1, rfl⟩).1, ?_⟩
  obtain ⟨f, hf, hfk⟩ := h.2
  have hmem : (f.m_interfaceType, f.m_name)
      ∈ sl1.frames.map (fun f => (f.m_interfaceType, f.m_name)) := by
    rw [hs.2.2]; exact List.mem_map_of_mem _ hf
  obtain ⟨g, hg, hgk⟩ := List.mem_map.1 hmem
  exact ⟨g, hg, by rw [hgk]; exact hfk⟩

theorem Blocked.under_child {keys : List (TypeId × String)} {this : Context} (h : Blocked keys this)
    (t : TypeId) (n : String) : Blocked keys (this.child t n) := by
  obtain ⟨hr, f, hf, hfk⟩ := h
  refine ⟨?_, f, List.mem_cons_of_mem _ hf, hfk⟩
  obtain ⟨a, b, frames⟩ := this
  cases frames with
  | nil => cases hf
  | cons g ps => rfl

theorem Blocked.of_request {keys : List (TypeId × String)} {this : Context}
    (hr : this.frames ≠ []) {t : TypeId} {n : String} (hk : (t, n) ∈ keys) :
    Blocked keys (this.child t n) := by
  refine ⟨?_, ⟨t, n, none⟩, List.mem_cons_self _ _, hk⟩
  obtain ⟨a, b, frames⟩ := this
  cases frames with
  | nil => exact absurd rfl hr
  | cons g ps => rfl

theorem runScript_count {ref : BindingRef} {F : Fn}
    {res tryRes : Context → TypeId → String → World → Out Ptr} (sl : Context)
    (keys : List (TypeId × String))
    (hr : ∀ t n w, (t, n) ∈ keys → IsSingleton w ref F → OkKeeps ref w (res sl t n w))
    (ht : ∀ t n w, (t, n) ∈ keys → IsSingleton w ref F → OkKeeps ref w (tryRes sl t n w))
    (hre : ResEvolves res) (hte : ResEvolves tryRes) :
    ∀ (script : Script) (fields : List Ptr) (w : World),
      (∀ k ∈ script.requests, k ∈ keys) → IsSingleton w ref F →
      OkKeeps ref w (runScript res tryRes sl script fields w) := by
  intro script
  induction script with
  | done =>
    intro fields w _ _
    exact OkKeeps.of_count _ rfl
  | resolve t n rest ih =>
    intro fields w hsub hs
    have h1 := hr t n w (hsub _ (List.mem_cons_self _ _)) hs
    have hev := hre sl t n w
    simp only [runScript]
    rcases hres : res sl t n w with ⟨r, w1⟩
    rw [hres] at h1 hev
    cases r with
    | error e => exact OkKeeps.of_error _ _ _ _
    | ok p =>
      intro v w2 hok
      have h2 := ih (fields ++ [p]) w1 (fun k hk => hsub k (List.mem_cons_of_mem _ hk))
        (hs.after hev) v w2 hok
      rw [h2]; exact h1 p w1 rfl
  | tryResolve t n rest ih =>
    intro fields w hsub hs
    have h1 := ht t n w (hsub _ (List.mem_cons_self _ _)) hs
    have hev := hte sl t n w
    simp only [runScript]
    rcases hres : tryRes sl t n w with ⟨r, w1⟩
    rw [hres] at h1 hev
    cases r with
    | error e => exact OkKeeps.of_error _ _ _ _
    | ok p =>
      intro v w2 hok
      have h2 := ih (fields ++ [p]) w1 (fun k hk => hsub k (List.mem_cons_of_mem _ hk))
        (hs.after hev) v w2 hok
      rw [h2]; exact h1 p w1 rfl
  | afterResolve fn rest _ ih =>
    intro fields w hsub hs
    simp only [runScript]
    intro v w2 hok
    have h2 := ih fields (w.pushAfterResolve sl.m_root fn) hsub
      (hs.of_binding_eq (binding?_congr _ rfl)) v w2 hok
    rw [h2]; rfl

theorem construct_count {ref : BindingRef} {F : Fn}
    {res tryRes : Context → TypeId → String → World → Out Ptr} (sl : Context)
    (keys : List (TypeId × String))
    (hr : ∀ sl1, SameRequest sl sl1 → ∀ t n w, (t, n) ∈ keys → IsSingleton w ref F →
      OkKeeps ref w (res sl1 t n w))
    (ht : ∀ sl1, SameRequest sl sl1 → ∀ t n w, (t, n) ∈ keys → IsSingleton w ref F →
      OkKeeps ref w (tryRes sl1 t n w))
    (hre : ResEvolves res) (hte : ResEvolves tryRes)
    (r : BindingRef) (t : TypeId) (body : Script) (yieldsNull : Bool) (w : World)
    (hsub : ∀ k ∈ body.requests, k ∈ keys) (hs : IsSingleton w ref F) :
    OkKeeps ref (w.traceCreate r) (construct res tryRes r t body yieldsNull sl w) := by
  simp only [construct]
  cases hset : sl.setConcreteType t with
  | error e => exact OkKeeps.of_error _ _ _ _
  | ok sl1 =>
    have hsame := SameRequest.of_setConcreteType hset
    have h1 := runScript_count sl1 keys (hr sl1 hsame) (ht sl1 hsame) hre hte body []
      (w.traceCreate r) hsub (hs.of_binding_eq (binding?_congr _ rfl))
    simp only []
    rcases hrun : runScript res tryRes sl1 body [] (w.traceCreate r) with ⟨v, w1⟩
    rw [hrun] at h1
    cases v with
    | error e => exact OkKeeps.of_error _ _ _ _
    | ok fields =>
      have hc := h1 fields w1 rfl
      cases yieldsNull with
      | true => exact OkKeeps.of_count _ hc
      | false => exact OkKeeps.of_count _ hc

theorem forward_count {ref : BindingRef} {F : Fn}
    {res : Context → TypeId → String → World → Out Ptr} (sl : Context)
    (hr : ∀ t n w, IsSingleton w ref F → OkKeeps ref w (res sl t n w))
    (r : BindingRef) (t : TypeId) (m_name : String) (w : World) (hs : IsSingleton w ref F) :
    OkKeeps ref (w.traceCreate r) (forward res r t m_name sl w) := by
  have h1 := hr t m_name (w.traceCreate r) (hs.of_binding_eq (binding?_congr _ rfl))
  simp only [forward]
  rcases hres : res sl t m_name (w.traceCreate r) with ⟨v, w1⟩
  rw [hres] at h1
  cases v with
  | error e => exact OkKeeps.of_error _ _ _ _
  | ok p => exact OkKeeps.of_count _ (h1 p w1 rfl)

theorem traceCreate_count_ne (w : World) {r ref : BindingRef} (h : r ≠ ref) :
    (w.traceCreate r).created.count ref = w.created.count ref := by
  simp [World.traceCreate, List.count_append, List.count_singleton, h]

theorem OkKeeps.of_world_eq {α : Type} {ref : BindingRef} {w : World} {r : Out α}
    (h : r.2 = w) : OkKeeps ref w r := by
  intro v w1 hok
  rw [hok] at h
  simp only at h
  rw [h]

theorem lookup_blocked_step {ref : BindingRef} {F : Fn} (cls : TypeId → Script) (fuel : Nat)
    (keys : List (TypeId × String))
    (look : Nat → TypeId → Nat → Context → World → Out Ptr) (miss : Context → World → Out Ptr)
    (hmiss : ∀ slc w, (miss slc w).2 = w)
    (ihinv : ∀ r fn sl w, Blocked keys sl → Invokable w r fn → IsSingleton w ref F →
      OkKeeps ref w (invoke cls fuel r fn sl w))
    (ihlook : ∀ t l slc w, Blocked keys slc → IsSingleton w ref F →
      OkKeeps ref w (look fuel t l slc w))
    (t : TypeId) (l : Nat) (slc : Context) (w : World) (sl : Locator)
    (hl : w.locators[l]? = some sl) (hg : Blocked keys slc) (hs : IsSingleton w ref F) :
    OkKeeps ref w
      (match sl.getTypedServiceLocator t with
        | none =>
          match sl.m_parent with
          | none => miss slc w
          | some m_parent => look fuel t m_parent slc w
        | some nsl =>
          match TypedServiceLocator.tryResolve (invoke cls fuel ⟨l, t, slc.getName⟩)
              nsl slc.getName slc w with
          | (.error e, w1) => (.error e, w1)
          | (.ok (some a, _), w1) => (.ok (some a), w1)
          | (.ok (none, slc1), w1) =>
            match sl.m_parent with
            | none => miss slc1 w1
            | some m_parent => look fuel t m_parent slc1 w1) := by
  cases hreg : sl.getTypedServiceLocator t with
  | none =>
    cases hp : sl.m_parent with
    | none => exact OkKeeps.of_world_eq (hmiss _ _)
    | some p => exact ihlook _ _ _ _ hg hs
  | some nsl =>
    simp only [TypedServiceLocator.tryResolve]
    cases hfind : Map.find nsl slc.getName with
    | none =>
      cases hp : sl.m_parent with
      | none => exact OkKeeps.of_world_eq (hmiss _ _)
      | some p => exact ihlook _ _ _ _ hg hs
    | some b =>
      have hb : w.binding? ⟨l, t, slc.getName⟩ = some b := by
        simp only [World.binding?, hl, hreg, hfind]
      have hinv : Invokable w ⟨l, t, slc.getName⟩ b.m_fnGet := ⟨b, hb, Or.inl rfl⟩
      have h1 := ihinv ⟨l, t, slc.getName⟩ b.m_fnGet slc w hg hinv hs
      have hev := (engine_evolves cls fuel).1 ⟨l, t, slc.getName⟩ b.m_fnGet slc w hinv
      simp only []
      rcases hres : invoke cls fuel ⟨l, t, slc.getName⟩ b.m_fnGet slc w with ⟨v, w1⟩
      rw [hres] at h1 hev
      cases v with
      | error e => exact OkKeeps.of_error _ _ _ _
      | ok v =>
        obtain ⟨ptr, slc1⟩ := v
        have hc := h1 _ _ rfl
        cases ptr with
        | some a => exact OkKeeps.of_count _ hc
        | none =>
          have hg1 : Blocked keys slc1 :=
            hg.of_sameRequest (invoke_sameRequest cls fuel _ _ slc w _ slc1 w1 hres)
          cases hp : sl.m_parent with
          | none =>
            intro v2 w2 hok
            simp only [] at hok
            have hm := hmiss slc1 w1
            rw [hok] at hm
            simp only at hm
            rw [hm]; exact hc
          | some p =>
            intro v2 w2 hok
            simp only [] at hok
            rw [ihlook _ _ _ _ hg1 (hs.after hev) v2 w2 hok]; exact hc

/-- Below a request that the creation function `F` of the singleton `ref` makes, no engine
call that returns has invoked that creation function: an invocation would repeat the request
and be refused by the cycle check. -/
theorem engine_blocked (cls : TypeId → Script) (ref : BindingRef) (F : Fn) : ∀ fuel : Nat,
    (∀ r fn sl w, Blocked (F.requests cls) sl → Invokable w r fn → IsSingleton w ref F →
      OkKeeps ref w (invoke cls fuel r fn sl w))
    ∧ (∀ t l slc w, Blocked (F.requests cls) slc → IsSingleton w ref F →
      OkKeeps ref w (m_resolve cls fuel t l slc w))
    ∧ (∀ t l slc w, Blocked (F.requests cls) slc → IsSingleton w ref F →
      OkKeeps ref w (m_tryResolve cls fuel t l slc w))
    ∧ (∀ this t n w, Blocked (F.requests cls) this → IsSingleton w ref F →
      OkKeeps ref w (Context.resolve cls fuel this t n w))
    ∧ (∀ this t n w, Blocked (F.requests cls) this → IsSingleton w ref F →
      OkKeeps ref w (Context.tryResolve cls fuel this t n w)) := by
  intro fuel
  induction fuel with
  | zero =>
    refine ⟨fun _ _ _ w _ _ _ => ?_, fun _ _ _ w _ _ => ?_, fun _ _ _ w _ _ => ?_,
      fun _ _ _ w _ _ => ?_, fun _ _ _ w _ _ => ?_⟩ <;> exact OkKeeps.of_error _ _ _ _
  | succ fuel ih =>
    obtain ⟨ihinv, ihm, iht, ihr, ihtr⟩ := ih
    obtain ⟨_, _, _, hre, hte⟩ := engine_evolves cls fuel
    refine ⟨?_, ?_, ?_, ?_, ?_⟩
    · intro r fn sl w hg hi hs
      by_cases hr : r = ref
      · subst hr
        rcases hs.invokable hi with e | ⟨p, e⟩ | e
        · subst e
          obtain ⟨b, hb, hc, _⟩ := hs
          simp only [invoke, hb]
          obtain ⟨e, w1, he⟩ := invoke_fails cls fuel r b.m_fnCreate sl w (by rw [hc]; exact hg.2)
          rw [he]
          exact OkKeeps.of_error _ _ _ _
        · subst e
          simp only [invoke]
          exact OkKeeps.of_count _ rfl
        · subst e
          exact OkKeeps.of_fails (invoke_fails cls (fuel + 1) r fn sl w hg.2)
      · have htr := traceCreate_count_ne w hr
        have hcon : ∀ t body yn, OkKeeps ref w
            (construct (Context.resolve cls fuel) (Context.tryResolve cls fuel) r t body yn
              sl w) := by
          intro t body yn v w1 hok
          rw [← htr]
          exact construct_count sl body.requests
            (fun sl1 hsame t n w _ hs => ihr sl1 t n w (hg.of_sameRequest hsame) hs)
            (fun sl1 hsame t n w _ hs => ihtr sl1 t n w (hg.of_sameRequest hsame) hs)
            hre hte r t body yn w (fun _ hk => hk) hs v w1 hok
        have hfor : ∀ t m, OkKeeps ref w (forward (Context.resolve cls fuel) r t m sl w) := by
          intro t m v w1 hok
          rw [← htr]
          exact forward_count sl (fun t n w hs => ihr sl t n w hg hs) r t m w hs v w1 hok
        cases fn with
        | empty => simp only [invoke]; exact OkKeeps.of_error _ _ _ _
        | functorY p => simp only [invoke]; exact OkKeeps.of_count _ rfl
        | functor4a p => simp only [invoke]; exact OkKeeps.of_count _ rfl
        | functor4 =>
          simp only [invoke]
          cases hb : w.binding? r with
          | none => exact OkKeeps.of_error _ _ _ _
          | some b =>
            have hget : b.m_fnGet = .functor4 := by
              obtain ⟨b1, hb1, hfn⟩ := hi
              rw [hb] at hb1
              cases hb1
              rcases hfn with e | ⟨e, _⟩ <;> exact e
            have h1 := ihinv r b.m_fnCreate sl w hg ⟨b, hb, Or.inr ⟨hget, rfl⟩⟩ hs
            simp only []
            rcases hres : invoke cls fuel r b.m_fnCreate sl w with ⟨v, w1⟩
            rw [hres] at h1
            cases v with
            | error e => exact OkKeeps.of_error _ _ _ _
            | ok v =>
              exact OkKeeps.of_count _ (by rw [setFnGet_created]; exact h1 _ _ rfl)
        | functor7 t => simp only [invoke]; exact hcon _ _ _
        | functor8 t => simp only [invoke]; exact hcon _ _ _
        | functor9 t => simp only [invoke]; exact hcon _ _ _
        | functor10 t => simp only [invoke]; exact hcon _ _ _
        | functor12 t m_fn yn => simp only [invoke]; exact hcon _ _ _
        | functor13 t m => simp only [invoke]; exact hfor _ _
        | functor15 t m => simp only [invoke]; exact hfor _ _
    · intro t l slc w hg hs
      simp only [m_resolve]
      cases hl : w.locators[l]? with
      | none => exact OkKeeps.of_error _ _ _ _
      | some sl =>
        exact lookup_blocked_step cls fuel _ (m_resolve cls)
          (fun slc w => (.error (unableToResolve slc), w)) (fun _ _ => rfl) ihinv ihm
          t l slc w sl hl hg hs
    · intro t l slc w hg hs
      simp only [m_tryResolve]
      cases hl : w.locators[l]? with
      | none => exact OkKeeps.of_error _ _ _ _
      | some sl =>
        exact lookup_blocked_step cls fuel _ (m_tryResolve cls)
          (fun _ w => (.ok none, w)) (fun _ _ => rfl) ihinv iht t l slc w sl hl hg hs
    · intro this t n w hg hs
      simp only [Context.resolve]
      cases hchk : checkRecursiveResolve (this.child t n) this.frames with
      | error e => exact OkKeeps.of_error _ _ _ _
      | ok u =>
        have h1 := ihm t this.m_sl (this.child t n) w (hg.under_child t n) hs
        simp only []
        rcases hres : m_resolve cls fuel t this.m_sl (this.child t n) w with ⟨v, w1⟩
        rw [hres] at h1
        cases v with
        | error e => exact OkKeeps.of_error _ _ _ _
        | ok ptr =>
          simp only [afterResolve_not_root _ _ this w1 hg.1]
          exact OkKeeps.of_count _ (h1 _ _ rfl)
    · intro this t n w hg hs
      simp only [Context.tryResolve]
      cases hchk : checkRecursiveResolve (this.child t n) this.frames with
      | error e => exact OkKeeps.of_error _ _ _ _
      | ok u =>
        have h1 := iht t this.m_sl (this.child t n) w (hg.under_child t n) hs
        simp only []
        rcases hres : m_tryResolve cls fuel t this.m_sl (this.child t n) w with ⟨v, w1⟩
        rw [hres] at h1
        cases v with
        | error e => exact OkKeeps.of_error _ _ _ _
        | ok ptr =>
          simp only [afterResolve_not_root _ _ this w1 hg.1]
          exact OkKeeps.of_count _ (h1 _ _ rfl)

/-! ## A singleton is created by one invocation of its creation function -/

theorem resolve_requested (cls : TypeId → Script) (ref : BindingRef) (F : Fn) (fuel : Nat)
    (this : Context) (t : TypeId) (n : String) (w : World) (hr : this.isRoot = false)
    (hk : (t, n) ∈ F.requests cls) (hs : IsSingleton w ref F) :
    OkKeeps ref w (Context.resolve cls fuel this t n w) := by
  cases fuel with
  | zero => exact OkKeeps.of_error _ _ _ _
  | succ k =>
    have hne : this.frames ≠ [] := (Below.frames_ne (r := this.m_root) ⟨hr, rfl⟩)
    simp only [Context.resolve]
    cases hchk : checkRecursiveResolve (this.child t n) this.frames with
    | error e => exact OkKeeps.of_error _ _ _ _
    | ok u =>
      have h1 := (engine_blocked cls ref F k).2.1 t this.m_sl (this.child t n) w
        (Blocked.of_request hne hk) hs
      simp only []
      rcases hres : m_resolve cls k t this.m_sl (this.child t n) w with ⟨v, w1⟩
      rw [hres] at h1
      cases v with
      | error e => exact OkKeeps.of_error _ _ _ _
      | ok ptr =>
        simp only [afterResolve_not_root _ _ this w1 hr]
        exact OkKeeps.of_count _ (h1 _ _ rfl)

theorem tryResolve_requested (cls : TypeId → Script) (ref : BindingRef) (F : Fn) (fuel : Nat)
    (this : Context) (t : TypeId) (n : String) (w : World) (hr : this.isRoot = false)
    (hk : (t, n) ∈ F.requests cls) (hs : IsSingleton w ref F) :
    OkKeeps ref w (Context.tryResolve cls fuel this t n w) := by
  cases fuel with
  | zero => exact OkKeeps.of_error _ _ _ _
  | succ k =>
    have hne : this.frames ≠ [] := (Below.frames_ne (r := this.m_root) ⟨hr, rfl⟩)
    simp only [Context.tryResolve]
    cases hchk : checkRecursiveResolve (this.child t n) this.frames with
    | error e => exact OkKeeps.of_error _ _ _ _
    | ok u =>
      have h1 := (engine_blocked cls ref F k).2.2.1 t this.m_sl (this.child t n) w
        (Blocked.of_request hne hk) hs
      simp only []
      rcases hres : m_tryResolve cls k t this.m_sl (this.child t n) w with ⟨v, w1⟩
      rw [hres] at h1
      cases v with
      | error e => exact OkKeeps.of_error _ _ _ _
      | ok ptr =>
        simp only [afterResolve_not_root _ _ this w1 hr]
        exact OkKeeps.of_count _ (h1 _ _ rfl)

theorem traceCreate_count_self (w : World) (ref : BindingRef) :
    (w.traceCreate ref).created.count ref = w.created.count ref + 1 := by
  simp [World.traceCreate, List.count_append, List.count_singleton]

theorem creation_once (cls : TypeId → Script) (ref : BindingRef) (F : Fn) (fuel : Nat)
    (sl : Context) (w : World) (hr : sl.isRoot = false) (hs : IsSingleton w ref F)
    (hF : F.isCreation = true) (v : Ptr × Context) (w1 : World)
    (hok : invoke cls fuel ref F sl w = (.ok v, w1)) :
    w1.created.count ref = w.created.count ref + 1 := by
  cases fuel with
  | zero => simp [invoke] at hok
  | succ k =>
    obtain ⟨_, _, _, hre, hte⟩ := engine_evolves cls k
    have hroot : ∀ sl1, SameRequest sl sl1 → sl1.isRoot = false :=
      fun sl1 hsame => (hsame.below (r := sl.m_root) ⟨hr, rfl⟩).1
    have hcon : ∀ t body yn, body.requests = F.requests cls →
        construct (Context.resolve cls k) (Context.tryResolve cls k) ref t body yn sl w
          = (.ok v, w1) → w1.created.count ref = w.created.count ref + 1 := by
      intro t body yn hreq h
      rw [← traceCreate_count_self w ref]
      exact construct_count sl (F.requests cls)
        (fun sl1 hsame t n w hk hs => resolve_requested cls ref F k sl1 t n w (hroot sl1 hsame)
          hk hs)
        (fun sl1 hsame t n w hk hs => tryResolve_requested cls ref F k sl1 t n w
          (hroot sl1 hsame) hk hs)
        hre hte ref t body yn w (fun x hx => hreq ▸ hx) hs v w1 h
    have hfor : ∀ t m, (t, m) ∈ F.requests cls →
        forward (Context.resolve cls k) ref t m sl w = (.ok v, w1) →
        w1.created.count ref = w.created.count ref + 1 := by
      intro t m hk h
      rw [← traceCreate_count_self w ref]
      simp only [forward] at h
      have h1 := resolve_requested cls ref F k sl t m (w.traceCreate ref) hr hk
        (hs.of_binding_eq (binding?_congr _ rfl))
      rcases hres : Context.resolve cls k sl t m (w.traceCreate ref) with ⟨r, w0⟩
      rw [hres] at h h1
      cases r with
      | error e => simp at h
      | ok p =>
        simp only [Prod.mk.injEq] at h
        rw [← h.2]; exact h1 p w0 rfl
    cases F with
    | empty => cases hF
    | functorY p => cases hF
    | functor4a p => cases hF
    | functor4 => cases hF
    | functor7 t => simp only [invoke] at hok; exact hcon _ _ _ rfl hok
    | functor8 t => simp only [invoke] at hok; exact hcon t .done false rfl hok
    | functor9 t => simp only [invoke] at hok; exact hcon _ _ _ rfl hok
    | functor10 t => simp only [invoke] at hok; exact hcon t .done false rfl hok
    | functor12 t m_fn yn => simp only [invoke] at hok; exact hcon _ _ _ rfl hok
    | functor13 t m =>
      simp only [invoke] at hok
      exact hfor _ _ (by simp [Fn.requests]) hok
    | functor15 t m =>
      simp only [invoke] at hok
      exact hfor _ _ (by simp [Fn.requests]) hok

theorem due_congr {w w1 : World} {ref : BindingRef} (hc : w1.created = w.created)
    (hb : w1.binding? ref = w.binding? ref) : w1.due ref = w.due ref := by
  simp only [World.due, World.pending, hc, hb]

theorem due_traceCreate_ne (w : World) {r ref : BindingRef} (h : r ≠ ref) :
    (w.traceCreate r).due ref = w.due ref := by
  simp only [World.due, traceCreate_count_ne w h, World.pending]
  rw [show (w.traceCreate r).binding? ref = w.binding? ref from binding?_congr ref rfl]

theorem due_setFnGet_ne (w : World) {r ref : BindingRef} (h : r ≠ ref) (fn : Fn) :
    (w.setFnGet r fn).due ref = w.due ref := by
  apply due_congr (setFnGet_created _ _ _)
  rw [World.setFnGet, binding?_modifyBinding, if_neg (fun e => h e.symm)]

theorem OkDue.on_error {α : Type} (ref : BindingRef) (w w1 : World)
    (e : ServiceLocatorException) : OkDue ref w ((.error e, w1) : Out α) :=
  fun _ _ hok => by cases hok

theorem OkDue.of_due {α : Type} {ref : BindingRef} {w w1 : World} (v : α)
    (h : w1.due ref = w.due ref) : OkDue ref w ((.ok v, w1) : Out α) := by
  intro v2 w2 hok
  simp only [Prod.mk.injEq] at hok
  rw [← hok.2]; exact h

theorem OkDue.on_world_eq {α : Type} {ref : BindingRef} {w : World} {r : Out α}
    (h : r.2 = w) : OkDue ref w r := by
  intro v w1 hok
  rw [hok] at h
  simp only at h
  rw [h]

theorem runScript_due {ref : BindingRef} {F : Fn}
    {res tryRes : Context → TypeId → String → World → Out Ptr} (sl : Context)
    (hr : ∀ t n w, IsSingleton w ref F → OkDue ref w (res sl t n w))
    (ht : ∀ t n w, IsSingleton w ref F → OkDue ref w (tryRes sl t n w))
    (hre : ResEvolves res) (hte : ResEvolves tryRes) :
    ∀ (script : Script) (fields : List Ptr) (w : World), IsSingleton w ref F →
      OkDue ref w (runScript res tryRes sl script fields w) := by
  intro script
  induction script with
  | done =>
    intro fields w _
    exact OkDue.of_due _ rfl
  | resolve t n rest ih =>
    intro fields w hs
    have h1 := hr t n w hs
    have hev := hre sl t n w
    simp only [runScript]
    rcases hres : res sl t n w with ⟨r, w1⟩
    rw [hres] at h1 hev
    cases r with
    | error e => exact OkDue.on_error _ _ _ _
    | ok p =>
      intro v w2 hok
      rw [ih (fields ++ [p]) w1 (hs.after hev) v w2 hok]; exact h1 p w1 rfl
  | tryResolve t n rest ih =>
    intro fields w hs
    have h1 := ht t n w hs
    have hev := hte sl t n w
    simp only [runScript]
    rcases hres : tryRes sl t n w with ⟨r, w1⟩
    rw [hres] at h1 hev
    cases r with
    | error e => exact OkDue.on_error _ _ _ _
    | ok p =>
      intro v w2 hok
      rw [ih (fields ++ [p]) w1 (hs.after hev) v w2 hok]; exact h1 p w1 rfl
  | afterResolve fn rest _ ih =>
    intro fields w hs
    simp only [runScript]
    intro v w2 hok
    rw [ih fields (w.pushAfterResolve sl.m_root fn) (hs.of_binding_eq (binding?_congr _ rfl))
      v w2 hok]
    exact due_congr rfl (binding?_congr _ rfl)

theorem construct_due {ref : BindingRef} {F : Fn}
    {res tryRes : Context → TypeId → String → World → Out Ptr} (sl : Context)
    (hr : ∀ sl1, SameRequest sl sl1 → ∀ t n w, IsSingleton w ref F →
      OkDue ref w (res sl1 t n w))
    (ht : ∀ sl1, SameRequest sl sl1 → ∀ t n w, IsSingleton w ref F →
      OkDue ref w (tryRes sl1 t n w))
    (hre : ResEvolves res) (hte : ResEvolves tryRes)
    (r : BindingRef) (hne : r ≠ ref) (t : TypeId) (body : Script) (yieldsNull : Bool)
    (w : World) (hs : IsSingleton w ref F) :
    OkDue ref w (construct res tryRes r t body yieldsNull sl w) := by
  simp only [construct]
  cases hset : sl.setConcreteType t with
  | error e => exact OkDue.on_error _ _ _ _
  | ok sl1 =>
    have hsame := SameRequest.of_setConcreteType hset
    have h1 := runScript_due sl1 (hr sl1 hsame) (ht sl1 hsame) hre hte body []
      (w.traceCreate r) (hs.of_binding_eq (binding?_congr _ rfl))
    simp only []
    rcases hrun : runScript res tryRes sl1 body [] (w.traceCreate r) with ⟨v, w1⟩
    rw [hrun] at h1
    cases v with
    | error e => exact OkDue.on_error _ _ _ _
    | ok fields =>
      have hc : w1.due ref = w.due ref := (h1 fields w1 rfl).trans (due_traceCreate_ne w hne)
      cases yieldsNull with
      | true => exact OkDue.of_due _ hc
      | false =>
        exact OkDue.of_due _ ((due_congr rfl (binding?_congr _ rfl)).trans hc)

theorem forward_due {ref : BindingRef} {F : Fn}
    {res : Context → TypeId → String → World → Out Ptr} (sl : Context)
    (hr : ∀ t n w, IsSingleton w ref F → OkDue ref w (res sl t n w))
    (r : BindingRef) (hne : r ≠ ref) (t : TypeId) (m_name : String) (w : World)
    (hs : IsSingleton w ref F) : OkDue ref w (forward res r t m_name sl w) := by
  have h1 := hr t m_name (w.traceCreate r) (hs.of_binding_eq (binding?_congr _ rfl))
  simp only [forward]
  rcases hres : res sl t m_name (w.traceCreate r) with ⟨v, w1⟩
  rw [hres] at h1
  cases v with
  | error e => exact OkDue.on_error _ _ _ _
  | ok p => exact OkDue.of_due _ ((h1 p w1 rfl).trans (due_traceCreate_ne w hne))

theorem runCallbacks_due {ref : BindingRef} {F : Fn}
    {res tryRes : Context → TypeId → String → World → Out Ptr}
    (hr : ∀ this t n w, this.frames ≠ [] → IsSingleton w ref F → OkDue ref w (res this t n w))
    (ht : ∀ this t n w, this.frames ≠ [] → IsSingleton w ref F →
      OkDue ref w (tryRes this t n w))
    (hre : ResEvolves res) (hte : ResEvolves tryRes) (m_sl : Nat) :
    ∀ (fns : List Script) (w : World), IsSingleton w ref F →
      OkDue ref w (runCallbacks res tryRes m_sl fns w) := by
  intro fns
  induction fns with
  | nil => intro w _; exact OkDue.of_due _ rfl
  | cons fn fns ih =>
    intro w hs
    simp only [runCallbacks, World.newRootContext]
    have hs0 : IsSingleton { w with fnAfterResolveLists := w.fnAfterResolveLists ++ [[]] }
        ref F := hs.of_binding_eq (binding?_congr _ rfl)
    have hne : (Context.root m_sl w.fnAfterResolveLists.length).frames ≠ [] := by
      simp [Context.root]
    have h1 := runScript_due (Context.root m_sl w.fnAfterResolveLists.length)
      (fun t n w hs => hr _ t n w hne hs) (fun t n w hs => ht _ t n w hne hs) hre hte fn []
      { w with fnAfterResolveLists := w.fnAfterResolveLists ++ [[]] } hs0
    have hev := runScript_evolves hre hte (Context.root m_sl w.fnAfterResolveLists.length) fn []
      { w with fnAfterResolveLists := w.fnAfterResolveLists ++ [[]] }
    rcases hrun : runScript res tryRes (Context.root m_sl w.fnAfterResolveLists.length) fn []
      { w with fnAfterResolveLists := w.fnAfterResolveLists ++ [[]] } with ⟨v, w1⟩
    rw [hrun] at h1 hev
    cases v with
    | error e => exact OkDue.on_error _ _ _ _
    | ok fields =>
      intro v2 w2 hok
      rw [ih w1 (hs0.after hev) v2 w2 hok, h1 fields w1 rfl]
      exact due_congr rfl (binding?_congr _ rfl)

theorem afterResolve_due {ref : BindingRef} {F : Fn}
    {res tryRes : Context → TypeId → String → World → Out Ptr}
    (hr : ∀ this t n w, this.frames ≠ [] → IsSingleton w ref F → OkDue ref w (res this t n w))
    (ht : ∀ this t n w, this.frames ≠ [] → IsSingleton w ref F →
      OkDue ref w (tryRes this t n w))
    (hre : ResEvolves res) (hte : ResEvolves tryRes) (this : Context) (w : World)
    (hs : IsSingleton w ref F) : OkDue ref w (Context.afterResolve res tryRes this w) := by
  unfold Context.afterResolve
  split
  · split
    · exact OkDue.of_due _ rfl
    · rename_i fn fns _
      have h1 := runCallbacks_due hr ht hre hte this.m_sl (fn :: fns) w hs
      rcases hrun : runCallbacks res tryRes this.m_sl (fn :: fns) w with ⟨v, w1⟩
      rw [hrun] at h1
      cases v with
      | error e => exact OkDue.on_error _ _ _ _
      | ok u =>
        exact OkDue.of_due _ ((due_congr rfl (binding?_congr _ rfl)).trans (h1 u w1 rfl))
  · exact OkDue.of_due _ rfl

theorem IsSingleton.fnGet_ne {w : World} {ref : BindingRef} {F : Fn}
    (hs : IsSingleton w ref F) (hF : F.isCreation = true) {b : shared_ptr_binding}
    (hb : w.binding? ref = some b) : b.m_fnGet ≠ F := by
  obtain ⟨b1, hb1, _, hg⟩ := hs
  rw [hb] at hb1
  cases hb1
  intro e
  rcases hg with g | ⟨p, g⟩
  · rw [← e, g] at hF; cases hF
  · rw [← e, g] at hF; cases hF

theorem lookup_due_step {ref : BindingRef} {F : Fn} (cls : TypeId → Script) (fuel : Nat)
    (hF : F.isCreation = true)
    (look : Nat → TypeId → Nat → Context → World → Out Ptr) (miss : Context → World → Out Ptr)
    (hmiss : ∀ slc w, (miss slc w).2 = w)
    (ihinv : ∀ r fn sl w, sl.isRoot = false → Invokable w r fn → IsSingleton w ref F →
      ¬ (r = ref ∧ fn = F) → OkDue ref w (invoke cls fuel r fn sl w))
    (ihlook : ∀ t l slc w, slc.isRoot = false → IsSingleton w ref F →
      OkDue ref w (look fuel t l slc w))
    (t : TypeId) (l : Nat) (slc : Context) (w : World) (sl : Locator)
    (hl : w.locators[l]? = some sl) (hg : slc.isRoot = false) (hs : IsSingleton w ref F) :
    OkDue ref w
      (match sl.getTypedServiceLocator t with
        | none =>
          match sl.m_parent with
          | none => miss slc w
          | some m_parent => look fuel t m_parent slc w
        | some nsl =>
          match TypedServiceLocator.tryResolve (invoke cls fuel ⟨l, t, slc.getName⟩)
              nsl slc.getName slc w with
          | (.error e, w1) => (.error e, w1)
          | (.ok (some a, _), w1) => (.ok (some a), w1)
          | (.ok (none, slc1), w1) =>
            match sl.m_parent with
            | none => miss slc1 w1
            | some m_parent => look fuel t m_parent slc1 w1) := by
  cases hreg : sl.getTypedServiceLocator t with
  | none =>
    cases hp : sl.m_parent with
    | none => exact OkDue.on_world_eq (hmiss _ _)
    | some p => exact ihlook _ _ _ _ hg hs
  | some nsl =>
    simp only [TypedServiceLocator.tryResolve]
    cases hfind : Map.find nsl slc.getName with
    | none =>
      cases hp : sl.m_parent with
      | none => exact OkDue.on_world_eq (hmiss _ _)
      | some p => exact ihlook _ _ _ _ hg hs
    | some b =>
      have hb : w.binding? ⟨l, t, slc.getName⟩ = some b := by
        simp only [World.binding?, hl, hreg, hfind]
      have hinv : Invokable w ⟨l, t, slc.getName⟩ b.m_fnGet := ⟨b, hb, Or.inl rfl⟩
      have hnot : ¬ ((⟨l, t, slc.getName⟩ : BindingRef) = ref ∧ b.m_fnGet = F) := by
        rintro ⟨e1, e2⟩
        subst e1
        exact hs.fnGet_ne hF hb e2
      have h1 := ihinv ⟨l, t, slc.getName⟩ b.m_fnGet slc w hg hinv hs hnot
      have hev := (engine_evolves cls fuel).1 ⟨l, t, slc.getName⟩ b.m_fnGet slc w hinv
      simp only []
      rcases hres : invoke cls fuel ⟨l, t, slc.getName⟩ b.m_fnGet slc w with ⟨v, w1⟩
      rw [hres] at h1 hev
      cases v with
      | error e => exact OkDue.on_error _ _ _ _
      | ok v =>
        obtain ⟨ptr, slc1⟩ := v
        have hc := h1 _ _ rfl
        cases ptr with
        | some a => exact OkDue.of_due _ hc
        | none =>
          have hg1 : slc1.isRoot = false :=
            ((invoke_sameRequest cls fuel _ _ slc w _ slc1 w1 hres).below
              (r := slc.m_root) ⟨hg, rfl⟩).1
          cases hp : sl.m_parent with
          | none =>
            intro v2 w2 hok
            simp only [] at hok
            have hm := hmiss slc1 w1
            rw [hok] at hm
            simp only at hm
            rw [hm]; exact hc
          | some p =>
            intro v2 w2 hok
            simp only [] at hok
            rw [ihlook _ _ _ _ hg1 (hs.after hev) v2 w2 hok]; exact hc

theorem child_isRoot {this : Context} (hne : this.frames ≠ []) (t : TypeId) (n : String) :
    (this.child t n).isRoot = false := (Below.of_child (r := this.m_root) rfl hne t n).1

theorem pending_functor4 {w : World} {ref : BindingRef} {b : shared_ptr_binding}
    (hb : w.binding? ref = some b) (hg : b.m_fnGet = .functor4) : w.pending ref = 1 := by
  simp [World.pending, hb, hg]

theorem pending_cached {w : World} {ref : BindingRef} {b : shared_ptr_binding} {p : Ptr}
    (hb : w.binding? ref = some b) (hg : b.m_fnGet = .functor4a p) : w.pending ref = 0 := by
  simp [World.pending, hb, hg]

/-- Every engine call that returns leaves `due ref` of a singleton `ref` as it was: it has
instantiated the singleton with exactly one invocation of its creation function, or it has
not invoked that function at all. -/
theorem engine_due (cls : TypeId → Script) (ref : BindingRef) (F : Fn)
    (hF : F.isCreation = true) : ∀ fuel : Nat,
    (∀ r fn sl w, sl.isRoot = false → Invokable w r fn → IsSingleton w ref F →
      ¬ (r = ref ∧ fn = F) → OkDue ref w (invoke cls fuel r fn sl w))
    ∧ (∀ t l slc w, slc.isRoot = false → IsSingleton w ref F →
      OkDue ref w (m_resolve cls fuel t l slc w))
    ∧ (∀ t l slc w, slc.isRoot = false → IsSingleton w ref F →
      OkDue ref w (m_tryResolve cls fuel t l slc w))
    ∧ (∀ this t n w, this.frames ≠ [] → IsSingleton w ref F →
      OkDue ref w (Context.resolve cls fuel this t n w))
    ∧ (∀ this t n w, this.frames ≠ [] → IsSingleton w ref F →
      OkDue ref w (Context.tryResolve cls fuel this t n w)) := by
  intro fuel
  induction fuel with
  | zero =>
    refine ⟨fun _ _ _ w _ _ _ _ => ?_, fun _ _ _ w _ _ => ?_, fun _ _ _ w _ _ => ?_,
      fun _ _ _ w _ _ => ?_, fun _ _ _ w _ _ => ?_⟩ <;> exact OkDue.on_error _ _ _ _
  | succ fuel ih =>
    obtain ⟨ihinv, ihm, iht, ihr, ihtr⟩ := ih
    obtain ⟨hinvev, _, _, hre, hte⟩ := engine_evolves cls fuel
    refine ⟨?_, ?_, ?_, ?_, ?_⟩
    · intro r fn sl w hg hi hs hnot
      have hne : ∀ sl1, SameRequest sl sl1 → sl1.frames ≠ [] := fun sl1 hsame =>
        Below.frames_ne (hsame.below (r := sl.m_root) ⟨hg, rfl⟩)
      by_cases hr : r = ref
      · subst hr
        rcases hs.invokable hi with e | ⟨p, e⟩ | e
        · subst e
          obtain ⟨b, hb, hc, hget0⟩ := hs
          have hget : b.m_fnGet = .functor4 := by
            obtain ⟨b1, hb1, hfn⟩ := hi
            rw [hb] at hb1
            cases hb1
            rcases hfn with e | ⟨e, _⟩ <;> exact e
          have hs : IsSingleton w r F := ⟨b, hb, hc, hget0⟩
          simp only [invoke, hb]
          have hev := hinvev r b.m_fnCreate sl w ⟨b, hb, Or.inr ⟨hget, rfl⟩⟩
          rcases hres : invoke cls fuel r b.m_fnCreate sl w with ⟨v, w1⟩
          rw [hres] at hev
          cases v with
          | error e => exact OkDue.on_error _ _ _ _
          | ok v =>
            obtain ⟨m, sl1⟩ := v
            have hcount := creation_once cls r F fuel sl w hg hs hF (m, sl1) w1 (hc ▸ hres)
            obtain ⟨b1, hb1, _, _⟩ := hev.binding r b hb
            apply OkDue.of_due
            have hb2 : (w1.setFnGet r (.functor4a m)).binding? r
                = some { b1 with m_fnGet := .functor4a m } := by
              rw [World.setFnGet, binding?_modifyBinding, if_pos rfl, hb1]; rfl
            simp only [World.due, setFnGet_created, hcount, pending_functor4 hb hget,
              pending_cached hb2 rfl]
        · subst e
          simp only [invoke]
          exact OkDue.of_due _ rfl
        · exact absurd ⟨rfl, e⟩ hnot
      · have hcon : ∀ t body yn, OkDue ref w
            (construct (Context.resolve cls fuel) (Context.tryResolve cls fuel) r t body yn
              sl w) :=
          fun t body yn => construct_due sl
            (fun sl1 hsame t n w hs => ihr sl1 t n w (hne sl1 hsame) hs)
            (fun sl1 hsame t n w hs => ihtr sl1 t n w (hne sl1 hsame) hs)
            hre hte r hr t body yn w hs
        have hfor : ∀ t m, OkDue ref w (forward (Context.resolve cls fuel) r t m sl w) :=
          fun t m => forward_due sl
            (fun t n w hs => ihr sl t n w (hne sl (SameRequest.same sl)) hs) r hr t m w hs
        cases fn with
        | empty => simp only [invoke]; exact OkDue.on_error _ _ _ _
        | functorY p => simp only [invoke]; exact OkDue.of_due _ rfl
        | functor4a p => simp only [invoke]; exact OkDue.of_due _ rfl
        | functor4 =>
          simp only [invoke]
          cases hb : w.binding? r with
          | none => exact OkDue.on_error _ _ _ _
          | some b =>
            have hget : b.m_fnGet = .functor4 := by
              obtain ⟨b1, hb1, hfn⟩ := hi
              rw [hb] at hb1
              cases hb1
              rcases hfn with e | ⟨e, _⟩ <;> exact e
            have h1 := ihinv r b.m_fnCreate sl w hg ⟨b, hb, Or.inr ⟨hget, rfl⟩⟩ hs
              (fun hc => hr hc.1)
            simp only []
            rcases hres : invoke cls fuel r b.m_fnCreate sl w with ⟨v, w1⟩
            rw [hres] at h1
            cases v with
            | error e => exact OkDue.on_error _ _ _ _
            | ok v =>
              exact OkDue.of_due _ ((due_setFnGet_ne w1 hr _).trans (h1 _ _ rfl))
        | functor7 t => simp only [invoke]; exact hcon _ _ _
        | functor8 t => simp only [invoke]; exact hcon _ _ _
        | functor9 t => simp only [invoke]; exact hcon _ _ _
        | functor10 t => simp only [invoke]; exact hcon _ _ _
        | functor12 t m_fn yn => simp only [invoke]; exact hcon _ _ _
        | functor13 t m => simp only [invoke]; exact hfor _ _
        | functor15 t m => simp only [invoke]; exact hfor _ _
    · intro t l slc w hg hs
      simp only [m_resolve]
      cases hl : w.locators[l]? with
      | none => exact OkDue.on_error _ _ _ _
      | some sl =>
        exact lookup_due_step cls fuel hF (m_resolve cls)
          (fun slc w => (.error (unableToResolve slc), w)) (fun _ _ => rfl) ihinv ihm
          t l slc w sl hl hg hs
    · intro t l slc w hg hs
      simp only [m_tryResolve]
      cases hl : w.locators[l]? with
      | none => exact OkDue.on_error _ _ _ _
      | some sl =>
        exact lookup_due_step cls fuel hF (m_tryResolve cls)
          (fun _ w => (.ok none, w)) (fun _ _ => rfl) ihinv iht t l slc w sl hl hg hs
    · intro this t n w hne hs
      simp only [Context.resolve]
      cases hchk : checkRecursiveResolve (this.child t n) this.frames with
      | error e => exact OkDue.on_error _ _ _ _
      | ok u =>
        have h1 := ihm t this.m_sl (this.child t n) w (child_isRoot hne t n) hs
        have hev := (engine_evolves cls fuel).2.1 t this.m_sl (this.child t n) w
        simp only []
        rcases hres : m_resolve cls fuel t this.m_sl (this.child t n) w with ⟨v, w1⟩
        rw [hres] at h1 hev
        cases v with
        | error e => exact OkDue.on_error _ _ _ _
        | ok ptr =>
          have h2 := afterResolve_due ihr ihtr hre hte this w1 (hs.after hev)
          simp only []
          rcases hafter : Context.afterResolve (Context.resolve cls fuel)
            (Context.tryResolve cls fuel) this w1 with ⟨v2, w2⟩
          rw [hafter] at h2
          cases v2 with
          | error e => exact OkDue.on_error _ _ _ _
          | ok u2 => exact OkDue.of_due _ ((h2 _ _ rfl).trans (h1 _ _ rfl))
    · intro this t n w hne hs
      simp only [Context.tryResolve]
      cases hchk : checkRecursiveResolve (this.child t n) this.frames with
      | error e => exact OkDue.on_error _ _ _ _
      | ok u =>
        have h1 := iht t this.m_sl (this.child t n) w (child_isRoot hne t n) hs
        have hev := (engine_evolves cls fuel).2.2.1 t this.m_sl (this.child t n) w
        simp only []
        rcases hres : m_tryResolve cls fuel t this.m_sl (this.child t n) w with ⟨v, w1⟩
        rw [hres] at h1 hev
        cases v with
        | error e => exact OkDue.on_error _ _ _ _
        | ok ptr =>
          have h2 := afterResolve_due ihr ihtr hre hte this w1 (hs.after hev)
          simp only []
          rcases hafter : Context.afterResolve (Context.resolve cls fuel)
            (Context.tryResolve cls fuel) this w1 with ⟨v2, w2⟩
          rw [hafter] at h2
          cases v2 with
          | error e => exact OkDue.on_error _ _ _ _
          | ok u2 => exact OkDue.of_due _ ((h2 _ _ rfl).trans (h1 _ _ rfl))

/-! ## Eager instantiation -/

theorem eagerBind_evolves (cls : TypeId → Script) (fuel : Nat) (r : BindingRef)
    (slc : Context) (w : World) : Evolves w (r.eagerBind cls fuel slc w).2 := by
  unfold BindingRef.eagerBind
  simp only []
  cases hb : w.binding? r with
  | none => exact Evolves.refl w
  | some b =>
    have h := (engine_evolves cls fuel).1 r b.m_fnGet (slc.child r.type "") w ⟨b, hb, Or.inl rfl⟩
    simp only []
    rcases hres : invoke cls fuel r b.m_fnGet (slc.child r.type "") w with ⟨v, w1⟩
    rw [hres] at h
    cases v <;> exact h

theorem eagerLoop_evolves (cls : TypeId → Script) (fuel : Nat) (slc : Context) :
    ∀ (q : List BindingRef) (w : World), Evolves w (eagerLoop cls fuel slc q w).2 := by
  intro q
  induction q with
  | nil => intro w; exact Evolves.refl w
  | cons r rest ih =>
    intro w
    simp only [eagerLoop]
    have h := eagerBind_evolves cls fuel r slc w
    rcases hres : r.eagerBind cls fuel slc w with ⟨v, w1⟩
    rw [hres] at h
    cases v with
    | error e => exact h
    | ok u => exact h.trans (ih w1)

theorem eagerBind_due (cls : TypeId → Script) (ref : BindingRef) (F : Fn)
    (hF : F.isCreation = true) (fuel : Nat) (r : BindingRef) (slc : Context) (w : World)
    (hne : slc.frames ≠ []) (hs : IsSingleton w ref F) :
    OkDue ref w (r.eagerBind cls fuel slc w) := by
  unfold BindingRef.eagerBind
  simp only []
  cases hb : w.binding? r with
  | none => exact OkDue.on_error _ _ _ _
  | some b =>
    have hnot : ¬ (r = ref ∧ b.m_fnGet = F) := by
      rintro ⟨e1, e2⟩
      subst e1
      exact hs.fnGet_ne hF hb e2
    have h := (engine_due cls ref F hF fuel).1 r b.m_fnGet (slc.child r.type "") w
      (child_isRoot hne _ _) ⟨b, hb, Or.inl rfl⟩ hs hnot
    simp only []
    rcases hres : invoke cls fuel r b.m_fnGet (slc.child r.type "") w with ⟨v, w1⟩
    rw [hres] at h
    cases v with
    | error e => exact OkDue.on_error _ _ _ _
    | ok v => exact OkDue.of_due _ (h _ _ rfl)

theorem eagerLoop_due (cls : TypeId → Script) (ref : BindingRef) (F : Fn)
    (hF : F.isCreation = true) (fuel : Nat) (slc : Context) (hne : slc.frames ≠ []) :
    ∀ (q : List BindingRef) (w : World), IsSingleton w ref F →
      OkDue ref w (eagerLoop cls fuel slc q w) := by
  intro q
  induction q with
  | nil => intro w _; exact OkDue.of_due _ rfl
  | cons r rest ih =>
    intro w hs
    simp only [eagerLoop]
    have h := eagerBind_due cls ref F hF fuel r slc w hne hs
    have hev := eagerBind_evolves cls fuel r slc w
    rcases hres : r.eagerBind cls fuel slc w with ⟨v, w1⟩
    rw [hres] at h hev
    cases v with
    | error e => exact OkDue.on_error _ _ _ _
    | ok u =>
      intro v2 w2 hok
      rw [ih w1 (hs.after hev) v2 w2 hok]; exact h _ _ rfl

theorem pending_zero_evolves {w w1 : World} {ref : BindingRef} (hev : Evolves w w1)
    (h : w.pending ref = 0) : w1.pending ref = 0 := by
  unfold World.pending at h ⊢
  cases hb : w.binding? ref with
  | none => rw [hev.unbound ref hb]
  | some b =>
    rw [hb] at h
    obtain ⟨b1, hb1, _, hkeep⟩ := hev.binding ref b hb
    have hne : b.m_fnGet ≠ .functor4 := by
      intro e; simp [e] at h
    rw [hb1]
    simp only [hkeep hne, hne, if_false]

theorem eagerBind_instantiates (cls : TypeId → Script) (ref : BindingRef) (F : Fn)
    (fuel : Nat) (slc : Context) (w w1 : World) (u : Unit) (hs : IsSingleton w ref F)
    (hok : ref.eagerBind cls fuel slc w = (.ok u, w1)) : w1.pending ref = 0 := by
  obtain ⟨b, hb, hc, hg⟩ := hs
  unfold BindingRef.eagerBind at hok
  simp only [hb] at hok
  cases fuel with
  | zero => simp [invoke] at hok
  | succ k =>
    rcases hg with g | ⟨p, g⟩
    · rw [g] at hok
      simp only [invoke, hb] at hok
      have hev := (engine_evolves cls k).1 ref b.m_fnCreate (slc.child ref.type "") w
        ⟨b, hb, Or.inr ⟨g, rfl⟩⟩
      rcases hres : invoke cls k ref b.m_fnCreate (slc.child ref.type "") w with ⟨v, w0⟩
      rw [hres] at hok hev
      cases v with
      | error e => simp at hok
      | ok v =>
        obtain ⟨m, sl1⟩ := v
        simp only [Prod.mk.injEq] at hok
        obtain ⟨b1, hb1, _, _⟩ := hev.binding ref b hb
        have hb2 : (w0.setFnGet ref (.functor4a m)).binding? ref
            = some { b1 with m_fnGet := .functor4a m } := by
          rw [World.setFnGet, binding?_modifyBinding, if_pos rfl, hb1]; rfl
        rw [← hok.2]
        exact pending_cached hb2 rfl
    · rw [g] at hok
      simp only [invoke, Prod.mk.injEq] at hok
      rw [← hok.2]
      exact pending_cached hb g

theorem eagerLoop_instantiates (cls : TypeId → Script) (ref : BindingRef) (F : Fn)
    (fuel : Nat) (slc : Context) :
    ∀ (q : List BindingRef) (w w1 : World) (u : Unit), ref ∈ q → IsSingleton w ref F →
      eagerLoop cls fuel slc q w = (.ok u, w1) → w1.pending ref = 0 := by
  intro q
  induction q with
  | nil => intro w w1 u hmem; cases hmem
  | cons r rest ih =>
    intro w w1 u hmem hs hok
    simp only [eagerLoop] at hok
    have hev := eagerBind_evolves cls fuel r slc w
    rcases hres : r.eagerBind cls fuel slc w with ⟨v, w0⟩
    rw [hres] at hok hev
    cases v with
    | error e => simp at hok
    | ok u0 =>
      simp only [] at hok
      have hev2 := eagerLoop_evolves cls fuel slc rest w0
      rw [hok] at hev2
      rcases List.mem_cons.1 hmem with e | hrest
      · subst e
        exact pending_zero_evolves hev2 (eagerBind_instantiates cls ref F fuel slc w w0 u0 hs hres)
      · exact ih w0 w1 u hrest (hs.after hev) hok

theorem binding?_set_eager (w : World) (l : Nat) (sl : Locator) (q : List BindingRef)
    (lists : List (List Script)) (heap : List Obj) (created : List BindingRef)
    (hl : w.locators[l]? = some sl) (r : BindingRef) :
    World.binding? ⟨w.locators.set l ⟨sl.m_typed_locators, q, sl.m_parent, sl.m_context⟩,
      lists, heap, created⟩ r = w.binding? r := by
  simp only [World.binding?]
  by_cases e : l = r.loc
  · subst e
    rw [List.getElem?_set_self (getElem?_some_lt hl), hl]
    rfl
  · rw [List.getElem?_set_ne e]

theorem clearEager_binding? (w : World) (l : Nat) (r : BindingRef) :
    (w.clearEager l).binding? r = w.binding? r := by
  unfold World.clearEager
  cases hl : w.locators[l]? with
  | none => rfl
  | some sl => exact binding?_set_eager w l sl [] _ _ _ hl r

theorem clearEager_created (w : World) (l : Nat) : (w.clearEager l).created = w.created := by
  unfold World.clearEager
  split <;> rfl

theorem getContext_drained (cls : TypeId → Script) (fuel : Nat) (l : Nat) (w : World)
    (sl : Locator) (hl : w.locators[l]? = some sl) :
    getContext cls fuel l (w.clearEager l) = (.ok (Context.root l sl.m_context), w.clearEager l) := by
  have hlt := getElem?_some_lt hl
  have h1 : (w.clearEager l).locators[l]?
      = some ⟨sl.m_typed_locators, [], sl.m_parent, sl.m_context⟩ := by
    simp only [World.clearEager, hl]
    exact List.getElem?_set_self hlt
  simp only [getContext, h1]

theorem eagerly_binding? (w : World) (ref r : BindingRef) :
    (eagerly_clause.eagerly ref w).binding? r = w.binding? r := by
  unfold eagerly_clause.eagerly
  cases hl : w.locators[ref.loc]? with
  | none => rfl
  | some sl => exact binding?_set_eager w ref.loc sl _ _ _ _ hl r

theorem eagerly_queue (w : World) (ref : BindingRef) (sl : Locator)
    (hl : w.locators[ref.loc]? = some sl) :
    (eagerly_clause.eagerly ref w).locators[ref.loc]?
      = some ⟨sl.m_typed_locators, sl.m_eagerBindings ++ [ref], sl.m_parent, sl.m_context⟩ := by
  simp only [eagerly_clause.eagerly, hl]
  exact List.getElem?_set_self (getElem?_some_lt hl)

theorem getContext_eager (cls : TypeId → Script) (ref : BindingRef) (F : Fn)
    (hF : F.isCreation = true) (fuel : Nat) (w w1 : World) (ctx : Context) (sl : Locator)
    (hl : w.locators[ref.loc]? = some sl) (hq : ref ∈ sl.m_eagerBindings)
    (hs : IsSingleton w ref F) (hget : getContext cls fuel ref.loc w = (.ok ctx, w1)) :
    w1.due ref = w.due ref ∧ w1.pending ref = 0 ∧ IsSingleton w1 ref F
      ∧ ∀ fuel2, getContext cls fuel2 ref.loc w1 = (.ok ctx, w1) := by
  simp only [getContext, hl] at hget
  cases hqe : sl.m_eagerBindings with
  | nil => rw [hqe] at hq; cases hq
  | cons a rest =>
    rw [hqe] at hget hq
    simp only [] at hget
    have hne : (Context.root ref.loc sl.m_context).frames ≠ [] := by simp [Context.root]
    have hdue := eagerLoop_due cls ref F hF fuel (Context.root ref.loc sl.m_context) hne
      (a :: rest) w hs
    have hev := eagerLoop_evolves cls fuel (Context.root ref.loc sl.m_context) (a :: rest) w
    rcases hloop : eagerLoop cls fuel (Context.root ref.loc sl.m_context) (a :: rest) w
      with ⟨v, w0⟩
    rw [hloop] at hget hdue hev
    cases v with
    | error e => simp at hget
    | ok u =>
      simp only [Prod.mk.injEq, Except.ok.injEq] at hget
      obtain ⟨hctx, hw1⟩ := hget
      obtain ⟨sl0, hl0, _, _, hc0⟩ := parent_of_shape hev.shape hl
      have hpend := eagerLoop_instantiates cls ref F fuel (Context.root ref.loc sl.m_context)
        (a :: rest) w w0 u hq hs hloop
      refine ⟨?_, ?_, ?_, ?_⟩
      · rw [← hw1]
        exact (due_congr (clearEager_created _ _) (clearEager_binding? _ _ _)).trans
          (hdue u w0 rfl)
      · rw [← hw1]
        simp only [World.pending, clearEager_binding?]
        exact hpend
      · rw [← hw1]
        exact (hs.after hev).of_binding_eq (clearEager_binding? _ _ _)
      · intro fuel2
        rw [← hw1, ← hctx, getContext_drained cls fuel2 ref.loc w0 sl0 hl0, hc0]

theorem IsSingleton.cached {w : World} {ref : BindingRef} {F : Fn} (hs : IsSingleton w ref F)
    (hp : w.pending ref = 0) : ∃ b p, w.binding? ref = some b ∧ b.m_fnGet = .functor4a p := by
  obtain ⟨b, hb, _, hg⟩ := hs
  rcases hg with g | ⟨p, g⟩
  · rw [pending_functor4 hb g] at hp; cases hp
  · exact ⟨b, p, hb, g⟩

theorem config_created (w0 : World) (ref : BindingRef) (F : Fn) :
    (eagerly_clause.eagerly ref (as_clause.asSingleton ref (w0.setFns ref F))).created
        = w0.created
      ∧ (eagerly_clause.eagerly ref (as_clause.asSingleton ref (w0.setFns ref F))).heap
        = w0.heap := by
  simp only [eagerly_clause.eagerly, as_clause.asSingleton, World.setFnGet, World.setFns,
    World.modifyBinding]
  constructor
  · repeat' split
    all_goals rfl
  · repeat' split
    all_goals rfl

/-! ## Clauses that change nothing -/

theorem Map.modify_fix {V : Type} (f : V → V) (m : Map V) (k : String)
    (h : ∀ v, Map.find m k = some v → f v = v) : Map.modify f m k = m := by
  induction m with
  | nil => rfl
  | cons e rest ih =>
    obtain ⟨k0, v0⟩ := e
    by_cases hk : k0 = k
    · subst hk
      have hv : f v0 = v0 := h v0 (by simp [Map.find])
      simp [Map.modify, hv]
    · have hrest : ∀ v, Map.find rest k = some v → f v = v := by
        intro v hv
        exact h v (by simp [Map.find, hk, hv])
      simp [Map.modify, hk, ih hrest]

theorem set_of_getElem? {α : Type} (l : List α) (i : Nat) (a : α) (h : l[i]? = some a) :
    l.set i a = l := by
  induction l generalizing i with
  | nil => rfl
  | cons x xs ih =>
    cases i with
    | zero => simp at h; simp [h]
    | succ j => simp at h; simp [ih j h]

theorem modifyBinding_fix (w : World) (ref : BindingRef)
    (f : shared_ptr_binding → shared_ptr_binding)
    (h : ∀ b, w.binding? ref = some b → f b = b) : w.modifyBinding ref f = w := by
  unfold World.modifyBinding
  cases hl : w.locators[ref.loc]? with
  | none => rfl
  | some sl =>
    have hreg : Map.modify (fun nsl => Map.modify f nsl ref.name) sl.m_typed_locators ref.type
        = sl.m_typed_locators := by
      apply Map.modify_fix
      intro nsl hnsl
      apply Map.modify_fix
      intro b hb
      apply h
      simp only [World.binding?, hl, Locator.getTypedServiceLocator, hnsl, hb]
    simp only [hreg]
    have hsl : (⟨sl.m_typed_locators, sl.m_eagerBindings, sl.m_parent, sl.m_context⟩ : Locator)
        = sl := rfl
    rw [hsl, set_of_getElem? _ _ _ hl]

theorem asTransient_setFns (w : World) (ref : BindingRef) (fn : Fn) :
    as_clause.asTransient ref (w.setFns ref fn) = w.setFns ref fn := by
  apply modifyBinding_fix
  intro b hb
  rw [World.setFns, binding?_modifyBinding, if_pos rfl] at hb
  cases hw : w.binding? ref with
  | none => simp [hw] at hb
  | some b0 =>
    simp only [hw, Option.map_some', Option.some.injEq] at hb
    subst hb
    rfl

theorem resolveResults_congr (cls : TypeId → Script) (fuel : Nat) (this : Context)
    (reqs : List (TypeId × String)) {w w' : World} (h : w' = w) :
    resolveResults cls fuel this reqs w' = resolveResults cls fuel this reqs w := by
  rw [h]

/-! ## Modules -/

theorem load_eq_configure (m_sl : Nat) (M : List BindStatement) (w : World) :
    Module.load m_sl M w = configure m_sl M w := by
  induction M generalizing w with
  | nil => rfl
  | cons s rest ih =>
    simp only [Module.load, configure, Module.bind]
    rcases ServiceLocator.bind s.IFace s.named m_sl w with ⟨r, w1⟩
    cases r with
    | error e => rfl
    | ok ref => exact ih _

theorem configure_append (self : Nat) (M N : List BindStatement) (w : World) :
    configure self (M ++ N) w =
      match configure self M w with
      | (.error e, w1) => (.error e, w1)
      | (.ok _, w1) => configure self N w1 := by
  induction M generalizing w with
  | nil => rfl
  | cons s rest ih =>
    simp only [List.cons_append, configure]
    rcases ServiceLocator.bind s.IFace s.named self w with ⟨r, w1⟩
    cases r with
    | error e => rfl
    | ok ref => exact ih _

theorem bind_held (w : World) (t : TypeId) (n : String) (l : Nat) (b : shared_ptr_binding)
    (hb : w.binding? ⟨l, t, n⟩ = some b) :
    ServiceLocator.bind t n l w
      = (.error (.DuplicateBindingException ("Duplicate binding for <" ++ t ++ "> named " ++ n)),
          w) := by
  simp only [World.binding?, Locator.getTypedServiceLocator] at hb
  cases hl : w.locators[l]? with
  | none => simp [hl] at hb
  | some sl =>
    simp only [hl] at hb
    cases hreg : Map.find sl.m_typed_locators t with
    | none => simp [hreg] at hb
    | some nsl =>
      simp only [hreg] at hb
      have hins : Map.insert sl.m_typed_locators t [] = sl.m_typed_locators := by
        simp [Map.insert, hreg]
      have hcan : TypedServiceLocator.bind t nsl n
          = .error (.DuplicateBindingException ("Duplicate binding for <" ++ t ++ "> named " ++ n)) := by
        simp [TypedServiceLocator.bind, TypedServiceLocator.canResolve, hb]
      unfold ServiceLocator.bind
      simp only [hl, hins, hreg, Option.getD_some, hcan]
      have hsl : (⟨sl.m_typed_locators, sl.m_eagerBindings, sl.m_parent, sl.m_context⟩ : Locator)
          = sl := rfl
      rw [hsl, set_of_getElem? _ _ _ hl]

/-! ## Configuring a locator leaves the others alone -/

theorem bind_other (t : TypeId) (n : String) (c : Nat) (w : World) (l : Nat) (h : c ≠ l) :
    (ServiceLocator.bind t n c w).2.locators[l]? = w.locators[l]? := by
  unfold ServiceLocator.bind
  cases hl : w.locators[c]? with
  | none => rfl
  | some sl =>
    simp only []
    split
    · exact List.getElem?_set_ne h
    · exact List.getElem?_set_ne h

theorem modifyBinding_other (w : World) (ref : BindingRef)
    (f : shared_ptr_binding → shared_ptr_binding) (l : Nat) (h : ref.loc ≠ l) :
    (w.modifyBinding ref f).locators[l]? = w.locators[l]? := by
  unfold World.modifyBinding
  cases hl : w.locators[ref.loc]? with
  | none => rfl
  | some sl => exact List.getElem?_set_ne h

theorem eagerly_other (w : World) (ref : BindingRef) (l : Nat) (h : ref.loc ≠ l) :
    (eagerly_clause.eagerly ref w).locators[l]? = w.locators[l]? := by
  unfold eagerly_clause.eagerly
  cases hl : w.locators[ref.loc]? with
  | none => rfl
  | some sl => exact List.getElem?_set_ne h

theorem ConfiguredOn.other {c : Nat} {w w' : World} (h : ConfiguredOn c w w') (l : Nat)
    (hne : c ≠ l) : w'.locators[l]? = w.locators[l]? := by
  induction h with
  | start => rfl
  | bind t n _ ih => rw [bind_other t n c _ l hne, ih]
  | clause t n f _ ih => rw [modifyBinding_other _ _ f l hne, ih]
  | eagerly t n _ ih => rw [eagerly_other _ _ l hne, ih]

theorem Nearest.of_agree {w w2 : World}
    (hag : ∀ (l : Nat) (sl : Locator), w.locators[l]? = some sl → w2.locators[l]? = some sl)
    {t : TypeId} {n : String} {l d o : Nat} (h : Nearest w t n l d o) :
    Nearest w2 t n l d o ∧ w2.binding? ⟨o, t, n⟩ = w.binding? ⟨o, t, n⟩ := by
  have hbind : ∀ (r : BindingRef) (sl : Locator), w.locators[r.loc]? = some sl →
      w2.binding? r = w.binding? r := by
    intro r sl hsl
    apply binding?_congr
    rw [hsl, hag _ _ hsl]
  induction h with
  | @here l b hb =>
    have hlt := binding?_some_lt hb
    have hsl : w.locators[l]? = some (w.locators[l]) := List.getElem?_eq_getElem hlt
    have e := hbind ⟨l, t, n⟩ _ hsl
    exact ⟨Nearest.here (e.trans hb), e⟩
  | @up l p d o sl hl hb hp _ ih =>
    have e := hbind ⟨l, t, n⟩ sl hl
    exact ⟨Nearest.up (hag _ _ hl) (e.trans hb) hp ih.1, ih.2⟩

/-! ## The object behind a returned instance -/

theorem modifyBinding_heap (w : World) (ref : BindingRef)
    (f : shared_ptr_binding → shared_ptr_binding) : (w.modifyBinding ref f).heap = w.heap := by
  simp only [World.modifyBinding]
  split <;> rfl

theorem construct_object {res tryRes : Context → TypeId → String → World → Out Ptr}
    (ref : BindingRef) (T : TypeId) (body : Script) (sl sl1 : Context) (w w2 : World) (p : Ptr)
    (h : construct res tryRes ref T body false sl w = (.ok (p, sl1), w2)) :
    sl.setConcreteType T = .ok sl1
    ∧ ∃ a fields, p = some a ∧ w2.heap[a]? = some ⟨T, fields, sl1⟩ := by
  simp only [construct] at h
  cases hset : sl.setConcreteType T with
  | error e => simp [hset] at h
  | ok sl0 =>
    simp only [hset] at h
    rcases hrun : runScript res tryRes sl0 body [] (w.traceCreate ref) with ⟨r, w0⟩
    rw [hrun] at h
    cases r with
    | error e => simp at h
    | ok fields =>
      simp only [Bool.false_eq_true, if_false, Prod.mk.injEq, Except.ok.injEq] at h
      obtain ⟨⟨rfl, rfl⟩, rfl⟩ := h
      refine ⟨rfl, w0.heap.length, fields, rfl, ?_⟩
      simp [World.alloc]

theorem invoke_object (cls : TypeId → Script) (G : Nat) (ref : BindingRef) (fn : Fn)
    (T : TypeId) (body : Script)
    (hkind : fn = .functor7 T ∨ fn = .functor9 T ∨ fn = .functor12 T body false)
    (sl sl1 : Context) (w w2 : World) (p : Ptr)
    (h : invoke cls G ref fn sl w = (.ok (p, sl1), w2)) :
    sl.setConcreteType T = .ok sl1
    ∧ ∃ a fields, p = some a ∧ w2.heap[a]? = some ⟨T, fields, sl1⟩ := by
  cases G with
  | zero => simp [invoke] at h
  | succ H =>
    rcases hkind with e | e | e <;> subst e <;> simp only [invoke] at h <;>
      exact construct_object _ _ _ _ _ _ _ _ h

theorem get_object (cls : TypeId → Script) (G : Nat) (ref : BindingRef) (b : shared_ptr_binding)
    (F : Fn) (T : TypeId) (body : Script) (sl sl1 : Context) (w w2 : World) (p : Ptr)
    (hb : w.binding? ref = some b)
    (hfn : b.m_fnGet = F ∨ (b.m_fnGet = .functor4 ∧ b.m_fnCreate = F))
    (hkind : F = .functor7 T ∨ F = .functor9 T ∨ F = .functor12 T body false)
    (h : invoke cls G ref b.m_fnGet sl w = (.ok (p, sl1), w2)) :
    sl.setConcreteType T = .ok sl1
    ∧ ∃ a fields, p = some a ∧ w2.heap[a]? = some ⟨T, fields, sl1⟩
      ∧ (b.m_fnGet = .functor4 →
          ∃ b2, w2.binding? ref = some b2 ∧ b2.m_fnGet = .functor4a (some a)) := by
  have hF4 : F ≠ .functor4 := by
    rcases hkind with e | e | e <;> rw [e] <;> simp
  rcases hfn with e | ⟨e4, ec⟩
  · rw [e] at h
    obtain ⟨hset, a, fields, hp, hh⟩ := invoke_object cls G ref F T body hkind sl sl1 w w2 p h
    exact ⟨hset, a, fields, hp, hh, fun e' => absurd (e.symm.trans e') hF4⟩
  · cases G with
    | zero => simp [invoke] at h
    | succ H =>
      rw [e4, invoke_functor4 cls H ref sl w b hb, ec] at h
      have hev := (engine_evolves cls H).1 ref F sl w ⟨b, hb, Or.inr ⟨e4, ec⟩⟩
      rcases hinv : invoke cls H ref F sl w with ⟨r, w1⟩
      rw [hinv] at h hev
      cases r with
      | error e => simp at h
      | ok v =>
        obtain ⟨q, sl0⟩ := v
        simp only [Prod.mk.injEq, Except.ok.injEq] at h
        obtain ⟨⟨rfl, rfl⟩, rfl⟩ := h
        obtain ⟨hset, a, fields, rfl, hh⟩ :=
          invoke_object cls H ref F T body hkind sl sl0 w w1 q hinv
        obtain ⟨b1, hb1, _, _⟩ := hev.binding _ _ hb
        refine ⟨hset, a, fields, rfl, ?_, fun _ => ⟨⟨.functor4a (some a), b1.m_fnCreate⟩, ?_, rfl⟩⟩
        · rw [World.setFnGet, modifyBinding_heap]; exact hh
        · rw [World.setFnGet, binding?_modifyBinding, if_pos rfl, hb1]; rfl

theorem getElem?_append_more {α : Type} {l l' more : List α} {a : Nat} {x : α}
    (h : l[a]? = some x) (hl : l' = l ++ more) : l'[a]? = some x := by
  rw [hl, List.getElem?_append_left (getElem?_some_lt h)]
  exact h

/-- What a resolve that is served by an object-creating binding returns: the object that the
creation function built on the request context. -/
theorem resolve_object (cls : TypeId → Script) (w : World) (this : Context)
    (t : TypeId) (n : String) (d o fuel : Nat) (b : shared_ptr_binding) (F : Fn) (T : TypeId)
    (body : Script) (a : Nat) (w1 : World)
    (hnear : Nearest w t n this.m_sl d o)
    (hb : w.binding? ⟨o, t, n⟩ = some b)
    (hfn : b.m_fnGet = F ∨ (b.m_fnGet = .functor4 ∧ b.m_fnCreate = F))
    (hkind : F = .functor7 T ∨ F = .functor9 T ∨ F = .functor12 T body false)
    (hres : Context.resolve cls fuel this t n w = (.ok (some a), w1)) :
    (∃ fields, w1.heap[a]?
        = some ⟨T, fields, ⟨this.m_sl, this.m_root, ⟨t, n, some T⟩ :: this.frames⟩⟩)
    ∧ (b.m_fnGet = .functor4 →
        ∃ b2, w1.binding? ⟨o, t, n⟩ = some b2 ∧ b2.m_fnGet = .functor4a (some a)) := by
  cases fuel with
  | zero => simp [Context.resolve] at hres
  | succ K =>
    by_cases hcyc : ∃ f ∈ this.frames, f.m_interfaceType = t ∧ f.m_name = n
    · rw [resolve_of_cycle cls K this t n w hcyc] at hres
      simp at hres
    · have hcyc' : ∀ f ∈ this.frames, ¬ (f.m_interfaceType = t ∧ f.m_name = n) :=
        fun f hf hk => hcyc ⟨f, hf, hk⟩
      rw [resolve_eq_finish cls K this t n w hcyc'] at hres
      rcases hm : m_resolve cls K t this.m_sl (this.child t n) w with ⟨r, wm⟩
      rw [hm] at hres
      cases r with
      | error e => simp [Context.finish] at hres
      | ok q =>
        simp only [Context.finish] at hres
        obtain ⟨_, _, _, ihr, ihtr⟩ := engine_evolves cls K
        have hev := afterResolve_evolves ihr ihtr this wm
        rcases haft : Context.afterResolve (Context.resolve cls K) (Context.tryResolve cls K)
          this wm with ⟨r2, w2⟩
        rw [haft] at hres hev
        cases r2 with
        | error e => simp at hres
        | ok u =>
          simp only [Prod.mk.injEq, Except.ok.injEq] at hres
          obtain ⟨rfl, rfl⟩ := hres
          obtain ⟨F', _, hm'⟩ := m_resolve_walk_ok cls hnear (this.child t n) rfl K _ wm hm
          cases F' with
          | zero => simp [m_resolve] at hm'
          | succ G =>
            rw [m_resolve_hit cls G (this.child t n) hb] at hm'
            simp only [served, child_getName] at hm'
            rcases hinv : invoke cls G ⟨o, t, n⟩ b.m_fnGet (this.child t n) w with ⟨r3, w3⟩
            rw [hinv] at hm'
            cases r3 with
            | error e => simp at hm'
            | ok v =>
              obtain ⟨p0, sl1⟩ := v
              obtain ⟨hset, a', fields, rfl, hh, hc⟩ := get_object cls G ⟨o, t, n⟩ b F T body
                (this.child t n) sl1 w w3 p0 hb hfn hkind hinv
              simp only [Prod.mk.injEq, Except.ok.injEq, Option.some.injEq] at hm'
              obtain ⟨rfl, rfl⟩ := hm'
              have hsl1 : sl1 = ⟨this.m_sl, this.m_root, ⟨t, n, some T⟩ :: this.frames⟩ := by
                have : (this.child t n).setConcreteType T
                    = .ok ⟨this.m_sl, this.m_root, ⟨t, n, some T⟩ :: this.frames⟩ := rfl
                rw [this] at hset
                cases hset
                rfl
              subst hsl1
              obtain ⟨more, hmore⟩ := hev.heap
              refine ⟨⟨fields, getElem?_append_more hh hmore⟩, ?_⟩
              intro e4
              obtain ⟨b2, hb2, hg2⟩ := hc e4
              obtain ⟨b3, hb3, _, hg3⟩ := hev.binding _ _ hb2
              exact ⟨b3, hb3, by rw [hg3 (by rw [hg2]; simp), hg2]⟩

theorem resolve_of_tryResolve_some (cls : TypeId → Script) (fuel : Nat) (this : Context)
    (t : TypeId) (n : String) (w w1 : World) (a : Nat)
    (h : Context.tryResolve cls fuel this t n w = (.ok (some a), w1)) :
    Context.resolve cls fuel this t n w = (.ok (some a), w1) := by
  cases fuel with
  | zero => simp [Context.tryResolve] at h
  | succ K =>
    by_cases hcyc : ∃ f ∈ this.frames, f.m_interfaceType = t ∧ f.m_name = n
    · rw [tryResolve_of_cycle cls K this t n w hcyc] at h
      simp at h
    · have hcyc' : ∀ f ∈ this.frames, ¬ (f.m_interfaceType = t ∧ f.m_name = n) :=
        fun f hf hk => hcyc ⟨f, hf, hk⟩
      rw [tryResolve_eq_finish cls K this t n w hcyc'] at h
      rw [resolve_eq_finish cls K this t n w hcyc']
      obtain ⟨slc1, _, hthrow⟩ := m_resolve_eq_throwIfEmpty cls K t this.m_sl (this.child t n) w
      rw [hthrow]
      rcases hm : m_tryResolve cls K t this.m_sl (this.child t n) w with ⟨r, wm⟩
      rw [hm] at h
      cases r with
      | error e => simp [Context.finish] at h
      | ok q =>
        cases q with
        | some a' => exact h
        | none =>
          simp only [Context.finish] at h
          rcases haft : Context.afterResolve (Context.resolve cls K) (Context.tryResolve cls K)
            this wm with ⟨r2, w2⟩
          rw [haft] at h
          cases r2 with
          | error e => simp at h
          | ok u => simp at h

theorem cached_everywhere (cls : TypeId → Script) (w w' : World) (t : TypeId) (n : String)
    (o a : Nat) (b : shared_ptr_binding) (hb : w.binding? ⟨o, t, n⟩ = some b)
    (hfn : b.m_fnGet = .functor4a (some a)) (hev : Evolves w w')
    (this : Context) (d k : Nat) (hnear : Nearest w' t n this.m_sl d o)
    (hcyc : ∀ f ∈ this.frames, ¬ (f.m_interfaceType = t ∧ f.m_name = n))
    (hq : this.isRoot = true → w'.fnAfterResolveLists.getD this.m_root [] = [])
    (hk : d + 3 ≤ k) :
    Context.resolve cls k this t n w' = (.ok (some a), w')
    ∧ Context.tryResolve cls k this t n w' = (.ok (some a), w') := by
  obtain ⟨b', hb', _, hg⟩ := hev.binding _ _ hb
  have hfn' : b'.m_fnGet = .functor4a (some a) := by rw [hg (by rw [hfn]; simp), hfn]
  exact ⟨resolve_cached cls w' this t n d o k b' a hnear hb' (Or.inl hfn') hcyc hq hk,
    tryResolve_cached cls w' this t n d o k b' a hnear hb' (Or.inl hfn') hcyc hq hk⟩

/-! ## The cycle check keeps the binding under construction as it is -/

theorem KeepsBinding.stay (kt : TypeId) (kn : String) (w : World) : KeepsBinding kt kn w w :=
  fun _ _ _ => rfl

theorem KeepsBinding.next {kt : TypeId} {kn : String} {w w1 w2 : World}
    (h1 : KeepsBinding kt kn w w1) (h2 : KeepsBinding kt kn w1 w2) : KeepsBinding kt kn w w2 :=
  fun r ht hn => Eq.trans (h2 r ht hn) (h1 r ht hn)

theorem KeepsBinding.of_same_locators {kt : TypeId} {kn : String} {w w' : World}
    (h : w'.locators = w.locators) : KeepsBinding kt kn w w' :=
  fun r _ _ => binding?_congr r (by rw [h])

theorem KeepsBinding.setOther (kt : TypeId) (kn : String) (w : World) (ref : BindingRef)
    (fn : Fn) (h : ¬ (ref.type = kt ∧ ref.name = kn)) :
    KeepsBinding kt kn w (w.setFnGet ref fn) := by
  intro r ht hn
  have hne : ¬ r = ref := by
    intro e; subst e; exact h ⟨ht, hn⟩
  rw [World.setFnGet, binding?_modifyBinding, if_neg hne]

theorem runScript_stays {kt : TypeId} {kn : String}
    {res tryRes : Context → TypeId → String → World → Out Ptr}
    (hr : ResStays kt kn res) (ht : ResStays kt kn tryRes) (sl : Context)
    (hg : Guarded kt kn sl) :
    ∀ (script : Script) (fields : List Ptr) (w : World),
      KeepsBinding kt kn w (runScript res tryRes sl script fields w).2 := by
  intro script
  induction script with
  | done => intro fields w; exact KeepsBinding.stay kt kn w
  | resolve t n rest ih =>
    intro fields w
    have h := hr sl t n w hg
    simp only [runScript]
    rcases hres : res sl t n w with ⟨r, w1⟩
    rw [hres] at h
    cases r with
    | error e => exact h
    | ok p => exact h.next (ih _ _)
  | tryResolve t n rest ih =>
    intro fields w
    have h := ht sl t n w hg
    simp only [runScript]
    rcases hres : tryRes sl t n w with ⟨r, w1⟩
    rw [hres] at h
    cases r with
    | error e => exact h
    | ok p => exact h.next (ih _ _)
  | afterResolve fn rest _ ih =>
    intro fields w
    simp only [runScript]
    have h0 : KeepsBinding kt kn w (w.pushAfterResolve sl.m_root fn) :=
      KeepsBinding.of_same_locators rfl
    exact h0.next (ih _ _)


theorem construct_stays_after_trace {kt : TypeId} {kn : String}
    {res tryRes : Context → TypeId → String → World → Out Ptr}
    (hr : ResStays kt kn res) (ht : ResStays kt kn tryRes) (ref : BindingRef) (t : TypeId)
    (body : Script) (yieldsNull : Bool) (sl : Context) (w : World) (hg : Guarded kt kn sl) :
    KeepsBinding kt kn (w.traceCreate ref) (construct res tryRes ref t body yieldsNull sl w).2 := by
  simp only [construct]
  cases hset : sl.setConcreteType t with
  | error e => exact KeepsBinding.stay _ _ _
  | ok sl1 =>
    have h1 := runScript_stays hr ht sl1 (hg.setConcreteType hset) body [] (w.traceCreate ref)
    simp only []
    rcases hrun : runScript res tryRes sl1 body [] (w.traceCreate ref) with ⟨r, w1⟩
    rw [hrun] at h1
    cases r with
    | error e => exact h1
    | ok fields =>
      cases yieldsNull with
      | true => exact h1
      | false => exact h1.next (KeepsBinding.of_same_locators rfl)


theorem forward_stays_after_trace {kt : TypeId} {kn : String}
    {res : Context → TypeId → String → World → Out Ptr}
    (hr : ResStays kt kn res) (ref : BindingRef) (t : TypeId) (m_name : String) (sl : Context)
    (w : World) (hg : Guarded kt kn sl) :
    KeepsBinding kt kn (w.traceCreate ref) (forward res ref t m_name sl w).2 := by
  have h1 := hr sl t m_name (w.traceCreate ref) hg
  simp only [forward]
  rcases hres : res sl t m_name (w.traceCreate ref) with ⟨r, w1⟩
  rw [hres] at h1
  cases r with
  | error e => exact h1
  | ok p => exact h1


theorem lookup_stays_step {kt : TypeId} {kn : String} (cls : TypeId → Script) (fuel : Nat)
    (look : Nat → TypeId → Nat → Context → World → Out Ptr) (miss : Context → World → Out Ptr)
    (hmiss : ∀ slc w, (miss slc w).2 = w)
    (ihinv : ∀ ref fn sl w, ¬ (ref.type = kt ∧ ref.name = kn) → Guarded kt kn sl →
      KeepsBinding kt kn w (invoke cls fuel ref fn sl w).2)
    (ihinv_ctx : ∀ ref fn sl w p sl1 w1, invoke cls fuel ref fn sl w = (.ok (p, sl1), w1) →
      Guarded kt kn sl → Guarded kt kn sl1 ∧ sl1.getName = sl.getName)
    (ihlook : ∀ t l slc w, ¬ (t = kt ∧ slc.getName = kn) → Guarded kt kn slc →
      KeepsBinding kt kn w (look fuel t l slc w).2)
    (t : TypeId) (l : Nat) (slc : Context) (w : World) (sl : Locator)
    (hk : ¬ (t = kt ∧ slc.getName = kn)) (hg : Guarded kt kn slc) :
    KeepsBinding kt kn w
      (match sl.getTypedServiceLocator t with
        | none =>
          match sl.m_parent with
          | none => miss slc w
          | some m_parent => look fuel t m_parent slc w
        | some nsl =>
          match TypedServiceLocator.tryResolve (invoke cls fuel ⟨l, t, slc.getName⟩)
              nsl slc.getName slc w with
          | (.error e, w1) => (.error e, w1)
          | (.ok (some a, _), w1) => (.ok (some a), w1)
          | (.ok (none, slc1), w1) =>
            match sl.m_parent with
            | none => miss slc1 w1
            | some m_parent => look fuel t m_parent slc1 w1).2 := by
  cases hreg : sl.getTypedServiceLocator t with
  | none =>
    cases hp : sl.m_parent with
    | none => simp only [hmiss]; exact KeepsBinding.stay _ _ w
    | some p => exact ihlook _ _ _ _ hk hg
  | some nsl =>
    simp only [TypedServiceLocator.tryResolve]
    cases hfind : Map.find nsl slc.getName with
    | none =>
      cases hp : sl.m_parent with
      | none => simp only [hmiss]; exact KeepsBinding.stay _ _ w
      | some p => exact ihlook _ _ _ _ hk hg
    | some b =>
      have h1 := ihinv ⟨l, t, slc.getName⟩ b.m_fnGet slc w hk hg
      simp only []
      rcases hres : invoke cls fuel ⟨l, t, slc.getName⟩ b.m_fnGet slc w with ⟨r, w1⟩
      rw [hres] at h1
      cases r with
      | error e => exact h1
      | ok v =>
        obtain ⟨ptr, slc1⟩ := v
        cases ptr with
        | some a => exact h1
        | none =>
          obtain ⟨hg1, hn1⟩ := ihinv_ctx _ _ _ _ _ _ _ hres hg
          cases hp : sl.m_parent with
          | none => simp only [hmiss]; exact h1
          | some p => exact h1.next (ihlook _ _ _ _ (by rw [hn1]; exact hk) hg1)

/-- Below a request for the key `(kt, kn)`, no engine call changes a binding with that key:
the cycle check refuses the request before any lookup. -/
theorem engine_stays (cls : TypeId → Script) (kt : TypeId) (kn : String) : ∀ fuel : Nat,
    (∀ ref fn sl w, ¬ (ref.type = kt ∧ ref.name = kn) → Guarded kt kn sl →
      KeepsBinding kt kn w (invoke cls fuel ref fn sl w).2)
    ∧ (∀ t l slc w, ¬ (t = kt ∧ slc.getName = kn) → Guarded kt kn slc →
      KeepsBinding kt kn w (m_resolve cls fuel t l slc w).2)
    ∧ (∀ t l slc w, ¬ (t = kt ∧ slc.getName = kn) → Guarded kt kn slc →
      KeepsBinding kt kn w (m_tryResolve cls fuel t l slc w).2)
    ∧ ResStays kt kn (Context.resolve cls fuel)
    ∧ ResStays kt kn (Context.tryResolve cls fuel) := by
  intro fuel
  induction fuel with
  | zero =>
    refine ⟨fun _ _ _ w _ _ => ?_, fun _ _ _ w _ _ => ?_, fun _ _ _ w _ _ => ?_,
      fun _ _ _ w _ => ?_, fun _ _ _ w _ => ?_⟩
    · simp only [invoke]; exact KeepsBinding.stay _ _ w
    · simp only [m_resolve]; exact KeepsBinding.stay _ _ w
    · simp only [m_tryResolve]; exact KeepsBinding.stay _ _ w
    · simp only [Context.resolve]; exact KeepsBinding.stay _ _ w
    · simp only [Context.tryResolve]; exact KeepsBinding.stay _ _ w
  | succ fuel ih =>
    obtain ⟨ihinv, ihm, iht, ihr, ihtr⟩ := ih
    have hctx : ∀ ref fn sl w p sl1 w1, invoke cls fuel ref fn sl w = (.ok (p, sl1), w1) →
        Guarded kt kn sl → Guarded kt kn sl1 ∧ sl1.getName = sl.getName :=
      fun ref fn sl w p sl1 w1 h hg =>
        have hs := invoke_sameRequest cls fuel ref fn sl w p sl1 w1 h
        ⟨hs.guarded hg, hs.getName⟩
    refine ⟨?_, ?_, ?_, ?_, ?_⟩
    · intro ref fn sl w hk hg
      have htr := (KeepsBinding.of_same_locators rfl : KeepsBinding kt kn w (w.traceCreate ref))
      cases fn with
      | empty => simp only [invoke]; exact KeepsBinding.stay _ _ w
      | functorY p => simp only [invoke]; exact KeepsBinding.stay _ _ w
      | functor4a p => simp only [invoke]; exact KeepsBinding.stay _ _ w
      | functor4 =>
        simp only [invoke]
        cases hb : w.binding? ref with
        | none => exact KeepsBinding.stay _ _ w
        | some b =>
          have h1 := ihinv ref b.m_fnCreate sl w hk hg
          simp only []
          rcases hres : invoke cls fuel ref b.m_fnCreate sl w with ⟨r, w1⟩
          rw [hres] at h1
          cases r with
          | error e => exact h1
          | ok v => exact h1.next (KeepsBinding.setOther _ _ _ _ _ hk)
      | functor7 t =>
        simp only [invoke]; exact htr.next (construct_stays_after_trace ihr ihtr _ _ _ _ _ _ hg)
      | functor8 t =>
        simp only [invoke]; exact htr.next (construct_stays_after_trace ihr ihtr _ _ _ _ _ _ hg)
      | functor9 t =>
        simp only [invoke]; exact htr.next (construct_stays_after_trace ihr ihtr _ _ _ _ _ _ hg)
      | functor10 t =>
        simp only [invoke]; exact htr.next (construct_stays_after_trace ihr ihtr _ _ _ _ _ _ hg)
      | functor12 t m_fn yn =>
        simp only [invoke]; exact htr.next (construct_stays_after_trace ihr ihtr _ _ _ _ _ _ hg)
      | functor13 t m =>
        simp only [invoke]; exact htr.next (forward_stays_after_trace ihr _ _ _ _ _ hg)
      | functor15 t m =>
        simp only [invoke]; exact htr.next (forward_stays_after_trace ihr _ _ _ _ _ hg)
    · intro t l slc w hk hg
      simp only [m_resolve]
      cases hl : w.locators[l]? with
      | none => exact KeepsBinding.stay _ _ w
      | some sl =>
        exact lookup_stays_step cls fuel (m_resolve cls)
          (fun slc w => (.error (unableToResolve slc), w)) (fun _ _ => rfl) ihinv hctx ihm
          t l slc w sl hk hg
    · intro t l slc w hk hg
      simp only [m_tryResolve]
      cases hl : w.locators[l]? with
      | none => exact KeepsBinding.stay _ _ w
      | some sl =>
        exact lookup_stays_step cls fuel (m_tryResolve cls)
          (fun _ w => (.ok none, w)) (fun _ _ => rfl) ihinv hctx iht t l slc w sl hk hg
    · intro this t n w hg
      simp only [Context.resolve]
      cases hchk : checkRecursiveResolve (this.child t n) this.frames with
      | error e => exact KeepsBinding.stay _ _ w
      | ok u =>
        have hk : ¬ (t = kt ∧ (this.child t n).getName = kn) := by
          rintro ⟨rfl, hn⟩
          have hn' : n = kn := hn
          subst hn'
          rw [checkRecursiveResolve_error (this.child t n) this.frames hg.2] at hchk
          cases hchk
        have h1 := ihm t this.m_sl (this.child t n) w hk (hg.child t n)
        simp only []
        rcases hres : m_resolve cls fuel t this.m_sl (this.child t n) w with ⟨r, w1⟩
        rw [hres] at h1
        cases r with
        | error e => exact h1
        | ok ptr => simp only [afterResolve_not_root _ _ this w1 hg.1]; exact h1
    · intro this t n w hg
      simp only [Context.tryResolve]
      cases hchk : checkRecursiveResolve (this.child t n) this.frames with
      | error e => exact KeepsBinding.stay _ _ w
      | ok u =>
        have hk : ¬ (t = kt ∧ (this.child t n).getName = kn) := by
          rintro ⟨rfl, hn⟩
          have hn' : n = kn := hn
          subst hn'
          rw [checkRecursiveResolve_error (this.child t n) this.frames hg.2] at hchk
          cases hchk
        have h1 := iht t this.m_sl (this.child t n) w hk (hg.child t n)
        simp only []
        rcases hres : m_tryResolve cls fuel t this.m_sl (this.child t n) w with ⟨r, w1⟩
        rw [hres] at h1
        cases r with
        | error e => exact h1
        | ok ptr => simp only [afterResolve_not_root _ _ this w1 hg.1]; exact h1

/-- A creation function that is invoked on the request context of its own key leaves its
binding as it is, whether it returns or throws. -/
theorem creation_keeps_binding (cls : TypeId → Script) (fuel : Nat) (ref : BindingRef) (F : Fn)
    (sl : Context) (w : World) (hF : F.isCreation = true)
    (hg : Guarded ref.type ref.name sl) :
    (invoke cls fuel ref F sl w).2.binding? ref = w.binding? ref := by
  cases fuel with
  | zero => rfl
  | succ k =>
    obtain ⟨_, _, _, ihr, ihtr⟩ := engine_stays cls ref.type ref.name k
    cases F with
    | empty => cases hF
    | functorY p => cases hF
    | functor4a p => cases hF
    | functor4 => cases hF
    | functor7 t =>
      simp only [invoke]
      exact construct_stays_after_trace ihr ihtr ref _ _ _ sl w hg ref rfl rfl
    | functor8 t =>
      simp only [invoke]
      exact construct_stays_after_trace ihr ihtr ref _ _ _ sl w hg ref rfl rfl
    | functor9 t =>
      simp only [invoke]
      exact construct_stays_after_trace ihr ihtr ref _ _ _ sl w hg ref rfl rfl
    | functor10 t =>
      simp only [invoke]
      exact construct_stays_after_trace ihr ihtr ref _ _ _ sl w hg ref rfl rfl
    | functor12 t m_fn yn =>
      simp only [invoke]
      exact construct_stays_after_trace ihr ihtr ref _ _ _ sl w hg ref rfl rfl
    | functor13 t m =>
      simp only [invoke]
      exact forward_stays_after_trace ihr ref _ _ sl w hg ref rfl rfl
    | functor15 t m =>
      simp only [invoke]
      exact forward_stays_after_trace ihr ref _ _ sl w hg ref rfl rfl

/-- The lookup of a resolve that is served by a singleton not yet instantiated invokes the
creation function once. -/
theorem lookup_singleton_count (cls : TypeId → Script) (w : World) (this : Context)
    (t : TypeId) (n : String) (d o G : Nat) (b : shared_ptr_binding) (T : TypeId)
    (body : Script) (hctx : this.frames ≠ [])
    (hnear : Nearest w t n this.m_sl d o)
    (hb : w.binding? ⟨o, t, n⟩ = some b)
    (hsing : b.m_fnGet = .functor4)
    (hkind : b.m_fnCreate = .functor7 T ∨ b.m_fnCreate = .functor9 T
      ∨ b.m_fnCreate = .functor12 T body false) :
    (m_resolve cls (G + 1 + 1 + 1 + d) t this.m_sl (this.child t n) w).2.created.count ⟨o, t, n⟩
      = w.created.count ⟨o, t, n⟩ + 1 := by
  rw [m_resolve_walk cls hnear (this.child t n) rfl (G + 1 + 1 + 1),
    m_resolve_hit cls (G + 1 + 1) (this.child t n) hb]
  simp only [served, child_getName]
  rw [hsing, invoke_functor4 cls (G + 1) _ _ w b hb]
  have hcr : b.m_fnCreate.isCreation = true := by
    rcases hkind with e | e | e <;> rw [e] <;> rfl
  have hc := invoke_creation_count cls G ⟨o, t, n⟩ b.m_fnCreate (this.child t n) w
    hcr (guarded_child_self this t n hctx)
  rcases hinv : invoke cls (G + 1) ⟨o, t, n⟩ b.m_fnCreate (this.child t n) w with ⟨r3, w3⟩
  rw [hinv] at hc
  cases r3 with
  | error e => exact hc
  | ok v =>
    obtain ⟨p0, sl1⟩ := v
    obtain ⟨a, rfl, _, _⟩ := invoke_transient_fresh cls (G + 1) ⟨o, t, n⟩ b.m_fnCreate T body
      hkind (this.child t n) sl1 w w3 p0 hinv
    simp only []
    rw [setFnGet_created]
    exact hc

/-! ## A failed bind -/

theorem bind_fails_held (w : World) (t : TypeId) (n : String) (l : Nat) (m : String)
    (h : (ServiceLocator.bind t n l w).1 = .error (.DuplicateBindingException m)) :
    ∃ b, w.binding? ⟨l, t, n⟩ = some b := by
  cases hb : w.binding? ⟨l, t, n⟩ with
  | some b => exact ⟨b, rfl⟩
  | none =>
    cases hl : w.locators[l]? with
    | none =>
      simp only [ServiceLocator.bind, hl] at h
      cases h
    | some sl =>
      rw [(bind_fresh_eq w t n l sl hl hb).1] at h
      cases h

/-! ## The lookup at the locator that holds a binding -/

theorem m_tryResolve_hit (cls : TypeId → Script) (fuel : Nat) {w : World} {t : TypeId}
    {l : Nat} {b : shared_ptr_binding} (slc : Context)
    (hb : w.binding? ⟨l, t, slc.getName⟩ = some b) :
    m_tryResolve cls (fuel + 1) t l slc w =
      match invoke cls fuel ⟨l, t, slc.getName⟩ b.m_fnGet slc w with
      | (.error e, w1) => (.error e, w1)
      | (.ok (some a, _), w1) => (.ok (some a), w1)
      | (.ok (none, slc1), w1) =>
        match (w.locators[l]?).bind Locator.m_parent with
        | none => (.ok none, w1)
        | some p => m_tryResolve cls fuel t p slc1 w1 := by
  simp only [World.binding?] at hb
  cases hl : w.locators[l]? with
  | none => simp [hl] at hb
  | some sl =>
    simp only [hl] at hb
    cases hreg : sl.getTypedServiceLocator t with
    | none => simp [hreg] at hb
    | some nsl =>
      simp only [hreg] at hb
      simp only [m_tryResolve, hl, hreg, TypedServiceLocator.tryResolve, hb, Option.some_bind]

theorem Unbound.of_same_registries {w w' : World} (h : w'.locators = w.locators) {t : TypeId}
    {n : String} {l d : Nat} (hu : Unbound w t n l d) : Unbound w' t n l d := by
  induction hu with
  | root hl hb hp =>
    exact Unbound.root (by rw [h]; exact hl) ((binding?_congr _ (by rw [h])).trans hb) hp
  | up hl hb hp _ ih =>
    exact Unbound.up (by rw [h]; exact hl) ((binding?_congr _ (by rw [h])).trans hb) hp ih

theorem resolve_unbound_fails (cls : TypeId → Script) (w : World) (this : Context)
    (t : TypeId) (n : String) (d fuel : Nat) (hun : Unbound w t n this.m_sl d)
    (hcyc : ∀ f ∈ this.frames, ¬ (f.m_interfaceType = t ∧ f.m_name = n))
    (hfuel : d + 2 ≤ fuel) :
    Context.resolve cls fuel this t n w = (.error (unableToResolve (this.child t n)), w) := by
  obtain ⟨k, rfl⟩ : ∃ k, fuel = k + 1 := ⟨fuel - 1, by omega⟩
  rw [resolve_eq_finish cls k this t n w hcyc,
    m_resolve_unbound cls hun (this.child t n) rfl k (by omega)]
  rfl

/-! ## The order of the deferred callbacks -/

theorem runCallbacks_append (res tryRes : Context → TypeId → String → World → Out Ptr)
    (m_sl : Nat) (fns gns : List Script) : ∀ w : World,
    runCallbacks res tryRes m_sl (fns ++ gns) w =
      match runCallbacks res tryRes m_sl fns w with
      | (.error e, w1) => (.error e, w1)
      | (.ok _, w1) => runCallbacks res tryRes m_sl gns w1 := by
  induction fns with
  | nil => intro w; rfl
  | cons fn fns ih =>
    intro w
    simp only [List.cons_append, runCallbacks]
    rcases runScript res tryRes (w.newRootContext m_sl).1 fn [] (w.newRootContext m_sl).2
      with ⟨r, w1⟩
    cases r with
    | error e => rfl
    | ok v => exact ih w1

theorem getD_pushAfterResolve (w : World) (r : Nat) (fn : Script)
    (h : r < w.fnAfterResolveLists.length) :
    (w.pushAfterResolve r fn).fnAfterResolveLists.getD r []
      = w.fnAfterResolveLists.getD r [] ++ [fn] := by
  simp only [World.pushAfterResolve]
  rw [List.getD_eq_getElem?_getD, List.getElem?_set_self h]
  rfl

/-! ## Parent chains of the locators a program creates -/

theorem bind_parent (t : TypeId) (n : String) (c : Nat) (w : World) (l : Nat) :
    ((ServiceLocator.bind t n c w).2.locators[l]?).map Locator.m_parent
      = (w.locators[l]?).map Locator.m_parent := by
  by_cases h : c = l
  · subst h
    unfold ServiceLocator.bind
    cases hl : w.locators[c]? with
    | none => simp [hl]
    | some sl =>
      have hlt : c < w.locators.length := getElem?_some_lt hl
      simp only []
      split <;> simp [List.getElem?_set_self hlt]
  · rw [bind_other t n c w l h]

theorem eagerly_parent (w : World) (ref : BindingRef) (l : Nat) :
    ((eagerly_clause.eagerly ref w).locators[l]?).map Locator.m_parent
      = (w.locators[l]?).map Locator.m_parent := by
  by_cases h : ref.loc = l
  · subst h
    unfold eagerly_clause.eagerly
    cases hl : w.locators[ref.loc]? with
    | none => simp [hl]
    | some sl =>
      have hlt : ref.loc < w.locators.length := getElem?_some_lt hl
      simp [List.getElem?_set_self hlt]
  · rw [eagerly_other w ref l h]

theorem ConfiguredOn.parent {c : Nat} {w w' : World} (h : ConfiguredOn c w w') (l : Nat) :
    (w'.locators[l]?).map Locator.m_parent = (w.locators[l]?).map Locator.m_parent := by
  induction h with
  | start => rfl
  | bind t n _ ih => rw [bind_parent, ih]
  | clause t n f _ ih => rw [locators_modifyBinding, ih]
  | eagerly t n _ ih => rw [eagerly_parent, ih]

theorem ParentsBelow.of_parent {w w' : World} (h : ParentsBelow w)
    (hp : ∀ l : Nat, (w'.locators[l]?).map Locator.m_parent
      = (w.locators[l]?).map Locator.m_parent) : ParentsBelow w' := by
  intro l p hl
  rw [hp l] at hl
  exact h l p hl

theorem ParentsBelow.append {w : World} (h : ParentsBelow w) (sl : Locator)
    (hsl : ∀ p, sl.m_parent = some p → p < w.locators.length) (lists : List (List Script)) :
    ParentsBelow ⟨w.locators ++ [sl], lists, w.heap, w.created⟩ := by
  intro l p hl
  simp only [] at hl
  rcases Nat.lt_trichotomy l w.locators.length with hlt | heq | hgt
  · rw [List.getElem?_append_left hlt] at hl
    exact h l p hl
  · subst heq
    simp only [List.getElem?_concat_length, Option.map_some', Option.some.injEq] at hl
    exact hsl p hl
  · rw [List.getElem?_eq_none (by simp; omega)] at hl
    cases hl

theorem Built.parentsBelow {w : World} (h : Built w) : ParentsBelow w := by
  induction h with
  | init =>
    intro l p hl
    simp at hl
  | create _ ih => exact ih.append _ (fun p hp => by cases hp) _
  | enter self hself _ ih =>
    exact ih.append _ (fun p hp => by cases hp; exact hself) _
  | configure c _ hc ih => exact ih.of_parent hc.parent
  | resolve _ hev ih => exact ih.of_parent hev.parent

theorem ParentsBelow.rooted {w : World} (h : ParentsBelow w) :
    ∀ l : Nat, l < w.locators.length → ∃ d, d ≤ l ∧ Rooted w l d := by
  intro l
  induction l using Nat.strong_induction_on with
  | _ l ih =>
    intro hl
    have hsl : w.locators[l]? = some (w.locators[l]) := List.getElem?_eq_getElem hl
    cases hp : (w.locators[l]).m_parent with
    | none => exact ⟨0, Nat.zero_le _, Rooted.root hsl hp⟩
    | some p =>
      have hpl : p < l := h l p (by rw [hsl]; simp [hp])
      obtain ⟨d, hd, hr⟩ := ih p hpl (by omega)
      exact ⟨d + 1, by omega, Rooted.up hsl hp hr⟩

theorem Rooted.nearest_or_unbound {w : World} {l d : Nat} (h : Rooted w l d) (t : TypeId)
    (n : String) : Unbound w t n l d ∨ ∃ d' o, d' ≤ d ∧ Nearest w t n l d' o := by
  induction h with
  | @root l sl hl hp =>
    cases hb : w.binding? ⟨l, t, n⟩ with
    | none => exact Or.inl (Unbound.root hl hb hp)
    | some b => exact Or.inr ⟨0, l, Nat.le_refl _, Nearest.here hb⟩
  | @up l p d sl hl hp _ ih =>
    cases hb : w.binding? ⟨l, t, n⟩ with
    | some b => exact Or.inr ⟨0, l, Nat.zero_le _, Nearest.here hb⟩
    | none =>
      rcases ih with hu | ⟨d', o, hd, hn⟩
      · exact Or.inl (Unbound.up hl hb hp hu)
      · exact Or.inr ⟨d' + 1, o, by omega, Nearest.up hl hb hp hn⟩

theorem Rooted.visited {w : World} {l d : Nat} (h : Rooted w l d) (t : TypeId) :
    ∃ refs, Visited w t l d refs := by
  induction h with
  | root hl hp => exact ⟨_, Visited.root hl hp⟩
  | up hl hp _ ih =>
    obtain ⟨refs, hv⟩ := ih
    exact ⟨_, Visited.up hl hp hv⟩

/-! ## Creation functions are reached on chains with pairwise distinct keys -/

theorem Builds.nothing (w : World) : Builds w w := ⟨[], by simp, by simp⟩

theorem Builds.seq {w w1 w2 : World} (h1 : Builds w w1) (h2 : Builds w1 w2) : Builds w w2 := by
  obtain ⟨m1, e1, d1⟩ := h1
  obtain ⟨m2, e2, d2⟩ := h2
  refine ⟨m1 ++ m2, by rw [e2, e1, List.append_assoc], ?_⟩
  intro o ho
  rcases List.mem_append.1 ho with h | h
  · exact d1 o h
  · exact d2 o h

theorem Builds.of_heap_eq {w w' : World} (h : w'.heap = w.heap) : Builds w w' :=
  ⟨[], by simp [h], by simp⟩

theorem Builds.object (w : World) (o : Obj) (h : Distinct o.slc) : Builds w (w.alloc o) :=
  ⟨[o], rfl, by simpa using h⟩

theorem Distinct.transfer {sl sl1 : Context} (h : SameRequest sl sl1) (hd : Distinct sl) :
    Distinct sl1 := by
  unfold Distinct Context.keys at *
  rw [h.2.2]
  exact hd

theorem Distinct.extend {this : Context} (hd : Distinct this) (t : TypeId) (n : String)
    (hcyc : ∀ f ∈ this.frames, ¬ (f.m_interfaceType = t ∧ f.m_name = n)) :
    Distinct (this.child t n) := by
  unfold Distinct Context.keys at *
  simp only [Context.child, List.map_cons, List.nodup_cons]
  refine ⟨?_, hd⟩
  intro hmem
  obtain ⟨f, hf, he⟩ := List.mem_map.1 hmem
  simp only [Prod.mk.injEq] at he
  exact hcyc f hf he

theorem Distinct.of_check {this : Context} (hd : Distinct this) (t : TypeId) (n : String)
    (u : Unit) (hchk : checkRecursiveResolve (this.child t n) this.frames = .ok u) :
    Distinct (this.child t n) := by
  apply hd.extend t n
  intro f hf hk
  rw [checkRecursiveResolve_error (this.child t n) this.frames ⟨f, hf, hk⟩] at hchk
  cases hchk

theorem Distinct.of_root (sl root : Nat) : Distinct (Context.root sl root) := by
  simp [Distinct, Context.keys, Context.root]

theorem runScript_builds {res tryRes : Context → TypeId → String → World → Out Ptr}
    (hr : ResBuilds res) (ht : ResBuilds tryRes) (sl : Context) (hd : Distinct sl) :
    ∀ (script : Script) (fields : List Ptr) (w : World),
      Builds w (runScript res tryRes sl script fields w).2 := by
  intro script
  induction script with
  | done => intro fields w; exact Builds.nothing w
  | resolve t n rest ih =>
    intro fields w
    have h := hr sl t n w hd
    simp only [runScript]
    rcases hres : res sl t n w with ⟨r, w1⟩
    rw [hres] at h
    cases r with
    | error e => exact h
    | ok p => exact h.seq (ih _ _)
  | tryResolve t n rest ih =>
    intro fields w
    have h := ht sl t n w hd
    simp only [runScript]
    rcases hres : tryRes sl t n w with ⟨r, w1⟩
    rw [hres] at h
    cases r with
    | error e => exact h
    | ok p => exact h.seq (ih _ _)
  | afterResolve fn rest _ ih =>
    intro fields w
    simp only [runScript]
    exact (Builds.of_heap_eq (w := w) (show (w.pushAfterResolve sl.m_root fn).heap = w.heap
      from rfl)).seq (ih _ _)

theorem construct_builds {res tryRes : Context → TypeId → String → World → Out Ptr}
    (hr : ResBuilds res) (ht : ResBuilds tryRes) (ref : BindingRef) (t : TypeId)
    (body : Script) (yieldsNull : Bool) (sl : Context) (w : World) (hd : Distinct sl) :
    Builds w (construct res tryRes ref t body yieldsNull sl w).2 := by
  have h0 : Builds w (w.traceCreate ref) := Builds.of_heap_eq rfl
  simp only [construct]
  cases hset : sl.setConcreteType t with
  | error e => exact h0
  | ok sl1 =>
    have hd1 : Distinct sl1 := hd.transfer (SameRequest.of_setConcreteType hset)
    have h1 := runScript_builds hr ht sl1 hd1 body [] (w.traceCreate ref)
    simp only []
    rcases hrun : runScript res tryRes sl1 body [] (w.traceCreate ref) with ⟨r, w1⟩
    rw [hrun] at h1
    cases r with
    | error e => exact h0.seq h1
    | ok fields =>
      cases yieldsNull with
      | true => exact h0.seq h1
      | false => exact (h0.seq h1).seq (Builds.object _ _ hd1)

theorem forward_builds {res : Context → TypeId → String → World → Out Ptr}
    (hr : ResBuilds res) (ref : BindingRef) (t : TypeId) (m_name : String) (sl : Context)
    (w : World) (hd : Distinct sl) : Builds w (forward res ref t m_name sl w).2 := by
  have h0 : Builds w (w.traceCreate ref) := Builds.of_heap_eq rfl
  have h1 := hr sl t m_name (w.traceCreate ref) hd
  simp only [forward]
  rcases hres : res sl t m_name (w.traceCreate ref) with ⟨r, w1⟩
  rw [hres] at h1
  cases r with
  | error e => exact h0.seq h1
  | ok p => exact h0.seq h1

theorem runCallbacks_builds {res tryRes : Context → TypeId → String → World → Out Ptr}
    (hr : ResBuilds res) (ht : ResBuilds tryRes) (m_sl : Nat) :
    ∀ (fns : List Script) (w : World), Builds w (runCallbacks res tryRes m_sl fns w).2 := by
  intro fns
  induction fns with
  | nil => intro w; exact Builds.nothing w
  | cons fn fns ih =>
    intro w
    have h0 : Builds w (w.newRootContext m_sl).2 := Builds.of_heap_eq rfl
    have h1 := runScript_builds hr ht (w.newRootContext m_sl).1 (Distinct.of_root _ _) fn []
      (w.newRootContext m_sl).2
    simp only [runCallbacks]
    rcases hrun : runScript res tryRes (w.newRootContext m_sl).1 fn []
      (w.newRootContext m_sl).2 with ⟨r, w1⟩
    rw [hrun] at h1
    cases r with
    | error e => exact h0.seq h1
    | ok p => exact (h0.seq h1).seq (ih _)

theorem afterResolve_builds {res tryRes : Context → TypeId → String → World → Out Ptr}
    (hr : ResBuilds res) (ht : ResBuilds tryRes) (this : Context) (w : World) :
    Builds w (Context.afterResolve res tryRes this w).2 := by
  unfold Context.afterResolve
  split
  · split
    · exact Builds.nothing w
    · rename_i fn fns _
      have h1 := runCallbacks_builds hr ht this.m_sl (fn :: fns) w
      rcases hrun : runCallbacks res tryRes this.m_sl (fn :: fns) w with ⟨r, w1⟩
      rw [hrun] at h1
      cases r with
      | error e => exact h1
      | ok p => exact h1.seq (Builds.of_heap_eq rfl)
  · exact Builds.nothing w

theorem lookup_builds_step (cls : TypeId → Script) (fuel : Nat)
    (look : Nat → TypeId → Nat → Context → World → Out Ptr) (miss : Context → World → Out Ptr)
    (hmiss : ∀ slc w, (miss slc w).2 = w)
    (ihinv : ∀ ref fn sl w, Distinct sl → Builds w (invoke cls fuel ref fn sl w).2)
    (ihlook : ∀ t l slc w, Distinct slc → Builds w (look fuel t l slc w).2)
    (t : TypeId) (l : Nat) (slc : Context) (w : World) (sl : Locator) (hd : Distinct slc) :
    Builds w
      (match sl.getTypedServiceLocator t with
        | none =>
          match sl.m_parent with
          | none => miss slc w
          | some m_parent => look fuel t m_parent slc w
        | some nsl =>
          match TypedServiceLocator.tryResolve (invoke cls fuel ⟨l, t, slc.getName⟩)
              nsl slc.getName slc w with
          | (.error e, w1) => (.error e, w1)
          | (.ok (some a, _), w1) => (.ok (some a), w1)
          | (.ok (none, slc1), w1) =>
            match sl.m_parent with
            | none => miss slc1 w1
            | some m_parent => look fuel t m_parent slc1 w1).2 := by
  cases hreg : sl.getTypedServiceLocator t with
  | none =>
    cases hp : sl.m_parent with
    | none => simp only [hmiss]; exact Builds.nothing w
    | some p => exact ihlook _ _ _ _ hd
  | some nsl =>
    simp only [TypedServiceLocator.tryResolve]
    cases hfind : Map.find nsl slc.getName with
    | none =>
      cases hp : sl.m_parent with
      | none => simp only [hmiss]; exact Builds.nothing w
      | some p => exact ihlook _ _ _ _ hd
    | some b =>
      have h1 := ihinv ⟨l, t, slc.getName⟩ b.m_fnGet slc w hd
      simp only []
      rcases hres : invoke cls fuel ⟨l, t, slc.getName⟩ b.m_fnGet slc w with ⟨r, w1⟩
      rw [hres] at h1
      cases r with
      | error e => exact h1
      | ok v =>
        obtain ⟨ptr, slc1⟩ := v
        cases ptr with
        | some a => exact h1
        | none =>
          have hd1 : Distinct slc1 :=
            hd.transfer (invoke_sameRequest cls fuel _ _ slc w none slc1 w1 hres)
          cases hp : sl.m_parent with
          | none => simp only [hmiss]; exact h1
          | some p => exact h1.seq (ihlook _ _ _ _ hd1)

theorem finish_builds {res tryRes : Context → TypeId → String → World → Out Ptr}
    (hr : ResBuilds res) (ht : ResBuilds tryRes) (this : Context) (w : World) (r : Out Ptr)
    (h : Builds w r.2) :
    Builds w
      (match r with
        | (.error e, w1) => ((.error e, w1) : Out Ptr)
        | (.ok ptr, w1) =>
          match Context.afterResolve res tryRes this w1 with
          | (.error e, w2) => (.error e, w2)
          | (.ok _, w2) => (.ok ptr, w2)).2 := by
  obtain ⟨v, w1⟩ := r
  cases v with
  | error e => exact h
  | ok ptr =>
    have h2 := afterResolve_builds hr ht this w1
    simp only []
    rcases hres : Context.afterResolve res tryRes this w1 with ⟨r2, w2⟩
    rw [hres] at h2
    cases r2 with
    | error e => exact h.seq h2
    | ok u => exact h.seq h2

/-- Started on a context chain with pairwise distinct keys, every engine call builds its
objects on such chains. -/
theorem engine_builds (cls : TypeId → Script) : ∀ fuel : Nat,
    (∀ ref fn sl w, Distinct sl → Builds w (invoke cls fuel ref fn sl w).2)
    ∧ (∀ t l slc w, Distinct slc → Builds w (m_resolve cls fuel t l slc w).2)
    ∧ (∀ t l slc w, Distinct slc → Builds w (m_tryResolve cls fuel t l slc w).2)
    ∧ ResBuilds (Context.resolve cls fuel)
    ∧ ResBuilds (Context.tryResolve cls fuel) := by
  intro fuel
  induction fuel with
  | zero =>
    refine ⟨fun _ _ _ w _ => ?_, fun _ _ _ w _ => ?_, fun _ _ _ w _ => ?_,
      fun _ _ _ w _ => ?_, fun _ _ _ w _ => ?_⟩
    · simp only [invoke]; exact Builds.nothing w
    · simp only [m_resolve]; exact Builds.nothing w
    · simp only [m_tryResolve]; exact Builds.nothing w
    · simp only [Context.resolve]; exact Builds.nothing w
    · simp only [Context.tryResolve]; exact Builds.nothing w
  | succ fuel ih =>
    obtain ⟨ihinv, ihm, iht, ihr, ihtr⟩ := ih
    refine ⟨?_, ?_, ?_, ?_, ?_⟩
    · intro ref fn sl w hd
      cases fn with
      | empty => simp only [invoke]; exact Builds.nothing w
      | functorY p => simp only [invoke]; exact Builds.nothing w
      | functor4a p => simp only [invoke]; exact Builds.nothing w
      | functor4 =>
        simp only [invoke]
        cases hb : w.binding? ref with
        | none => exact Builds.nothing w
        | some b =>
          have h1 := ihinv ref b.m_fnCreate sl w hd
          simp only []
          rcases hres : invoke cls fuel ref b.m_fnCreate sl w with ⟨r, w1⟩
          rw [hres] at h1
          cases r with
          | error e => exact h1
          | ok v =>
            exact h1.seq (Builds.of_heap_eq (modifyBinding_heap _ _ _))
      | functor7 t => simp only [invoke]; exact construct_builds ihr ihtr _ _ _ _ _ _ hd
      | functor8 t => simp only [invoke]; exact construct_builds ihr ihtr _ _ _ _ _ _ hd
      | functor9 t => simp only [invoke]; exact construct_builds ihr ihtr _ _ _ _ _ _ hd
      | functor10 t => simp only [invoke]; exact construct_builds ihr ihtr _ _ _ _ _ _ hd
      | functor12 t m_fn yn =>
        simp only [invoke]; exact construct_builds ihr ihtr _ _ _ _ _ _ hd
      | functor13 t m => simp only [invoke]; exact forward_builds ihr _ _ _ _ _ hd
      | functor15 t m => simp only [invoke]; exact forward_builds ihr _ _ _ _ _ hd
    · intro t l slc w hd
      simp only [m_resolve]
      cases hl : w.locators[l]? with
      | none => exact Builds.nothing w
      | some sl =>
        exact lookup_builds_step cls fuel (m_resolve cls)
          (fun slc w => (.error (unableToResolve slc), w)) (fun _ _ => rfl) ihinv ihm
          t l slc w sl hd
    · intro t l slc w hd
      simp only [m_tryResolve]
      cases hl : w.locators[l]? with
      | none => exact Builds.nothing w
      | some sl =>
        exact lookup_builds_step cls fuel (m_tryResolve cls)
          (fun _ w => (.ok none, w)) (fun _ _ => rfl) ihinv iht t l slc w sl hd
    · intro this t n w hd
      simp only [Context.resolve]
      cases hchk : checkRecursiveResolve (this.child t n) this.frames with
      | error e => exact Builds.nothing w
      | ok u =>
        exact finish_builds ihr ihtr this w _ (ihm _ _ _ _ (hd.of_check t n u hchk))
    · intro this t n w hd
      simp only [Context.tryResolve]
      cases hchk : checkRecursiveResolve (this.child t n) this.frames with
      | error e => exact Builds.nothing w
      | ok u =>
        exact finish_builds ihr ihtr this w _ (iht _ _ _ _ (hd.of_check t n u hchk))

/-! ### The visitor of `resolveAll` -/

theorem get_builds (cls : TypeId → Script) (fuel : Nat) (ref : BindingRef) (slc : Context)
    (w : World) (hd : Distinct slc) : Builds w (BindingRef.get cls fuel ref slc w).2 := by
  unfold BindingRef.get
  cases hb : w.binding? ref with
  | none => exact Builds.nothing w
  | some b => exact (engine_builds cls fuel).1 ref b.m_fnGet slc w hd

theorem call_builds (cls : TypeId → Script) (fuel : Nat) (m_ctx : Context) (t : TypeId)
    (ref : BindingRef) (m_all : List Ptr) (w : World) (hd : Distinct m_ctx) :
    Builds w (Functor.call (BindingRef.get cls fuel) m_ctx t ref m_all w).2 := by
  unfold Functor.call
  simp only []
  cases hchk : checkRecursiveResolve (m_ctx.child t "") m_ctx.frames with
  | error e => exact Builds.nothing w
  | ok u =>
    simp only []
    have h := get_builds cls fuel ref (m_ctx.child t "") w (hd.of_check t "" u hchk)
    rcases hg : BindingRef.get cls fuel ref (m_ctx.child t "") w with ⟨r, w1⟩
    rw [hg] at h
    cases r with
    | error e => exact h
    | ok v => exact h

theorem visitAll_builds (cls : TypeId → Script) (fuel : Nat) (m_ctx : Context) (t : TypeId)
    (self : Nat) (hd : Distinct m_ctx) : ∀ (names : List String) (m_all : List Ptr) (w : World),
    Builds w (TypedServiceLocator.visitAll (Functor.call (BindingRef.get cls fuel) m_ctx t)
      self t names m_all w).2 := by
  intro names
  induction names with
  | nil => intro m_all w; exact Builds.nothing w
  | cons name rest ih =>
    intro m_all w
    simp only [TypedServiceLocator.visitAll]
    have h := call_builds cls fuel m_ctx t ⟨self, t, name⟩ m_all w hd
    rcases hc : Functor.call (BindingRef.get cls fuel) m_ctx t ⟨self, t, name⟩ m_all w
      with ⟨r, w1⟩
    rw [hc] at h
    cases r with
    | error e => exact h
    | ok v => exact h.seq (ih v w1)

theorem _visitAll_builds (cls : TypeId → Script) (fuel : Nat) (m_ctx : Context) (t : TypeId)
    (hd : Distinct m_ctx) : ∀ (depth l : Nat) (m_all : List Ptr) (w : World),
    Builds w (_visitAll cls fuel depth t l m_ctx m_all w).2 := by
  intro depth
  induction depth with
  | zero => intro l m_all w; exact Builds.nothing w
  | succ depth ih =>
    intro l m_all w
    simp only [_visitAll]
    cases hl : w.locators[l]? with
    | none => exact Builds.nothing w
    | some sl =>
      simp only []
      cases hreg : sl.getTypedServiceLocator t with
      | none =>
        simp only []
        cases hp : sl.m_parent with
        | none => exact Builds.nothing w
        | some p => exact ih p m_all w
      | some nsl =>
        simp only []
        have h := visitAll_builds cls fuel m_ctx t l hd (nsl.map Prod.fst) m_all w
        rcases hv : TypedServiceLocator.visitAll (Functor.call (BindingRef.get cls fuel) m_ctx t)
          l t (nsl.map Prod.fst) m_all w with ⟨r, w1⟩
        rw [hv] at h
        cases r with
        | error e => exact h
        | ok v =>
          simp only []
          cases hp : sl.m_parent with
          | none => exact h
          | some p => exact h.seq (ih p v w1)

theorem resolveAll_builds (cls : TypeId → Script) (fuel : Nat) (this : Context) (t : TypeId)
    (all : List Ptr) (w : World) (hd : Distinct this) :
    Builds w (Context.resolveAll cls fuel this t all w).2 := by
  unfold Context.resolveAll
  have h := _visitAll_builds cls fuel this t hd fuel this.m_sl all w
  obtain ⟨_, _, _, ihr, ihtr⟩ := engine_builds cls fuel
  rcases hv : _visitAll cls fuel fuel t this.m_sl this all w with ⟨r, w1⟩
  rw [hv] at h
  cases r with
  | error e => exact h
  | ok v =>
    simp only []
    have h2 := afterResolve_builds ihr ihtr this w1
    rcases ha : Context.afterResolve (Context.resolve cls fuel) (Context.tryResolve cls fuel)
      this w1 with ⟨r2, w2⟩
    rw [ha] at h2
    cases r2 with
    | error e => exact h.seq h2
    | ok u => exact h.seq h2

/-! ### The depth of a chain -/

theorem Distinct.depth_le {c : Context} (hd : Distinct c) (S : Finset (TypeId × String))
    (hS : ∀ k ∈ c.keys.dropLast, k ∈ S) : c.frames.length ≤ S.card + 1 := by
  have hnd : c.keys.dropLast.Nodup := List.Nodup.sublist (List.dropLast_sublist _) hd
  have hle : c.keys.dropLast.length ≤ S.card := by
    rw [← List.toFinset_card_of_nodup hnd]
    apply Finset.card_le_card
    intro k hk
    exact hS k (List.mem_toFinset.1 hk)
  have hlen : c.frames.length = c.keys.length := by simp [Context.keys]
  rw [hlen]
  have := List.length_dropLast c.keys
  omega

/-! ## What a call returns when its lookup returns -/

theorem resolve_result_of_lookup (cls : TypeId → Script) (F : Nat) (this : Context)
    (t : TypeId) (n : String) (w wm : World) (q : Ptr)
    (hm : m_resolve cls F t this.m_sl (this.child t n) w = (.ok q, wm)) :
    ∀ p w1, Context.resolve cls (F + 1) this t n w = (.ok p, w1) → p = q := by
  intro p w1 h
  by_cases hcyc : ∃ f ∈ this.frames, f.m_interfaceType = t ∧ f.m_name = n
  · rw [resolve_of_cycle cls F this t n w hcyc] at h
    simp at h
  · have hcyc' : ∀ f ∈ this.frames, ¬ (f.m_interfaceType = t ∧ f.m_name = n) :=
      fun f hf hk => hcyc ⟨f, hf, hk⟩
    rw [resolve_eq_finish cls F this t n w hcyc', hm] at h
    simp only [Context.finish] at h
    rcases haft : Context.afterResolve (Context.resolve cls F) (Context.tryResolve cls F)
      this wm with ⟨r2, w2⟩
    rw [haft] at h
    cases r2 with
    | error e => simp at h
    | ok u =>
      simp only [Prod.mk.injEq, Except.ok.injEq] at h
      exact h.1.symm

theorem tryResolve_result_of_lookup (cls : TypeId → Script) (F : Nat) (this : Context)
    (t : TypeId) (n : String) (w wm : World) (q : Ptr)
    (hm : m_tryResolve cls F t this.m_sl (this.child t n) w = (.ok q, wm)) :
    ∀ p w1, Context.tryResolve cls (F + 1) this t n w = (.ok p, w1) → p = q := by
  intro p w1 h
  by_cases hcyc : ∃ f ∈ this.frames, f.m_interfaceType = t ∧ f.m_name = n
  · rw [tryResolve_of_cycle cls F this t n w hcyc] at h
    simp at h
  · have hcyc' : ∀ f ∈ this.frames, ¬ (f.m_interfaceType = t ∧ f.m_name = n) :=
      fun f hf hk => hcyc ⟨f, hf, hk⟩
    rw [tryResolve_eq_finish cls F this t n w hcyc', hm] at h
    simp only [Context.finish] at h
    rcases haft : Context.afterResolve (Context.resolve cls F) (Context.tryResolve cls F)
      this wm with ⟨r2, w2⟩
    rw [haft] at h
    cases r2 with
    | error e => simp at h
    | ok u =>
      simp only [Prod.mk.injEq, Except.ok.injEq] at h
      exact h.1.symm

theorem m_tryResolve_served (cls : TypeId → Script) (fuel : Nat) {w : World} {t : TypeId}
    {l : Nat} {b : shared_ptr_binding} (slc slc1 : Context) (a : Nat) (w1 : World)
    (hb : w.binding? ⟨l, t, slc.getName⟩ = some b)
    (hget : invoke cls fuel ⟨l, t, slc.getName⟩ b.m_fnGet slc w = (.ok (some a, slc1), w1)) :
    m_tryResolve cls (fuel + 1) t l slc w = (.ok (some a), w1) := by
  rw [m_tryResolve_hit cls fuel slc hb]
  simp only [hget]

theorem m_resolve_served (cls : TypeId → Script) (fuel : Nat) {w : World} {t : TypeId}
    {l : Nat} {b : shared_ptr_binding} (slc slc1 : Context) (a : Nat) (w1 : World)
    (hb : w.binding? ⟨l, t, slc.getName⟩ = some b)
    (hget : invoke cls fuel ⟨l, t, slc.getName⟩ b.m_fnGet slc w = (.ok (some a, slc1), w1)) :
    m_resolve cls (fuel + 1) t l slc w = (.ok (some a), w1) := by
  rw [m_resolve_hit cls fuel slc hb]
  simp only [served, hget]

/-- The lookups of a key whose nearest binding yields the instance `a`. -/
theorem lookup_served (cls : TypeId → Script) (w : World) (this : Context) (t : TypeId)
    (n : String) (d o fuel : Nat) (b : shared_ptr_binding) (a : Nat) (slc1 : Context)
    (w1 : World) (hnear : Nearest w t n this.m_sl d o)
    (hb : w.binding? ⟨o, t, n⟩ = some b)
    (hget : invoke cls fuel ⟨o, t, n⟩ b.m_fnGet (this.child t n) w = (.ok (some a, slc1), w1)) :
    m_resolve cls (fuel + 1 + d) t this.m_sl (this.child t n) w = (.ok (some a), w1)
    ∧ m_tryResolve cls (fuel + 1 + d) t this.m_sl (this.child t n) w = (.ok (some a), w1) := by
  constructor
  · rw [m_resolve_walk cls hnear (this.child t n) rfl (fuel + 1)]
    exact m_resolve_served cls fuel (this.child t n) slc1 a w1 hb hget
  · rw [m_tryResolve_walk cls hnear (this.child t n) rfl (fuel + 1)]
    exact m_tryResolve_served cls fuel (this.child t n) slc1 a w1 hb hget

/-- The lookups of a key whose nearest binding stores the instance `a`. -/
theorem lookup_stored (cls : TypeId → Script) (w : World) (this : Context) (t : TypeId)
    (n : String) (d o k : Nat) (b : shared_ptr_binding) (a : Nat)
    (hnear : Nearest w t n this.m_sl d o)
    (hb : w.binding? ⟨o, t, n⟩ = some b)
    (hfn : b.m_fnGet = .functor4a (some a) ∨ b.m_fnGet = .functorY (some a))
    (hk : d + 2 ≤ k) :
    m_resolve cls k t this.m_sl (this.child t n) w = (.ok (some a), w)
    ∧ m_tryResolve cls k t this.m_sl (this.child t n) w = (.ok (some a), w) := by
  obtain ⟨j, rfl⟩ : ∃ j, k = (j + 1) + 1 + d := ⟨k - d - 2, by omega⟩
  apply lookup_served cls w this t n d o (j + 1) b a (this.child t n) w hnear hb
  rcases hfn with e | e <;> rw [e] <;> simp only [invoke]

theorem resolve_of_lookup (cls : TypeId → Script) (F : Nat) (this : Context)
    (t : TypeId) (n : String) (w wm w1 : World) (q : Ptr)
    (hm : m_resolve cls F t this.m_sl (this.child t n) w = (.ok q, wm))
    (hcyc : ∀ f ∈ this.frames, ¬ (f.m_interfaceType = t ∧ f.m_name = n))
    (hafter : Context.afterResolve (Context.resolve cls F) (Context.tryResolve cls F) this wm
      = (.ok (), w1)) :
    Context.resolve cls (F + 1) this t n w = (.ok q, w1) := by
  rw [resolve_eq_finish cls F this t n w hcyc, hm]
  simp only [Context.finish, hafter]

theorem tryResolve_of_lookup (cls : TypeId → Script) (F : Nat) (this : Context)
    (t : TypeId) (n : String) (w wm w1 : World) (q : Ptr)
    (hm : m_tryResolve cls F t this.m_sl (this.child t n) w = (.ok q, wm))
    (hcyc : ∀ f ∈ this.frames, ¬ (f.m_interfaceType = t ∧ f.m_name = n))
    (hafter : Context.afterResolve (Context.resolve cls F) (Context.tryResolve cls F) this wm
      = (.ok (), w1)) :
    Context.tryResolve cls (F + 1) this t n w = (.ok q, w1) := by
  rw [tryResolve_eq_finish cls F this t n w hcyc, hm]
  simp only [Context.finish, hafter]

/-- The first lookup of a singleton whose creation function yields the instance `a`: the
instance is returned and cached in the binding. -/
theorem lookup_singleton_first (cls : TypeId → Script) (w : World) (this : Context)
    (t : TypeId) (n : String) (d o fuel : Nat) (b : shared_ptr_binding) (a : Nat)
    (sl1 : Context) (wc : World)
    (hnear : Nearest w t n this.m_sl d o)
    (hb : w.binding? ⟨o, t, n⟩ = some b)
    (hsing : b.m_fnGet = .functor4)
    (hcreate : invoke cls fuel ⟨o, t, n⟩ b.m_fnCreate (this.child t n) w
      = (.ok (some a, sl1), wc)) :
    m_resolve cls (fuel + 1 + 1 + d) t this.m_sl (this.child t n) w
        = (.ok (some a), wc.setFnGet ⟨o, t, n⟩ (.functor4a (some a)))
    ∧ m_tryResolve cls (fuel + 1 + 1 + d) t this.m_sl (this.child t n) w
        = (.ok (some a), wc.setFnGet ⟨o, t, n⟩ (.functor4a (some a)))
    ∧ ∃ bc, (wc.setFnGet ⟨o, t, n⟩ (.functor4a (some a))).binding? ⟨o, t, n⟩
        = some ⟨.functor4a (some a), bc⟩ := by
  have hget : invoke cls (fuel + 1) ⟨o, t, n⟩ b.m_fnGet (this.child t n) w
      = (.ok (some a, sl1), wc.setFnGet ⟨o, t, n⟩ (.functor4a (some a))) := by
    rw [hsing, invoke_functor4 cls fuel _ _ w b hb, hcreate]
  obtain ⟨hm, htm⟩ := lookup_served cls w this t n d o (fuel + 1) b a sl1 _ hnear hb hget
  refine ⟨hm, htm, ?_⟩
  have hev_c : Evolves w wc := by
    cases fuel with
    | zero => simp [invoke] at hcreate
    | succ f =>
      have h := (engine_evolves cls (f + 1)).1 ⟨o, t, n⟩ b.m_fnCreate (this.child t n) w
        ⟨b, hb, Or.inr ⟨hsing, rfl⟩⟩
      rw [hcreate] at h; exact h
  obtain ⟨bc, hbc, _, _⟩ := hev_c.binding _ _ hb
  refine ⟨bc.m_fnCreate, ?_⟩
  rw [World.setFnGet, binding?_modifyBinding, if_pos rfl, hbc]; rfl

/-! ## Transient resolves that run no callback -/

theorem transient_step_exact (cls : TypeId → Script) (w : World) (this : Context)
    (t : TypeId) (n : String) (d o fuel : Nat) (b : shared_ptr_binding) (T : TypeId)
    (body : Script) (p : Ptr) (w1 : World)
    (hctx : this.frames ≠ [])
    (hnear : Nearest w t n this.m_sl d o)
    (hb : w.binding? ⟨o, t, n⟩ = some b)
    (hkind : b.m_fnGet = .functor7 T ∨ b.m_fnGet = .functor9 T
      ∨ b.m_fnGet = .functor12 T body false)
    (hcyc : ∀ f ∈ this.frames, ¬ (f.m_interfaceType = t ∧ f.m_name = n))
    (hres : Context.resolve cls fuel this t n w = (.ok p, w1))
    (hset : this.isRoot = true →
      (m_resolve cls (fuel - 1) t this.m_sl (this.child t n) w).2.fnAfterResolveLists.getD
        this.m_root [] = []) :
    w1.created.count ⟨o, t, n⟩ = w.created.count ⟨o, t, n⟩ + 1 := by
  cases fuel with
  | zero => simp [Context.resolve] at hres
  | succ F =>
    rw [resolve_eq_finish cls F this t n w hcyc] at hres
    rw [Nat.add_sub_cancel] at hset
    rcases hm : m_resolve cls F t this.m_sl (this.child t n) w with ⟨r, wm⟩
    rw [hm] at hres hset
    cases r with
    | error e => simp [Context.finish] at hres
    | ok q =>
      simp only [Context.finish, afterResolve_idle _ _ this wm hset, Prod.mk.injEq,
        Except.ok.injEq] at hres
      obtain ⟨_, rfl⟩ := hres
      obtain ⟨F', rfl, hm'⟩ := m_resolve_walk_ok cls hnear (this.child t n) rfl F q wm hm
      cases F' with
      | zero => simp [m_resolve] at hm'
      | succ G =>
        cases G with
        | zero =>
          rw [m_resolve_hit cls 0 (this.child t n) hb] at hm'
          simp [served, invoke] at hm'
        | succ H =>
          have hc := lookup_transient_count cls w this t n d o H b T body hctx hnear hb hkind
          rw [hm] at hc
          exact hc

theorem transient_times_exact (cls : TypeId → Script) (this : Context) (t : TypeId)
    (n : String) (d o fuel : Nat) (T : TypeId) (body : Script) (hctx : this.frames ≠ [])
    (hcyc : ∀ f ∈ this.frames, ¬ (f.m_interfaceType = t ∧ f.m_name = n)) :
    ∀ (k : Nat) (w : World) (b : shared_ptr_binding) (ps : List Ptr) (w' : World),
      Nearest w t n this.m_sl d o → w.binding? ⟨o, t, n⟩ = some b →
      (b.m_fnGet = .functor7 T ∨ b.m_fnGet = .functor9 T
        ∨ b.m_fnGet = .functor12 T body false) →
      resolveTimes cls fuel this t n k w = (.ok ps, w') →
      Settled cls fuel this t n k w →
      w'.created.count ⟨o, t, n⟩ = w.created.count ⟨o, t, n⟩ + k := by
  intro k
  induction k with
  | zero =>
    intro w b ps w' _ _ _ hrun _
    simp only [resolveTimes, Prod.mk.injEq, Except.ok.injEq] at hrun
    obtain ⟨_, rfl⟩ := hrun
    rfl
  | succ k ih =>
    intro w b ps w' hnear hb hkind hrun hset
    simp only [resolveTimes] at hrun
    have hev := (engine_evolves cls fuel).2.2.2.1 this t n w
    obtain ⟨hset1, hset2⟩ := hset
    rcases hres : Context.resolve cls fuel this t n w with ⟨r, w1⟩
    rw [hres] at hrun hev hset2
    cases r with
    | error e => simp at hrun
    | ok p =>
      simp only [] at hrun
      rcases hrest : resolveTimes cls fuel this t n k w1 with ⟨r2, w2⟩
      rw [hrest] at hrun
      cases r2 with
      | error e => simp at hrun
      | ok ps' =>
        simp only [Prod.mk.injEq, Except.ok.injEq] at hrun
        obtain ⟨_, rfl⟩ := hrun
        have hcnt := transient_step_exact cls w this t n d o fuel b T body p w1
          hctx hnear hb hkind hcyc hres hset1
        obtain ⟨b1, hb1, _, hg1⟩ := hev.binding _ _ hb
        have hne4 : b.m_fnGet ≠ .functor4 := by
          rcases hkind with e | e | e <;> rw [e] <;> simp
        have hkind1 : b1.m_fnGet = .functor7 T ∨ b1.m_fnGet = .functor9 T
            ∨ b1.m_fnGet = .functor12 T body false := by rw [hg1 hne4]; exact hkind
        have h2 := ih w1 b1 ps' w2 (Nearest.evolves hev hnear) hb1 hkind1 hrest hset2
        omega

/-! ## Visits that yield -/

/-- When every binding of `refs` yields on the visitor context in every world that resolutions
lead to, the visit of `refs` yields one entry per binding. -/
theorem resolveEach_of_each (cls : TypeId → Script) (fuel : Nat) (this : Context) (t : TypeId)
    (w : World) :
    ∀ (refs : List BindingRef),
      (∀ ref ∈ refs, ∀ (w0 : World) (m_all : List Ptr), Evolves w w0 →
        ∃ p w1, Functor.call (BindingRef.get cls fuel) this t ref m_all w0
          = (.ok (m_all ++ [p]), w1)) →
      ∀ (w0 : World) (m_all : List Ptr), Evolves w w0 →
        ∃ rs w1, rs.length = refs.length
          ∧ resolveEach cls fuel this t refs m_all w0 = (.ok (m_all ++ rs), w1) := by
  intro refs
  induction refs with
  | nil =>
    intro _ w0 m_all _
    exact ⟨[], w0, rfl, by simp [resolveEach]⟩
  | cons ref refs ih =>
    intro heach w0 m_all hev
    obtain ⟨p, w1, hc⟩ := heach ref (List.mem_cons_self _ _) w0 m_all hev
    have hev1 : Evolves w0 w1 := by
      have h := call_evolves cls fuel this t ref m_all w0
      rw [hc] at h; exact h
    obtain ⟨rs, w2, hlen, hrest⟩ := ih (fun r hr => heach r (List.mem_cons_of_mem _ hr)) w1
      (m_all ++ [p]) (hev.trans hev1)
    refine ⟨p :: rs, w2, by simp [hlen], ?_⟩
    simp only [resolveEach, hc, hrest, List.append_assoc, List.singleton_append]

/-- The visit of a binding whose creation function makes no engine call, on a context without
concrete type: a new object is appended. -/
theorem call_plain (cls : TypeId → Script) (fuel : Nat) (m_ctx : Context) (t : TypeId)
    (ref : BindingRef) (b : shared_ptr_binding) (T : TypeId) (m_all : List Ptr) (w : World)
    (hb : w.binding? ref = some b)
    (hkind : b.m_fnGet = .functor8 T ∨ b.m_fnGet = .functor10 T
      ∨ b.m_fnGet = .functor12 T .done false
      ∨ ((b.m_fnGet = .functor7 T ∨ b.m_fnGet = .functor9 T) ∧ cls T = .done))
    (hcyc : ∀ f ∈ m_ctx.frames, ¬ (f.m_interfaceType = t ∧ f.m_name = "")) :
    Functor.call (BindingRef.get cls (fuel + 1)) m_ctx t ref m_all w
      = (.ok (m_all ++ [some w.heap.length]),
          (w.traceCreate ref).alloc
            ⟨T, [], ⟨m_ctx.m_sl, m_ctx.m_root, ⟨t, "", some T⟩ :: m_ctx.frames⟩⟩) := by
  have hchk : checkRecursiveResolve (m_ctx.child t "") m_ctx.frames = .ok () :=
    checkRecursiveResolve_ok _ _ hcyc
  unfold Functor.call BindingRef.get
  simp only [hchk, hb]
  rcases hkind with e | e | e | ⟨e | e, hcls⟩ <;> rw [e] <;> simp only [invoke] <;>
    first
    | rfl
    | (rw [hcls]; rfl)

/-- In every world that resolutions lead to from `allWorld`, each of its two bindings of
`ITest` yields a new object on the visitor context of the root. -/
theorem allWorld_each :
    ∀ ref ∈ allWorld.bindingsOf 0 "ITest", ∀ (w0 : World) (m_all : List Ptr),
      Evolves allWorld w0 →
      ∃ p w1, Functor.call (BindingRef.get testClasses 3) (allWorld.m_context 0) "ITest" ref
        m_all w0 = (.ok (m_all ++ [p]), w1) := by
  intro ref href w0 m_all hev
  have href' : ref = ⟨0, "ITest", "A"⟩ ∨ ref = ⟨0, "ITest", "B"⟩ := by
    rw [show allWorld.bindingsOf 0 "ITest" = [⟨0, "ITest", "A"⟩, ⟨0, "ITest", "B"⟩] from rfl]
      at href
    simpa using href
  rcases href' with rfl | rfl
  · obtain ⟨b', hb', _, hg⟩ := hev.binding ⟨0, "ITest", "A"⟩
      ⟨.functor9 "TestA", .functor9 "TestA"⟩ rfl
    exact ⟨_, _, call_plain testClasses 2 (allWorld.m_context 0) "ITest" _ b' "TestA" m_all w0
      hb' (Or.inr (Or.inr (Or.inr ⟨Or.inr (hg (by simp)), rfl⟩))) (by decide)⟩
  · obtain ⟨b', hb', _, hg⟩ := hev.binding ⟨0, "ITest", "B"⟩
      ⟨.functor9 "TestB", .functor9 "TestB"⟩ rfl
    exact ⟨_, _, call_plain testClasses 2 (allWorld.m_context 0) "ITest" _ b' "TestB" m_all w0
      hb' (Or.inr (Or.inr (Or.inr ⟨Or.inr (hg (by simp)), rfl⟩))) (by decide)⟩

/-! ## A resolution touches the deferred callbacks of its own root context only -/

theorem Others.unchanged (r : Nat) (w : World) : Others r w w :=
  ⟨Nat.le_refl _, fun _ _ _ => rfl⟩

theorem Others.chain {r : Nat} {w w1 w2 : World} (h1 : Others r w w1) (h2 : Others r w1 w2) :
    Others r w w2 :=
  ⟨Nat.le_trans h1.1 h2.1, fun i hi hlt =>
    (h2.2 i hi (Nat.lt_of_lt_of_le hlt h1.1)).trans (h1.2 i hi hlt)⟩

theorem Others.of_same_lists {r : Nat} {w w' : World}
    (h : w'.fnAfterResolveLists = w.fnAfterResolveLists) : Others r w w' := by
  refine ⟨by rw [h], fun i _ _ => by rw [h]⟩

theorem Others.pushed (r : Nat) (w : World) (fn : Script) :
    Others r w (w.pushAfterResolve r fn) := by
  refine ⟨by simp [World.pushAfterResolve], fun i hi _ => ?_⟩
  simp only [World.pushAfterResolve]
  rw [List.getElem?_set_ne (fun e => hi e.symm)]

theorem Others.cleared (r : Nat) (w : World) :
    Others r w { w with fnAfterResolveLists := w.fnAfterResolveLists.set r [] } := by
  refine ⟨by simp, fun i hi _ => ?_⟩
  simp only []
  rw [List.getElem?_set_ne (fun e => hi e.symm)]

/-- What a call on a root context created later does, leaves the lists of the earlier root
contexts alone. -/
theorem Others.widen {r r1 : Nat} {w w1 w2 : World} (h1 : Others r w w1)
    (hr : w.fnAfterResolveLists.length ≤ r1) (h2 : Others r1 w1 w2) : Others r w w2 :=
  ⟨Nat.le_trans h1.1 h2.1, fun i hi hlt =>
    (h2.2 i (by omega) (Nat.lt_of_lt_of_le hlt h1.1)).trans (h1.2 i hi hlt)⟩

theorem Others.newRoot (r : Nat) (w : World) (sl : Nat) : Others r w (w.newRootContext sl).2 := by
  refine ⟨by simp [World.newRootContext], fun i _ hlt => ?_⟩
  simp only [World.newRootContext]
  rw [List.getElem?_append_left hlt]

theorem runScript_others {res tryRes : Context → TypeId → String → World → Out Ptr}
    (hr : ResOthers res) (ht : ResOthers tryRes) (sl : Context) :
    ∀ (script : Script) (fields : List Ptr) (w : World),
      Others sl.m_root w (runScript res tryRes sl script fields w).2 := by
  intro script
  induction script with
  | done => intro fields w; exact Others.unchanged _ w
  | resolve t n rest ih =>
    intro fields w
    have h := hr sl t n w
    simp only [runScript]
    rcases hres : res sl t n w with ⟨v, w1⟩
    rw [hres] at h
    cases v with
    | error e => exact h
    | ok p => exact h.chain (ih _ _)
  | tryResolve t n rest ih =>
    intro fields w
    have h := ht sl t n w
    simp only [runScript]
    rcases hres : tryRes sl t n w with ⟨v, w1⟩
    rw [hres] at h
    cases v with
    | error e => exact h
    | ok p => exact h.chain (ih _ _)
  | afterResolve fn rest _ ih =>
    intro fields w
    simp only [runScript]
    exact (Others.pushed sl.m_root w fn).chain (ih _ _)

theorem construct_others {res tryRes : Context → TypeId → String → World → Out Ptr}
    (hr : ResOthers res) (ht : ResOthers tryRes) (ref : BindingRef) (t : TypeId)
    (body : Script) (yieldsNull : Bool) (sl : Context) (w : World) :
    Others sl.m_root w (construct res tryRes ref t body yieldsNull sl w).2 := by
  have h0 : Others sl.m_root w (w.traceCreate ref) := Others.of_same_lists rfl
  simp only [construct]
  cases hset : sl.setConcreteType t with
  | error e => exact h0
  | ok sl1 =>
    have hroot : sl1.m_root = sl.m_root := (SameRequest.of_setConcreteType hset).2.1
    have h1 := runScript_others hr ht sl1 body [] (w.traceCreate ref)
    rw [hroot] at h1
    simp only []
    rcases hrun : runScript res tryRes sl1 body [] (w.traceCreate ref) with ⟨v, w1⟩
    rw [hrun] at h1
    cases v with
    | error e => exact h0.chain h1
    | ok fields =>
      cases yieldsNull with
      | true => exact h0.chain h1
      | false => exact (h0.chain h1).chain (Others.of_same_lists rfl)

theorem forward_others {res : Context → TypeId → String → World → Out Ptr}
    (hr : ResOthers res) (ref : BindingRef) (t : TypeId) (m_name : String) (sl : Context)
    (w : World) : Others sl.m_root w (forward res ref t m_name sl w).2 := by
  have h0 : Others sl.m_root w (w.traceCreate ref) := Others.of_same_lists rfl
  have h1 := hr sl t m_name (w.traceCreate ref)
  simp only [forward]
  rcases hres : res sl t m_name (w.traceCreate ref) with ⟨v, w1⟩
  rw [hres] at h1
  cases v with
  | error e => exact h0.chain h1
  | ok p => exact h0.chain h1

theorem runCallbacks_others {res tryRes : Context → TypeId → String → World → Out Ptr}
    (hr : ResOthers res) (ht : ResOthers tryRes) (r m_sl : Nat) :
    ∀ (fns : List Script) (w : World), Others r w (runCallbacks res tryRes m_sl fns w).2 := by
  intro fns
  induction fns with
  | nil => intro w; exact Others.unchanged r w
  | cons fn fns ih =>
    intro w
    simp only [runCallbacks]
    have h0 : Others r w (w.newRootContext m_sl).2 := Others.newRoot r w m_sl
    have h1 := runScript_others hr ht (w.newRootContext m_sl).1 fn [] (w.newRootContext m_sl).2
    have h2 : Others r w (runScript res tryRes (w.newRootContext m_sl).1 fn []
        (w.newRootContext m_sl).2).2 :=
      Others.widen h0 (Nat.le_refl _) h1
    rcases hrun : runScript res tryRes (w.newRootContext m_sl).1 fn [] (w.newRootContext m_sl).2
      with ⟨v, w1⟩
    rw [hrun] at h2
    cases v with
    | error e => exact h2
    | ok u => exact h2.chain (ih w1)

theorem afterResolve_others {res tryRes : Context → TypeId → String → World → Out Ptr}
    (hr : ResOthers res) (ht : ResOthers tryRes) (this : Context) (w : World) :
    Others this.m_root w (Context.afterResolve res tryRes this w).2 := by
  unfold Context.afterResolve
  cases hroot : this.isRoot with
  | false => exact Others.unchanged _ w
  | true =>
    simp only [if_true]
    cases hq : w.fnAfterResolveLists.getD this.m_root [] with
    | nil => exact Others.unchanged _ w
    | cons fn fns =>
      have h1 := runCallbacks_others hr ht this.m_root this.m_sl (fn :: fns) w
      simp only []
      rcases hrun : runCallbacks res tryRes this.m_sl (fn :: fns) w with ⟨v, w1⟩
      rw [hrun] at h1
      cases v with
      | error e => exact h1
      | ok u => exact h1.chain (Others.cleared _ w1)

theorem lookup_others_step (cls : TypeId → Script) (fuel : Nat)
    (look : Nat → TypeId → Nat → Context → World → Out Ptr) (miss : Context → World → Out Ptr)
    (hmiss : ∀ slc w, (miss slc w).2 = w)
    (ihinv : ∀ ref fn sl w, Others sl.m_root w (invoke cls fuel ref fn sl w).2)
    (ihlook : ∀ t l slc w, Others slc.m_root w (look fuel t l slc w).2)
    (t : TypeId) (l : Nat) (slc : Context) (w : World) (sl : Locator) :
    Others slc.m_root w
      (match sl.getTypedServiceLocator t with
        | none =>
          match sl.m_parent with
          | none => miss slc w
          | some m_parent => look fuel t m_parent slc w
        | some nsl =>
          match TypedServiceLocator.tryResolve (invoke cls fuel ⟨l, t, slc.getName⟩)
              nsl slc.getName slc w with
          | (.error e, w1) => (.error e, w1)
          | (.ok (some a, _), w1) => (.ok (some a), w1)
          | (.ok (none, slc1), w1) =>
            match sl.m_parent with
            | none => miss slc1 w1
            | some m_parent => look fuel t m_parent slc1 w1).2 := by
  cases hreg : sl.getTypedServiceLocator t with
  | none =>
    cases hp : sl.m_parent with
    | none => simp only [hmiss]; exact Others.unchanged _ w
    | some p => exact ihlook _ _ _ _
  | some nsl =>
    simp only [TypedServiceLocator.tryResolve]
    cases hfind : Map.find nsl slc.getName with
    | none =>
      cases hp : sl.m_parent with
      | none => simp only [hmiss]; exact Others.unchanged _ w
      | some p => exact ihlook _ _ _ _
    | some b =>
      have h1 := ihinv ⟨l, t, slc.getName⟩ b.m_fnGet slc w
      simp only []
      rcases hres : invoke cls fuel ⟨l, t, slc.getName⟩ b.m_fnGet slc w with ⟨v, w1⟩
      rw [hres] at h1
      cases v with
      | error e => exact h1
      | ok v =>
        obtain ⟨ptr, slc1⟩ := v
        cases ptr with
        | some a => exact h1
        | none =>
          have hroot : slc1.m_root = slc.m_root :=
            (invoke_sameRequest cls fuel _ _ slc w _ slc1 w1 hres).2.1
          cases hp : sl.m_parent with
          | none => simp only [hmiss]; exact h1
          | some p =>
            have h2 := ihlook t p slc1 w1
            rw [hroot] at h2
            exact h1.chain h2

/-- Every engine call leaves the deferred-callback lists of the root contexts other than its
own as they were. -/
theorem engine_others (cls : TypeId → Script) : ∀ fuel : Nat,
    (∀ ref fn sl w, Others sl.m_root w (invoke cls fuel ref fn sl w).2)
    ∧ (∀ t l slc w, Others slc.m_root w (m_resolve cls fuel t l slc w).2)
    ∧ (∀ t l slc w, Others slc.m_root w (m_tryResolve cls fuel t l slc w).2)
    ∧ ResOthers (Context.resolve cls fuel)
    ∧ ResOthers (Context.tryResolve cls fuel) := by
  intro fuel
  induction fuel with
  | zero =>
    refine ⟨fun _ _ _ w => ?_, fun _ _ _ w => ?_, fun _ _ _ w => ?_,
      fun _ _ _ w => ?_, fun _ _ _ w => ?_⟩
    · simp only [invoke]; exact Others.unchanged _ w
    · simp only [m_resolve]; exact Others.unchanged _ w
    · simp only [m_tryResolve]; exact Others.unchanged _ w
    · simp only [Context.resolve]; exact Others.unchanged _ w
    · simp only [Context.tryResolve]; exact Others.unchanged _ w
  | succ fuel ih =>
    obtain ⟨ihinv, ihm, iht, ihr, ihtr⟩ := ih
    refine ⟨?_, ?_, ?_, ?_, ?_⟩
    · intro ref fn sl w
      cases fn with
      | empty => simp only [invoke]; exact Others.unchanged _ w
      | functorY p => simp only [invoke]; exact Others.unchanged _ w
      | functor4a p => simp only [invoke]; exact Others.unchanged _ w
      | functor4 =>
        simp only [invoke]
        cases hb : w.binding? ref with
        | none => exact Others.unchanged _ w
        | some b =>
          have h1 := ihinv ref b.m_fnCreate sl w
          simp only []
          rcases hres : invoke cls fuel ref b.m_fnCreate sl w with ⟨v, w1⟩
          rw [hres] at h1
          cases v with
          | error e => exact h1
          | ok v => exact h1.chain (Others.of_same_lists (setFnGet_lists _ _ _))
      | functor7 t => simp only [invoke]; exact construct_others ihr ihtr _ _ _ _ _ _
      | functor8 t => simp only [invoke]; exact construct_others ihr ihtr _ _ _ _ _ _
      | functor9 t => simp only [invoke]; exact construct_others ihr ihtr _ _ _ _ _ _
      | functor10 t => simp only [invoke]; exact construct_others ihr ihtr _ _ _ _ _ _
      | functor12 t m_fn yn => simp only [invoke]; exact construct_others ihr ihtr _ _ _ _ _ _
      | functor13 t m => simp only [invoke]; exact forward_others ihr _ _ _ _ _
      | functor15 t m => simp only [invoke]; exact forward_others ihr _ _ _ _ _
    · intro t l slc w
      simp only [m_resolve]
      cases hl : w.locators[l]? with
      | none => exact Others.unchanged _ w
      | some sl =>
        exact lookup_others_step cls fuel (m_resolve cls)
          (fun slc w => (.error (unableToResolve slc), w)) (fun _ _ => rfl) ihinv ihm
          t l slc w sl
    · intro t l slc w
      simp only [m_tryResolve]
      cases hl : w.locators[l]? with
      | none => exact Others.unchanged _ w
      | some sl =>
        exact lookup_others_step cls fuel (m_tryResolve cls)
          (fun _ w => (.ok none, w)) (fun _ _ => rfl) ihinv iht t l slc w sl
    · intro this t n w
      simp only [Context.resolve]
      cases hchk : checkRecursiveResolve (this.child t n) this.frames with
      | error e => exact Others.unchanged _ w
      | ok u =>
        have h1 := ihm t this.m_sl (this.child t n) w
        simp only []
        rcases hres : m_resolve cls fuel t this.m_sl (this.child t n) w with ⟨v, w1⟩
        rw [hres] at h1
        cases v with
        | error e => exact h1
        | ok ptr =>
          have h2 := afterResolve_others ihr ihtr this w1
          simp only []
          rcases haft : Context.afterResolve (Context.resolve cls fuel)
            (Context.tryResolve cls fuel) this w1 with ⟨v2, w2⟩
          rw [haft] at h2
          have h3 : Others this.m_root w w2 := Others.chain h1 h2
          cases v2 with
          | error e => exact h3
          | ok u2 => exact h3
    · intro this t n w
      simp only [Context.tryResolve]
      cases hchk : checkRecursiveResolve (this.child t n) this.frames with
      | error e => exact Others.unchanged _ w
      | ok u =>
        have h1 := iht t this.m_sl (this.child t n) w
        simp only []
        rcases hres : m_tryResolve cls fuel t this.m_sl (this.child t n) w with ⟨v, w1⟩
        rw [hres] at h1
        cases v with
        | error e => exact h1
        | ok ptr =>
          have h2 := afterResolve_others ihr ihtr this w1
          simp only []
          rcases haft : Context.afterResolve (Context.resolve cls fuel)
            (Context.tryResolve cls fuel) this w1 with ⟨v2, w2⟩
          rw [haft] at h2
          have h3 : Others this.m_root w w2 := Others.chain h1 h2
          cases v2 with
          | error e => exact h3
          | ok u2 => exact h3

theorem resolveSeq_others (cls : TypeId → Script) (fuel : Nat) (this : Context) :
    ∀ (reqs : List (TypeId × String)) (w : World),
      Others this.m_root w (resolveSeq cls fuel this reqs w) := by
  intro reqs
  induction reqs with
  | nil => intro w; exact Others.unchanged _ w
  | cons r reqs ih =>
    intro w
    obtain ⟨t, n⟩ := r
    exact ((engine_others cls fuel).2.2.2.1 this t n w).chain (ih _)

/-! ## Relocation -/

theorem relocate_injective (m g k : Nat) {a b : Nat} (ha : a < m ∨ m + g ≤ a)
    (hb : b < m ∨ m + g ≤ b) (h : relocate m g k a = relocate m g k b) : a = b := by
  unfold relocate at h
  split at h <;> split at h <;> omega

theorem getD_set_lists {α : Type} (l : List (List α)) (i j : Nat) (x : List α) :
    (l.set i x).getD j [] = if i = j ∧ i < l.length then x else l.getD j [] := by
  induction l generalizing i j with
  | nil => simp
  | cons y ys ih =>
    cases i with
    | zero =>
      cases j with
      | zero => simp
      | succ j => simp
    | succ i =>
      cases j with
      | zero => simp
      | succ j =>
        simp only [List.set_cons_succ, List.getD_cons_succ, ih, List.length_cons,
          Nat.add_lt_add_iff_right, Nat.add_right_cancel_iff]

theorem getD_append_nil {α : Type} (l : List (List α)) (j : Nat) :
    (l ++ [[]]).getD j [] = l.getD j [] := by
  induction l generalizing j with
  | nil => cases j <;> simp
  | cons y ys ih =>
    cases j with
    | zero => simp
    | succ j => simpa using ih j

theorem Shift.ctx_setConcreteType (s : Shift) (sl : Context) (t : TypeId) :
    (s.ctx sl).setConcreteType t = Shift.result s.ctx (sl.setConcreteType t) := by
  obtain ⟨a, r, frames⟩ := sl
  cases frames with
  | nil => rfl
  | cons f parents =>
    cases hc : f.m_concreteType with
    | none => simp [Context.setConcreteType, Shift.ctx, Shift.result, hc]
    | some c => simp [Context.setConcreteType, Shift.ctx, Shift.result, hc]

theorem Shift.ctx_check (s : Shift) (c : Context) (frames : List Frame) :
    checkRecursiveResolve (s.ctx c) frames = checkRecursiveResolve c frames := by
  induction frames with
  | nil => rfl
  | cons f fs ih =>
    simp only [checkRecursiveResolve]
    rw [ih]
    rfl

theorem Shift.livePtr_none (s : Shift) : s.livePtr none := fun _ h => by cases h

theorem Shift.root_injective (s : Shift) {Q : Nat → Prop} {r r1 : Nat}
    (hr : s.liveRoot Q r) (hr1 : s.liveRoot Q r1) (h : s.root r = s.root r1) : r = r1 := by
  apply relocate_injective s.q s.h s.e _ _ h
  · rcases hr with ⟨h1, _⟩ | h1
    · exact Or.inl h1
    · exact Or.inr h1
  · rcases hr1 with ⟨h1, _⟩ | h1
    · exact Or.inl h1
    · exact Or.inr h1

theorem Relocated.root_lt {S Q : Nat → Prop} {s : Shift} {wB wA : World}
    (h : Relocated S Q s wB wA) {r : Nat} (hr : s.liveRoot Q r) :
    s.root r < wA.fnAfterResolveLists.length ↔ r < wB.fnAfterResolveLists.length := by
  have h1 := h.listsLen
  have h2 := h.listsLow
  unfold Shift.root relocate
  rcases hr with ⟨h3, _⟩ | h3
  · rw [if_pos h3]; omega
  · rw [if_neg (by omega)]; omega

theorem Relocated.next_addr {S Q : Nat → Prop} {s : Shift} {wB wA : World}
    (h : Relocated S Q s wB wA) : s.addr wB.heap.length = wA.heap.length := by
  have h1 := h.heapLen
  have h2 := h.heapLow
  unfold Shift.addr relocate
  split <;> omega

theorem Relocated.next_live {S Q : Nat → Prop} {s : Shift} {wB wA : World}
    (h : Relocated S Q s wB wA) : s.live wB.heap.length := Or.inr h.heapLow

theorem Relocated.next_root {S Q : Nat → Prop} {s : Shift} {wB wA : World}
    (h : Relocated S Q s wB wA) :
    s.root wB.fnAfterResolveLists.length = wA.fnAfterResolveLists.length := by
  have h1 := h.listsLen
  have h2 := h.listsLow
  unfold Shift.root relocate
  split <;> omega

theorem Relocated.traced {S Q : Nat → Prop} {s : Shift} {wB wA : World}
    (h : Relocated S Q s wB wA) (r1 r2 : BindingRef) :
    Relocated S Q s (wB.traceCreate r1) (wA.traceCreate r2) :=
  ⟨h.parent, h.closed, h.binding, h.stored, h.heapLen, h.heapLow, h.heapObj, h.listsLen,
    h.listsLow, h.lists⟩

theorem Relocated.allocated {S Q : Nat → Prop} {s : Shift} {wB wA : World}
    (h : Relocated S Q s wB wA) (t : TypeId) (fields : List Ptr) (c1 c2 : Context)
    (hf : ∀ p ∈ fields, s.livePtr p) :
    Relocated S Q s (wB.alloc ⟨t, fields, c1⟩) (wA.alloc ⟨t, fields.map s.ptr, c2⟩) := by
  refine ⟨h.parent, h.closed, h.binding, h.stored, ?_, ?_, ?_, h.listsLen, h.listsLow,
    h.lists⟩
  · simp only [World.alloc, List.length_append, List.length_singleton]
    have := h.heapLen
    omega
  · simp only [World.alloc, List.length_append, List.length_singleton]
    have := h.heapLow
    omega
  · intro a o hlive ha
    simp only [World.alloc] at ha ⊢
    rcases Nat.lt_trichotomy a wB.heap.length with hlt | heq | hgt
    · rw [List.getElem?_append_left hlt] at ha
      obtain ⟨o1, h1, h2, h3, h4⟩ := h.heapObj a o hlive ha
      have hlt1 : s.addr a < wA.heap.length := by
        rcases Nat.lt_or_ge (s.addr a) wA.heap.length with h5 | h5
        · exact h5
        · rw [List.getElem?_eq_none h5] at h1; cases h1
      exact ⟨o1, by rw [List.getElem?_append_left hlt1]; exact h1, h2, h3, h4⟩
    · subst heq
      have hB : (wB.heap ++ [(⟨t, fields, c1⟩ : Obj)])[wB.heap.length]?
          = some ⟨t, fields, c1⟩ := by simp
      rw [hB] at ha
      cases ha
      rw [h.next_addr]
      exact ⟨⟨t, fields.map s.ptr, c2⟩, by simp, rfl, rfl, hf⟩
    · have : (wB.heap ++ [(⟨t, fields, c1⟩ : Obj)])[a]? = none := by
        apply List.getElem?_eq_none
        simp only [List.length_append, List.length_singleton]
        omega
      rw [this] at ha
      cases ha

theorem Relocated.registered {S Q : Nat → Prop} {s : Shift} {wB wA : World}
    (h : Relocated S Q s wB wA) (r : Nat) (hr : s.liveRoot Q r) (fn : Script) :
    Relocated S Q s (wB.pushAfterResolve r fn) (wA.pushAfterResolve (s.root r) fn) := by
  refine ⟨h.parent, h.closed, h.binding, h.stored, h.heapLen, h.heapLow, h.heapObj, ?_, ?_,
    ?_⟩
  · simp only [World.pushAfterResolve, List.length_set]
    exact h.listsLen
  · simp only [World.pushAfterResolve, List.length_set]
    exact h.listsLow
  · intro r1 hr1
    simp only [World.pushAfterResolve, getD_set_lists]
    rw [h.lists r hr, h.lists r1 hr1]
    by_cases e : r = r1
    · subst e
      simp only [true_and, h.root_lt hr]
    · have e1 : ¬ s.root r = s.root r1 := fun h1 => e (s.root_injective hr hr1 h1)
      simp only [e, e1, false_and, if_false]

theorem Relocated.emptied {S Q : Nat → Prop} {s : Shift} {wB wA : World}
    (h : Relocated S Q s wB wA) (r : Nat) (hr : s.liveRoot Q r) :
    Relocated S Q s { wB with fnAfterResolveLists := wB.fnAfterResolveLists.set r [] }
      { wA with fnAfterResolveLists := wA.fnAfterResolveLists.set (s.root r) [] } := by
  refine ⟨h.parent, h.closed, h.binding, h.stored, h.heapLen, h.heapLow, h.heapObj, ?_, ?_,
    ?_⟩
  · simp only [List.length_set]
    exact h.listsLen
  · simp only [List.length_set]
    exact h.listsLow
  · intro r1 hr1
    simp only [getD_set_lists]
    rw [h.lists r1 hr1]
    by_cases e : r = r1
    · subst e
      simp only [true_and, h.root_lt hr]
    · have e1 : ¬ s.root r = s.root r1 := fun h1 => e (s.root_injective hr hr1 h1)
      simp only [e, e1, false_and, if_false]

theorem Relocated.newContext {S Q : Nat → Prop} {s : Shift} {wB wA : World}
    (h : Relocated S Q s wB wA) (sl : Nat) :
    (wA.newRootContext sl).1 = s.ctx (wB.newRootContext sl).1
    ∧ Relocated S Q s (wB.newRootContext sl).2 (wA.newRootContext sl).2 := by
  constructor
  · simp only [World.newRootContext, Context.root, Shift.ctx, h.next_root]
  · refine ⟨h.parent, h.closed, h.binding, h.stored, h.heapLen, h.heapLow, h.heapObj, ?_, ?_,
      ?_⟩
    · simp only [World.newRootContext, List.length_append, List.length_singleton]
      have := h.listsLen
      omega
    · simp only [World.newRootContext, List.length_append, List.length_singleton]
      have := h.listsLow
      omega
    · intro r hr
      simp only [World.newRootContext, getD_append_nil]
      exact h.lists r hr

theorem setFnGet_heap (w : World) (ref : BindingRef) (fn : Fn) :
    (w.setFnGet ref fn).heap = w.heap := by
  simp only [World.setFnGet, World.modifyBinding]
  split <;> rfl

theorem Relocated.memoized {S Q : Nat → Prop} {s : Shift} {wB wA : World}
    (h : Relocated S Q s wB wA) (ref : BindingRef) (hS : S ref.loc) (fn : Fn)
    (hfn : s.liveFn fn) :
    Relocated S Q s (wB.setFnGet ref fn) (wA.setFnGet ref (s.fn fn)) := by
  refine ⟨?_, ?_, ?_, ?_, ?_, ?_, ?_, ?_, ?_, ?_⟩
  · intro l hl
    simp only [World.setFnGet, locators_modifyBinding]
    exact h.parent l hl
  · intro l p hl hp
    simp only [World.setFnGet, locators_modifyBinding] at hp
    exact h.closed l p hl hp
  · intro r hr
    simp only [World.setFnGet, binding?_modifyBinding]
    by_cases e : r = ref
    · subst e
      simp only [if_true]
      rw [h.binding r hr]
      cases wB.binding? r with
      | none => rfl
      | some b => rfl
    · simp only [e, if_false]
      exact h.binding r hr
  · intro r b hr hb
    simp only [World.setFnGet, binding?_modifyBinding] at hb
    by_cases e : r = ref
    · subst e
      simp only [if_true] at hb
      cases hb0 : wB.binding? r with
      | none => rw [hb0] at hb; cases hb
      | some b0 =>
        rw [hb0] at hb
        simp only [Option.map_some', Option.some.injEq] at hb
        subst hb
        exact ⟨hfn, (h.stored r b0 hr hb0).2⟩
    · simp only [e, if_false] at hb
      exact h.stored r b hr hb
  · rw [setFnGet_heap, setFnGet_heap]; exact h.heapLen
  · rw [setFnGet_heap]; exact h.heapLow
  · intro a o hlive ha
    rw [setFnGet_heap] at ha ⊢
    exact h.heapObj a o hlive ha
  · rw [setFnGet_lists, setFnGet_lists]; exact h.listsLen
  · rw [setFnGet_lists]; exact h.listsLow
  · intro r hr
    rw [setFnGet_lists, setFnGet_lists]
    exact h.lists r hr

theorem Within.transfer_to {S Q : Nat → Prop} {s : Shift} {sl sl1 : Context}
    (h : Within S Q s sl) (hs : SameRequest sl sl1) : Within S Q s sl1 := by
  obtain ⟨h1, h2, _⟩ := hs
  unfold Within
  rw [h1, h2]
  exact h

theorem Within.descend {S Q : Nat → Prop} {s : Shift} {this : Context}
    (h : Within S Q s this) (t : TypeId) (n : String) : Within S Q s (this.child t n) := h

theorem runScript_relocated {S Q : Nat → Prop} {s : Shift}
    {res tryRes : Context → TypeId → String → World → Out Ptr}
    (hr : ResRelocated S Q s res) (ht : ResRelocated S Q s tryRes) (sl : Context)
    (hin : Within S Q s sl) :
    ∀ (script : Script) (fields : List Ptr) (wB wA : World), (∀ p ∈ fields, s.livePtr p) →
      Relocated S Q s wB wA →
      Similar (List.map s.ptr) (fun fs => ∀ p ∈ fs, s.livePtr p) (Relocated S Q s)
        (runScript res tryRes sl script fields wB)
        (runScript res tryRes (s.ctx sl) script (fields.map s.ptr) wA) := by
  intro script
  induction script with
  | done =>
    intro fields wB wA hf hR
    refine ⟨wA, rfl, hR, ?_⟩
    intro v hv
    simp only [runScript, Except.ok.injEq] at hv
    subst hv
    exact hf
  | resolve t n rest ih =>
    intro fields wB wA hf hR
    obtain ⟨wA1, hA, hR1, hP⟩ := hr sl t n wB wA hin hR
    simp only [runScript, hA]
    rcases hB : res sl t n wB with ⟨v, wB1⟩
    rw [hB] at hR1 hP
    cases v with
    | error e => exact ⟨wA1, rfl, hR1, fun v hv => by cases hv⟩
    | ok p =>
      have hf1 : ∀ x ∈ fields ++ [p], s.livePtr x := by
        intro x hx
        rcases List.mem_append.1 hx with h1 | h1
        · exact hf x h1
        · simp only [List.mem_singleton] at h1
          subst h1
          exact hP x rfl
      have h2 := ih (fields ++ [p]) wB1 wA1 hf1 hR1
      simp only [List.map_append, List.map_cons, List.map_nil] at h2
      exact h2
  | tryResolve t n rest ih =>
    intro fields wB wA hf hR
    obtain ⟨wA1, hA, hR1, hP⟩ := ht sl t n wB wA hin hR
    simp only [runScript, hA]
    rcases hB : tryRes sl t n wB with ⟨v, wB1⟩
    rw [hB] at hR1 hP
    cases v with
    | error e => exact ⟨wA1, rfl, hR1, fun v hv => by cases hv⟩
    | ok p =>
      have hf1 : ∀ x ∈ fields ++ [p], s.livePtr x := by
        intro x hx
        rcases List.mem_append.1 hx with h1 | h1
        · exact hf x h1
        · simp only [List.mem_singleton] at h1
          subst h1
          exact hP x rfl
      have h2 := ih (fields ++ [p]) wB1 wA1 hf1 hR1
      simp only [List.map_append, List.map_cons, List.map_nil] at h2
      exact h2
  | afterResolve fn rest _ ih =>
    intro fields wB wA hf hR
    simp only [runScript]
    exact ih fields _ _ hf (hR.registered sl.m_root hin.2 fn)

theorem construct_relocated {S Q : Nat → Prop} {s : Shift}
    {res tryRes : Context → TypeId → String → World → Out Ptr}
    (hr : ResRelocated S Q s res) (ht : ResRelocated S Q s tryRes) (r1 r2 : BindingRef)
    (t : TypeId) (body : Script) (yieldsNull : Bool) (sl : Context) (wB wA : World)
    (hin : Within S Q s sl) (hR : Relocated S Q s wB wA) :
    Similar (fun v => (s.ptr v.1, s.ctx v.2)) (fun v => s.livePtr v.1) (Relocated S Q s)
      (construct res tryRes r1 t body yieldsNull sl wB)
      (construct res tryRes r2 t body yieldsNull (s.ctx sl) wA) := by
  simp only [construct, Shift.ctx_setConcreteType]
  cases hset : sl.setConcreteType t with
  | error e => exact ⟨_, rfl, hR.traced r1 r2, fun v hv => by cases hv⟩
  | ok sl1 =>
    have hin1 : Within S Q s sl1 := hin.transfer_to (SameRequest.of_setConcreteType hset)
    obtain ⟨wA1, hA, hR1, hP⟩ := runScript_relocated hr ht sl1 hin1 body [] _ _
      (fun p hp => by cases hp) (hR.traced r1 r2)
    simp only [List.map_nil] at hA
    simp only [Shift.result, hA]
    rcases hB : runScript res tryRes sl1 body [] (wB.traceCreate r1) with ⟨v, wB1⟩
    rw [hB] at hR1 hP
    cases v with
    | error e => exact ⟨wA1, rfl, hR1, fun v hv => by cases hv⟩
    | ok fields =>
      cases yieldsNull with
      | true =>
        refine ⟨wA1, rfl, hR1, ?_⟩
        intro v hv
        simp only [if_true, Except.ok.injEq] at hv
        subst hv
        exact s.livePtr_none
      | false =>
        simp only [Shift.result, Bool.false_eq_true, if_false]
        refine ⟨_, ?_, hR1.allocated t fields sl1 (s.ctx sl1) (hP fields rfl), ?_⟩
        · have hnext : s.addr wB1.heap.length = wA1.heap.length := hR1.next_addr
          simp only [Shift.result, Shift.ptr, Option.map_some', hnext]
        · intro v hv
          simp only [Except.ok.injEq] at hv
          subst hv
          intro a ha
          simp only [Option.some.injEq] at ha
          subst ha
          exact hR1.next_live

theorem forward_relocated {S Q : Nat → Prop} {s : Shift}
    {res : Context → TypeId → String → World → Out Ptr}
    (hr : ResRelocated S Q s res) (r1 r2 : BindingRef) (t : TypeId) (m_name : String)
    (sl : Context) (wB wA : World) (hin : Within S Q s sl) (hR : Relocated S Q s wB wA) :
    Similar (fun v => (s.ptr v.1, s.ctx v.2)) (fun v => s.livePtr v.1) (Relocated S Q s)
      (forward res r1 t m_name sl wB) (forward res r2 t m_name (s.ctx sl) wA) := by
  obtain ⟨wA1, hA, hR1, hP⟩ := hr sl t m_name _ _ hin (hR.traced r1 r2)
  simp only [forward, hA]
  rcases hB : res sl t m_name (wB.traceCreate r1) with ⟨v, wB1⟩
  rw [hB] at hR1 hP
  cases v with
  | error e => exact ⟨wA1, rfl, hR1, fun v hv => by cases hv⟩
  | ok p =>
    refine ⟨wA1, rfl, hR1, ?_⟩
    intro v hv
    simp only [Except.ok.injEq] at hv
    subst hv
    exact hP p rfl

theorem runCallbacks_relocated {S Q : Nat → Prop} {s : Shift}
    {res tryRes : Context → TypeId → String → World → Out Ptr}
    (hr : ResRelocated S Q s res) (ht : ResRelocated S Q s tryRes) (m_sl : Nat)
    (hS : S m_sl) :
    ∀ (fns : List Script) (wB wA : World), Relocated S Q s wB wA →
      Similar (fun u => u) (fun _ => True) (Relocated S Q s)
        (runCallbacks res tryRes m_sl fns wB) (runCallbacks res tryRes m_sl fns wA) := by
  intro fns
  induction fns with
  | nil => intro wB wA hR; exact ⟨wA, rfl, hR, fun _ _ => trivial⟩
  | cons fn fns ih =>
    intro wB wA hR
    obtain ⟨hctx, hR0⟩ := hR.newContext m_sl
    have hin : Within S Q s (wB.newRootContext m_sl).1 :=
      ⟨hS, Or.inr hR.listsLow⟩
    obtain ⟨wA1, hA, hR1, _⟩ :=
      runScript_relocated hr ht (wB.newRootContext m_sl).1 hin fn [] _ _
        (fun p hp => by cases hp) hR0
    simp only [List.map_nil] at hA
    rw [← hctx] at hA
    simp only [runCallbacks, hA]
    rcases hB : runScript res tryRes (wB.newRootContext m_sl).1 fn [] (wB.newRootContext m_sl).2
      with ⟨v, wB1⟩
    rw [hB] at hR1
    cases v with
    | error e => exact ⟨wA1, rfl, hR1, fun _ _ => trivial⟩
    | ok u => exact ih wB1 wA1 hR1

theorem afterResolve_relocated {S Q : Nat → Prop} {s : Shift}
    {res tryRes : Context → TypeId → String → World → Out Ptr}
    (hr : ResRelocated S Q s res) (ht : ResRelocated S Q s tryRes) (this : Context)
    (wB wA : World) (hin : Within S Q s this) (hR : Relocated S Q s wB wA) :
    Similar (fun u => u) (fun _ => True) (Relocated S Q s)
      (Context.afterResolve res tryRes this wB)
      (Context.afterResolve res tryRes (s.ctx this) wA) := by
  unfold Context.afterResolve
  have hroot : (s.ctx this).isRoot = this.isRoot := rfl
  rw [hroot]
  cases hr0 : this.isRoot with
  | false => exact ⟨wA, rfl, hR, fun _ _ => trivial⟩
  | true =>
    simp only [if_true]
    have hl : wA.fnAfterResolveLists.getD (s.ctx this).m_root []
        = wB.fnAfterResolveLists.getD this.m_root [] := hR.lists this.m_root hin.2
    rw [hl]
    cases hq : wB.fnAfterResolveLists.getD this.m_root [] with
    | nil => exact ⟨wA, rfl, hR, fun _ _ => trivial⟩
    | cons fn fns =>
      obtain ⟨wA1, hA, hR1, _⟩ :=
        runCallbacks_relocated hr ht this.m_sl hin.1 (fn :: fns) wB wA hR
      have hsl : (s.ctx this).m_sl = this.m_sl := rfl
      simp only [hsl, hA]
      rcases hB : runCallbacks res tryRes this.m_sl (fn :: fns) wB with ⟨v, wB1⟩
      rw [hB] at hR1
      cases v with
      | error e => exact ⟨wA1, rfl, hR1, fun _ _ => trivial⟩
      | ok u => exact ⟨_, rfl, hR1.emptied this.m_root hin.2, fun _ _ => trivial⟩

theorem Relocated.locator {S Q : Nat → Prop} {s : Shift} {wB wA : World}
    (h : Relocated S Q s wB wA) {l : Nat} (hS : S l) :
    (wB.locators[l]? = none → wA.locators[l]? = none)
    ∧ (∀ slB, wB.locators[l]? = some slB →
        ∃ slA, wA.locators[l]? = some slA ∧ slA.m_parent = slB.m_parent) := by
  have hp := h.parent l hS
  constructor
  · intro hB
    rw [hB] at hp
    cases hA : wA.locators[l]? with
    | none => rfl
    | some slA => rw [hA] at hp; cases hp
  · intro slB hB
    rw [hB] at hp
    cases hA : wA.locators[l]? with
    | none => rw [hA] at hp; cases hp
    | some slA =>
      rw [hA] at hp
      simp only [Option.map_some', Option.some.injEq] at hp
      exact ⟨slA, rfl, hp⟩

theorem Relocated.up {S Q : Nat → Prop} {s : Shift} {wB wA : World}
    (h : Relocated S Q s wB wA) {l p : Nat} {slB : Locator} (hS : S l)
    (hl : wB.locators[l]? = some slB) (hp : slB.m_parent = some p) : S p := by
  apply h.closed l p hS
  rw [hl]
  simp only [Option.map_some', hp]

/-- One step of the fallback walk in two related worlds. -/
theorem lookup_relocated_step {S Q : Nat → Prop} {s : Shift} (cls : TypeId → Script)
    (fuel : Nat) (look : Nat → TypeId → Nat → Context → World → Out Ptr)
    (miss : Context → World → Out Ptr)
    (hmiss : ∀ slc wB wA, Relocated S Q s wB wA →
      Similar s.ptr s.livePtr (Relocated S Q s) (miss slc wB) (miss (s.ctx slc) wA))
    (hstepMiss : ∀ (w : World) (t : TypeId) (l : Nat) (sl : Locator) (slc : Context),
      w.locators[l]? = some sl → w.binding? ⟨l, t, slc.getName⟩ = none →
      look (fuel + 1) t l slc w =
        match sl.m_parent with
        | none => miss slc w
        | some p => look fuel t p slc w)
    (hstepHit : ∀ (w : World) (t : TypeId) (l : Nat) (sl : Locator) (b : shared_ptr_binding)
      (slc : Context), w.locators[l]? = some sl → w.binding? ⟨l, t, slc.getName⟩ = some b →
      look (fuel + 1) t l slc w =
        match invoke cls fuel ⟨l, t, slc.getName⟩ b.m_fnGet slc w with
        | (.error e, w1) => (.error e, w1)
        | (.ok (some a, _), w1) => (.ok (some a), w1)
        | (.ok (none, slc1), w1) =>
          match sl.m_parent with
          | none => miss slc1 w1
          | some p => look fuel t p slc1 w1)
    (hdangling : ∀ (w : World) (t : TypeId) (l : Nat) (slc : Context),
      w.locators[l]? = none → look (fuel + 1) t l slc w = (.error .dangling, w))
    (ihinv : ∀ ref fn sl wB wA, S ref.loc → Within S Q s sl → s.liveFn fn →
      Relocated S Q s wB wA →
      Similar (fun v => (s.ptr v.1, s.ctx v.2)) (fun v => s.livePtr v.1) (Relocated S Q s)
        (invoke cls fuel ref fn sl wB) (invoke cls fuel ref (s.fn fn) (s.ctx sl) wA))
    (ihlook : ∀ t l slc wB wA, S l → Within S Q s slc → Relocated S Q s wB wA →
      Similar s.ptr s.livePtr (Relocated S Q s) (look fuel t l slc wB)
        (look fuel t l (s.ctx slc) wA))
    (t : TypeId) (l : Nat) (slc : Context) (wB wA : World) (hS : S l)
    (hin : Within S Q s slc) (hR : Relocated S Q s wB wA) :
    Similar s.ptr s.livePtr (Relocated S Q s) (look (fuel + 1) t l slc wB)
      (look (fuel + 1) t l (s.ctx slc) wA) := by
  obtain ⟨hnone, hsome⟩ := hR.locator hS
  cases hlB : wB.locators[l]? with
  | none =>
    rw [hdangling wB t l slc hlB, hdangling wA t l (s.ctx slc) (hnone hlB)]
    exact ⟨wA, rfl, hR, fun v hv => by cases hv⟩
  | some slB =>
    obtain ⟨slA, hlA, hpar⟩ := hsome slB hlB
    have hname : (s.ctx slc).getName = slc.getName := rfl
    have hbA := hR.binding ⟨l, t, slc.getName⟩ hS
    cases hbB : wB.binding? ⟨l, t, slc.getName⟩ with
    | none =>
      rw [hbB] at hbA
      rw [hstepMiss wB t l slB slc hlB hbB, hstepMiss wA t l slA (s.ctx slc) hlA hbA, hpar]
      cases hp : slB.m_parent with
      | none => exact hmiss slc wB wA hR
      | some p => exact ihlook t p slc wB wA (hR.up hS hlB hp) hin hR
    | some b =>
      rw [hbB] at hbA
      rw [hstepHit wB t l slB b slc hlB hbB,
        hstepHit wA t l slA (s.binding b) (s.ctx slc) hlA hbA, hpar]
      obtain ⟨wA1, hA, hR1, hP⟩ := ihinv ⟨l, t, slc.getName⟩ b.m_fnGet slc wB wA hS hin
        (hR.stored ⟨l, t, slc.getName⟩ b hS hbB).1 hR
      have hA1 : invoke cls fuel ⟨l, t, (s.ctx slc).getName⟩ (s.binding b).m_fnGet (s.ctx slc) wA
          = (Shift.result (fun v => (s.ptr v.1, s.ctx v.2))
              (invoke cls fuel ⟨l, t, slc.getName⟩ b.m_fnGet slc wB).1, wA1) := hA
      rw [hA1]
      rcases hB : invoke cls fuel ⟨l, t, slc.getName⟩ b.m_fnGet slc wB with ⟨v, wB1⟩
      rw [hB] at hR1 hP
      cases v with
      | error e => exact ⟨wA1, rfl, hR1, fun v hv => by cases hv⟩
      | ok v =>
        obtain ⟨ptr, slc1⟩ := v
        cases ptr with
        | some a =>
          refine ⟨wA1, rfl, hR1, ?_⟩
          intro v hv
          simp only [Except.ok.injEq] at hv
          subst hv
          exact hP (some a, slc1) rfl
        | none =>
          have hin1 : Within S Q s slc1 :=
            hin.transfer_to (invoke_sameRequest cls fuel _ _ slc wB _ slc1 wB1 hB)
          simp only [Shift.result, Shift.ptr, Option.map_none']
          cases hp : slB.m_parent with
          | none => exact hmiss slc1 wB1 wA1 hR1
          | some p => exact ihlook t p slc1 wB1 wA1 (hR.up hS hlB hp) hin1 hR1

theorem finish_relocated {S Q : Nat → Prop} {s : Shift}
    {res tryRes : Context → TypeId → String → World → Out Ptr}
    (hr : ResRelocated S Q s res) (ht : ResRelocated S Q s tryRes) (this : Context)
    (hin : Within S Q s this) (rB : Except ServiceLocatorException Ptr) (wB1 wA1 : World)
    (hR1 : Relocated S Q s wB1 wA1) (hP : ∀ v, rB = .ok v → s.livePtr v) :
    Similar s.ptr s.livePtr (Relocated S Q s)
      (match (rB, wB1) with
        | (.error e, w1) => (.error e, w1)
        | (.ok ptr, w1) =>
          match Context.afterResolve res tryRes this w1 with
          | (.error e, w2) => (.error e, w2)
          | (.ok _, w2) => (.ok ptr, w2))
      (match (Shift.result s.ptr rB, wA1) with
        | (.error e, w1) => (.error e, w1)
        | (.ok ptr, w1) =>
          match Context.afterResolve res tryRes (s.ctx this) w1 with
          | (.error e, w2) => (.error e, w2)
          | (.ok _, w2) => (.ok ptr, w2)) := by
  cases rB with
  | error e => exact ⟨wA1, rfl, hR1, fun v hv => by cases hv⟩
  | ok ptr =>
    obtain ⟨wA2, hA2, hR2, _⟩ := afterResolve_relocated hr ht this wB1 wA1 hin hR1
    simp only [Shift.result, hA2]
    rcases hB2 : Context.afterResolve res tryRes this wB1 with ⟨v2, wB2⟩
    rw [hB2] at hR2
    cases v2 with
    | error e => exact ⟨wA2, rfl, hR2, fun v hv => by cases hv⟩
    | ok u =>
      refine ⟨wA2, rfl, hR2, ?_⟩
      intro v hv
      simp only [Except.ok.injEq] at hv
      subst hv
      exact hP ptr rfl

/-- The engine run in two related worlds: every call has the same outcome up to relocation and
leaves related worlds. -/
theorem engine_relocated (cls : TypeId → Script) (S Q : Nat → Prop) (s : Shift) :
    ∀ fuel : Nat,
    (∀ ref fn sl wB wA, S ref.loc → Within S Q s sl → s.liveFn fn → Relocated S Q s wB wA →
      Similar (fun v => (s.ptr v.1, s.ctx v.2)) (fun v => s.livePtr v.1) (Relocated S Q s)
        (invoke cls fuel ref fn sl wB) (invoke cls fuel ref (s.fn fn) (s.ctx sl) wA))
    ∧ (∀ t l slc wB wA, S l → Within S Q s slc → Relocated S Q s wB wA →
      Similar s.ptr s.livePtr (Relocated S Q s) (m_resolve cls fuel t l slc wB)
        (m_resolve cls fuel t l (s.ctx slc) wA))
    ∧ (∀ t l slc wB wA, S l → Within S Q s slc → Relocated S Q s wB wA →
      Similar s.ptr s.livePtr (Relocated S Q s) (m_tryResolve cls fuel t l slc wB)
        (m_tryResolve cls fuel t l (s.ctx slc) wA))
    ∧ ResRelocated S Q s (Context.resolve cls fuel)
    ∧ ResRelocated S Q s (Context.tryResolve cls fuel) := by
  intro fuel
  induction fuel with
  | zero =>
    refine ⟨fun _ _ _ _ wA _ _ _ hR => ?_, fun _ _ _ _ wA _ _ hR => ?_,
      fun _ _ _ _ wA _ _ hR => ?_, fun _ _ _ _ wA _ hR => ?_, fun _ _ _ _ wA _ hR => ?_⟩
    · simp only [invoke]; exact ⟨wA, rfl, hR, fun v hv => by cases hv⟩
    · simp only [m_resolve]; exact ⟨wA, rfl, hR, fun v hv => by cases hv⟩
    · simp only [m_tryResolve]; exact ⟨wA, rfl, hR, fun v hv => by cases hv⟩
    · simp only [Context.resolve]; exact ⟨wA, rfl, hR, fun v hv => by cases hv⟩
    · simp only [Context.tryResolve]; exact ⟨wA, rfl, hR, fun v hv => by cases hv⟩
  | succ fuel ih =>
    obtain ⟨ihinv, ihm, iht, ihr, ihtr⟩ := ih
    refine ⟨?_, ?_, ?_, ?_, ?_⟩
    · intro ref fn sl wB wA hS hin hfn hR
      cases fn with
      | empty =>
        simp only [invoke, Shift.fn]; exact ⟨wA, rfl, hR, fun v hv => by cases hv⟩
      | functorY p =>
        simp only [invoke, Shift.fn]
        refine ⟨wA, rfl, hR, ?_⟩
        intro v hv
        simp only [Except.ok.injEq] at hv
        subst hv
        exact hfn
      | functor4a p =>
        simp only [invoke, Shift.fn]
        refine ⟨wA, rfl, hR, ?_⟩
        intro v hv
        simp only [Except.ok.injEq] at hv
        subst hv
        exact hfn
      | functor4 =>
        simp only [invoke, Shift.fn]
        rw [hR.binding ref hS]
        cases hb : wB.binding? ref with
        | none => exact ⟨wA, rfl, hR, fun v hv => by cases hv⟩
        | some b =>
          obtain ⟨wA1, hA, hR1, hP⟩ := ihinv ref b.m_fnCreate sl wB wA hS hin
            (hR.stored ref b hS hb).2 hR
          have hA1 : invoke cls fuel ref (s.binding b).m_fnCreate (s.ctx sl) wA
              = (Shift.result (fun v => (s.ptr v.1, s.ctx v.2))
                  (invoke cls fuel ref b.m_fnCreate sl wB).1, wA1) := hA
          simp only [Option.map_some', hA1]
          rcases hB : invoke cls fuel ref b.m_fnCreate sl wB with ⟨v, wB1⟩
          rw [hB] at hR1 hP
          cases v with
          | error e => exact ⟨wA1, rfl, hR1, fun v hv => by cases hv⟩
          | ok v =>
            obtain ⟨m_sing, sl1⟩ := v
            have hlive : s.livePtr m_sing := hP (m_sing, sl1) rfl
            refine ⟨_, rfl, hR1.memoized ref hS (.functor4a m_sing) hlive, ?_⟩
            intro v hv
            simp only [Except.ok.injEq] at hv
            subst hv
            exact hlive
      | functor7 t =>
        simp only [invoke, Shift.fn]; exact construct_relocated ihr ihtr _ _ _ _ _ _ _ _ hin hR
      | functor8 t =>
        simp only [invoke, Shift.fn]; exact construct_relocated ihr ihtr _ _ _ _ _ _ _ _ hin hR
      | functor9 t =>
        simp only [invoke, Shift.fn]; exact construct_relocated ihr ihtr _ _ _ _ _ _ _ _ hin hR
      | functor10 t =>
        simp only [invoke, Shift.fn]; exact construct_relocated ihr ihtr _ _ _ _ _ _ _ _ hin hR
      | functor12 t m_fn yn =>
        simp only [invoke, Shift.fn]; exact construct_relocated ihr ihtr _ _ _ _ _ _ _ _ hin hR
      | functor13 t m =>
        simp only [invoke, Shift.fn]; exact forward_relocated ihr _ _ _ _ _ _ _ hin hR
      | functor15 t m =>
        simp only [invoke, Shift.fn]; exact forward_relocated ihr _ _ _ _ _ _ _ hin hR
    · intro t l slc wB wA hS hin hR
      refine lookup_relocated_step cls fuel (m_resolve cls)
        (fun slc w => (.error (unableToResolve slc), w)) ?_ ?_ ?_ ?_ ihinv ihm t l slc wB wA
        hS hin hR
      · intro slc wB wA hR
        exact ⟨wA, rfl, hR, fun v hv => by cases hv⟩
      · intro w t l sl slc hl hb
        exact m_resolve_miss cls fuel slc hl hb
      · intro w t l sl b slc hl hb
        rw [m_resolve_hit cls fuel slc hb, hl]
        rfl
      · intro w t l slc hl
        simp only [m_resolve, hl]
    · intro t l slc wB wA hS hin hR
      refine lookup_relocated_step cls fuel (m_tryResolve cls)
        (fun _ w => (.ok none, w)) ?_ ?_ ?_ ?_ ihinv iht t l slc wB wA hS hin hR
      · intro slc wB wA hR
        refine ⟨wA, rfl, hR, ?_⟩
        intro v hv
        simp only [Except.ok.injEq] at hv
        subst hv
        exact s.livePtr_none
      · intro w t l sl slc hl hb
        exact m_tryResolve_miss cls fuel slc hl hb
      · intro w t l sl b slc hl hb
        rw [m_tryResolve_hit cls fuel slc hb, hl]
        rfl
      · intro w t l slc hl
        simp only [m_tryResolve, hl]
    · intro this t n wB wA hin hR
      simp only [Context.resolve]
      have hchk : checkRecursiveResolve ((s.ctx this).child t n) (s.ctx this).frames
          = checkRecursiveResolve (this.child t n) this.frames :=
        Shift.ctx_check s (this.child t n) this.frames
      rw [hchk]
      cases hc : checkRecursiveResolve (this.child t n) this.frames with
      | error e => exact ⟨wA, rfl, hR, fun v hv => by cases hv⟩
      | ok u =>
        simp only []
        obtain ⟨wA1, hA, hR1, hP⟩ :=
          ihm t this.m_sl (this.child t n) wB wA hin.1 (hin.descend t n) hR
        have hA1 : m_resolve cls fuel t (s.ctx this).m_sl ((s.ctx this).child t n) wA
            = (Shift.result s.ptr (m_resolve cls fuel t this.m_sl (this.child t n) wB).1,
                wA1) := hA
        rw [hA1]
        rcases hB : m_resolve cls fuel t this.m_sl (this.child t n) wB with ⟨rB, wB1⟩
        rw [hB] at hR1 hP
        exact finish_relocated ihr ihtr this hin rB wB1 wA1 hR1 hP
    · intro this t n wB wA hin hR
      simp only [Context.tryResolve]
      have hchk : checkRecursiveResolve ((s.ctx this).child t n) (s.ctx this).frames
          = checkRecursiveResolve (this.child t n) this.frames :=
        Shift.ctx_check s (this.child t n) this.frames
      rw [hchk]
      cases hc : checkRecursiveResolve (this.child t n) this.frames with
      | error e => exact ⟨wA, rfl, hR, fun v hv => by cases hv⟩
      | ok u =>
        simp only []
        obtain ⟨wA1, hA, hR1, hP⟩ :=
          iht t this.m_sl (this.child t n) wB wA hin.1 (hin.descend t n) hR
        have hA1 : m_tryResolve cls fuel t (s.ctx this).m_sl ((s.ctx this).child t n) wA
            = (Shift.result s.ptr (m_tryResolve cls fuel t this.m_sl (this.child t n) wB).1,
                wA1) := hA
        rw [hA1]
        rcases hB : m_tryResolve cls fuel t this.m_sl (this.child t n) wB with ⟨rB, wB1⟩
        rw [hB] at hR1 hP
        exact finish_relocated ihr ihtr this hin rB wB1 wA1 hR1 hP

/-! ## The world without the bindings of one locator -/

theorem withoutBindings_heap (w : World) (c : Nat) : (w.withoutBindings c).heap = w.heap := by
  unfold World.withoutBindings
  split <;> rfl

theorem withoutBindings_lists (w : World) (c : Nat) :
    (w.withoutBindings c).fnAfterResolveLists = w.fnAfterResolveLists := by
  unfold World.withoutBindings
  split <;> rfl

theorem withoutBindings_parent (w : World) (c l : Nat) :
    ((w.withoutBindings c).locators[l]?).map Locator.m_parent
      = (w.locators[l]?).map Locator.m_parent := by
  unfold World.withoutBindings
  cases hc : w.locators[c]? with
  | none => rfl
  | some sl =>
    simp only []
    by_cases e : c = l
    · subst e
      have hlt : c < w.locators.length := getElem?_some_lt hc
      simp [List.getElem?_set_self, hlt, hc]
    · simp [List.getElem?_set_ne e]

theorem withoutBindings_other (w : World) (c : Nat) (ref : BindingRef) (h : ref.loc ≠ c) :
    (w.withoutBindings c).binding? ref = w.binding? ref := by
  apply binding?_congr
  unfold World.withoutBindings
  cases hc : w.locators[c]? with
  | none => rfl
  | some sl =>
    simp only []
    rw [List.getElem?_set_ne (fun e => h e.symm)]

theorem withoutBindings_context (w : World) (c l : Nat) :
    (w.withoutBindings c).m_context l = w.m_context l := by
  unfold World.m_context World.withoutBindings
  cases hc : w.locators[c]? with
  | none => rfl
  | some sl =>
    simp only []
    by_cases e : c = l
    · subst e
      have hlt : c < w.locators.length := getElem?_some_lt hc
      simp [List.getElem?_set_self, hlt, hc]
    · simp [List.getElem?_set_ne e]

/-! ## Worlds without dangling pointers -/

theorem Map.mem_of_find {V : Type} {m : Map V} {k : String} {v : V}
    (h : Map.find m k = some v) : (k, v) ∈ m := by
  induction m with
  | nil => simp [Map.find] at h
  | cons e rest ih =>
    obtain ⟨k0, v0⟩ := e
    simp only [Map.find] at h
    by_cases e0 : k0 = k
    · subst e0
      simp only [if_true, Option.some.injEq] at h
      subst h
      exact List.mem_cons_self _ _
    · simp only [e0, if_false] at h
      exact List.mem_cons_of_mem _ (ih h)

theorem closed_binding {w : World} (hc : w.closed = true) {ref : BindingRef}
    {b : shared_ptr_binding} (hb : w.binding? ref = some b) :
    b.m_fnGet.inHeap w.heap.length = true ∧ b.m_fnCreate.inHeap w.heap.length = true := by
  simp only [World.closed, Bool.and_eq_true, List.all_eq_true] at hc
  obtain ⟨hc1, _⟩ := hc
  simp only [World.binding?] at hb
  cases hl : w.locators[ref.loc]? with
  | none => simp [hl] at hb
  | some sl =>
    simp only [hl, Locator.getTypedServiceLocator] at hb
    cases hreg : Map.find sl.m_typed_locators ref.type with
    | none => simp [hreg] at hb
    | some nsl =>
      simp only [hreg] at hb
      have h1 := hc1 sl (List.getElem?_mem hl) (ref.type, nsl) (Map.mem_of_find hreg)
        (ref.name, b) (Map.mem_of_find hb)
      exact h1

theorem closed_fields {w : World} (hc : w.closed = true) {a : Nat} {o : Obj}
    (ho : w.heap[a]? = some o) : ∀ p ∈ o.fields, inHeap w.heap.length p = true := by
  simp only [World.closed, Bool.and_eq_true, List.all_eq_true] at hc
  exact hc.2 o (List.getElem?_mem ho)

theorem Shift.ptr_of_inHeap (s : Shift) {p : Ptr} (h : inHeap s.m p = true) :
    s.ptr p = p ∧ s.livePtr p := by
  cases p with
  | none => exact ⟨rfl, s.livePtr_none⟩
  | some a =>
    simp only [inHeap, decide_eq_true_eq] at h
    refine ⟨?_, ?_⟩
    · simp only [Shift.ptr, Option.map_some', Shift.addr, relocate, if_pos h]
    · intro a1 ha
      cases ha
      exact Or.inl h

theorem Shift.fn_of_inHeap (s : Shift) {fn : Fn} (h : fn.inHeap s.m = true) :
    s.fn fn = fn ∧ s.liveFn fn := by
  cases fn with
  | functorY p =>
    obtain ⟨h1, h2⟩ := s.ptr_of_inHeap (p := p) h
    exact ⟨by simp only [Shift.fn, h1], h2⟩
  | functor4a p =>
    obtain ⟨h1, h2⟩ := s.ptr_of_inHeap (p := p) h
    exact ⟨by simp only [Shift.fn, h1], h2⟩
  | _ => exact ⟨rfl, trivial⟩

/-! ## Two runs that left the other locators alone -/

theorem Avoids.not_self {w : World} {c l : Nat} (h : Avoids w c l) : l ≠ c := by
  cases h with
  | root h1 _ _ => exact h1
  | up h1 _ _ _ => exact h1

theorem Avoids.ancestor {w : World} {c l p : Nat} (h : Avoids w c l)
    (hp : (w.locators[l]?).map Locator.m_parent = some (some p)) : Avoids w c p := by
  cases h with
  | root _ hl hpar =>
    rw [hl] at hp
    simp only [Option.map_some', hpar, Option.some.injEq] at hp
    cases hp
  | up _ hl hpar hrest =>
    rw [hl] at hp
    simp only [Option.map_some', hpar, Option.some.injEq] at hp
    subst hp
    exact hrest

theorem getD_of_getElem?_eq {α : Type} {l1 l2 : List (List α)} {i j : Nat}
    (h : l1[i]? = l2[j]?) : l1.getD i [] = l2.getD j [] := by
  rw [List.getD_eq_getElem?_getD, List.getD_eq_getElem?_getD, h]

theorem getD_of_le {α : Type} {l : List (List α)} {i : Nat} (h : l.length ≤ i) :
    l.getD i [] = [] := by
  rw [List.getD_eq_getElem?_getD, List.getElem?_eq_none h]
  rfl

/-- Two runs from the same configuration, one of them without the bindings of the locator
`c`, that both left the bindings of the other locators and the callbacks of the root contexts
other than `r` as they were: seen from the locators whose chain avoids `c`, the worlds they
reach are the same up to relocation. -/
theorem relocated_of_runs {w wB wA : World} {c r : Nat} (hclosed : w.closed = true)
    (hevB : Evolves (w.withoutBindings c) wB) (hevA : Evolves w wA)
    (hkeepB : ∀ ref : BindingRef, ref.loc ≠ c → wB.binding? ref = w.binding? ref)
    (hkeepA : ∀ ref : BindingRef, ref.loc ≠ c → wA.binding? ref = w.binding? ref)
    (hothB : Others r (w.withoutBindings c) wB) (hothA : Others r w wA) :
    Relocated (Avoids w c) (fun i => i ≠ r)
      ⟨w.heap.length, wB.heap.length - w.heap.length, wA.heap.length - w.heap.length,
        w.fnAfterResolveLists.length,
        wB.fnAfterResolveLists.length - w.fnAfterResolveLists.length,
        wA.fnAfterResolveLists.length - w.fnAfterResolveLists.length⟩ wB wA := by
  obtain ⟨moreB, hheapB⟩ := hevB.heap
  obtain ⟨moreA, hheapA⟩ := hevA.heap
  rw [withoutBindings_heap] at hheapB
  have hlenB : w.heap.length ≤ wB.heap.length := by rw [hheapB]; simp
  have hlenA : w.heap.length ≤ wA.heap.length := by rw [hheapA]; simp
  have hlistsB : w.fnAfterResolveLists.length ≤ wB.fnAfterResolveLists.length := by
    have := hevB.lists
    rw [withoutBindings_lists] at this
    exact this
  have hlistsA : w.fnAfterResolveLists.length ≤ wA.fnAfterResolveLists.length := hevA.lists
  refine ⟨?_, ?_, ?_, ?_, ?_, ?_, ?_, ?_, ?_, ?_⟩
  · intro l _
    rw [hevA.parent l, hevB.parent l, withoutBindings_parent]
  · intro l p hl hp
    rw [hevB.parent l, withoutBindings_parent] at hp
    exact hl.ancestor hp
  · intro ref hS
    rw [hkeepA ref hS.not_self, hkeepB ref hS.not_self]
    cases hb : w.binding? ref with
    | none => rfl
    | some b =>
      obtain ⟨h1, h2⟩ := closed_binding hclosed hb
      simp only [Option.map_some', Shift.binding, Option.some.injEq]
      rw [(Shift.fn_of_inHeap _ h1).1, (Shift.fn_of_inHeap _ h2).1]
  · intro ref b hS hb
    rw [hkeepB ref hS.not_self] at hb
    obtain ⟨h1, h2⟩ := closed_binding hclosed hb
    exact ⟨(Shift.fn_of_inHeap _ h1).2, (Shift.fn_of_inHeap _ h2).2⟩
  · show wA.heap.length + (wB.heap.length - w.heap.length)
      = wB.heap.length + (wA.heap.length - w.heap.length)
    omega
  · show w.heap.length + (wB.heap.length - w.heap.length) ≤ wB.heap.length
    omega
  · intro a o hlive ha
    have hlt : a < w.heap.length := by
      rcases hlive with h1 | h1
      · exact h1
      · have h2 : w.heap.length + (wB.heap.length - w.heap.length) ≤ a := h1
        have h3 : a < wB.heap.length := getElem?_some_lt ha
        omega
    have hw : w.heap[a]? = some o := by
      rw [hheapB, List.getElem?_append_left hlt] at ha
      exact ha
    have hA : wA.heap[a]? = some o := by
      rw [hheapA, List.getElem?_append_left hlt]
      exact hw
    have haddr : Shift.addr ⟨w.heap.length, wB.heap.length - w.heap.length,
        wA.heap.length - w.heap.length, w.fnAfterResolveLists.length,
        wB.fnAfterResolveLists.length - w.fnAfterResolveLists.length,
        wA.fnAfterResolveLists.length - w.fnAfterResolveLists.length⟩ a = a := by
      simp only [Shift.addr, relocate, if_pos hlt]
    rw [haddr]
    have hcf := closed_fields hclosed hw
    refine ⟨o, hA, rfl, ?_, fun p hp => (Shift.ptr_of_inHeap _ (hcf p hp)).2⟩
    have : o.fields.map (Shift.ptr ⟨w.heap.length, wB.heap.length - w.heap.length,
        wA.heap.length - w.heap.length, w.fnAfterResolveLists.length,
        wB.fnAfterResolveLists.length - w.fnAfterResolveLists.length,
        wA.fnAfterResolveLists.length - w.fnAfterResolveLists.length⟩) = o.fields.map id :=
      List.map_congr_left (fun p hp => (Shift.ptr_of_inHeap _ (hcf p hp)).1)
    rw [this, List.map_id]
  · show wA.fnAfterResolveLists.length
        + (wB.fnAfterResolveLists.length - w.fnAfterResolveLists.length)
      = wB.fnAfterResolveLists.length
        + (wA.fnAfterResolveLists.length - w.fnAfterResolveLists.length)
    omega
  · show w.fnAfterResolveLists.length
        + (wB.fnAfterResolveLists.length - w.fnAfterResolveLists.length)
      ≤ wB.fnAfterResolveLists.length
    omega
  · intro i hi
    rcases hi with ⟨h1, h2⟩ | h1
    · have h1' : i < w.fnAfterResolveLists.length := h1
      have hroot : Shift.root ⟨w.heap.length, wB.heap.length - w.heap.length,
          wA.heap.length - w.heap.length, w.fnAfterResolveLists.length,
          wB.fnAfterResolveLists.length - w.fnAfterResolveLists.length,
          wA.fnAfterResolveLists.length - w.fnAfterResolveLists.length⟩ i = i := by
        simp only [Shift.root, relocate, if_pos h1']
      rw [hroot]
      apply getD_of_getElem?_eq
      have hB := hothB.2 i h2 (by rw [withoutBindings_lists]; exact h1')
      rw [withoutBindings_lists] at hB
      rw [hothA.2 i h2 h1', hB]
    · have h1' : w.fnAfterResolveLists.length
          + (wB.fnAfterResolveLists.length - w.fnAfterResolveLists.length) ≤ i := h1
      rw [getD_of_le (l := wB.fnAfterResolveLists) (by omega)]
      apply getD_of_le
      simp only [Shift.root, relocate]
      split <;> omega

/-! ## What related worlds hold at related addresses -/

theorem Relocated.type_eq {S Q : Nat → Prop} {s : Shift} {wB wA : World}
    (h : Relocated S Q s wB wA) {a : Nat} (hlive : s.live a) :
    (wA.heap[s.addr a]?).map Obj.type = (wB.heap[a]?).map Obj.type := by
  cases hB : wB.heap[a]? with
  | some o =>
    obtain ⟨o1, h1, h2, _, _⟩ := h.heapObj a o hlive hB
    rw [h1]
    simp only [Option.map_some', h2]
  | none =>
    have hge : wB.heap.length ≤ a := by
      rcases Nat.lt_or_ge a wB.heap.length with h1 | h1
      · rw [List.getElem?_eq_getElem h1] at hB; cases hB
      · exact h1
    have h1 := h.heapLen
    have h2 := h.heapLow
    have hA : wA.heap[s.addr a]? = none := by
      apply List.getElem?_eq_none
      unfold Shift.addr relocate
      split <;> omega
    rw [hA]

theorem Relocated.fieldTypes_eq {S Q : Nat → Prop} {s : Shift} {wB wA : World}
    (h : Relocated S Q s wB wA) {p : Ptr} (hp : s.livePtr p) :
    wA.fieldTypes (s.ptr p) = wB.fieldTypes p := by
  cases p with
  | none => rfl
  | some a =>
    have hlive : s.live a := hp a rfl
    simp only [World.fieldTypes, Shift.ptr, Option.map_some']
    cases hB : wB.heap[a]? with
    | some o =>
      obtain ⟨o1, h1, _, h3, h4⟩ := h.heapObj a o hlive hB
      rw [h1]
      simp only [h3, List.map_map]
      apply List.map_congr_left
      intro q hq
      cases q with
      | none => rfl
      | some f =>
        have := h.type_eq (h4 (some f) hq f rfl)
        simpa [Shift.ptr] using this
    | none =>
      have hge : wB.heap.length ≤ a := by
        rcases Nat.lt_or_ge a wB.heap.length with h1 | h1
        · rw [List.getElem?_eq_getElem h1] at hB; cases hB
        · exact h1
      have h1 := h.heapLen
      have h2 := h.heapLow
      have hA : wA.heap[s.addr a]? = none := by
        apply List.getElem?_eq_none
        unfold Shift.addr relocate
        split <;> omega
      rw [hA]

/-! ## A sequence of later resolves in two related worlds -/

theorem resolveFrom_relocated (cls : TypeId → Script) (S Q : Nat → Prop) (s : Shift)
    (k : Nat) :
    ∀ (later : List (Context × TypeId × String)) (wB wA : World),
      (∀ x ∈ later, Within S Q s x.1 ∧ s.ctx x.1 = x.1) → Relocated S Q s wB wA →
      (resolveFrom cls k later wA).1
          = (resolveFrom cls k later wB).1.map (Shift.result s.ptr)
        ∧ Relocated S Q s (resolveFrom cls k later wB).2 (resolveFrom cls k later wA).2
        ∧ ∀ r ∈ (resolveFrom cls k later wB).1, ∀ p, r = .ok p → s.livePtr p := by
  intro later
  induction later with
  | nil =>
    intro wB wA _ hR
    exact ⟨rfl, hR, fun r hr => by cases hr⟩
  | cons x rest ih =>
    intro wB wA hl hR
    obtain ⟨this, t, n⟩ := x
    obtain ⟨hin, hctx⟩ := hl (this, t, n) (List.mem_cons_self _ _)
    obtain ⟨wA1, hA, hR1, hP⟩ := (engine_relocated cls S Q s k).2.2.2.1 this t n wB wA hin hR
    have hctx1 : s.ctx this = this := hctx
    rw [hctx1] at hA
    obtain ⟨h1, h2, h3⟩ := ih (Context.resolve cls k this t n wB).2 wA1
      (fun y hy => hl y (List.mem_cons_of_mem _ hy)) hR1
    simp only [resolveFrom, hA, List.map_cons]
    refine ⟨by rw [h1], h2, ?_⟩
    intro r hr p hrp
    rcases List.mem_cons.1 hr with e | e
    · subst e
      exact hP p hrp
    · exact h3 r e p hrp

/-! ## Resolves that instantiate no singleton of another locator -/

/-- A run that instantiated no singleton among the bindings selected by `P` left all of them
as they were. -/
theorem keeps_of_singletons {w w1 : World} (P : BindingRef → Prop) (hev : Evolves w w1)
    (h : ∀ (ref : BindingRef) (b : shared_ptr_binding), P ref → w.binding? ref = some b →
      b.m_fnGet = .functor4 → w1.binding? ref = some b) :
    ∀ ref : BindingRef, P ref → w1.binding? ref = w.binding? ref := by
  intro ref hP
  cases hb : w.binding? ref with
  | none => exact hev.unbound ref hb
  | some b =>
    by_cases h4 : b.m_fnGet = .functor4
    · exact h ref b hP hb h4
    · obtain ⟨b1, hb1, hc, hg⟩ := hev.binding ref b hb
      rw [hb1]
      have hg1 := hg h4
      cases b
      cases b1
      simp_all

theorem Shift.ctx_low (s : Shift) {c : Context} (h : c.m_root < s.q) : s.ctx c = c := by
  obtain ⟨a, r, frames⟩ := c
  simp only [Shift.ctx, Shift.root, relocate, if_pos h]

/-- The bindings of the root of `leakWorld` in a world in which the root is as in
`leakWorld`. -/
theorem leakWorld_keeps (w1 : World) (h0 : w1.locators[0]? = leakWorld.locators[0]?) :
    ∀ (ref : BindingRef) (b : shared_ptr_binding), ref.loc ≠ 1 →
      leakWorld.binding? ref = some b → b.m_fnGet = .functor4 → w1.binding? ref = some b := by
  intro ref b hne hb _
  have hlt : ref.loc < 2 := binding?_some_lt hb
  have h1 : ref.loc = 0 := by omega
  rw [← hb]
  apply binding?_congr
  rw [h1]
  exact h0

/-- The root context of `leakWorld` belongs to a locator whose chain avoids the child, and
its root context is not that of the child. -/
theorem leakWorld_later :
    ∀ x ∈ [(leakWorld.m_context 0, "TestC", ""), (leakWorld.m_context 0, "ITest", "")],
      Avoids leakWorld 1 x.1.m_sl ∧ x.1.m_root < leakWorld.fnAfterResolveLists.length
        ∧ x.1.m_root ≠ (leakWorld.m_context 1).m_root := by
  intro x hx
  simp only [List.mem_cons, List.mem_singleton, List.not_mem_nil, or_false] at hx
  rcases hx with rfl | rfl
  · exact ⟨Avoids.root (l := 0) (by decide) rfl rfl, by decide, by decide⟩
  · exact ⟨Avoids.root (l := 0) (by decide) rfl rfl, by decide, by decide⟩

/-! ## Not found -/

/-- C10 (as stated, refuted): (1) in `brokenWorld`, where a failed resolve left a callback
pending on the root context, `tryResolve` of the key `Nothing`, which no locator binds,
returns the empty pointer but runs that callback, which invokes the creation function of
`Log` and allocates a `Log`. (2) In `probeWorld` the unnamed `ITest` is bound nowhere; the
constructor of `Probe`, run by `resolveAll<ITest>` on a context for the key `(ITest, "")`,
calls `tryResolve<ITest>()`, which throws `RecursiveResolve`. -/
theorem tryResolve_unbound_runs_or_throws :
    Unbound brokenWorld "Nothing" "" (brokenWorld.m_context 0).m_sl 0
    ∧ brokenWorld.heap = []
    ∧ (Context.tryResolve deferClasses 5 (brokenWorld.m_context 0) "Nothing" ""
        brokenWorld).1 = .ok none
    ∧ (Context.tryResolve deferClasses 5 (brokenWorld.m_context 0) "Nothing" ""
        brokenWorld).2.heap.map Obj.type = ["Log"]
    ∧ (Context.tryResolve deferClasses 5 (brokenWorld.m_context 0) "Nothing" ""
        brokenWorld).2.created.count ⟨0, "Log", ""⟩ = brokenWorld.created.count ⟨0, "Log", ""⟩ + 1
    ∧ Unbound probeWorld "ITest" "" 0 0
    ∧ Context.tryResolve probeClasses 5
        ⟨0, 0, [⟨"ITest", "", some "Probe"⟩, ⟨"void", "", none⟩]⟩ "ITest" ""
        (probeWorld.traceCreate ⟨0, "ITest", "P"⟩)
      = (.error (.RecursiveResolveException
          "Recursive resolve path = resolve<ITest>().to<Probe> -> resolve<ITest>()"),
          probeWorld.traceCreate ⟨0, "ITest", "P"⟩)
    ∧ (Context.resolveAll probeClasses 6 (probeWorld.m_context 0) "ITest" [] probeWorld).1
      = .error (.RecursiveResolveException
          "Recursive resolve path = resolve<ITest>().to<Probe> -> resolve<ITest>()") :=
  ⟨Unbound.root (l := 0) rfl rfl rfl, rfl, rfl, rfl, rfl,
   Unbound.root (l := 0) rfl rfl rfl, rfl, rfl⟩

/-- C10 (amended): for a capability key `(t, n)` that no locator from the resolving locator up
to the root binds, the lookup of `tryResolve` returns the empty pointer and leaves the whole
world unchanged (no creation function is invoked, no object is allocated), and every
`tryResolve` of the key that returns, returns the empty pointer. When the key is not on the
calling context chain, `tryResolve` is that lookup followed by the deferred callbacks of a
root context; when moreover no deferred callback is pending, it returns the empty pointer
without throwing and leaves the whole world unchanged. When the key is on the calling context
chain it throws `RecursiveResolve`. -/
theorem tryResolve_unbound_returns_empty (cls : TypeId → Script) (w : World) (this : Context)
    (t : TypeId) (n : String) (d k : Nat)
    (hun : Unbound w t n this.m_sl d)
    (hfuel : d + 1 ≤ k) :
    m_tryResolve cls k t this.m_sl (this.child t n) w = (.ok none, w)
    ∧ (∀ p w1, Context.tryResolve cls (k + 1) this t n w = (.ok p, w1) → p = none)
    ∧ ((∀ f ∈ this.frames, ¬ (f.m_interfaceType = t ∧ f.m_name = n)) →
        Context.tryResolve cls (k + 1) this t n w
          = Context.finish cls k this (.ok none, w)
        ∧ ((this.isRoot = true → w.fnAfterResolveLists.getD this.m_root [] = []) →
            Context.tryResolve cls (k + 1) this t n w = (.ok none, w)))
    ∧ ((∃ f ∈ this.frames, f.m_interfaceType = t ∧ f.m_name = n) →
        Context.tryResolve cls (k + 1) this t n w
          = (.error (.RecursiveResolveException
              ("Recursive resolve path = " ++ (this.child t n).getResolvePath)), w)) := by
  have hm : m_tryResolve cls k t this.m_sl (this.child t n) w = (.ok none, w) :=
    m_tryResolve_unbound cls hun (this.child t n) rfl k hfuel
  refine ⟨hm, tryResolve_result_of_lookup cls k this t n w w _ hm, ?_,
    tryResolve_of_cycle cls k this t n w⟩
  intro hcyc
  refine ⟨by rw [tryResolve_eq_finish cls k this t n w hcyc, hm], ?_⟩
  intro hq
  exact tryResolve_of_lookup cls k this t n w w w _ hm hcyc (afterResolve_idle _ _ this w hq)

theorem tryResolve_unbound_returns_empty_witness :
    Unbound namedWorld "ITest" "" (namedWorld.m_context 0).m_sl 0
    ∧ Context.tryResolve testClasses 2 (namedWorld.m_context 0) "ITest" "" namedWorld
        = (.ok none, namedWorld) :=
  have hun : Unbound namedWorld "ITest" "" (namedWorld.m_context 0).m_sl 0 :=
    Unbound.root (l := 0) rfl rfl rfl
  ⟨hun, ((tryResolve_unbound_returns_empty testClasses namedWorld (namedWorld.m_context 0)
    "ITest" "" 0 1 hun (by decide)).2.2.1 (by decide)).2 (by decide)⟩

/-- C9 (amended): on a context chain without the key, `resolve` of `(t, n)` fails with
`UnableToResolve` (leaving the world unchanged) whenever no locator from the resolving locator
up to the root has a binding of type `t` under exactly the name `n`, whatever is bound under
other names; and when the nearest binding for `(t, n)` yields a non-empty instance the lookup
returns that instance instead of failing. A binding that yields the empty pointer is not
covered: the lookup treats it as a miss. -/
theorem resolve_unable_when_unbound (cls : TypeId → Script) (w : World) (this : Context)
    (t : TypeId) (n : String)
    (hcyc : ∀ f ∈ this.frames, ¬ (f.m_interfaceType = t ∧ f.m_name = n)) :
    (∀ d fuel, Unbound w t n this.m_sl d → d + 2 ≤ fuel →
      Context.resolve cls fuel this t n w = (.error (unableToResolve (this.child t n)), w))
    ∧ (∀ d o fuel b a slc1 w1, Nearest w t n this.m_sl d o → w.binding? ⟨o, t, n⟩ = some b →
        invoke cls fuel ⟨o, t, n⟩ b.m_fnGet (this.child t n) w = (.ok (some a, slc1), w1) →
        m_resolve cls (fuel + 1 + d) t this.m_sl (this.child t n) w = (.ok (some a), w1)) := by
  constructor
  · intro d fuel hun hfuel
    obtain ⟨k, rfl⟩ : ∃ k, fuel = k + 1 := ⟨fuel - 1, by omega⟩
    rw [resolve_eq_finish cls k this t n w hcyc,
      m_resolve_unbound cls hun (this.child t n) rfl k (by omega)]
    rfl
  · intro d o fuel b a slc1 w1 hn hb hget
    rw [m_resolve_walk cls hn (this.child t n) rfl (fuel + 1),
      m_resolve_hit cls fuel (this.child t n) hb]
    simp only [served, child_getName, hget]

theorem resolve_unable_when_unbound_witness :
    Context.resolve testClasses 2 (namedWorld.m_context 0) "ITest" "" namedWorld
        = (.error (.UnableToResolveException
            "Unable to resolve <ITest>  resolve path = resolve<ITest>()"), namedWorld)
    ∧ (m_resolve testClasses 2 "ITest" 0 ((namedWorld.m_context 0).child "ITest" "X") namedWorld).1
        = .ok (some 0) :=
  have h := resolve_unable_when_unbound testClasses namedWorld (namedWorld.m_context 0)
    "ITest" "" (by decide)
  have h2 := resolve_unable_when_unbound testClasses namedWorld (namedWorld.m_context 0)
    "ITest" "X" (by decide)
  ⟨h.1 0 2 (Unbound.root (l := 0) rfl rfl rfl) (by decide),
   congrArg Prod.fst (h2.2 0 0 1 _ 0 _ _ (Nearest.here rfl) rfl rfl)⟩

/-- C9 (as stated, refuted): on a single root locator whose binding for `("ITest", "")` is a
factory that returns `NULL`, `resolve` fails with `UnableToResolve` although that locator
holds a binding of type `ITest` under exactly the requested name. -/
theorem resolve_unable_although_bound :
    nullFactoryWorld.binding? ⟨0, "ITest", ""⟩
        = some ⟨.functor12 "TestA" .done true, .functor12 "TestA" .done true⟩
    ∧ (∀ d, ¬ Unbound nullFactoryWorld "ITest" "" 0 d)
    ∧ (Context.resolve testClasses 5 (nullFactoryWorld.m_context 0) "ITest" "" nullFactoryWorld).1
        = .error (.UnableToResolveException
            "Unable to resolve <ITest>  resolve path = resolve<ITest>().to<TestA>") := by
  refine ⟨by decide, ?_, rfl⟩
  intro d h
  cases h with
  | root _ hb _ => exact absurd hb (by decide)
  | up _ hb _ _ => exact absurd hb (by decide)

/-! ## Nearest binding -/

/-- C3 (as stated, refuted): in `emptyInstanceWorld` the child locator is the nearest locator
that holds a binding for `ITest` (configured by `toInstance` of an empty pointer), yet
`resolve<ITest>()` on the context of the child returns a `TestA` built by the binding of the
root; and in `nullChildWorld`, where the nearest binding is a factory that returns `NULL`,
the same resolve throws `BindingIssue`. -/
theorem resolve_passes_over_empty_nearest :
    Nearest emptyInstanceWorld "ITest" "" 1 0 1
    ∧ emptyInstanceWorld.binding? ⟨1, "ITest", ""⟩ = some ⟨.functorY none, .empty⟩
    ∧ (Context.resolve testClasses 5 (emptyInstanceWorld.m_context 1) "ITest" ""
        emptyInstanceWorld).1 = .ok (some 0)
    ∧ (Context.resolve testClasses 5 (emptyInstanceWorld.m_context 1) "ITest" ""
        emptyInstanceWorld).2.heap.map Obj.type = ["TestA"]
    ∧ (Context.resolve testClasses 5 (emptyInstanceWorld.m_context 1) "ITest" ""
        emptyInstanceWorld).2.created = [⟨0, "ITest", ""⟩]
    ∧ Nearest nullChildWorld "ITest" "" 1 0 1
    ∧ (Context.resolve testClasses 5 (nullChildWorld.m_context 1) "ITest" ""
        nullChildWorld).1
        = .error (.BindingIssueException "Concrete type on Context already set") :=
  ⟨Nearest.here rfl, rfl, rfl, rfl, rfl, Nearest.here rfl, rfl⟩

/-- C3 (amended): when `o` is the nearest locator, on the path from the resolving locator
`this.m_sl` to the root, that holds a binding for the key `(t, n)` (own registry first, then
the parent, recursively), and that binding yields a non-empty instance `a` for the request,
then the instance of that binding is what `resolve` gives: the lookup of `resolve` (and of
`tryResolve`) returns exactly `a`, in the world the binding left; every `resolve` and
`tryResolve` of the key that returns, returns `a`; and `resolve` does return `a` when the
key is not on the calling chain and the deferred callbacks of a root context complete. -/
theorem resolve_returns_nearest_binding (cls : TypeId → Script) (w : World) (this : Context)
    (t : TypeId) (n : String) (d o fuel : Nat) (b : shared_ptr_binding) (a : Nat)
    (slc1 : Context) (w1 : World)
    (hnear : Nearest w t n this.m_sl d o)
    (hb : w.binding? ⟨o, t, n⟩ = some b)
    (hget : invoke cls fuel ⟨o, t, n⟩ b.m_fnGet (this.child t n) w = (.ok (some a, slc1), w1)) :
    m_resolve cls (fuel + 1 + d) t this.m_sl (this.child t n) w = (.ok (some a), w1)
    ∧ m_tryResolve cls (fuel + 1 + d) t this.m_sl (this.child t n) w = (.ok (some a), w1)
    ∧ (∀ p w2, Context.resolve cls (fuel + 1 + d + 1) this t n w = (.ok p, w2) → p = some a)
    ∧ (∀ p w2, Context.tryResolve cls (fuel + 1 + d + 1) this t n w = (.ok p, w2) → p = some a)
    ∧ (∀ w2, (∀ f ∈ this.frames, ¬ (f.m_interfaceType = t ∧ f.m_name = n)) →
        Context.afterResolve (Context.resolve cls (fuel + 1 + d))
          (Context.tryResolve cls (fuel + 1 + d)) this w1 = (.ok (), w2) →
        Context.resolve cls (fuel + 1 + d + 1) this t n w = (.ok (some a), w2)) := by
  obtain ⟨hm, htm⟩ := lookup_served cls w this t n d o fuel b a slc1 w1 hnear hb hget
  exact ⟨hm, htm, resolve_result_of_lookup cls _ this t n w w1 _ hm,
    tryResolve_result_of_lookup cls _ this t n w w1 _ htm,
    fun w2 hcyc hafter =>
      resolve_served cls w this t n d o fuel b a slc1 w1 w2 hnear hb hcyc hget hafter⟩

theorem resolve_returns_nearest_binding_witness :
    Nearest nestedWorld "ITest" "" 2 1 0
    ∧ (Context.resolve testClasses 4 (nestedWorld.m_context 2) "ITest" "" nestedWorld).1
        = .ok (some 0)
    ∧ (Context.resolve testClasses 4 (nestedWorld.m_context 2) "ITest" "" nestedWorld).2.heap.map
          Obj.type = ["TestA"] :=
  have hnear : Nearest nestedWorld "ITest" "" 2 1 0 :=
    Nearest.up (l := 2) rfl rfl rfl (Nearest.here rfl)
  ⟨hnear,
   congrArg Prod.fst ((resolve_returns_nearest_binding testClasses nestedWorld
     (nestedWorld.m_context 2) "ITest" "" 1 0 1 _ 0 _ _ hnear rfl rfl).2.2.2.2 _
       (by decide) rfl),
   rfl⟩

/-! ## Duplicate bindings -/

/-- C6: `bind` of `(t, n)` on the locator `l` fails with `DuplicateBinding` if and only if
that same locator already holds a binding of type `t` named `n`; nothing else in the world
(another locator, another type, another name) enters the condition. -/
theorem bind_duplicate_iff (w : World) (t : TypeId) (n : String) (l : Nat) :
    (bind t n l w).1 = .error (.DuplicateBindingException
        ("Duplicate binding for <" ++ t ++ "> named " ++ n))
      ↔ ∃ b, w.binding? ⟨l, t, n⟩ = some b := by
  unfold bind World.binding?
  cases hl : w.locators[l]? with
  | none => simp
  | some sl =>
    simp only [find_insert_getD, TypedServiceLocator.bind, TypedServiceLocator.canResolve,
      Locator.getTypedServiceLocator]
    cases hreg : Map.find sl.m_typed_locators t with
    | none => simp [Map.find]
    | some nsl =>
      cases hn : Map.find nsl n with
      | none => simp [hn]
      | some b => simp [hn]

/-! ## Cycles -/

/-- C7: `resolve` of the key `(t, n)` called on the context `this` fails at its entry check,
with `RecursiveResolve` and before any binding is consulted (the world is returned untouched),
if and only if `this` or one of its ancestor contexts has the key `(t, n)`; otherwise the
call goes on to the lookup `m_resolve` and `afterResolve()`. -/
theorem resolve_recursive_iff (cls : TypeId → Script) (fuel : Nat) (this : Context)
    (t : TypeId) (n : String) (w : World) :
    ((∃ f ∈ this.frames, f.m_interfaceType = t ∧ f.m_name = n) ↔
      checkRecursiveResolve (this.child t n) this.frames =
        .error (.RecursiveResolveException
          ("Recursive resolve path = " ++ (this.child t n).getResolvePath)))
    ∧ ((∃ f ∈ this.frames, f.m_interfaceType = t ∧ f.m_name = n) →
        Context.resolve cls (fuel + 1) this t n w =
          (.error (.RecursiveResolveException
            ("Recursive resolve path = " ++ (this.child t n).getResolvePath)), w))
    ∧ (¬ (∃ f ∈ this.frames, f.m_interfaceType = t ∧ f.m_name = n) →
        Context.resolve cls (fuel + 1) this t n w =
          Context.finish cls fuel this (m_resolve cls fuel t this.m_sl (this.child t n) w)) := by
  refine ⟨⟨fun h => checkRecursiveResolve_error _ _ h, fun h => ?_⟩,
    fun h => resolve_of_cycle cls fuel this t n w h, fun h => ?_⟩
  · by_contra hne
    have hok := checkRecursiveResolve_ok (this.child t n) this.frames
      (fun f hf hk => hne ⟨f, hf, hk⟩)
    rw [hok] at h
    cases h
  · exact resolve_eq_finish cls fuel this t n w (fun f hf hk => h ⟨f, hf, hk⟩)

theorem resolve_recursive_iff_witness :
    Context.resolve testClasses 1
        ⟨0, 0, [⟨"TestC", "", some "TestC"⟩, ⟨"void", "", none⟩]⟩ "TestC" "" deepWorld
      = (.error (.RecursiveResolveException
          "Recursive resolve path = resolve<TestC>().to<TestC> -> resolve<TestC>()"), deepWorld) :=
  (resolve_recursive_iff testClasses 0
    ⟨0, 0, [⟨"TestC", "", some "TestC"⟩, ⟨"void", "", none⟩]⟩ "TestC" "" deepWorld).2.1
    ⟨⟨"TestC", "", some "TestC"⟩, by decide, rfl, rfl⟩

/-- C8: when the key `(t, n)` is resolved on a context chain that already holds a context
`first` with that key (the construction of `(t, n)` resolves `(t, n)` again, directly when
`inner` is empty or through the intermediate requests `inner`), `resolve` fails with
`RecursiveResolve` and the path of its message lists, joined by `" -> "` in call order, the
steps before `first`, the step of `first`, every intermediate step, and last the step of
the second request for `(t, n)`. -/
theorem resolve_cycle_path (cls : TypeId → Script) (fuel : Nat) (this : Context) (t : TypeId)
    (n : String) (w : World) (inner outer : List Frame) (first root : Frame)
    (hframes : this.frames = inner ++ first :: (outer ++ [root]))
    (hfirst : first.m_interfaceType = t ∧ first.m_name = n) :
    Context.resolve cls (fuel + 1) this t n w =
      (.error (.RecursiveResolveException ("Recursive resolve path = " ++
        String.intercalate " -> "
          ((outer.reverse ++ first :: (inner.reverse ++ [⟨t, n, none⟩])).map (Frame.step "")))),
       w) := by
  have hcyc : ∃ f ∈ this.frames, f.m_interfaceType = t ∧ f.m_name = n :=
    ⟨first, by rw [hframes]; simp, hfirst⟩
  rw [resolve_of_cycle cls fuel this t n w hcyc]
  have hpath : (this.child t n).getResolvePath =
      String.intercalate " -> "
        ((outer.reverse ++ first :: (inner.reverse ++ [⟨t, n, none⟩])).map (Frame.step "")) := by
    have hsplit : ∃ p rest, this.frames = p :: rest := by
      rw [hframes]
      cases inner with
      | nil => exact ⟨_, _, rfl⟩
      | cons a l => exact ⟨_, _, rfl⟩
    obtain ⟨p, rest, hpr⟩ := hsplit
    have hdrop : (⟨t, n, none⟩ :: this.frames).dropLast = ⟨t, n, none⟩ :: (inner ++ first :: outer) := by
      rw [hframes]
      have : (⟨t, n, none⟩ : Frame) :: (inner ++ first :: (outer ++ [root]))
          = (⟨t, n, none⟩ :: (inner ++ first :: outer)) ++ [root] := by simp
      rw [this, List.dropLast_concat]
    show getResolvePathOf (⟨t, n, none⟩ :: this.frames) = _
    have h1 : getResolvePathOf (⟨t, n, none⟩ :: this.frames)
        = String.intercalate " -> " (pathSteps (⟨t, n, none⟩ :: this.frames)) := by
      rw [hpr]; exact getResolvePathOf_eq _ _ _
    rw [h1]
    unfold pathSteps
    rw [hdrop]
    simp
  rw [hpath]

theorem resolve_cycle_path_witness :
    Context.resolve cycleClasses 1
        ⟨0, 0, [⟨"B", "", some "CB"⟩, ⟨"A", "", some "CA"⟩, ⟨"void", "", none⟩]⟩ "A" "" cycleWorld
      = (.error (.RecursiveResolveException
          "Recursive resolve path = resolve<A>().to<CA> -> resolve<B>().to<CB> -> resolve<A>()"),
         cycleWorld)
    ∧ (Context.resolve cycleClasses 9 (cycleWorld.m_context 0) "A" "" cycleWorld).1
      = .error (.RecursiveResolveException
          "Recursive resolve path = resolve<A>().to<CA> -> resolve<B>().to<CB> -> resolve<A>()") :=
  ⟨resolve_cycle_path cycleClasses 0
      ⟨0, 0, [⟨"B", "", some "CB"⟩, ⟨"A", "", some "CA"⟩, ⟨"void", "", none⟩]⟩ "A" "" cycleWorld
      [⟨"B", "", some "CB"⟩] [] ⟨"A", "", some "CA"⟩ ⟨"void", "", none⟩ rfl ⟨rfl, rfl⟩,
   rfl⟩

/-! ## Nested locators -/

/-- C4: let the locator `p` hold a binding `bp` for the key `(t, n)`, and let `c1` and `c2`
be two children created by `enter()`. Then `bind` of `(t, n)` on `c1` does not throw, and,
whatever binding `bc` the clauses that follow configure on `c1`: the lookup of `(t, n)`
through `c1` is served by the binding of `c1` (falling back to `p` only on an empty result),
while the lookups through the sibling `c2` and through `p` itself are served by the binding
`bp` of `p`. -/
theorem child_binding_overrides (cls : TypeId → Script) (w w1 w2 : World) (p c1 c2 : Nat)
    (t : TypeId) (n : String) (bp : shared_ptr_binding)
    (hp : w.binding? ⟨p, t, n⟩ = some bp)
    (he1 : enter p w = (c1, w1)) (he2 : enter p w1 = (c2, w2)) :
    ∃ w3, bind t n c1 w2 = (.ok ⟨c1, t, n⟩, w3) ∧
      ∀ (bc : shared_ptr_binding) (fuel : Nat) (slc : Context), slc.getName = n →
        m_resolve cls (fuel + 1) t c1 slc (w3.modifyBinding ⟨c1, t, n⟩ (fun _ => bc))
          = served cls fuel ⟨c1, t, n⟩ bc.m_fnGet (some p) slc
              (w3.modifyBinding ⟨c1, t, n⟩ (fun _ => bc))
        ∧ m_resolve cls (fuel + 2) t c2 slc (w3.modifyBinding ⟨c1, t, n⟩ (fun _ => bc))
          = served cls fuel ⟨p, t, n⟩ bp.m_fnGet ((w.locators[p]?).bind Locator.m_parent) slc
              (w3.modifyBinding ⟨c1, t, n⟩ (fun _ => bc))
        ∧ m_resolve cls (fuel + 1) t p slc (w3.modifyBinding ⟨c1, t, n⟩ (fun _ => bc))
          = served cls fuel ⟨p, t, n⟩ bp.m_fnGet ((w.locators[p]?).bind Locator.m_parent) slc
              (w3.modifyBinding ⟨c1, t, n⟩ (fun _ => bc)) := by
  have hplt : p < w.locators.length := binding?_some_lt hp
  have hc1 : c1 = w.locators.length := (congrArg Prod.fst he1).symm
  have hw1 : w1 = (enter p w).2 := (congrArg Prod.snd he1).symm
  have hlen1 : w1.locators.length = w.locators.length + 1 := by rw [hw1]; exact enter_length p w
  have hc2 : c2 = w.locators.length + 1 := by
    rw [← hlen1]; exact (congrArg Prod.fst he2).symm
  have hw2 : w2 = (enter p w1).2 := (congrArg Prod.snd he2).symm
  -- the three locators in `w2`
  have hp2 : w2.locators[p]? = w.locators[p]? := by
    rw [hw2, enter_old p w1 (by omega), hw1, enter_old p w hplt]
  have hc1w2 : w2.locators[c1]? = some ⟨[], [], some p, w.fnAfterResolveLists.length⟩ := by
    rw [hw2, enter_old p w1 (by omega), hw1, hc1]; exact enter_new p w
  have hc2w2 : w2.locators[c2]? = some ⟨[], [], some p, w1.fnAfterResolveLists.length⟩ := by
    rw [hw2, hc2, ← hlen1]; exact enter_new p w1
  have hbc1 : w2.binding? ⟨c1, t, n⟩ = none := by
    simp [World.binding?, hc1w2, Locator.getTypedServiceLocator, Map.find]
  obtain ⟨hok, hbind, hpar⟩ := bind_fresh w2 t n c1 _ hc1w2 hbc1
  refine ⟨(bind t n c1 w2).2, Prod.ext hok rfl, ?_⟩
  intro bc fuel slc hn
  subst hn
  have hne_p : ¬ (⟨p, t, slc.getName⟩ : BindingRef) = ⟨c1, t, slc.getName⟩ := by
    intro e; cases e; omega
  have hne_c2 : ¬ (⟨c2, t, slc.getName⟩ : BindingRef) = ⟨c1, t, slc.getName⟩ := by
    intro e; cases e; omega
  -- bindings in the configured world
  have hb4_c1 : ((bind t slc.getName c1 w2).2.modifyBinding ⟨c1, t, slc.getName⟩
      (fun _ => bc)).binding? ⟨c1, t, slc.getName⟩ = some bc := by
    rw [binding?_modifyBinding, if_pos rfl, hbind, if_pos rfl]; rfl
  have hb4_p : ((bind t slc.getName c1 w2).2.modifyBinding ⟨c1, t, slc.getName⟩
      (fun _ => bc)).binding? ⟨p, t, slc.getName⟩ = some bp := by
    rw [binding?_modifyBinding, if_neg hne_p, hbind, if_neg hne_p, binding?_congr _ hp2, hp]
  have hb4_c2 : ((bind t slc.getName c1 w2).2.modifyBinding ⟨c1, t, slc.getName⟩
      (fun _ => bc)).binding? ⟨c2, t, slc.getName⟩ = none := by
    rw [binding?_modifyBinding, if_neg hne_c2, hbind, if_neg hne_c2]
    simp [World.binding?, hc2w2, Locator.getTypedServiceLocator, Map.find]
  -- parents in the configured world
  have hpar4 : ∀ l : Nat, (((bind t slc.getName c1 w2).2.modifyBinding ⟨c1, t, slc.getName⟩
      (fun _ => bc)).locators[l]?).map Locator.m_parent
        = (w2.locators[l]?).map Locator.m_parent := by
    intro l; rw [locators_modifyBinding, hpar]
  have hpp : (((bind t slc.getName c1 w2).2.modifyBinding ⟨c1, t, slc.getName⟩
      (fun _ => bc)).locators[p]?).bind Locator.m_parent
        = (w.locators[p]?).bind Locator.m_parent := by
    rw [bind_of_map_eq (hpar4 p), hp2]
  have hpc1 : (((bind t slc.getName c1 w2).2.modifyBinding ⟨c1, t, slc.getName⟩
      (fun _ => bc)).locators[c1]?).bind Locator.m_parent = some p := by
    rw [bind_of_map_eq (hpar4 c1), hc1w2]; rfl
  obtain ⟨sl2, hsl2, hsl2p⟩ := getElem?_of_map_parent
    (show (((bind t slc.getName c1 w2).2.modifyBinding ⟨c1, t, slc.getName⟩
      (fun _ => bc)).locators[c2]?).map Locator.m_parent = some (some p) by
        rw [hpar4 c2, hc2w2]; rfl)
  have hatp := m_resolve_hit cls fuel slc hb4_p
  rw [hpp] at hatp
  refine ⟨?_, ?_, hatp⟩
  · rw [m_resolve_hit cls fuel slc hb4_c1, hpc1]
  · rw [m_resolve_miss cls (fuel + 1) slc hsl2 hb4_c2, hsl2p]
    exact hatp

theorem child_binding_overrides_witness :
    ∃ w3, bind "ITest" "" 1 (enter 0 (enter 0 nestedRoot).2).2 = (.ok ⟨1, "ITest", ""⟩, w3)
      ∧ (m_resolve testClasses 2 "ITest" 1 ((nestedWorld.m_context 1).child "ITest" "")
            (w3.modifyBinding ⟨1, "ITest", ""⟩
              (fun _ => ⟨.functor9 "TestB", .functor9 "TestB"⟩))).2.heap.map Obj.type = ["TestB"]
      ∧ (m_resolve testClasses 3 "ITest" 2 ((nestedWorld.m_context 2).child "ITest" "")
            (w3.modifyBinding ⟨1, "ITest", ""⟩
              (fun _ => ⟨.functor9 "TestB", .functor9 "TestB"⟩))).2.heap.map Obj.type = ["TestA"] := by
  obtain ⟨w3, h3, h⟩ := child_binding_overrides testClasses nestedRoot
    (enter 0 nestedRoot).2 (enter 0 (enter 0 nestedRoot).2).2 0 1 2
    "ITest" "" ⟨.functor9 "TestA", .functor9 "TestA"⟩ rfl rfl rfl
  refine ⟨w3, h3, ?_⟩
  have hw3 : w3 = (bind "ITest" "" 1 (enter 0 (enter 0 nestedRoot).2).2).2 :=
    (congrArg Prod.snd h3).symm
  obtain ⟨hc1, _, _⟩ := h ⟨.functor9 "TestB", .functor9 "TestB"⟩ 1
    ((nestedWorld.m_context 1).child "ITest" "") rfl
  obtain ⟨_, hc2, _⟩ := h ⟨.functor9 "TestB", .functor9 "TestB"⟩ 1
    ((nestedWorld.m_context 2).child "ITest" "") rfl
  rw [hc1, hc2]
  subst hw3
  exact ⟨rfl, rfl⟩

/-! ## Singleton and transient bindings -/

/-- C1 (as stated, refuted): in `nullSingletonChild` the child locator binds `ITest` as a
singleton to a factory that returns `NULL`, and the root binds `ITest` to `TestA`. The first
`resolve<ITest>()` on the context of the child throws, leaving the empty pointer cached; the
next two consecutive resolves return two distinct instances, built by the binding of the
root, and the creation function of the singleton is not invoked again. -/
theorem singleton_null_resolves_differ :
    nullSingletonChild.binding? ⟨1, "ITest", ""⟩
        = some ⟨.functor4, .functor12 "TestB" .done true⟩
    ∧ (Context.resolve testClasses 6 (nullSingletonChild.m_context 1) "ITest" ""
        nullSingletonChild).1
        = .error (.BindingIssueException "Concrete type on Context already set")
    ∧ nullSingletonTried.binding? ⟨1, "ITest", ""⟩
        = some ⟨.functor4a none, .functor12 "TestB" .done true⟩
    ∧ (resolveTimes testClasses 6 (nullSingletonTried.m_context 1) "ITest" "" 2
        nullSingletonTried).1 = .ok [some 0, some 1]
    ∧ (resolveTimes testClasses 6 (nullSingletonTried.m_context 1) "ITest" "" 2
        nullSingletonTried).2.heap.map Obj.type = ["TestA", "TestA"]
    ∧ (resolveTimes testClasses 6 (nullSingletonTried.m_context 1) "ITest" "" 2
        nullSingletonTried).2.created.count ⟨1, "ITest", ""⟩ = 1 :=
  ⟨rfl, rfl, rfl, rfl, rfl, rfl⟩

/-- C1 (amended): let `o` hold the nearest binding for the key `(t, n)`, configured by a
creating clause followed by `asSingleton()` (`m_fnGet` is Functor4), and let its creation
function yield a non-empty instance `a` for the first request (the deferred callbacks of that
request completing in the world `w1`). Then the first `resolve` returns `a`; any number of
further consecutive resolves return the identical instance `a` and leave the world as it is
(nothing is created again); over all these resolves the creation function of the binding is
invoked exactly once; and it is never invoked again, in whatever state later resolutions
lead to. -/
theorem singleton_resolves_once (cls : TypeId → Script) (w : World) (this : Context)
    (t : TypeId) (n : String) (d o fuel : Nat) (b : shared_ptr_binding) (a : Nat)
    (sl1 : Context) (wc w1 : World)
    (hctx : this.frames ≠ [])
    (hnear : Nearest w t n this.m_sl d o)
    (hb : w.binding? ⟨o, t, n⟩ = some b)
    (hsing : b.m_fnGet = .functor4) (hcr : b.m_fnCreate.isCreation = true)
    (hcyc : ∀ f ∈ this.frames, ¬ (f.m_interfaceType = t ∧ f.m_name = n))
    (hcreate : invoke cls fuel ⟨o, t, n⟩ b.m_fnCreate (this.child t n) w
      = (.ok (some a, sl1), wc))
    (hafter : Context.afterResolve (Context.resolve cls (fuel + 1 + 1 + d))
      (Context.tryResolve cls (fuel + 1 + 1 + d)) this
        (wc.setFnGet ⟨o, t, n⟩ (.functor4a (some a))) = (.ok (), w1)) :
    Context.resolve cls (fuel + 1 + 1 + d + 1) this t n w = (.ok (some a), w1)
    ∧ (∀ k fuel', d + 3 ≤ fuel' →
        resolveTimes cls fuel' this t n k w1 = (.ok (List.replicate k (some a)), w1))
    ∧ w1.created.count ⟨o, t, n⟩ = w.created.count ⟨o, t, n⟩ + 1
    ∧ (∀ w2, Evolves w1 w2 →
        w2.created.count ⟨o, t, n⟩ = w.created.count ⟨o, t, n⟩ + 1) := by
  obtain ⟨f, rfl⟩ : ∃ f, fuel = f + 1 := by
    cases fuel with
    | zero => simp [invoke] at hcreate
    | succ f => exact ⟨f, rfl⟩
  have hev_c : Evolves w wc := by
    have h := (engine_evolves cls (f + 1)).1 ⟨o, t, n⟩ b.m_fnCreate (this.child t n) w
      ⟨b, hb, Or.inr ⟨hsing, rfl⟩⟩
    rw [hcreate] at h; exact h
  have hev_a : Evolves w (wc.setFnGet ⟨o, t, n⟩ (.functor4a (some a))) :=
    Evolves.setFnGet hev_c _ b hb hsing _
  have hev_1 : Evolves (wc.setFnGet ⟨o, t, n⟩ (.functor4a (some a))) w1 := by
    obtain ⟨_, _, _, ihr, ihtr⟩ := engine_evolves cls (f + 1 + 1 + 1 + d)
    have h := afterResolve_evolves ihr ihtr this (wc.setFnGet ⟨o, t, n⟩ (.functor4a (some a)))
    rw [hafter] at h; exact h
  have hget : invoke cls (f + 1 + 1) ⟨o, t, n⟩ b.m_fnGet (this.child t n) w
      = (.ok (some a, sl1), wc.setFnGet ⟨o, t, n⟩ (.functor4a (some a))) := by
    rw [hsing, invoke_functor4 cls (f + 1) _ _ w b hb, hcreate]
  obtain ⟨bc, hbc, _, _⟩ := hev_c.binding _ _ hb
  have hba : (wc.setFnGet ⟨o, t, n⟩ (.functor4a (some a))).binding? ⟨o, t, n⟩
      = some ⟨.functor4a (some a), bc.m_fnCreate⟩ := by
    rw [World.setFnGet, binding?_modifyBinding, if_pos rfl, hbc]; rfl
  obtain ⟨b1, hb1, _, hg1⟩ := hev_1.binding _ _ hba
  have hg1' : b1.m_fnGet = .functor4a (some a) := hg1 (by simp)
  have hcount := invoke_creation_count cls f ⟨o, t, n⟩ b.m_fnCreate (this.child t n) w hcr
    (guarded_child_self this t n hctx)
  rw [hcreate] at hcount
  refine ⟨?_, ?_, ?_, ?_⟩
  · exact resolve_served cls w this t n d o (f + 1 + 1) b a sl1 _ w1 hnear hb hcyc hget hafter
  · intro k fuel' hk
    exact resolveTimes_cached cls w1 this t n fuel' a
      (resolve_cached cls w1 this t n d o fuel' b1 a ((hev_a.trans hev_1)|> fun h => Nearest.evolves h hnear)
        hb1 (Or.inl hg1') hcyc (afterResolve_clears hafter) hk) k
  · rw [hev_1.created _ _ hba rfl, setFnGet_created]
    exact hcount
  · intro w2 hev_2
    rw [(hev_1.trans hev_2).created _ _ hba rfl, setFnGet_created]
    exact hcount

theorem singleton_resolves_once_witness :
    Context.resolve testClasses 4 (singletonWorld.m_context 0) "ITest" "" singletonWorld
      = (.ok (some 0),
          (Context.resolve testClasses 4 (singletonWorld.m_context 0) "ITest" "" singletonWorld).2)
    ∧ resolveTimes testClasses 3 (singletonWorld.m_context 0) "ITest" "" 5
        (Context.resolve testClasses 4 (singletonWorld.m_context 0) "ITest" "" singletonWorld).2
      = (.ok [some 0, some 0, some 0, some 0, some 0],
          (Context.resolve testClasses 4 (singletonWorld.m_context 0) "ITest" "" singletonWorld).2)
    ∧ (Context.resolve testClasses 4 (singletonWorld.m_context 0) "ITest" ""
        singletonWorld).2.created.count ⟨0, "ITest", ""⟩ = 1 :=
  have h := singleton_resolves_once testClasses singletonWorld (singletonWorld.m_context 0)
    "ITest" "" 0 0 1 ⟨.functor4, .functor9 "TestA"⟩ 0 _ _
    (Context.resolve testClasses 4 (singletonWorld.m_context 0) "ITest" "" singletonWorld).2
    (by decide) (Nearest.here rfl) rfl rfl rfl (by decide) rfl rfl
  ⟨h.1, h.2.1 5 3 (by decide), h.2.2.1⟩

/-- C2 (as stated, refuted): (1) in `poolWorld` the key `Job` is bound transient with
`toSelf()`; the constructor of `Job` resolves the singleton `Pool`, whose constructor
registers a deferred callback that resolves `Job`. Two consecutive calls `resolve<Job>()`
return two distinct instances, but the creation function of `Job` is invoked three times: the
callback runs at the end of the first call and creates a `Job` of its own. (2) A transient
factory need not yield an instance: in `nullFactoryWorld` the factory returns `NULL`, and
each of two consecutive resolves invokes it and throws `UnableToResolve`. -/
theorem transient_two_resolves_three_creations :
    nullFactoryWorld.binding? ⟨0, "ITest", ""⟩
        = some ⟨.functor12 "TestA" .done true, .functor12 "TestA" .done true⟩
    ∧ (resolveResults testClasses 5 (nullFactoryWorld.m_context 0)
        [("ITest", ""), ("ITest", "")] nullFactoryWorld).1
      = [.error (.UnableToResolveException
            "Unable to resolve <ITest>  resolve path = resolve<ITest>().to<TestA>"),
          .error (.UnableToResolveException
            "Unable to resolve <ITest>  resolve path = resolve<ITest>().to<TestA>")]
    ∧ (resolveResults testClasses 5 (nullFactoryWorld.m_context 0)
        [("ITest", ""), ("ITest", "")] nullFactoryWorld).2.created.count ⟨0, "ITest", ""⟩ = 2
    ∧ poolWorld.binding? ⟨0, "Job", ""⟩ = some ⟨.functor7 "Job", .functor7 "Job"⟩
    ∧ poolWorld.created = []
    ∧ (resolveTimes poolClasses 8 (poolWorld.m_context 0) "Job" "" 2 poolWorld).1
        = .ok [some 1, some 3]
    ∧ (resolveTimes poolClasses 8 (poolWorld.m_context 0) "Job" "" 2
        poolWorld).2.created.count ⟨0, "Job", ""⟩ = 3
    ∧ (resolveTimes poolClasses 8 (poolWorld.m_context 0) "Job" "" 2
        poolWorld).2.heap.map Obj.type = ["Pool", "Job", "Job", "Job"] :=
  ⟨rfl, rfl, rfl, rfl, rfl, rfl, rfl, rfl⟩

/-- C2 (amended): let `o` hold the nearest binding for the key `(t, n)`, left transient with
an object-creating clause (`toSelf()`, `to<T>()` or a factory returning a new object, so that
`m_fnGet` is the creation function itself). Then the lookup of every resolve of the key
invokes the creation function exactly once, and `k` consecutive resolves that return yield
`k` pairwise distinct instances, each allocated during these resolves, with at least `k`
invocations of the creation function, and exactly `k` when the resolves run no deferred
callback (no callback is pending on the root context when a lookup has returned). -/
theorem transient_resolves_create_anew (cls : TypeId → Script) (w : World) (this : Context)
    (t : TypeId) (n : String) (d o fuel k : Nat) (b : shared_ptr_binding) (T : TypeId)
    (body : Script) (ps : List Ptr) (w' : World)
    (hctx : this.frames ≠ [])
    (hnear : Nearest w t n this.m_sl d o)
    (hb : w.binding? ⟨o, t, n⟩ = some b)
    (hkind : b.m_fnGet = .functor7 T ∨ b.m_fnGet = .functor9 T
      ∨ b.m_fnGet = .functor12 T body false)
    (hcyc : ∀ f ∈ this.frames, ¬ (f.m_interfaceType = t ∧ f.m_name = n))
    (hrun : resolveTimes cls fuel this t n k w = (.ok ps, w')) :
    ps.length = k
    ∧ (∀ p ∈ ps, ∃ a, p = some a ∧ w.heap.length ≤ a ∧ a < w'.heap.length)
    ∧ ps.Pairwise (fun p q => p ≠ q)
    ∧ w.created.count ⟨o, t, n⟩ + k ≤ w'.created.count ⟨o, t, n⟩
    ∧ (Settled cls fuel this t n k w →
        w'.created.count ⟨o, t, n⟩ = w.created.count ⟨o, t, n⟩ + k)
    ∧ (∀ G, (m_resolve cls (G + 1 + 1 + d) t this.m_sl (this.child t n) w).2.created.count
          ⟨o, t, n⟩ = w.created.count ⟨o, t, n⟩ + 1) := by
  obtain ⟨h1, h2, h3, h4, _⟩ := transient_times cls this t n d o fuel T body hctx hcyc k w b
    ps w' hnear hb hkind hrun
  exact ⟨h1, h2, h3, h4,
    transient_times_exact cls this t n d o fuel T body hctx hcyc k w b ps w' hnear hb hkind
      hrun,
    fun G => lookup_transient_count cls w this t n d o G b T body hctx hnear hb hkind⟩

theorem transient_resolves_create_anew_witness :
    resolveTimes testClasses 4 (transientWorld.m_context 0) "ITest" "" 3 transientWorld
      = (.ok [some 0, some 1, some 2],
          (resolveTimes testClasses 4 (transientWorld.m_context 0) "ITest" "" 3 transientWorld).2)
    ∧ [some 0, some 1, some 2].Pairwise (fun (p q : Ptr) => p ≠ q)
    ∧ Settled testClasses 4 (transientWorld.m_context 0) "ITest" "" 3 transientWorld
    ∧ (resolveTimes testClasses 4 (transientWorld.m_context 0) "ITest" "" 3
        transientWorld).2.created.count ⟨0, "ITest", ""⟩
        = transientWorld.created.count ⟨0, "ITest", ""⟩ + 3 :=
  have hrun : resolveTimes testClasses 4 (transientWorld.m_context 0) "ITest" "" 3 transientWorld
      = (.ok [some 0, some 1, some 2],
          (resolveTimes testClasses 4 (transientWorld.m_context 0) "ITest" "" 3
            transientWorld).2) := rfl
  have hset : Settled testClasses 4 (transientWorld.m_context 0) "ITest" "" 3 transientWorld :=
    ⟨fun _ => rfl, fun _ => rfl, fun _ => rfl, trivial⟩
  have h := transient_resolves_create_anew testClasses transientWorld
    (transientWorld.m_context 0) "ITest" "" 0 0 4 3 ⟨.functor9 "TestA", .functor9 "TestA"⟩
    "TestA" .done [some 0, some 1, some 2] _ (by decide) (Nearest.here rfl) rfl
    (Or.inr (Or.inl rfl)) (by decide) hrun
  ⟨hrun, h.2.2.1, hset, h.2.2.2.2.1 hset⟩

/-! ## What resolves through a child can change -/

/-- C5 (as stated, refuted): the root holds the singleton `TestC`, whose constructor asks for
`ITest`, and binds `ITest` to `TestA`; a child overrides `ITest` with `TestB`. After one
resolve of `TestC` through the child, the `TestC` instance obtained from the root was built
from a `TestB`; in the run in which the child has no binding it was built from a `TestA`. -/
theorem child_override_leaks_through_singleton :
    (Context.resolve testClasses 9 (leakWorld.m_context 0) "TestC" ""
        (Context.resolve testClasses 9 (leakWorld.m_context 1) "TestC" "" leakWorld).2).1
      = .ok (some 1)
    ∧ (Context.resolve testClasses 9 (leakWorld.m_context 0) "TestC" ""
        (Context.resolve testClasses 9 (leakWorld.m_context 1) "TestC" "" leakWorld).2).2.fieldTypes
          (some 1) = [some "TestB"]
    ∧ (Context.resolve testClasses 9 (leakControl.m_context 0) "TestC" ""
        (Context.resolve testClasses 9 (leakControl.m_context 1) "TestC" "" leakControl).2).1
      = .ok (some 1)
    ∧ (Context.resolve testClasses 9 (leakControl.m_context 0) "TestC" ""
        (Context.resolve testClasses 9 (leakControl.m_context 1) "TestC" ""
          leakControl).2).2.fieldTypes (some 1) = [some "TestA"] :=
  ⟨rfl, rfl, rfl, rfl⟩

/-- C5 (amended): (1) The only change that resolves through a child locator make to a
binding is that a singleton not yet instantiated becomes a cached singleton. (2) When the
resolves through the child instantiate no singleton of another locator, the child leaks
nothing. Take two runs from the same configuration `w` without dangling pointers: one with
the bindings of the child `c` and the resolves `reqsA` through it, one in which the bindings
of `c` do not exist (and any resolves `reqsB` are made through `c`, none or the same ones,
also without instantiating a singleton of another locator). Then every later sequence of
resolves from a parent or a sibling, on contexts of locators whose parent chain does not pass
through `c`, has the same outcomes in both runs: the same exceptions and the same instances,
up to the shift of the addresses by the objects that only one run allocated through the
child; the instances have the same types and were built from dependencies of the same types,
and an instance that existed before the resolves through the child is the identical
object. -/
theorem child_resolves_do_not_leak (cls : TypeId → Script) (fuel k : Nat) (w wA wB : World)
    (c : Nat) (child : Context) (reqsA reqsB : List (TypeId × String))
    (later : List (Context × TypeId × String))
    (hA : wA = resolveSeq cls fuel child reqsA w)
    (hB : wB = resolveSeq cls fuel child reqsB (w.withoutBindings c))
    (hclosed : w.closed = true)
    (hkeepA : ∀ (ref : BindingRef) (b : shared_ptr_binding), ref.loc ≠ c →
      w.binding? ref = some b → b.m_fnGet = .functor4 → wA.binding? ref = some b)
    (hkeepB : ∀ (ref : BindingRef) (b : shared_ptr_binding), ref.loc ≠ c →
      w.binding? ref = some b → b.m_fnGet = .functor4 → wB.binding? ref = some b)
    (hlater : ∀ x ∈ later, Avoids w c x.1.m_sl ∧ x.1.m_root < w.fnAfterResolveLists.length
      ∧ x.1.m_root ≠ child.m_root) :
    (∀ ref b, w.binding? ref = some b →
        ∃ b1, wA.binding? ref = some b1 ∧ b1.m_fnCreate = b.m_fnCreate
          ∧ (b1.m_fnGet = b.m_fnGet ∨ (b.m_fnGet = .functor4 ∧ ∃ p, b1.m_fnGet = .functor4a p)))
    ∧ (resolveFrom cls k later wA).1
        = (resolveFrom cls k later wB).1.map
            (Shift.result (Option.map (relocate w.heap.length
              (wB.heap.length - w.heap.length) (wA.heap.length - w.heap.length))))
    ∧ (∀ r ∈ (resolveFrom cls k later wB).1, ∀ b : Nat, r = .ok (some b) →
        ((resolveFrom cls k later wA).2.heap[relocate w.heap.length
            (wB.heap.length - w.heap.length) (wA.heap.length - w.heap.length) b]?).map Obj.type
          = ((resolveFrom cls k later wB).2.heap[b]?).map Obj.type
        ∧ (resolveFrom cls k later wA).2.fieldTypes (some (relocate w.heap.length
            (wB.heap.length - w.heap.length) (wA.heap.length - w.heap.length) b))
          = (resolveFrom cls k later wB).2.fieldTypes (some b)
        ∧ (b < w.heap.length → relocate w.heap.length
            (wB.heap.length - w.heap.length) (wA.heap.length - w.heap.length) b = b)) := by
  subst hA hB
  have hevA := resolveSeq_evolves cls fuel child reqsA w
  have hevB := resolveSeq_evolves cls fuel child reqsB (w.withoutBindings c)
  have hothA := resolveSeq_others cls fuel child reqsA w
  have hothB := resolveSeq_others cls fuel child reqsB (w.withoutBindings c)
  have hkA : ∀ ref : BindingRef, ref.loc ≠ c →
      (resolveSeq cls fuel child reqsA w).binding? ref = w.binding? ref :=
    keeps_of_singletons (fun ref => ref.loc ≠ c) hevA hkeepA
  have hkB : ∀ ref : BindingRef, ref.loc ≠ c →
      (resolveSeq cls fuel child reqsB (w.withoutBindings c)).binding? ref = w.binding? ref := by
    intro ref hne
    have h1 := keeps_of_singletons (fun ref => ref.loc ≠ c) hevB
      (fun r b hr hb h4 => by
        rw [withoutBindings_other w c r hr] at hb
        exact hkeepB r b hr hb h4) ref hne
    rw [h1, withoutBindings_other w c ref hne]
  have hR := relocated_of_runs hclosed hevB hevA hkB hkA hothB hothA
  obtain ⟨h1, h2, h3⟩ := resolveFrom_relocated cls _ _ _ k later _ _
    (fun x hx => ⟨⟨(hlater x hx).1, Or.inl ⟨(hlater x hx).2.1, (hlater x hx).2.2⟩⟩,
      Shift.ctx_low _ (hlater x hx).2.1⟩) hR
  refine ⟨fun ref b hb => ?_, h1, fun r hr b hrb => ?_⟩
  · obtain ⟨b1, hb1, hc, _⟩ := hevA.binding ref b hb
    exact ⟨b1, hb1, hc, hevA.cached ref b b1 hb hb1⟩
  · have hlive := h3 r hr (some b) hrb b rfl
    refine ⟨h2.type_eq hlive, h2.fieldTypes_eq (h3 r hr (some b) hrb), fun hlt => ?_⟩
    simp only [relocate, if_pos hlt]

theorem child_resolves_do_not_leak_witness :
    (resolveFrom testClasses 9
        [(leakWorld.m_context 0, "TestC", ""), (leakWorld.m_context 0, "ITest", "")]
        (resolveSeq testClasses 9 (leakWorld.m_context 1) [("ITest", ""), ("ITest", "")]
          leakWorld)).1 = [.ok (some 3), .ok (some 4)]
    ∧ (resolveFrom testClasses 9
        [(leakWorld.m_context 0, "TestC", ""), (leakWorld.m_context 0, "ITest", "")]
        (resolveSeq testClasses 9 (leakWorld.m_context 1) [("ITest", "")]
          (leakWorld.withoutBindings 1))).1 = [.ok (some 2), .ok (some 3)]
    ∧ (resolveFrom testClasses 9
        [(leakWorld.m_context 0, "TestC", ""), (leakWorld.m_context 0, "ITest", "")]
        (resolveSeq testClasses 9 (leakWorld.m_context 1) [("ITest", ""), ("ITest", "")]
          leakWorld)).1
      = (resolveFrom testClasses 9
          [(leakWorld.m_context 0, "TestC", ""), (leakWorld.m_context 0, "ITest", "")]
          (resolveSeq testClasses 9 (leakWorld.m_context 1) [("ITest", "")]
            (leakWorld.withoutBindings 1))).1.map
          (Shift.result (Option.map (relocate 0 1 2)))
    ∧ (resolveFrom testClasses 9
        [(leakWorld.m_context 0, "TestC", ""), (leakWorld.m_context 0, "ITest", "")]
        (resolveSeq testClasses 9 (leakWorld.m_context 1) [("ITest", ""), ("ITest", "")]
          leakWorld)).2.fieldTypes (some 3) = [some "TestA"]
    ∧ (resolveFrom testClasses 9
        [(leakWorld.m_context 0, "TestC", ""), (leakWorld.m_context 0, "ITest", "")]
        (resolveSeq testClasses 9 (leakWorld.m_context 1) [("ITest", ""), ("ITest", "")]
          leakWorld)).2.fieldTypes (some (relocate 0 1 2 2))
      = (resolveFrom testClasses 9
          [(leakWorld.m_context 0, "TestC", ""), (leakWorld.m_context 0, "ITest", "")]
          (resolveSeq testClasses 9 (leakWorld.m_context 1) [("ITest", "")]
            (leakWorld.withoutBindings 1))).2.fieldTypes (some 2) :=
  have h := child_resolves_do_not_leak testClasses 9 9 leakWorld
    (resolveSeq testClasses 9 (leakWorld.m_context 1) [("ITest", ""), ("ITest", "")] leakWorld)
    (resolveSeq testClasses 9 (leakWorld.m_context 1) [("ITest", "")]
      (leakWorld.withoutBindings 1))
    1 (leakWorld.m_context 1) [("ITest", ""), ("ITest", "")] [("ITest", "")]
    [(leakWorld.m_context 0, "TestC", ""), (leakWorld.m_context 0, "ITest", "")]
    rfl rfl rfl (leakWorld_keeps _ rfl) (leakWorld_keeps _ rfl) leakWorld_later
  ⟨rfl, rfl, h.2.1, rfl, (h.2.2 (.ok (some 2)) (List.mem_cons_self _ _) 2 rfl).2.1⟩

/-! ## The claims, second part -/

/-- C11 (as stated, refuted): in the example without food, `m_resolve` of the monkey fails
with `UnableToResolve` (thrown for `IFood` inside the constructor of `Monkey`), and
`m_tryResolve` of the same request does not return the empty pointer: it fails with the same
exception. -/
theorem tryResolve_not_empty_when_resolve_unable :
    (m_resolve zooClasses 6 "IAnimal" 0 ((hungryWorld.m_context 0).child "IAnimal" "Monkey")
        hungryWorld).1
      = .error (.UnableToResolveException
          "Unable to resolve <IFood>  resolve path = resolve<IAnimal>(Monkey).to<Monkey> -> resolve<IFood>(Monkey)")
    ∧ (m_tryResolve zooClasses 6 "IAnimal" 0 ((hungryWorld.m_context 0).child "IAnimal" "Monkey")
        hungryWorld).1
      = .error (.UnableToResolveException
          "Unable to resolve <IFood>  resolve path = resolve<IAnimal>(Monkey).to<Monkey> -> resolve<IFood>(Monkey)")
    ∧ (m_tryResolve zooClasses 6 "IAnimal" 0 ((hungryWorld.m_context 0).child "IAnimal" "Monkey")
        hungryWorld).1 ≠ .ok none := by
  refine ⟨rfl, rfl, ?_⟩
  intro h
  have h2 : (m_tryResolve zooClasses 6 "IAnimal" 0
      ((hungryWorld.m_context 0).child "IAnimal" "Monkey") hungryWorld).1
      = .error (.UnableToResolveException
          "Unable to resolve <IFood>  resolve path = resolve<IAnimal>(Monkey).to<Monkey> -> resolve<IFood>(Monkey)") := rfl
  rw [h2] at h
  cases h

/-- C11 (amended): `m_resolve` and `m_tryResolve` perform the identical fallback walk. For
every state, locator, context and fuel, the outcome of `m_resolve` is the outcome of
`m_tryResolve` (result and state left), except that where `m_tryResolve` returns the empty
pointer `m_resolve` throws `UnableToResolve` for the request (its context `slc1` is the
request context, up to the concrete type recorded); so an instance returned by one is
returned by the other with the same state, `m_tryResolve` returns empty only where `m_resolve`
throws that `UnableToResolve`, and an exception out of a creation function, `UnableToResolve`
for a dependency included, leaves both alike. -/
theorem m_tryResolve_refines_m_resolve (cls : TypeId → Script) (fuel : Nat) (t : TypeId)
    (l : Nat) (slc : Context) (w : World) :
    ∃ slc1, SameRequest slc slc1
      ∧ m_resolve cls fuel t l slc w = throwIfEmpty slc1 (m_tryResolve cls fuel t l slc w)
      ∧ (∀ a w1, m_resolve cls fuel t l slc w = (.ok (some a), w1)
          ↔ m_tryResolve cls fuel t l slc w = (.ok (some a), w1))
      ∧ (∀ w1, m_resolve cls fuel t l slc w ≠ (.ok none, w1))
      ∧ (∀ w1, m_tryResolve cls fuel t l slc w = (.ok none, w1) →
          m_resolve cls fuel t l slc w = (.error (unableToResolve slc1), w1))
      ∧ (∀ e w1, m_tryResolve cls fuel t l slc w = (.error e, w1) →
          m_resolve cls fuel t l slc w = (.error e, w1)) := by
  obtain ⟨slc1, hs, he⟩ := m_resolve_eq_throwIfEmpty cls fuel t l slc w
  refine ⟨slc1, hs, he, ?_, ?_, ?_, ?_⟩
  · intro a w1
    rw [he]
    rcases m_tryResolve cls fuel t l slc w with ⟨r, w0⟩
    cases r with
    | error e => simp [throwIfEmpty]
    | ok p => cases p <;> simp [throwIfEmpty]
  · intro w1
    rw [he]
    rcases m_tryResolve cls fuel t l slc w with ⟨r, w0⟩
    cases r with
    | error e => simp [throwIfEmpty]
    | ok p => cases p <;> simp [throwIfEmpty]
  · intro w1 h
    rw [he, h]; rfl
  · intro e w1 h
    rw [he, h]; rfl

/-- C12: `tryResolve` performs the cycle check of `resolve`. On every context chain that holds
a context with the requested key `(t, n)`, the calling context or an ancestor, `tryResolve`
fails with `RecursiveResolve` (carrying the path of the refused request) and leaves the state
as it was; it does not return the empty pointer. -/
theorem tryResolve_cycle_fails (cls : TypeId → Script) (fuel : Nat) (this : Context)
    (t : TypeId) (n : String) (w : World)
    (hcyc : ∃ f ∈ this.frames, f.m_interfaceType = t ∧ f.m_name = n) :
    Context.tryResolve cls (fuel + 1) this t n w =
        (.error (.RecursiveResolveException
          ("Recursive resolve path = " ++ (this.child t n).getResolvePath)), w)
      ∧ (Context.tryResolve cls (fuel + 1) this t n w).1 ≠ .ok none := by
  have h := tryResolve_of_cycle cls fuel this t n w hcyc
  refine ⟨h, ?_⟩
  rw [h]
  intro hc
  cases hc

theorem tryResolve_cycle_fails_witness :
    (∃ f ∈ (((deepWorld.m_context 0).child "TestC" "").child "ITest" "").frames,
        f.m_interfaceType = "TestC" ∧ f.m_name = "")
    ∧ Context.tryResolve testClasses 1 (((deepWorld.m_context 0).child "TestC" "").child
        "ITest" "") "TestC" "" deepWorld =
        (.error (.RecursiveResolveException
          ("Recursive resolve path = " ++ ((((deepWorld.m_context 0).child "TestC" "").child
            "ITest" "").child "TestC" "").getResolvePath)), deepWorld)
    ∧ (Context.tryResolve testClasses 1 (((deepWorld.m_context 0).child "TestC" "").child
        "ITest" "") "TestC" "" deepWorld).1 ≠ .ok none :=
  have hc : ∃ f ∈ (((deepWorld.m_context 0).child "TestC" "").child "ITest" "").frames,
      f.m_interfaceType = "TestC" ∧ f.m_name = "" :=
    ⟨⟨"TestC", "", none⟩, by decide, rfl, rfl⟩
  ⟨hc, tryResolve_cycle_fails testClasses 0 _ "TestC" "" deepWorld hc⟩

/-- C20 (as stated, refuted): in `emptyInstanceWorld` the child locator binds `ITest` with
`toInstance` of an empty pointer. `resolve<ITest>()` and `tryResolve<ITest>()` on the context
of the child do not return that pointer: they return a `TestA` that the binding of the root
creates, a new object at every call. -/
theorem toInstance_empty_pointer_creates :
    emptyInstanceWorld
        = to_clause.toInstance ⟨1, "ITest", ""⟩ none
            (bind "ITest" "" 1 (enter 0 nestedRoot).2).2
    ∧ Nearest emptyInstanceWorld "ITest" "" 1 0 1
    ∧ emptyInstanceWorld.heap = []
    ∧ (Context.resolve testClasses 5 (emptyInstanceWorld.m_context 1) "ITest" ""
        emptyInstanceWorld).1 = .ok (some 0)
    ∧ (Context.tryResolve testClasses 5 (emptyInstanceWorld.m_context 1) "ITest" ""
        (Context.resolve testClasses 5 (emptyInstanceWorld.m_context 1) "ITest" ""
          emptyInstanceWorld).2).1 = .ok (some 1)
    ∧ (Context.tryResolve testClasses 5 (emptyInstanceWorld.m_context 1) "ITest" ""
        (Context.resolve testClasses 5 (emptyInstanceWorld.m_context 1) "ITest" ""
          emptyInstanceWorld).2).2.heap.map Obj.type = ["TestA", "TestA"] :=
  ⟨rfl, Nearest.here rfl, rfl, rfl, rfl, rfl⟩

/-- C20 (amended): `toInstance(v)` stores `v` in the binding and creates nothing. When `v` is
a non-empty pointer, then in every world in which the binding still stores `v` (every world
that resolutions lead to from the one `toInstance` left, in which also no creation function
of the binding was ever invoked) and on every context for which it is the nearest binding of
the key: the lookup of `resolve` and of `tryResolve` returns exactly `v` and leaves the whole
state as it was (nothing is created); every `resolve` and `tryResolve` of the key that
returns, returns `v`; and when the key is not on the calling chain and no deferred callback
is pending, both return `v` and leave the whole state as it was, however many calls are
made. -/
theorem toInstance_returns_the_instance (cls : TypeId → Script) (w0 : World) (t : TypeId)
    (n : String) (o : Nat) (b0 : shared_ptr_binding) (v : Nat)
    (hb0 : w0.binding? ⟨o, t, n⟩ = some b0) :
    (to_clause.toInstance ⟨o, t, n⟩ (some v) w0).binding? ⟨o, t, n⟩
        = some ⟨.functorY (some v), b0.m_fnCreate⟩
    ∧ (to_clause.toInstance ⟨o, t, n⟩ (some v) w0).heap = w0.heap
    ∧ (to_clause.toInstance ⟨o, t, n⟩ (some v) w0).created = w0.created
    ∧ (∀ w : World, Evolves (to_clause.toInstance ⟨o, t, n⟩ (some v) w0) w →
        (∃ b, w.binding? ⟨o, t, n⟩ = some b ∧ b.m_fnGet = .functorY (some v))
        ∧ w.created.count ⟨o, t, n⟩ = w0.created.count ⟨o, t, n⟩)
    ∧ (∀ (w : World) (this : Context) (d k : Nat) (b : shared_ptr_binding),
        w.binding? ⟨o, t, n⟩ = some b → b.m_fnGet = .functorY (some v) →
        Nearest w t n this.m_sl d o → d + 2 ≤ k →
        m_resolve cls k t this.m_sl (this.child t n) w = (.ok (some v), w)
        ∧ m_tryResolve cls k t this.m_sl (this.child t n) w = (.ok (some v), w)
        ∧ (∀ p w1, Context.resolve cls (k + 1) this t n w = (.ok p, w1) → p = some v)
        ∧ (∀ p w1, Context.tryResolve cls (k + 1) this t n w = (.ok p, w1) → p = some v)
        ∧ ((∀ f ∈ this.frames, ¬ (f.m_interfaceType = t ∧ f.m_name = n)) →
            (this.isRoot = true → w.fnAfterResolveLists.getD this.m_root [] = []) →
            Context.resolve cls (k + 1) this t n w = (.ok (some v), w)
            ∧ Context.tryResolve cls (k + 1) this t n w = (.ok (some v), w)
            ∧ ∀ j, resolveTimes cls (k + 1) this t n j w
                = (.ok (List.replicate j (some v)), w))) := by
  have hb : (to_clause.toInstance ⟨o, t, n⟩ (some v) w0).binding? ⟨o, t, n⟩
      = some ⟨.functorY (some v), b0.m_fnCreate⟩ := by
    rw [to_clause.toInstance, World.setFnGet, binding?_modifyBinding, if_pos rfl, hb0]
    rfl
  have hheap : (to_clause.toInstance ⟨o, t, n⟩ (some v) w0).heap = w0.heap := by
    rw [to_clause.toInstance, World.setFnGet, World.modifyBinding]
    split <;> rfl
  have hcreated : (to_clause.toInstance ⟨o, t, n⟩ (some v) w0).created = w0.created := by
    rw [to_clause.toInstance, World.setFnGet, World.modifyBinding]
    split <;> rfl
  refine ⟨hb, hheap, hcreated, ?_, ?_⟩
  · intro w hev
    obtain ⟨b', hb', _, hg⟩ := hev.binding _ _ hb
    exact ⟨⟨b', hb', hg (by simp)⟩, by rw [hev.created _ _ hb rfl, hcreated]⟩
  · intro w this d k b hbw hfn hnear hk
    obtain ⟨hm, htm⟩ := lookup_stored cls w this t n d o k b v hnear hbw (Or.inr hfn) hk
    refine ⟨hm, htm, resolve_result_of_lookup cls k this t n w w _ hm,
      tryResolve_result_of_lookup cls k this t n w w _ htm, ?_⟩
    intro hcyc hq
    have hres := resolve_of_lookup cls k this t n w w w _ hm hcyc
      (afterResolve_idle _ _ this w hq)
    exact ⟨hres,
      tryResolve_of_lookup cls k this t n w w w _ htm hcyc (afterResolve_idle _ _ this w hq),
      resolveTimes_cached cls w this t n (k + 1) v hres⟩

theorem toInstance_returns_the_instance_witness :
    instanceWorld.binding? ⟨0, "TestNoSL", ""⟩ = some ⟨.functorY (some 0), .empty⟩
      ∧ Context.resolve testClasses 3 (instanceWorld.m_context 0) "TestNoSL" "" instanceWorld
        = (.ok (some 0), instanceWorld)
      ∧ Context.tryResolve testClasses 3 (instanceWorld.m_context 0) "TestNoSL" "" instanceWorld
        = (.ok (some 0), instanceWorld)
      ∧ (∀ j, resolveTimes testClasses 3 (instanceWorld.m_context 0) "TestNoSL" "" j instanceWorld
        = (.ok (List.replicate j (some 0)), instanceWorld))
      ∧ instanceWorld.heap = [⟨"TestNoSL", [], Context.root 0 0⟩]
      ∧ instanceWorld.created = [] :=
  have h := toInstance_returns_the_instance testClasses
    (bind "TestNoSL" "" 0 ((create World.init).2.alloc ⟨"TestNoSL", [], Context.root 0 0⟩)).2
    "TestNoSL" "" 0 ⟨.empty, .empty⟩ 0 rfl
  have h2 := (h.2.2.2.2 instanceWorld (instanceWorld.m_context 0) 0 2
    ⟨.functorY (some 0), .empty⟩ rfl rfl (Nearest.here rfl) (by decide)).2.2.2.2
    (by decide) (fun _ => rfl)
  ⟨h.1, h2.1, h2.2.1, h2.2.2, h.2.1, h.2.2.1⟩

/-- C13 (the code at the failing input): in `shadowWorld` the nearest binding of the unnamed
`ITest` for the child locator is the one of the root, one parent up, and `resolve` through
the context of the child returns its instance; `canResolve` of the same key through the same
context nevertheless returns `false`, because the child has a registry of `ITest` (for the
name `X`) and `_canResolve` asks the parent only when there is no registry at all. -/
theorem canResolve_stops_at_first_registry :
    Nearest shadowWorld "ITest" "" 1 1 0
      ∧ Context.canResolve 3 (shadowWorld.m_context 1) "ITest" "" shadowWorld
          = (.ok false, shadowWorld)
      ∧ (Context.resolve testClasses 5 (shadowWorld.m_context 1) "ITest" "" shadowWorld).1
          = .ok (some 0)
      ∧ (Context.tryResolve testClasses 5 (shadowWorld.m_context 1) "ITest" "" shadowWorld).1
          = .ok (some 0) :=
  ⟨Nearest.up
      (show shadowWorld.locators[1]?
        = some ⟨[("ITest", [("X", ⟨.functor9 "TestB", .functor9 "TestB"⟩)])], [], some 0, 1⟩
        from rfl)
      rfl rfl (Nearest.here (b := ⟨.functor9 "TestA", .functor9 "TestA"⟩) rfl),
    rfl, rfl, rfl⟩

/-- C14: `canResolve` is a pure probe. Called on a context whose locator has a parent chain
of `d` further locators, with fuel for that walk, it returns a truth value and leaves the
state exactly as it was: the registries with their bindings and singleton caches, the eager
lists, the deferred-callback lists, the objects, and the record of the creation functions
invoked, to which nothing is added. -/
theorem canResolve_is_pure_probe (fuel : Nat) (this : Context) (t : TypeId) (n : String)
    (w : World) (d : Nat) (h : Rooted w this.m_sl d) (hf : d < fuel) :
    ∃ b, Context.canResolve fuel this t n w = (.ok b, w) :=
  _canResolve_total h t (this.child t n) fuel hf

theorem canResolve_is_pure_probe_witness :
    Rooted shadowWorld (shadowWorld.m_context 1).m_sl 1
      ∧ ∃ b, Context.canResolve 2 (shadowWorld.m_context 1) "TestC" "" shadowWorld
          = (.ok b, shadowWorld) :=
  have h : Rooted shadowWorld (shadowWorld.m_context 1).m_sl 1 :=
    Rooted.up
      (show shadowWorld.locators[1]?
        = some ⟨[("ITest", [("X", ⟨.functor9 "TestB", .functor9 "TestB"⟩)])], [], some 0, 1⟩
        from rfl)
      rfl
      (Rooted.root
        (show shadowWorld.locators[0]?
          = some ⟨[("ITest", [("", ⟨.functor9 "TestA", .functor9 "TestA"⟩)])], [], none, 0⟩
          from rfl)
        rfl)
  ⟨h, canResolve_is_pure_probe 2 (shadowWorld.m_context 1) "TestC" "" shadowWorld 1 h
    (by decide)⟩

/-- C15: let `refs` list the bindings of `t` on the parent chain of the locator of the context
`this`: those of the locator itself in the order of its registry, then those of its parent,
and so on up to the root. Then `resolveAll` is exactly the run that takes the bindings of
`refs` in this order, invokes each on a new child context of `this` and appends its instance
to the vector, followed by `afterResolve()`; when it succeeds the vector is the old one
followed by one entry per binding; and with the registries kept in key order (the invariant
of `std::map`, which `bind` maintains) the names of the bindings of each locator are visited
in strictly ascending order. -/
theorem resolveAll_appends_in_visit_order (cls : TypeId → Script) (fuel : Nat) (this : Context)
    (t : TypeId) (out : List Ptr) (w : World) (d : Nat) (refs : List BindingRef)
    (hv : Visited w t this.m_sl d refs) (hd : d < fuel) (hasc : w.ascending = true) :
    Context.resolveAll cls fuel this t out w
        = Context.finishAll cls fuel this (resolveEach cls fuel this t refs out w)
      ∧ (∀ out1 w1, Context.resolveAll cls fuel this t out w = (.ok out1, w1) →
          ∃ rs, out1 = out ++ rs ∧ rs.length = refs.length)
      ∧ (∀ l, ascending ((w.bindingsOf l t).map BindingRef.name) = true) :=
  ⟨resolveAll_eq_finishAll cls fuel this t out w d refs hv hd,
    fun out1 w1 h => resolveAll_length cls fuel this t out w d refs hv hd out1 w1 h,
    fun l => ascending_bindingsOf hasc l t⟩

theorem resolveAll_appends_in_visit_order_witness :
    allWorld.bindingsOf 0 "ITest" = [⟨0, "ITest", "A"⟩, ⟨0, "ITest", "B"⟩]
      ∧ (Context.resolveAll testClasses 3 (allWorld.m_context 0) "ITest" [] allWorld).1
          = .ok [some 0, some 1]
      ∧ (Context.resolveAll testClasses 3 (allWorld.m_context 0) "ITest" [] allWorld).2.heap.map
          Obj.type = ["TestA", "TestB"]
      ∧ (Context.resolveAll testClasses 3 (allWorld.m_context 0) "ITest" [] allWorld
          = Context.finishAll testClasses 3 (allWorld.m_context 0)
              (resolveEach testClasses 3 (allWorld.m_context 0) "ITest"
                (allWorld.bindingsOf 0 "ITest") [] allWorld)
        ∧ (∀ out1 w1, Context.resolveAll testClasses 3 (allWorld.m_context 0) "ITest" []
            allWorld = (.ok out1, w1) →
            ∃ rs, out1 = [] ++ rs ∧ rs.length = (allWorld.bindingsOf 0 "ITest").length)
        ∧ (∀ l, ascending ((allWorld.bindingsOf l "ITest").map BindingRef.name) = true)) :=
  ⟨rfl, rfl, rfl,
    resolveAll_appends_in_visit_order testClasses 3 (allWorld.m_context 0) "ITest" [] allWorld 0
      (allWorld.bindingsOf 0 "ITest")
      (Visited.root
        (show allWorld.locators[0]? = some ⟨[("ITest",
            [("A", ⟨.functor9 "TestA", .functor9 "TestA"⟩),
             ("B", ⟨.functor9 "TestB", .functor9 "TestB"⟩)])], [], none, 0⟩ from rfl)
        rfl)
      (by decide) rfl⟩

/-- C16 (as stated, refuted): in `wrapWorld` each binding of `ITest` resolves when it is
requested by its own name, the unnamed one to a `TestA` and the one named `W` to the
decorator; `resolveAll` nevertheless fails with `RecursiveResolve`, because it invokes every
binding on a context for the unnamed key, on which the decorator may not ask for the unnamed
`ITest`. -/
theorem resolveAll_fails_although_each_resolves :
    (Context.resolve wrapClasses 6 (wrapWorld.m_context 0) "ITest" "" wrapWorld).1
        = .ok (some 0)
      ∧ (Context.resolve wrapClasses 6 (wrapWorld.m_context 0) "ITest" "W" wrapWorld).1
        = .ok (some 1)
      ∧ (Context.resolveAll wrapClasses 6 (wrapWorld.m_context 0) "ITest" [] wrapWorld).1
        = .error (.RecursiveResolveException
            "Recursive resolve path = resolve<ITest>().to<Wrapper> -> resolve<ITest>()") :=
  ⟨rfl, rfl, rfl⟩

/-- C16 (amended): `resolveAll` performs no deduplication. Let `refs` list the bindings of
`t` on the parent chain of the locator of `this`, locator by locator (a name bound on two
locators of the chain is listed twice). If each binding of `refs`, taken by itself, yields
when it is invoked on a new child context of `this` for the key `(t, "")`, in every state that
resolutions lead to from the present one, then the visit of `resolveAll` yields exactly one
entry per binding of `refs`, appended to the vector in this order, and `resolveAll` succeeds
with that vector once the deferred callbacks of a root context complete (as they do when
none is pending after the visit). -/
theorem resolveAll_one_entry_per_binding (cls : TypeId → Script) (fuel : Nat) (this : Context)
    (t : TypeId) (out : List Ptr) (w : World) (d : Nat) (refs : List BindingRef)
    (hv : Visited w t this.m_sl d refs) (hd : d < fuel)
    (heach : ∀ ref ∈ refs, ∀ (w0 : World) (m_all : List Ptr), Evolves w w0 →
      ∃ p w1, Functor.call (BindingRef.get cls fuel) this t ref m_all w0
        = (.ok (m_all ++ [p]), w1)) :
    ∃ rs w1, rs.length = refs.length
      ∧ Context.resolveAll cls fuel this t out w
          = Context.finishAll cls fuel this (.ok (out ++ rs), w1)
      ∧ (∀ w2, Context.afterResolve (Context.resolve cls fuel) (Context.tryResolve cls fuel)
            this w1 = (.ok (), w2) →
          Context.resolveAll cls fuel this t out w = (.ok (out ++ rs), w2))
      ∧ ((this.isRoot = true → w1.fnAfterResolveLists.getD this.m_root [] = []) →
          Context.resolveAll cls fuel this t out w = (.ok (out ++ rs), w1)) := by
  obtain ⟨rs, w1, hlen, hrun⟩ :=
    resolveEach_of_each cls fuel this t w refs heach w out (Evolves.refl w)
  have heq := resolveAll_eq_finishAll cls fuel this t out w d refs hv hd
  rw [hrun] at heq
  refine ⟨rs, w1, hlen, heq, ?_, ?_⟩
  · intro w2 hafter
    rw [heq]
    simp only [Context.finishAll, hafter]
  · intro hq
    rw [heq]
    simp only [Context.finishAll, afterResolve_idle _ _ this w1 hq]

theorem resolveAll_one_entry_per_binding_witness :
    allWorld.bindingsOf 0 "ITest" = [⟨0, "ITest", "A"⟩, ⟨0, "ITest", "B"⟩]
      ∧ Context.resolveAll testClasses 3 (allWorld.m_context 0) "ITest" [] allWorld
          = (.ok [some 0, some 1],
              (Context.resolveAll testClasses 3 (allWorld.m_context 0) "ITest" [] allWorld).2)
      ∧ ∃ rs w1, rs.length = (allWorld.bindingsOf 0 "ITest").length
        ∧ Context.resolveAll testClasses 3 (allWorld.m_context 0) "ITest" [] allWorld
            = Context.finishAll testClasses 3 (allWorld.m_context 0) (.ok ([] ++ rs), w1)
        ∧ (∀ w2, Context.afterResolve (Context.resolve testClasses 3)
              (Context.tryResolve testClasses 3) (allWorld.m_context 0) w1 = (.ok (), w2) →
            Context.resolveAll testClasses 3 (allWorld.m_context 0) "ITest" [] allWorld
              = (.ok ([] ++ rs), w2))
        ∧ (((allWorld.m_context 0).isRoot = true →
              w1.fnAfterResolveLists.getD (allWorld.m_context 0).m_root [] = []) →
            Context.resolveAll testClasses 3 (allWorld.m_context 0) "ITest" [] allWorld
              = (.ok ([] ++ rs), w1)) :=
  ⟨rfl, rfl,
    resolveAll_one_entry_per_binding testClasses 3 (allWorld.m_context 0) "ITest" [] allWorld 0
      (allWorld.bindingsOf 0 "ITest")
      (Visited.root
        (show allWorld.locators[0]? = some ⟨[("ITest",
            [("A", ⟨.functor9 "TestA", .functor9 "TestA"⟩),
             ("B", ⟨.functor9 "TestB", .functor9 "TestB"⟩)])], [], none, 0⟩ from rfl)
        rfl)
      (by decide) allWorld_each⟩

/-- C19 (as stated, refuted): on the context of `deferWorld`, `resolve<Broken>()` fails with
`UnableToResolve` after the constructor of `Broken` has registered a callback. The callback is
not discarded: it stays on the list of the root context, and the next `resolve`, of the
unrelated `ITest`, runs it (the `Log` it resolves is created); so do a later `tryResolve`,
even of a key nobody binds, and a later `resolveAll`. -/
theorem failed_resolve_callbacks_run_later :
    (Context.resolve deferClasses 6 (deferWorld.m_context 0) "Broken" "" deferWorld).1
        = .error (.UnableToResolveException
            "Unable to resolve <Missing>  resolve path = resolve<Broken>().to<Broken> -> resolve<Missing>()")
      ∧ brokenWorld.fnAfterResolveLists = [[.resolve "Log" "" .done]]
      ∧ brokenWorld.heap = []
      ∧ (Context.resolve deferClasses 6 (deferWorld.m_context 0) "ITest" "" brokenWorld).1
        = .ok (some 0)
      ∧ (Context.resolve deferClasses 6 (deferWorld.m_context 0) "ITest" ""
          brokenWorld).2.heap.map Obj.type = ["TestA", "Log"]
      ∧ (Context.tryResolve deferClasses 6 (deferWorld.m_context 0) "Nothing" ""
          brokenWorld).2.heap.map Obj.type = ["Log"]
      ∧ (Context.resolveAll deferClasses 6 (deferWorld.m_context 0) "ITest" []
          brokenWorld).2.heap.map Obj.type = ["TestA", "Log"] :=
  ⟨rfl, rfl, rfl, rfl, rfl, rfl, rfl⟩

/-- C19 (amended): if the lookup of a top-level `resolve` fails with an error, `resolve` fails
with that error and the deferred callbacks registered so far are not run by it; they are not
discarded either, they stay on the list of the resolution root, after those that were there
before. The next top-level `resolve` on the same context whose lookup obtains an instance
drains that list: it runs the callbacks left by the failed call, followed by those registered
by itself. -/
theorem failed_resolve_keeps_callbacks (cls : TypeId → Script) (fuel : Nat) (this : Context)
    (t : TypeId) (n : String) (w w1 : World) (e : ServiceLocatorException)
    (hroot : this.isRoot = true) (hne : this.frames ≠ [])
    (hcyc : ∀ f ∈ this.frames, ¬ (f.m_interfaceType = t ∧ f.m_name = n))
    (hfail : m_resolve cls fuel t this.m_sl (this.child t n) w = (.error e, w1)) :
    Context.resolve cls (fuel + 1) this t n w = (.error e, w1)
      ∧ Queues this.m_root w w1
      ∧ (∀ (fuel2 : Nat) (t2 : TypeId) (n2 : String) (p : Ptr) (w2 : World),
          (∀ f ∈ this.frames, ¬ (f.m_interfaceType = t2 ∧ f.m_name = n2)) →
          m_resolve cls fuel2 t2 this.m_sl (this.child t2 n2) w1 = (.ok p, w2) →
          (∃ registered, w2.fnAfterResolveLists.getD this.m_root []
              = w1.fnAfterResolveLists.getD this.m_root [] ++ registered)
            ∧ Context.resolve cls (fuel2 + 1) this t2 n2 w1 =
              match runCallbacks (Context.resolve cls fuel2) (Context.tryResolve cls fuel2)
                  this.m_sl (w2.fnAfterResolveLists.getD this.m_root []) w2 with
              | (.error e2, w3) => (.error e2, w3)
              | (.ok _, w3) =>
                (.ok p, { w3 with
                  fnAfterResolveLists := w3.fnAfterResolveLists.set this.m_root [] })) := by
  have hq := (engine_queues cls this.m_root fuel).2.1 t this.m_sl (this.child t n) w
    (Below.of_child rfl hne t n)
  rw [hfail] at hq
  refine ⟨?_, hq, ?_⟩
  · rw [resolve_top_level cls fuel this t n w hroot hcyc, hfail]
  · intro fuel2 t2 n2 p w2 hcyc2 hok
    have hq2 := (engine_queues cls this.m_root fuel2).2.1 t2 this.m_sl (this.child t2 n2) w1
      (Below.of_child rfl hne t2 n2)
    rw [hok] at hq2
    refine ⟨hq2.2.2, ?_⟩
    rw [resolve_top_level cls fuel2 this t2 n2 w1 hroot hcyc2, hok]
    simp only [Context.drain]
    rcases runCallbacks (Context.resolve cls fuel2) (Context.tryResolve cls fuel2)
      this.m_sl (w2.fnAfterResolveLists.getD this.m_root []) w2 with ⟨r, w3⟩
    cases r <;> rfl

theorem failed_resolve_keeps_callbacks_witness :
    m_resolve deferClasses 5 "Broken" (deferWorld.m_context 0).m_sl
        ((deferWorld.m_context 0).child "Broken" "") deferWorld
        = (.error (.UnableToResolveException
            "Unable to resolve <Missing>  resolve path = resolve<Broken>().to<Broken> -> resolve<Missing>()"),
          brokenWorld)
      ∧ Context.resolve deferClasses (5 + 1) (deferWorld.m_context 0) "Broken" "" deferWorld
        = (.error (.UnableToResolveException
            "Unable to resolve <Missing>  resolve path = resolve<Broken>().to<Broken> -> resolve<Missing>()"),
          brokenWorld)
      ∧ Queues (deferWorld.m_context 0).m_root deferWorld brokenWorld :=
  have h := failed_resolve_keeps_callbacks deferClasses 5 (deferWorld.m_context 0) "Broken" ""
    deferWorld brokenWorld
    (.UnableToResolveException
      "Unable to resolve <Missing>  resolve path = resolve<Broken>().to<Broken> -> resolve<Missing>()")
    rfl (by decide) (by decide) rfl
  ⟨rfl, h.1, h.2.1⟩

/-- C17: (1) Configuring a binding `ref`, just bound, with a creation function `F` (by
`toSelf`, `to` or `alias`), `asSingleton()` and `eagerly()` instantiates nothing: no object
is created, no creation function is invoked, the binding is a singleton not yet instantiated,
and it is in the eager list of its locator. (2) In every state in which `ref` is in the eager
list of its locator and not yet instantiated, whatever else is bound and queued, when the
first `getContext()` on that locator returns, the creation function of `ref` has been invoked
exactly once, by the loop over the eager list or inside the creation of another eager
binding, and the singleton is cached. (3) Every later `getContext()` on that locator returns
the same context and leaves the state as it is: it invokes nothing. -/
theorem eager_binding_created_by_first_getContext (cls : TypeId → Script) (w w1 : World)
    (ref : BindingRef) (F : Fn) (fuel : Nat) (ctx : Context) (sl : Locator)
    (hF : F.isCreation = true) (hl : w.locators[ref.loc]? = some sl)
    (hq : ref ∈ sl.m_eagerBindings) (hb : w.binding? ref = some ⟨.functor4, F⟩)
    (hget : getContext cls fuel ref.loc w = (.ok ctx, w1)) :
    (∀ (w0 : World) (b0 : shared_ptr_binding), w0.binding? ref = some b0 →
        (eagerly_clause.eagerly ref (as_clause.asSingleton ref (w0.setFns ref F))).created
          = w0.created
        ∧ (eagerly_clause.eagerly ref (as_clause.asSingleton ref (w0.setFns ref F))).heap
          = w0.heap
        ∧ (eagerly_clause.eagerly ref (as_clause.asSingleton ref (w0.setFns ref F))).binding?
          ref = some ⟨.functor4, F⟩
        ∧ ∃ sl0, (eagerly_clause.eagerly ref
            (as_clause.asSingleton ref (w0.setFns ref F))).locators[ref.loc]? = some sl0
          ∧ ref ∈ sl0.m_eagerBindings)
      ∧ w1.created.count ref = w.created.count ref + 1
      ∧ (∃ b1 p, w1.binding? ref = some b1 ∧ b1.m_fnGet = .functor4a p)
      ∧ ∀ fuel2, getContext cls fuel2 ref.loc w1 = (.ok ctx, w1) := by
  have hs : IsSingleton w ref F := ⟨_, hb, rfl, Or.inl rfl⟩
  obtain ⟨hdue, hpend, hs1, hlater⟩ := getContext_eager cls ref F hF fuel w w1 ctx sl hl hq
    hs hget
  refine ⟨?_, ?_, hs1.cached hpend, hlater⟩
  · intro w0 b0 hb0
    have hb1 : (as_clause.asSingleton ref (w0.setFns ref F)).binding? ref
        = some ⟨.functor4, F⟩ := by
      rw [as_clause.asSingleton, World.setFnGet, binding?_modifyBinding, if_pos rfl,
        World.setFns, binding?_modifyBinding, if_pos rfl, hb0]
      rfl
    obtain ⟨sl1, hsl1⟩ : ∃ sl1,
        (as_clause.asSingleton ref (w0.setFns ref F)).locators[ref.loc]? = some sl1 :=
      ⟨_, List.getElem?_eq_getElem (binding?_some_lt hb1)⟩
    have hcfg := config_created w0 ref F
    refine ⟨hcfg.1, hcfg.2, by rw [eagerly_binding?]; exact hb1, _,
      eagerly_queue _ ref sl1 hsl1, List.mem_append_right _ (List.mem_singleton_self ref)⟩
  · have h1 : w.pending ref = 1 := pending_functor4 hb rfl
    simp only [World.due, hpend, h1] at hdue
    omega

theorem eager_binding_created_by_first_getContext_witness :
    (eagerZoo.created = [] ∧ eagerZoo.heap = []
        ∧ eagerZoo.binding? ⟨0, "IFood", "Monkey"⟩ = some ⟨.functor4, .functor10 "Banana"⟩)
      ∧ eagerZooStarted.heap.map Obj.type = ["Banana", "Monkey"]
      ∧ eagerZooStarted.created.count ⟨0, "IFood", "Monkey"⟩
        = eagerZoo.created.count ⟨0, "IFood", "Monkey"⟩ + 1
      ∧ (∃ b1 p, eagerZooStarted.binding? ⟨0, "IFood", "Monkey"⟩ = some b1
          ∧ b1.m_fnGet = .functor4a p)
      ∧ ∀ fuel2, getContext zooClasses fuel2 0 eagerZooStarted
          = (.ok (Context.root 0 0), eagerZooStarted) :=
  have h := eager_binding_created_by_first_getContext zooClasses eagerZoo eagerZooStarted
    ⟨0, "IFood", "Monkey"⟩ (.functor10 "Banana") 6 (Context.root 0 0)
    ⟨[("IAnimal", [("Monkey", ⟨.functor4, .functor9 "Monkey"⟩)]),
      ("IFood", [("Monkey", ⟨.functor4, .functor10 "Banana"⟩)])],
      [⟨0, "IAnimal", "Monkey"⟩, ⟨0, "IFood", "Monkey"⟩], none, 0⟩
    rfl rfl (by decide) rfl rfl
  ⟨⟨rfl, rfl, rfl⟩, rfl, h.2.1, h.2.2.1, h.2.2.2⟩

/-! ## Recording the concrete type -/

/-- C30: `setConcreteType` on a context with no concrete type records the given type and
changes nothing else of the context; on a context whose concrete type `c` is already recorded
it fails with `BindingIssue` without producing a changed context, so `c` stays recorded; in
particular a second `setConcreteType` on the outcome of a first one fails, and the type
recorded by the first call is still there. -/
theorem setConcreteType_records_once (this : Context) (f : Frame) (parents : List Frame)
    (concreteType : TypeId) (hthis : this.frames = f :: parents) :
    (f.m_concreteType = none →
      this.setConcreteType concreteType
        = .ok ⟨this.m_sl, this.m_root,
            ⟨f.m_interfaceType, f.m_name, some concreteType⟩ :: parents⟩
      ∧ ∀ other : TypeId,
          Context.setConcreteType ⟨this.m_sl, this.m_root,
              ⟨f.m_interfaceType, f.m_name, some concreteType⟩ :: parents⟩ other
            = .error (.BindingIssueException "Concrete type on Context already set"))
    ∧ (∀ c, f.m_concreteType = some c →
        this.setConcreteType concreteType
          = .error (.BindingIssueException "Concrete type on Context already set")) := by
  constructor
  · intro hnone
    constructor
    · simp only [Context.setConcreteType, hthis, hnone]
    · intro other; rfl
  · intro c hc
    simp only [Context.setConcreteType, hthis, hc]

theorem setConcreteType_records_once_witness :
    (Context.setConcreteType ⟨0, 0, [⟨"ITest", "", none⟩, ⟨"void", "", none⟩]⟩ "TestA"
        = .ok ⟨0, 0, [⟨"ITest", "", some "TestA"⟩, ⟨"void", "", none⟩]⟩)
    ∧ (Context.setConcreteType ⟨0, 0, [⟨"ITest", "", some "TestA"⟩, ⟨"void", "", none⟩]⟩ "TestB"
        = .error (.BindingIssueException "Concrete type on Context already set")) :=
  ⟨((setConcreteType_records_once ⟨0, 0, [⟨"ITest", "", none⟩, ⟨"void", "", none⟩]⟩
      ⟨"ITest", "", none⟩ [⟨"void", "", none⟩] "TestA" rfl).1 rfl).1,
   (setConcreteType_records_once ⟨0, 0, [⟨"ITest", "", some "TestA"⟩, ⟨"void", "", none⟩]⟩
      ⟨"ITest", "", some "TestA"⟩ [⟨"void", "", none⟩] "TestB" rfl).2 "TestA" rfl⟩

/-! ## The diagnostic path of a nested context -/

/-- C24: for a context at nesting depth `d >= 1` below a root context (its chain is the `d`
contexts `inner`, this context first, followed by the root), `getResolvePath` is the `d`
steps of `inner` joined by `" -> "`, the outermost resolve first and this context last; each
step is `resolve<Interface>(name)`, followed by `.to<Concrete>` exactly when a concrete type
is recorded on that context; the root contributes no step. -/
theorem getResolvePath_lists_steps (this : Context) (inner : List Frame) (root : Frame)
    (hframes : this.frames = inner ++ [root]) (hd : 1 ≤ inner.length) :
    this.getResolvePath = String.intercalate " -> " (inner.reverse.map (Frame.step ""))
    ∧ (inner.reverse.map (Frame.step "")).length = inner.length
    ∧ (∀ f ∈ inner, Frame.step "" f =
        "resolve<" ++ f.m_interfaceType ++ ">(" ++ f.m_name ++ ")" ++
          (match f.m_concreteType with
           | some c => ".to<" ++ c ++ ">"
           | none => "")) := by
  refine ⟨?_, by simp, ?_⟩
  · obtain ⟨f, rest, hinner⟩ : ∃ f rest, inner = f :: rest := by
      cases inner with
      | nil => simp at hd
      | cons f rest => exact ⟨f, rest, rfl⟩
    obtain ⟨p, more, hpm⟩ : ∃ p more, rest ++ [root] = p :: more := by
      cases rest with
      | nil => exact ⟨root, [], rfl⟩
      | cons p more => exact ⟨p, more ++ [root], rfl⟩
    show getResolvePathOf this.frames = _
    rw [hframes, hinner, List.cons_append, hpm, getResolvePathOf_eq, ← hpm, ← List.cons_append]
    unfold pathSteps
    rw [List.dropLast_concat]
  · intro f _
    unfold Frame.step
    cases f.m_concreteType with
    | none => simp [String.append_assoc]
    | some c => simp [String.append_assoc]

theorem getResolvePath_lists_steps_witness :
    Context.getResolvePath
        ⟨0, 0, [⟨"ITest", "X", none⟩, ⟨"TestC", "", some "TestC"⟩, ⟨"void", "", none⟩]⟩
      = "resolve<TestC>().to<TestC> -> resolve<ITest>(X)" :=
  (getResolvePath_lists_steps
    ⟨0, 0, [⟨"ITest", "X", none⟩, ⟨"TestC", "", some "TestC"⟩, ⟨"void", "", none⟩]⟩
    [⟨"ITest", "X", none⟩, ⟨"TestC", "", some "TestC"⟩] ⟨"void", "", none⟩ rfl (by decide)).1.trans
    (by decide)

/-! ## The default lifecycle -/

/-- C21: transient is the default lifecycle. The world in which a binding was configured by
`to<T>()`, `toSelf()` or a factory (and likewise by every other creating clause, which all
perform the same assignment of the creation function `fn` to `m_fnGet` and `m_fnCreate`) is
left as it is by a following `asTransient()`. Hence every sequence of resolves, on any
context and for any keys, has with and without the `asTransient()` step the same outcome call
by call and ends in the same world, with the same trace of creation-function invocations. -/
theorem transient_is_default (cls : TypeId → Script) (fuel : Nat) (this : Context)
    (ref : BindingRef) (w : World) (T : TypeId) (fnCreate : Script) (yieldsNull : Bool)
    (fn : Fn) (reqs : List (TypeId × String)) (r : BindingRef) :
    as_clause.asTransient ref (to_clause.to ref T w) = to_clause.to ref T w
    ∧ as_clause.asTransient ref (to_clause.toSelf ref w) = to_clause.toSelf ref w
    ∧ as_clause.asTransient ref (to_clause.toFn ref T fnCreate yieldsNull w)
        = to_clause.toFn ref T fnCreate yieldsNull w
    ∧ as_clause.asTransient ref (w.setFns ref fn) = w.setFns ref fn
    ∧ resolveResults cls fuel this reqs (as_clause.asTransient ref (w.setFns ref fn))
        = resolveResults cls fuel this reqs (w.setFns ref fn)
    ∧ (resolveResults cls fuel this reqs
          (as_clause.asTransient ref (w.setFns ref fn))).2.created.count r
        = (resolveResults cls fuel this reqs (w.setFns ref fn)).2.created.count r :=
  ⟨asTransient_setFns w ref _, asTransient_setFns w ref _, asTransient_setFns w ref _,
    asTransient_setFns w ref fn,
    resolveResults_congr cls fuel this reqs (asTransient_setFns w ref fn),
    by rw [asTransient_setFns]⟩

/-! ## Modules -/

/-- C22: `modules().add<M>()` on the locator `self` runs the body of `M`'s `load()` once, in
place, and every `bind` of the module is the `bind` of `self`: the outcome and the world are
those of making the statements of the body on the locator directly. Adding one module after
another is making the statements of the first and then those of the second; and a module
whose first statement binds a key that `self` already holds fails with `DuplicateBinding`,
leaving the world as it was. -/
theorem module_add_binds_on_locator (self : Nat) (M N : List BindStatement) (w : World) :
    module_clause.add (modules self) M w = configure self M w
    ∧ (∀ u w1, module_clause.add (modules self) M w = (.ok u, w1) →
        module_clause.add (modules self) N w1 = (configure self (M ++ N) w))
    ∧ (∀ s rest b, M = s :: rest → w.binding? ⟨self, s.IFace, s.named⟩ = some b →
        module_clause.add (modules self) M w
          = (.error (.DuplicateBindingException
              ("Duplicate binding for <" ++ s.IFace ++ "> named " ++ s.named)), w)) := by
  refine ⟨load_eq_configure self M w, ?_, ?_⟩
  · intro u w1 h
    have hM : configure self M w = (.ok u, w1) := by
      rw [← load_eq_configure]; exact h
    rw [configure_append, hM]
    exact load_eq_configure self N w1
  · intro s rest b hM hb
    subst hM
    show Module.load self (s :: rest) w = _
    simp only [Module.load, Module.bind, bind_held w s.IFace s.named self b hb]

theorem module_add_binds_on_locator_witness :
    module_clause.add (modules 0) TestAModule (create World.init).2
      = configure 0 TestAModule (create World.init).2
    ∧ module_clause.add (modules 0) TestCModule
        (module_clause.add (modules 0) TestAModule (create World.init).2).2
      = configure 0 (TestAModule ++ TestCModule) (create World.init).2
    ∧ module_clause.add (modules 0) TestAModule moduleWorld
      = (.error (.DuplicateBindingException "Duplicate binding for <ITest> named "),
          moduleWorld) :=
  ⟨(module_add_binds_on_locator 0 TestAModule TestCModule (create World.init).2).1,
   (module_add_binds_on_locator 0 TestAModule TestCModule (create World.init).2).2.1 ()
     (module_clause.add (modules 0) TestAModule (create World.init).2).2 rfl,
   (module_add_binds_on_locator 0 TestAModule [] moduleWorld).2.2
     ⟨"ITest", "", fun r w => as_clause.asSingleton r (to_clause.to r "TestA" w)⟩ []
     ⟨.functor4, .functor9 "TestA"⟩ rfl rfl⟩

/-! ## Providers -/

/-- C23 (the code at the failing input): on the context of `transientWorld`, whose locator
binds the unnamed `ITest` to `TestA`, `provider<ITest>()` itself runs the creation function
and allocates the instance, and what it yields is that instance, the outcome of a resolve of
the unnamed key; on the context of `namedWorld`, which binds `ITest` under the names `X` and
`Y` only, `provider<ITest>()` itself throws `UnableToResolve` for the unnamed key, before
any name could be passed. -/
theorem provider_resolves_when_created :
    (Context.provider testClasses 4 (transientWorld.m_context 0) "ITest" transientWorld).1
      = .ok (some 0)
    ∧ transientWorld.created = [] ∧ transientWorld.heap.length = 0
    ∧ (Context.provider testClasses 4 (transientWorld.m_context 0) "ITest"
        transientWorld).2.created = [⟨0, "ITest", ""⟩]
    ∧ (Context.provider testClasses 4 (transientWorld.m_context 0) "ITest"
        transientWorld).2.heap.length = 1
    ∧ (Context.provider testClasses 4 (namedWorld.m_context 0) "ITest" namedWorld).1
      = .error (.UnableToResolveException
          "Unable to resolve <ITest>  resolve path = resolve<ITest>()") := by
  refine ⟨rfl, rfl, rfl, rfl, rfl, rfl⟩

/-! ## Child locators -/

/-- C25: `enter()` on the locator `p` returns a new locator that has no registry, no eager
binding and the parent `p`; every locator that existed before is left as it was, registries
and eager list included, by `enter()` and by every later configuration statement made on the
child (binds, clauses on its bindings, `eagerly()`); so every key that the chain of a locator
resolved through the binding of the locator `o` still resolves through that binding of `o`,
which is the binding it was. -/
theorem enter_leaves_parent_unchanged (p : Nat) (w w2 : World)
    (hcfg : ConfiguredOn (enter p w).1 (enter p w).2 w2) :
    w.locators[(enter p w).1]? = none
    ∧ (enter p w).2.locators[(enter p w).1]?
        = some ⟨[], [], some p, w.fnAfterResolveLists.length⟩
    ∧ (∀ t n, (enter p w).2.binding? ⟨(enter p w).1, t, n⟩ = none)
    ∧ (∀ (l : Nat) (sl : Locator), w.locators[l]? = some sl →
        (enter p w).2.locators[l]? = some sl ∧ w2.locators[l]? = some sl)
    ∧ (∀ t n l d o, Nearest w t n l d o →
        Nearest w2 t n l d o ∧ w2.binding? ⟨o, t, n⟩ = w.binding? ⟨o, t, n⟩) := by
  have hold : ∀ (l : Nat) (sl : Locator), w.locators[l]? = some sl →
      (enter p w).2.locators[l]? = some sl ∧ w2.locators[l]? = some sl := by
    intro l sl hl
    have hlt : l < w.locators.length := getElem?_some_lt hl
    have h1 : (enter p w).2.locators[l]? = some sl := by rw [enter_old p w hlt, hl]
    refine ⟨h1, ?_⟩
    rw [hcfg.other l (show (enter p w).1 ≠ l from fun e => by
      have : w.locators.length = l := e
      omega), h1]
  refine ⟨?_, enter_new p w, ?_, hold, ?_⟩
  · exact List.getElem?_eq_none (Nat.le_refl _)
  · intro t n
    simp only [World.binding?]
    rw [show (enter p w).1 = w.locators.length from rfl, enter_new p w]
    rfl
  · intro t n l d o hn
    exact Nearest.of_agree (fun l sl hl => (hold l sl hl).2) hn

theorem enter_leaves_parent_unchanged_witness :
    ConfiguredOn (enter 0 nestedRoot).1 (enter 0 nestedRoot).2 shadowWorld
    ∧ shadowWorld.locators[1]? = some ⟨[("ITest", [("X", ⟨.functor9 "TestB", .functor9 "TestB"⟩)])],
        [], some 0, 1⟩
    ∧ shadowWorld.locators[0]? = nestedRoot.locators[0]?
    ∧ Nearest shadowWorld "ITest" "" 0 0 0
    ∧ shadowWorld.binding? ⟨0, "ITest", ""⟩ = some ⟨.functor9 "TestA", .functor9 "TestA"⟩ :=
  have hcfg : ConfiguredOn (enter 0 nestedRoot).1 (enter 0 nestedRoot).2 shadowWorld :=
    ConfiguredOn.clause "ITest" "X" (fun _ => ⟨.functor9 "TestB", .functor9 "TestB"⟩)
      (ConfiguredOn.bind "ITest" "X" (ConfiguredOn.start _))
  have h := enter_leaves_parent_unchanged 0 nestedRoot shadowWorld hcfg
  have hn := h.2.2.2.2 "ITest" "" 0 0 0 (Nearest.here (b := ⟨.functor9 "TestA", .functor9 "TestA"⟩) rfl)
  ⟨hcfg, rfl, ((h.2.2.2.1 0 _ rfl).2).trans rfl, hn.1, hn.2.trans rfl⟩

/-! ## What a transient resolve leaves behind -/

/-- C26 (as stated, refuted): in `brokenWorld` a failed resolve left a callback pending on the
root context. The binding of `ITest` is transient and its creation function has no side
effects (`to<TestA>()`, whose constructor does nothing), yet `resolve<ITest>()` changes the
deferred-callback lists of the engine and runs the pending callback, which creates a `Log`
besides the `TestA`. -/
theorem transient_resolve_drains_pending :
    brokenWorld.binding? ⟨0, "ITest", ""⟩ = some ⟨.functor9 "TestA", .functor9 "TestA"⟩
    ∧ deferClasses "TestA" = .done
    ∧ brokenWorld.fnAfterResolveLists = [[.resolve "Log" "" .done]]
    ∧ (Context.resolve deferClasses 5 (brokenWorld.m_context 0) "ITest" "" brokenWorld).1
        = .ok (some 0)
    ∧ (Context.resolve deferClasses 5 (brokenWorld.m_context 0) "ITest" ""
        brokenWorld).2.fnAfterResolveLists = [[], []]
    ∧ (Context.resolve deferClasses 5 (brokenWorld.m_context 0) "ITest" ""
        brokenWorld).2.heap.map Obj.type = ["TestA", "Log"] :=
  ⟨rfl, rfl, rfl, rfl, rfl, rfl⟩

/-- C26 (amended): the engine keeps no reference to an instance of a transient binding. (1) A
binding whose `m_fnGet` is not the singleton wrapper is the same binding after every resolve
of its key, whatever the creation function does: nothing is cached in it. (2) When the
creation function has no side effects (it makes no engine call: `toSelfNoDependancy`,
`toNoDependancy<T>`, a factory or a constructor without engine calls), the lookup of a
resolve returns the newly allocated object and changes nothing but the heap and the creation
trace. (3) A resolve made while no deferred callback is pending on the resolving root
context leaves the locators (registries, cached callables, eager lists) and the
deferred-callback lists as they were before the resolve; when the key is not on the calling
chain it returns the new object, and the state after it is the state after the lookup. With
callbacks pending, the resolve is the lookup followed by those callbacks. -/
theorem transient_resolve_keeps_engine_state (cls : TypeId → Script) (w : World)
    (this : Context) (t : TypeId) (n : String) (d o k : Nat) (b : shared_ptr_binding)
    (T : TypeId)
    (hnear : Nearest w t n this.m_sl d o)
    (hb : w.binding? ⟨o, t, n⟩ = some b)
    (hkind : b.m_fnGet = .functor8 T ∨ b.m_fnGet = .functor10 T
      ∨ b.m_fnGet = .functor12 T .done false
      ∨ ((b.m_fnGet = .functor7 T ∨ b.m_fnGet = .functor9 T) ∧ cls T = .done))
    (hk : d + 2 ≤ k) :
    (∀ fuel, (Context.resolve cls fuel this t n w).2.binding? ⟨o, t, n⟩ = some b)
    ∧ m_resolve cls k t this.m_sl (this.child t n) w
      = (.ok (some w.heap.length),
          (w.traceCreate ⟨o, t, n⟩).alloc
            ⟨T, [], ⟨this.m_sl, this.m_root, ⟨t, n, some T⟩ :: this.frames⟩⟩)
    ∧ ((w.traceCreate ⟨o, t, n⟩).alloc
          ⟨T, [], ⟨this.m_sl, this.m_root, ⟨t, n, some T⟩ :: this.frames⟩⟩).locators
        = w.locators
    ∧ ((w.traceCreate ⟨o, t, n⟩).alloc
          ⟨T, [], ⟨this.m_sl, this.m_root, ⟨t, n, some T⟩ :: this.frames⟩⟩).fnAfterResolveLists
        = w.fnAfterResolveLists
    ∧ ((this.isRoot = true → w.fnAfterResolveLists.getD this.m_root [] = []) →
        (Context.resolve cls (k + 1) this t n w).2.locators = w.locators
        ∧ (Context.resolve cls (k + 1) this t n w).2.fnAfterResolveLists
            = w.fnAfterResolveLists
        ∧ ((∀ f ∈ this.frames, ¬ (f.m_interfaceType = t ∧ f.m_name = n)) →
            Context.resolve cls (k + 1) this t n w
              = (.ok (some w.heap.length),
                  (w.traceCreate ⟨o, t, n⟩).alloc
                    ⟨T, [], ⟨this.m_sl, this.m_root, ⟨t, n, some T⟩ :: this.frames⟩⟩)
            ∧ (Context.resolve cls (k + 1) this t n w).2.heap
              = w.heap ++ [⟨T, [], ⟨this.m_sl, this.m_root, ⟨t, n, some T⟩ :: this.frames⟩⟩]))
    ∧ ((∀ f ∈ this.frames, ¬ (f.m_interfaceType = t ∧ f.m_name = n)) →
        Context.resolve cls (k + 1) this t n w
          = Context.finish cls k this (.ok (some w.heap.length),
              (w.traceCreate ⟨o, t, n⟩).alloc
                ⟨T, [], ⟨this.m_sl, this.m_root, ⟨t, n, some T⟩ :: this.frames⟩⟩)) := by
  have hne4 : b.m_fnGet ≠ .functor4 := by
    rcases hkind with e | e | e | ⟨e | e, _⟩ <;> rw [e] <;> simp
  obtain ⟨j, rfl⟩ : ∃ j, k = (j + 1) + 1 + d := ⟨k - d - 2, by omega⟩
  have hget : invoke cls (j + 1) ⟨o, t, n⟩ b.m_fnGet (this.child t n) w
      = (.ok (some w.heap.length, ⟨this.m_sl, this.m_root, ⟨t, n, some T⟩ :: this.frames⟩),
          (w.traceCreate ⟨o, t, n⟩).alloc
            ⟨T, [], ⟨this.m_sl, this.m_root, ⟨t, n, some T⟩ :: this.frames⟩⟩) := by
    rcases hkind with e | e | e | ⟨e | e, hcls⟩ <;> rw [e] <;> simp only [invoke] <;>
      first
      | rfl
      | (rw [hcls]; rfl)
  have hm := (lookup_served cls w this t n d o (j + 1) b w.heap.length _ _ hnear hb hget).1
  have hres : (∀ f ∈ this.frames, ¬ (f.m_interfaceType = t ∧ f.m_name = n)) →
      (this.isRoot = true → w.fnAfterResolveLists.getD this.m_root [] = []) →
      Context.resolve cls ((j + 1) + 1 + d + 1) this t n w
        = (.ok (some w.heap.length),
            (w.traceCreate ⟨o, t, n⟩).alloc
              ⟨T, [], ⟨this.m_sl, this.m_root, ⟨t, n, some T⟩ :: this.frames⟩⟩) :=
    fun hcyc hq => resolve_of_lookup cls _ this t n w _ _ _ hm hcyc
      (afterResolve_idle _ _ this _ hq)
  refine ⟨?_, hm, rfl, rfl, ?_, ?_⟩
  · intro fuel
    have hev := (engine_evolves cls fuel).2.2.2.1 this t n w
    obtain ⟨b', hb', hc, hg⟩ := hev.binding _ _ hb
    rw [hb']
    have hg' := hg hne4
    cases b
    cases b'
    simp_all
  · intro hq
    by_cases hcyc : ∃ f ∈ this.frames, f.m_interfaceType = t ∧ f.m_name = n
    · rw [resolve_of_cycle cls _ this t n w hcyc]
      exact ⟨rfl, rfl, fun h => absurd hcyc (fun ⟨f, hf, hkey⟩ => h f hf hkey)⟩
    · have hcyc' : ∀ f ∈ this.frames, ¬ (f.m_interfaceType = t ∧ f.m_name = n) :=
        fun f hf hkey => hcyc ⟨f, hf, hkey⟩
      rw [hres hcyc' hq]
      exact ⟨rfl, rfl, fun _ => ⟨rfl, rfl⟩⟩
  · intro hcyc
    rw [resolve_eq_finish cls _ this t n w hcyc, hm]

theorem transient_resolve_keeps_engine_state_witness :
    Context.resolve testClasses 3 (destructorWorld.m_context 0) "TransientDestructor" ""
        destructorWorld
      = (.ok (some 0),
          ⟨destructorWorld.locators, destructorWorld.fnAfterResolveLists,
            [⟨"TransientDestructor", [],
              ⟨0, 0, [⟨"TransientDestructor", "", some "TransientDestructor"⟩,
                ⟨"void", "", none⟩]⟩⟩],
            [⟨0, "TransientDestructor", ""⟩]⟩)
    ∧ (Context.resolve testClasses 3 (destructorWorld.m_context 0) "TransientDestructor" ""
        destructorWorld).2.locators = destructorWorld.locators :=
  have h := transient_resolve_keeps_engine_state testClasses destructorWorld
    (destructorWorld.m_context 0) "TransientDestructor" "" 0 0 2
    ⟨.functor7 "TransientDestructor", .functor7 "TransientDestructor"⟩ "TransientDestructor"
    (Nearest.here rfl) rfl (Or.inr (Or.inr (Or.inr ⟨Or.inl rfl, rfl⟩))) (by decide)
  have h2 := h.2.2.2.2.1 (by decide)
  ⟨(h2.2.2 (by decide)).1.trans rfl, h2.1⟩

/-! ## The context a creation function receives -/

/-- C27: let a `resolve` (or `tryResolve`) of the key `(t, n)` on the context `this` be served
by an object-creating binding (`toSelf()`, `to<T>()` or a factory, transient or singleton not
yet instantiated) and return the instance `a`. Then `a` is the object that the creation
function built on the context it was passed, and that context carries the requested key
`(t, n)` (with the concrete type recorded) and has the chain of `this` as its ancestors: for
a top-level resolve only the root context, for a resolve issued while constructing another
object the context of that construction. Walking the parents therefore lists the requested
capability types innermost first: `t` first, then what the walk from `this` lists. -/
theorem creation_context_links_request (cls : TypeId → Script) (w : World) (this : Context)
    (t : TypeId) (n : String) (d o fuel : Nat) (b : shared_ptr_binding) (F : Fn) (T : TypeId)
    (body : Script) (a : Nat) (w1 : World)
    (hnear : Nearest w t n this.m_sl d o)
    (hb : w.binding? ⟨o, t, n⟩ = some b)
    (hfn : b.m_fnGet = F ∨ (b.m_fnGet = .functor4 ∧ b.m_fnCreate = F))
    (hkind : F = .functor7 T ∨ F = .functor9 T ∨ F = .functor12 T body false)
    (hres : Context.resolve cls fuel this t n w = (.ok (some a), w1)
      ∨ Context.tryResolve cls fuel this t n w = (.ok (some a), w1)) :
    (∃ fields, w1.heap[a]?
        = some ⟨T, fields, ⟨this.m_sl, this.m_root, ⟨t, n, some T⟩ :: this.frames⟩⟩)
    ∧ (∀ root, this.frames = [root] →
        contextPath (⟨t, n, some T⟩ :: this.frames) = t ++ "->")
    ∧ (∀ f parents, this.frames = f :: parents →
        contextPath (⟨t, n, some T⟩ :: this.frames) = (t ++ "->") ++ contextPath this.frames) := by
  have hres' : Context.resolve cls fuel this t n w = (.ok (some a), w1) := by
    rcases hres with h | h
    · exact h
    · exact resolve_of_tryResolve_some cls fuel this t n w w1 a h
  refine ⟨(resolve_object cls w this t n d o fuel b F T body a w1 hnear hb hfn hkind hres').1,
    ?_, ?_⟩
  · intro root hroot
    rw [hroot]
    simp [contextPath]
  · intro f parents hf
    rw [hf]
    rfl

theorem creation_context_links_request_witness :
    (∃ fields, (Context.resolve testClasses 4 (transientWorld.m_context 0) "ITest" ""
        transientWorld).2.heap[0]?
        = some ⟨"TestA", fields, ⟨0, 0, [⟨"ITest", "", some "TestA"⟩, ⟨"void", "", none⟩]⟩⟩)
    ∧ contextPath [⟨"ITest", "", some "TestA"⟩, ⟨"void", "", none⟩] = "ITest->"
    ∧ (∃ fields, (Context.resolve testClasses 6 (deepWorld.m_context 0) "TestC" ""
        deepWorld).2.heap[0]?
        = some ⟨"TestA", fields,
            ⟨0, 0, [⟨"ITest", "", some "TestA"⟩, ⟨"TestC", "", some "TestC"⟩,
              ⟨"void", "", none⟩]⟩⟩)
    ∧ contextPath [⟨"ITest", "", some "TestA"⟩, ⟨"TestC", "", some "TestC"⟩,
        ⟨"void", "", none⟩] = "ITest->TestC->" :=
  have h1 := creation_context_links_request testClasses transientWorld
    (transientWorld.m_context 0) "ITest" "" 0 0 4 ⟨.functor9 "TestA", .functor9 "TestA"⟩
    (.functor9 "TestA") "TestA" .done 0
    (Context.resolve testClasses 4 (transientWorld.m_context 0) "ITest" "" transientWorld).2
    (Nearest.here rfl) rfl (Or.inl rfl) (Or.inr (Or.inl rfl)) (Or.inl rfl)
  have h2 := creation_context_links_request testClasses
    (deepWorld.traceCreate ⟨0, "TestC", ""⟩)
    ⟨0, 0, [⟨"TestC", "", some "TestC"⟩, ⟨"void", "", none⟩]⟩ "ITest" "" 0 0 4
    ⟨.functor9 "TestA", .functor9 "TestA"⟩ (.functor9 "TestA") "TestA" .done 0
    (Context.tryResolve testClasses 4 ⟨0, 0, [⟨"TestC", "", some "TestC"⟩, ⟨"void", "", none⟩]⟩
      "ITest" "" (deepWorld.traceCreate ⟨0, "TestC", ""⟩)).2
    (Nearest.here rfl) rfl (Or.inl rfl) (Or.inr (Or.inl rfl)) (Or.inr rfl)
  ⟨h1.1, h1.2.1 ⟨"void", "", none⟩ rfl,
   h2.1.imp (fun _ h => h),
   (h2.2.2 ⟨"TestC", "", some "TestC"⟩ [⟨"void", "", none⟩] rfl).trans (by decide)⟩

/-! ## One instance for all -/

/-- C28 (as stated, refuted): in `nullSingletonFamily` the child locator holds a singleton
binding of `ITest` whose factory returns `NULL`, the root binds `ITest` to `TestA`, and a
grandchild locator falls back to the singleton. After the first resolve (which throws and
leaves the empty pointer cached in the singleton), a top-level resolve on the context of the
child and a resolve through the grandchild both reach the singleton binding first and return
two different instances. -/
theorem singleton_null_differs_by_caller :
    Nearest nullSingletonFamily "ITest" "" 2 1 1
    ∧ Nearest nullSingletonFamily "ITest" "" 1 0 1
    ∧ nullSingletonFamily.binding? ⟨1, "ITest", ""⟩
        = some ⟨.functor4, .functor12 "TestB" .done true⟩
    ∧ (Context.resolve testClasses 7 (nullSingletonFamily.m_context 2) "ITest" ""
        nullSingletonFamily).1
        = .error (.BindingIssueException "Concrete type on Context already set")
    ∧ (Context.resolve testClasses 7 (nullSingletonFamily.m_context 1) "ITest" ""
        (Context.resolve testClasses 7 (nullSingletonFamily.m_context 2) "ITest" ""
          nullSingletonFamily).2).1 = .ok (some 0)
    ∧ (Context.resolve testClasses 7 (nullSingletonFamily.m_context 2) "ITest" ""
        (Context.resolve testClasses 7 (nullSingletonFamily.m_context 1) "ITest" ""
          (Context.resolve testClasses 7 (nullSingletonFamily.m_context 2) "ITest" ""
            nullSingletonFamily).2).2).1 = .ok (some 1) :=
  ⟨Nearest.up (l := 2) (p := 1)
      (show nullSingletonFamily.locators[2]? = some ⟨[], [], some 1, 2⟩ from rfl) rfl rfl
      (Nearest.here rfl),
   Nearest.here rfl, rfl, rfl, rfl, rfl⟩

/-- C28 (amended): let the locator `o` hold a singleton binding for the key `(t, n)`, not yet
instantiated, whose creation function yields a non-empty instance `a` at the first lookup
that reaches it (from any context whose locator chain falls back to `o`). That lookup returns
`a` and caches it in the binding. From then on, in every world that later resolutions lead
to and on every context whose locator chain reaches the binding, be it the root context of
the locator `o` (top level), a nested context that a creation function received, or a context
of a descendant locator: the lookup of `resolve` and of `tryResolve` returns the identical
instance `a` and changes nothing; every `resolve` and `tryResolve` of the key that returns,
returns `a`; and both do return `a` when the key is not under construction on the calling
chain and the deferred callbacks of a calling root context complete. -/
theorem singleton_same_instance_everywhere (cls : TypeId → Script) (w0 : World)
    (this0 : Context) (t : TypeId) (n : String) (d0 o fuel0 : Nat) (b : shared_ptr_binding)
    (a : Nat) (sl1 : Context) (wc : World)
    (hnear0 : Nearest w0 t n this0.m_sl d0 o)
    (hb : w0.binding? ⟨o, t, n⟩ = some b)
    (hsing : b.m_fnGet = .functor4)
    (hcreate : invoke cls fuel0 ⟨o, t, n⟩ b.m_fnCreate (this0.child t n) w0
      = (.ok (some a, sl1), wc)) :
    m_resolve cls (fuel0 + 1 + 1 + d0) t this0.m_sl (this0.child t n) w0
        = (.ok (some a), wc.setFnGet ⟨o, t, n⟩ (.functor4a (some a)))
    ∧ m_tryResolve cls (fuel0 + 1 + 1 + d0) t this0.m_sl (this0.child t n) w0
        = (.ok (some a), wc.setFnGet ⟨o, t, n⟩ (.functor4a (some a)))
    ∧ ∀ (w' : World) (this : Context) (d k : Nat),
        Evolves (wc.setFnGet ⟨o, t, n⟩ (.functor4a (some a))) w' →
        Nearest w' t n this.m_sl d o → d + 2 ≤ k →
        m_resolve cls k t this.m_sl (this.child t n) w' = (.ok (some a), w')
        ∧ m_tryResolve cls k t this.m_sl (this.child t n) w' = (.ok (some a), w')
        ∧ (∀ p w1, Context.resolve cls (k + 1) this t n w' = (.ok p, w1) → p = some a)
        ∧ (∀ p w1, Context.tryResolve cls (k + 1) this t n w' = (.ok p, w1) → p = some a)
        ∧ (∀ w1, (∀ f ∈ this.frames, ¬ (f.m_interfaceType = t ∧ f.m_name = n)) →
            Context.afterResolve (Context.resolve cls k) (Context.tryResolve cls k) this w'
              = (.ok (), w1) →
            Context.resolve cls (k + 1) this t n w' = (.ok (some a), w1)
            ∧ Context.tryResolve cls (k + 1) this t n w' = (.ok (some a), w1)) := by
  obtain ⟨hm0, htm0, bc, hbc⟩ :=
    lookup_singleton_first cls w0 this0 t n d0 o fuel0 b a sl1 wc hnear0 hb hsing hcreate
  refine ⟨hm0, htm0, ?_⟩
  intro w' this d k hev hnear hk
  obtain ⟨b', hb', _, hg⟩ := hev.binding _ _ hbc
  have hfn' : b'.m_fnGet = .functor4a (some a) := hg (by simp)
  obtain ⟨hm, htm⟩ := lookup_stored cls w' this t n d o k b' a hnear hb' (Or.inl hfn') hk
  exact ⟨hm, htm, resolve_result_of_lookup cls k this t n w' w' _ hm,
    tryResolve_result_of_lookup cls k this t n w' w' _ htm,
    fun w1 hcyc hafter =>
      ⟨resolve_of_lookup cls k this t n w' w' w1 _ hm hcyc hafter,
       tryResolve_of_lookup cls k this t n w' w' w1 _ htm hcyc hafter⟩⟩

theorem singleton_same_instance_everywhere_witness :
    m_resolve testClasses 4 "ITest" 1 ((moduleChild.m_context 1).child "ITest" "") moduleChild
      = (.ok (some 0), moduleResolved)
    ∧ Context.resolve testClasses 3 (moduleResolved.m_context 0) "ITest" "" moduleResolved
      = (.ok (some 0), moduleResolved)
    ∧ Context.tryResolve testClasses 3
        ⟨0, 0, [⟨"TestC", "", some "TestC"⟩, ⟨"void", "", none⟩]⟩ "ITest" "" moduleResolved
      = (.ok (some 0), moduleResolved)
    ∧ Context.resolve testClasses 4 (moduleResolved.m_context 1) "ITest" "" moduleResolved
      = (.ok (some 0), moduleResolved)
    ∧ ((Context.resolve testClasses 6 (moduleResolved.m_context 0) "TestC" ""
        moduleResolved).2.heap[1]?).map Obj.fields = some [some 0] :=
  have h := singleton_same_instance_everywhere testClasses moduleChild
    (moduleChild.m_context 1) "ITest" "" 1 0 1 ⟨.functor4, .functor9 "TestA"⟩ 0
    ⟨1, 1, [⟨"ITest", "", some "TestA"⟩, ⟨"void", "", none⟩]⟩
    ((moduleChild.traceCreate ⟨0, "ITest", ""⟩).alloc
      ⟨"TestA", [], ⟨1, 1, [⟨"ITest", "", some "TestA"⟩, ⟨"void", "", none⟩]⟩⟩)
    (Nearest.up (l := 1) (p := 0)
      (show moduleChild.locators[1]? = some ⟨[], [], some 0, 1⟩ from rfl) rfl rfl
      (Nearest.here rfl))
    rfl rfl rfl
  ⟨h.1.trans rfl,
   ((h.2.2 moduleResolved (moduleResolved.m_context 0) 0 2 (Evolves.refl _) (Nearest.here rfl)
      (by decide)).2.2.2.2 moduleResolved (by decide) rfl).1,
   ((h.2.2 moduleResolved ⟨0, 0, [⟨"TestC", "", some "TestC"⟩, ⟨"void", "", none⟩]⟩ 0 2
      (Evolves.refl _) (Nearest.here rfl) (by decide)).2.2.2.2 moduleResolved (by decide)
        rfl).2,
   ((h.2.2 moduleResolved (moduleResolved.m_context 1) 1 3 (Evolves.refl _)
      (Nearest.up (l := 1) (p := 0)
        (show moduleResolved.locators[1]? = some ⟨[], [], some 0, 1⟩ from rfl) rfl rfl
        (Nearest.here rfl))
      (by decide)).2.2.2.2 moduleResolved (by decide) rfl).1,
   rfl⟩

/-! ## A singleton whose creation fails -/

/-- C29: let the locator `o` hold a singleton binding `b` for the key `(t, n)` with an
object-creating creation function, not yet instantiated, and let the creation function fail
with the error `e` when the key is resolved on the context `this`. Then (1) the `resolve`
fails with `e`, and the binding is unchanged: it is still `b`, nothing is cached; (2) the
lookup of the next resolve invokes the creation function again; (3) in every world in which
the binding is still `b`, a `resolve` that returns an instance `a` leaves `a` cached in the
binding, and `a` is what every later resolve of the key returns, leaving the world as it
is. -/
theorem singleton_failed_creation_not_cached (cls : TypeId → Script) (w : World)
    (this : Context) (t : TypeId) (n : String) (d o fuel : Nat) (b : shared_ptr_binding)
    (T : TypeId) (body : Script) (e : ServiceLocatorException) (w1 : World)
    (hctx : this.frames ≠ [])
    (hnear : Nearest w t n this.m_sl d o)
    (hb : w.binding? ⟨o, t, n⟩ = some b)
    (hsing : b.m_fnGet = .functor4)
    (hkind : b.m_fnCreate = .functor7 T ∨ b.m_fnCreate = .functor9 T
      ∨ b.m_fnCreate = .functor12 T body false)
    (hcyc : ∀ f ∈ this.frames, ¬ (f.m_interfaceType = t ∧ f.m_name = n))
    (hfail : invoke cls fuel ⟨o, t, n⟩ b.m_fnCreate (this.child t n) w = (.error e, w1)) :
    Context.resolve cls (fuel + 1 + 1 + d + 1) this t n w = (.error e, w1)
    ∧ w1.binding? ⟨o, t, n⟩ = some b
    ∧ (∀ G, (m_resolve cls (G + 1 + 1 + 1 + d) t this.m_sl (this.child t n)
          w1).2.created.count ⟨o, t, n⟩ = w1.created.count ⟨o, t, n⟩ + 1)
    ∧ (∀ (v v1 : World) (that : Context) (d1 fuel1 a : Nat),
        v.binding? ⟨o, t, n⟩ = some b → Nearest v t n that.m_sl d1 o →
        Context.resolve cls fuel1 that t n v = (.ok (some a), v1) →
        (∃ b2, v1.binding? ⟨o, t, n⟩ = some b2 ∧ b2.m_fnGet = .functor4a (some a))
        ∧ ∀ (w' : World) (later : Context) (d2 k : Nat), Evolves v1 w' →
            Nearest w' t n later.m_sl d2 o →
            (∀ f ∈ later.frames, ¬ (f.m_interfaceType = t ∧ f.m_name = n)) →
            (later.isRoot = true → w'.fnAfterResolveLists.getD later.m_root [] = []) →
            d2 + 3 ≤ k →
            Context.resolve cls k later t n w' = (.ok (some a), w')) := by
  have hcr : b.m_fnCreate.isCreation = true := by
    rcases hkind with e | e | e <;> rw [e] <;> rfl
  have hev : Evolves w w1 := by
    have h := (engine_evolves cls fuel).1 ⟨o, t, n⟩ b.m_fnCreate (this.child t n) w
      ⟨b, hb, Or.inr ⟨hsing, rfl⟩⟩
    rw [hfail] at h; exact h
  have hb1 : w1.binding? ⟨o, t, n⟩ = some b := by
    have h := creation_keeps_binding cls fuel ⟨o, t, n⟩ b.m_fnCreate (this.child t n) w hcr
      (guarded_child_self this t n hctx)
    rw [hfail] at h
    exact h.trans hb
  refine ⟨?_, hb1, ?_, ?_⟩
  · rw [resolve_eq_finish cls _ this t n w hcyc,
      m_resolve_walk cls hnear (this.child t n) rfl (fuel + 1 + 1),
      m_resolve_hit cls (fuel + 1) (this.child t n) hb]
    simp only [served, child_getName]
    rw [hsing, invoke_functor4 cls fuel _ _ w b hb, hfail]
    rfl
  · intro G
    exact lookup_singleton_count cls w1 this t n d o G b T body hctx
      (Nearest.evolves hev hnear) hb1 hsing hkind
  · intro v v1 that d1 fuel1 a hbv hnv hres
    obtain ⟨b2, hb2, hg2⟩ := (resolve_object cls v that t n d1 o fuel1 b b.m_fnCreate T body a v1
      hnv hbv (Or.inr ⟨hsing, rfl⟩) hkind hres).2 hsing
    refine ⟨⟨b2, hb2, hg2⟩, ?_⟩
    intro w' later d2 k hev' hnear' hcyc' hq' hk
    exact (cached_everywhere cls v1 w' t n o a b2 hb2 hg2 hev' later d2 k hnear' hcyc' hq' hk).1

theorem singleton_failed_creation_not_cached_witness :
    Context.resolve zooClasses 8 (hungrySingleton.m_context 0) "IAnimal" "Monkey" hungrySingleton
      = (.error (.UnableToResolveException
          ("Unable to resolve <IFood>  resolve path = "
            ++ "resolve<IAnimal>(Monkey).to<Monkey> -> resolve<IFood>(Monkey)")), hungryFailed)
    ∧ hungryFailed.binding? ⟨0, "IAnimal", "Monkey"⟩ = some ⟨.functor4, .functor9 "Monkey"⟩
    ∧ (m_resolve zooClasses 4 "IAnimal" 0
        ((hungrySingleton.m_context 0).child "IAnimal" "Monkey") hungryFailed).2.created.count
          ⟨0, "IAnimal", "Monkey"⟩ = hungryFailed.created.count ⟨0, "IAnimal", "Monkey"⟩ + 1
    ∧ Context.resolve zooClasses 8 (fedWorld.m_context 0) "IAnimal" "Monkey" fedWorld
      = (.ok (some 1), fedResolved)
    ∧ Context.resolve zooClasses 3 (fedResolved.m_context 0) "IAnimal" "Monkey" fedResolved
      = (.ok (some 1), fedResolved) :=
  have hretry : Context.resolve zooClasses 8 (fedWorld.m_context 0) "IAnimal" "Monkey" fedWorld
      = (.ok (some 1), fedResolved) := rfl
  have h := singleton_failed_creation_not_cached zooClasses hungrySingleton
    (hungrySingleton.m_context 0) "IAnimal" "Monkey" 0 0 5 ⟨.functor4, .functor9 "Monkey"⟩
    "Monkey" .done
    (.UnableToResolveException
      ("Unable to resolve <IFood>  resolve path = "
        ++ "resolve<IAnimal>(Monkey).to<Monkey> -> resolve<IFood>(Monkey)"))
    hungryFailed (by decide) (Nearest.here rfl) rfl rfl (Or.inr (Or.inl rfl)) (by decide) rfl
  ⟨h.1, h.2.1, h.2.2.1 1,
   hretry,
   (h.2.2.2 fedWorld fedResolved (fedWorld.m_context 0) 0 8 1 rfl (Nearest.here rfl) hretry).2
     fedResolved (fedResolved.m_context 0) 0 3 (Evolves.refl _) (Nearest.here rfl)
     (by decide) (by decide) (by decide)⟩

/-! ## A bind that fails -/

/-- C31: a `bind` of `(t, n)` on the locator `l` that fails with `DuplicateBinding` leaves
the world as it was: the locator already holds the binding (so the registry of `t` exists and
is not created), the binding with its stored callables and cached singleton, the eager list
and every other locator are untouched; the clauses after the `bind` are not reached; and
every `resolve`, `tryResolve` and `resolveAll` afterwards has the outcome it would have had
without the failed `bind`. -/
theorem failed_bind_changes_nothing (cls : TypeId → Script) (fuel : Nat) (w : World)
    (t : TypeId) (n : String) (l : Nat) (m : String)
    (hfail : (bind t n l w).1 = .error (.DuplicateBindingException m)) :
    (bind t n l w).2 = w
    ∧ (∃ b, w.binding? ⟨l, t, n⟩ = some b ∧ (bind t n l w).2.binding? ⟨l, t, n⟩ = some b)
    ∧ (∀ clause, bindWith t n l clause w = w)
    ∧ (∀ this t2 n2, Context.resolve cls fuel this t2 n2 (bind t n l w).2
          = Context.resolve cls fuel this t2 n2 w
        ∧ Context.tryResolve cls fuel this t2 n2 (bind t n l w).2
          = Context.tryResolve cls fuel this t2 n2 w)
    ∧ (∀ this t2 all, Context.resolveAll cls fuel this t2 all (bind t n l w).2
          = Context.resolveAll cls fuel this t2 all w) := by
  obtain ⟨b, hb⟩ := bind_fails_held w t n l m hfail
  have heq := bind_held w t n l b hb
  have hw : (bind t n l w).2 = w := by rw [heq]
  refine ⟨hw, ⟨b, hb, by rw [hw]; exact hb⟩, ?_, ?_, ?_⟩
  · intro clause
    simp only [bindWith, heq]
  · intro this t2 n2
    rw [hw]
    exact ⟨rfl, rfl⟩
  · intro this t2 all
    rw [hw]

theorem failed_bind_changes_nothing_witness :
    (bind "ITest" "X" 0 namedWorld).1
      = .error (.DuplicateBindingException "Duplicate binding for <ITest> named X")
    ∧ (bind "ITest" "X" 0 namedWorld).2 = namedWorld
    ∧ bindWith "ITest" "X" 0 (fun r => to_clause.to r "TestB") namedWorld = namedWorld :=
  have hfail : (bind "ITest" "X" 0 namedWorld).1
      = .error (.DuplicateBindingException "Duplicate binding for <ITest> named X") := rfl
  have h := failed_bind_changes_nothing testClasses 3 namedWorld "ITest" "X" 0
    "Duplicate binding for <ITest> named X" hfail
  ⟨hfail, h.1, h.2.2.1 _⟩

/-! ## Bindings that yield the empty pointer -/

/-- C33: let the locator `l` hold a binding for the key of the request context `slc`, and let
its stored callable yield the empty pointer, leaving the context `slc1` and the world `w1`.
Then the lookup goes on as it does for a missing binding: (1) when `l` has a parent,
`m_resolve` and `m_tryResolve` continue at the parent; (2) when `l` is a root locator,
`m_resolve` fails with `UnableToResolve` and `m_tryResolve` returns the empty pointer, and so
do `resolve` and `tryResolve` on a context of that locator (for `tryResolve`, when no deferred
callback is pending), although the binding exists. (3) The lookup goes on with the context
and the world as the callable left them; for a binding that stores an empty pointer
(`toInstance` of an empty pointer, or a singleton that cached one) these are the context and
the world of the request, exactly as if the binding were absent. -/
theorem null_instance_falls_through (cls : TypeId → Script) (fuel : Nat) (w w1 : World)
    (t : TypeId) (l : Nat) (sl : Locator) (b : shared_ptr_binding) (slc slc1 : Context)
    (hl : w.locators[l]? = some sl)
    (hb : w.binding? ⟨l, t, slc.getName⟩ = some b)
    (hnull : invoke cls fuel ⟨l, t, slc.getName⟩ b.m_fnGet slc w = (.ok (none, slc1), w1)) :
    (∀ p, sl.m_parent = some p →
        m_resolve cls (fuel + 1) t l slc w = m_resolve cls fuel t p slc1 w1
        ∧ m_tryResolve cls (fuel + 1) t l slc w = m_tryResolve cls fuel t p slc1 w1)
    ∧ (sl.m_parent = none →
        m_resolve cls (fuel + 1) t l slc w = (.error (unableToResolve slc1), w1)
        ∧ m_tryResolve cls (fuel + 1) t l slc w = (.ok none, w1))
    ∧ (∀ (this : Context) (n : String), slc = this.child t n → l = this.m_sl →
        sl.m_parent = none →
        (∀ f ∈ this.frames, ¬ (f.m_interfaceType = t ∧ f.m_name = n)) →
        Context.resolve cls (fuel + 1 + 1) this t n w = (.error (unableToResolve slc1), w1)
        ∧ ((this.isRoot = true → w1.fnAfterResolveLists.getD this.m_root [] = []) →
            Context.tryResolve cls (fuel + 1 + 1) this t n w = (.ok none, w1)))
    ∧ (b.m_fnGet = .functorY none ∨ b.m_fnGet = .functor4a none → slc1 = slc ∧ w1 = w) := by
  have hres : m_resolve cls (fuel + 1) t l slc w
      = match sl.m_parent with
        | none => (.error (unableToResolve slc1), w1)
        | some p => m_resolve cls fuel t p slc1 w1 := by
    rw [m_resolve_hit cls fuel slc hb]
    simp only [served, hnull, hl, Option.some_bind]
  have htry : m_tryResolve cls (fuel + 1) t l slc w
      = match sl.m_parent with
        | none => (.ok none, w1)
        | some p => m_tryResolve cls fuel t p slc1 w1 := by
    rw [m_tryResolve_hit cls fuel slc hb]
    simp only [hnull, hl, Option.some_bind]
  refine ⟨?_, ?_, ?_, ?_⟩
  · intro p hp
    rw [hres, htry, hp]
    exact ⟨rfl, rfl⟩
  · intro hp
    rw [hres, htry, hp]
    exact ⟨rfl, rfl⟩
  · intro this n hslc hlthis hp hcyc
    subst hslc
    subst hlthis
    rw [hp] at hres htry
    constructor
    · rw [resolve_eq_finish cls (fuel + 1) this t n w hcyc, hres]
      rfl
    · intro hq
      rw [tryResolve_eq_finish cls (fuel + 1) this t n w hcyc, htry]
      simp only [Context.finish, afterResolve_idle _ _ this w1 hq]
  · intro hfn
    cases fuel with
    | zero => simp [invoke] at hnull
    | succ k =>
      rcases hfn with e | e <;> rw [e] at hnull <;>
        simp only [invoke, Prod.mk.injEq, Except.ok.injEq, true_and] at hnull <;>
        exact ⟨hnull.1.symm, hnull.2.symm⟩

theorem null_instance_falls_through_witness :
    Context.resolve testClasses 4 (nullFactoryWorld.m_context 0) "ITest" "" nullFactoryWorld
      = (.error (.UnableToResolveException
          "Unable to resolve <ITest>  resolve path = resolve<ITest>().to<TestA>"),
         nullFactoryWorld.traceCreate ⟨0, "ITest", ""⟩)
    ∧ Context.tryResolve testClasses 4 (nullFactoryWorld.m_context 0) "ITest" ""
        nullFactoryWorld = (.ok none, nullFactoryWorld.traceCreate ⟨0, "ITest", ""⟩)
    ∧ m_resolve testClasses 3 "ITest" 1 ((emptyInstanceWorld.m_context 1).child "ITest" "")
        emptyInstanceWorld
      = m_resolve testClasses 2 "ITest" 0 ((emptyInstanceWorld.m_context 1).child "ITest" "")
        emptyInstanceWorld
    ∧ (Context.resolve testClasses 5 (emptyInstanceWorld.m_context 1) "ITest" ""
        emptyInstanceWorld).1 = .ok (some 0) :=
  have h := null_instance_falls_through testClasses 2 nullFactoryWorld
    (nullFactoryWorld.traceCreate ⟨0, "ITest", ""⟩) "ITest" 0
    ⟨[("ITest", [("", ⟨.functor12 "TestA" .done true, .functor12 "TestA" .done true⟩)])],
      [], none, 0⟩
    ⟨.functor12 "TestA" .done true, .functor12 "TestA" .done true⟩
    ((nullFactoryWorld.m_context 0).child "ITest" "")
    ⟨0, 0, [⟨"ITest", "", some "TestA"⟩, ⟨"void", "", none⟩]⟩ rfl rfl rfl
  have h2 := null_instance_falls_through testClasses 2 emptyInstanceWorld emptyInstanceWorld
    "ITest" 1
    ⟨[("ITest", [("", ⟨.functorY none, .empty⟩)])], [], some 0, 1⟩
    ⟨.functorY none, .empty⟩
    ((emptyInstanceWorld.m_context 1).child "ITest" "")
    ((emptyInstanceWorld.m_context 1).child "ITest" "") rfl rfl rfl
  have h3 := h.2.2.1 (nullFactoryWorld.m_context 0) "" rfl rfl rfl (by decide)
  ⟨h3.1.trans rfl, h3.2 (by decide), (h2.1 0 rfl).1, rfl⟩

/-- C36: on fallback the binding of the parent locator is invoked on the context that the
binding of the child left. Let the locator of the context `this` hold a factory binding for
the key `(t, n)` whose factory (its engine calls completing in the world `w1`) returns
`NULL`, and let the parent locator `p` hold a binding for the key whose stored callable records
a concrete type (`toSelf`, `to<T>`, a factory, with or without dependencies). Then the lookup
continues at `p` on the request context with the concrete type of the child's factory recorded
on it, and `resolve` fails with `BindingIssue` ("Concrete type on Context already set")
instead of returning the instance of the parent. -/
theorem fallback_reuses_context (cls : TypeId → Script) (fuel : Nat) (w w1 : World)
    (this : Context) (t : TypeId) (n : String) (p : Nat) (sl : Locator)
    (bl bp : shared_ptr_binding) (T T2 : TypeId) (body body2 : Script)
    (yieldsNull2 : Bool) (fields : List Ptr)
    (hl : w.locators[this.m_sl]? = some sl) (hp : sl.m_parent = some p)
    (hb : w.binding? ⟨this.m_sl, t, n⟩ = some bl)
    (hfac : bl.m_fnGet = .functor12 T body true)
    (hrun : runScript (Context.resolve cls (fuel + 1)) (Context.tryResolve cls (fuel + 1))
      ⟨this.m_sl, this.m_root, ⟨t, n, some T⟩ :: this.frames⟩ body []
      (w.traceCreate ⟨this.m_sl, t, n⟩) = (.ok fields, w1))
    (hbp : w1.binding? ⟨p, t, n⟩ = some bp)
    (hkind : bp.m_fnGet = .functor7 T2 ∨ bp.m_fnGet = .functor8 T2 ∨ bp.m_fnGet = .functor9 T2
      ∨ bp.m_fnGet = .functor10 T2 ∨ bp.m_fnGet = .functor12 T2 body2 yieldsNull2)
    (hcyc : ∀ f ∈ this.frames, ¬ (f.m_interfaceType = t ∧ f.m_name = n)) :
    m_resolve cls (fuel + 1 + 1 + 1) t this.m_sl (this.child t n) w
      = m_resolve cls (fuel + 1 + 1) t p
          ⟨this.m_sl, this.m_root, ⟨t, n, some T⟩ :: this.frames⟩ w1
    ∧ Context.resolve cls (fuel + 1 + 1 + 1 + 1) this t n w
      = (.error (.BindingIssueException "Concrete type on Context already set"),
          w1.traceCreate ⟨p, t, n⟩) := by
  have hinv : invoke cls (fuel + 1 + 1) ⟨this.m_sl, t, (this.child t n).getName⟩ bl.m_fnGet
      (this.child t n) w
      = (.ok (none, ⟨this.m_sl, this.m_root, ⟨t, n, some T⟩ :: this.frames⟩), w1) := by
    rw [hfac]
    simp only [invoke, construct, child_getName]
    have hset : (this.child t n).setConcreteType T
        = .ok ⟨this.m_sl, this.m_root, ⟨t, n, some T⟩ :: this.frames⟩ := rfl
    simp only [hset, hrun, if_true]
  have hstep : m_resolve cls (fuel + 1 + 1 + 1) t this.m_sl (this.child t n) w
      = m_resolve cls (fuel + 1 + 1) t p
          ⟨this.m_sl, this.m_root, ⟨t, n, some T⟩ :: this.frames⟩ w1 := by
    rw [m_resolve_hit cls (fuel + 1 + 1) (this.child t n) hb]
    simp only [served, hinv, hl, Option.some_bind, hp]
  have hparent : m_resolve cls (fuel + 1 + 1) t p
      ⟨this.m_sl, this.m_root, ⟨t, n, some T⟩ :: this.frames⟩ w1
      = (.error (.BindingIssueException "Concrete type on Context already set"),
          w1.traceCreate ⟨p, t, n⟩) := by
    rw [m_resolve_hit cls (fuel + 1)
      (⟨this.m_sl, this.m_root, ⟨t, n, some T⟩ :: this.frames⟩ : Context) hbp]
    simp only [served]
    rcases hkind with e | e | e | e | e <;> rw [e] <;> rfl
  refine ⟨hstep, ?_⟩
  rw [resolve_eq_finish cls _ this t n w hcyc, hstep, hparent]
  rfl

theorem fallback_reuses_context_witness :
    Context.resolve testClasses 4 (nullChildWorld.m_context 1) "ITest" "" nullChildWorld
      = (.error (.BindingIssueException "Concrete type on Context already set"),
          (nullChildWorld.traceCreate ⟨1, "ITest", ""⟩).traceCreate ⟨0, "ITest", ""⟩)
    ∧ (Context.resolve testClasses 4 (nestedWorld.m_context 2) "ITest" "" nestedWorld).1
      = .ok (some 0) :=
  ⟨(fallback_reuses_context testClasses 0 nullChildWorld
      (nullChildWorld.traceCreate ⟨1, "ITest", ""⟩) (nullChildWorld.m_context 1) "ITest" "" 0
      ⟨[("ITest", [("", ⟨.functor12 "TestB" .done true, .functor12 "TestB" .done true⟩)])],
        [], some 0, 1⟩
      ⟨.functor12 "TestB" .done true, .functor12 "TestB" .done true⟩
      ⟨.functor9 "TestA", .functor9 "TestA"⟩ "TestB" "TestA" .done .done false []
      rfl rfl rfl rfl rfl rfl (Or.inr (Or.inr (Or.inl rfl))) (by decide)).2,
   rfl⟩

/-! ## Errors inside a creation function -/

/-- C34: `tryResolve` turns only the miss of its own lookup into the empty pointer. (1) An
exception thrown by the creation function of the binding that serves the key leaves
`tryResolve` unchanged, with the world reached. (2) When the key `(t, n)` is bound to a
constructor or factory whose first engine call is the throwing `resolve` of a key
`(t2, n2)` that no locator from the resolving locator up to the root binds (and that is not
on the calling chain), the creation function throws `UnableToResolve` for `(t2, n2)`, and
(3) `tryResolve` of `(t, n)` fails with that `UnableToResolve` instead of returning the empty
pointer. -/
theorem tryResolve_propagates_nested_unable (cls : TypeId → Script) (w : World)
    (this : Context) (t : TypeId) (n : String) (t2 : TypeId) (n2 : String) (d o d2 j : Nat)
    (b : shared_ptr_binding) (T : TypeId) (rest : Script) (yieldsNull : Bool)
    (hnear : Nearest w t n this.m_sl d o)
    (hb : w.binding? ⟨o, t, n⟩ = some b)
    (hkind : ((b.m_fnGet = .functor7 T ∨ b.m_fnGet = .functor9 T)
        ∧ cls T = .resolve t2 n2 rest)
      ∨ b.m_fnGet = .functor12 T (.resolve t2 n2 rest) yieldsNull)
    (hun : Unbound w t2 n2 this.m_sl d2)
    (hcyc : ∀ f ∈ this.frames, ¬ (f.m_interfaceType = t ∧ f.m_name = n))
    (hcyc2 : ∀ f ∈ this.frames, ¬ (f.m_interfaceType = t2 ∧ f.m_name = n2))
    (hne : ¬ (t = t2 ∧ n = n2))
    (hj : d2 + 2 ≤ j) :
    (∀ fuel e w1, invoke cls fuel ⟨o, t, n⟩ b.m_fnGet (this.child t n) w = (.error e, w1) →
        Context.tryResolve cls (fuel + 1 + d + 1) this t n w = (.error e, w1))
    ∧ invoke cls (j + 1) ⟨o, t, n⟩ b.m_fnGet (this.child t n) w
      = (.error (unableToResolve
            ((⟨this.m_sl, this.m_root, ⟨t, n, some T⟩ :: this.frames⟩ : Context).child t2 n2)),
          w.traceCreate ⟨o, t, n⟩)
    ∧ Context.tryResolve cls (j + 1 + 1 + d + 1) this t n w
      = (.error (unableToResolve
            ((⟨this.m_sl, this.m_root, ⟨t, n, some T⟩ :: this.frames⟩ : Context).child t2 n2)),
          w.traceCreate ⟨o, t, n⟩) := by
  have hprop : ∀ fuel e w1,
      invoke cls fuel ⟨o, t, n⟩ b.m_fnGet (this.child t n) w = (.error e, w1) →
      Context.tryResolve cls (fuel + 1 + d + 1) this t n w = (.error e, w1) := by
    intro fuel e w1 hinv
    rw [tryResolve_eq_finish cls _ this t n w hcyc,
      m_tryResolve_walk cls hnear (this.child t n) rfl (fuel + 1),
      m_tryResolve_hit cls fuel (this.child t n) hb]
    simp only [child_getName, hinv, Context.finish]
  have hnested : Context.resolve cls j
      ⟨this.m_sl, this.m_root, ⟨t, n, some T⟩ :: this.frames⟩ t2 n2 (w.traceCreate ⟨o, t, n⟩)
      = (.error (unableToResolve
            ((⟨this.m_sl, this.m_root, ⟨t, n, some T⟩ :: this.frames⟩ : Context).child t2 n2)),
          w.traceCreate ⟨o, t, n⟩) := by
    apply resolve_unbound_fails cls _ _ t2 n2 d2 j
    · exact (show Unbound (w.traceCreate ⟨o, t, n⟩) t2 n2 this.m_sl d2 from
        Unbound.of_same_registries
          (show (w.traceCreate ⟨o, t, n⟩).locators = w.locators from rfl) hun)
    · intro f hf
      rcases List.mem_cons.1 hf with rfl | hf
      · exact fun h => hne ⟨h.1.symm ▸ rfl, h.2.symm ▸ rfl⟩
      · exact hcyc2 f hf
    · exact hj
  have hset : (this.child t n).setConcreteType T
      = .ok ⟨this.m_sl, this.m_root, ⟨t, n, some T⟩ :: this.frames⟩ := rfl
  have hinv : invoke cls (j + 1) ⟨o, t, n⟩ b.m_fnGet (this.child t n) w
      = (.error (unableToResolve
            ((⟨this.m_sl, this.m_root, ⟨t, n, some T⟩ :: this.frames⟩ : Context).child t2 n2)),
          w.traceCreate ⟨o, t, n⟩) := by
    rcases hkind with ⟨e | e, hcls⟩ | e <;> rw [e] <;>
      simp only [invoke, construct, hset, runScript, hnested] <;>
      simp only [hcls, runScript, hnested]
  exact ⟨hprop, hinv, hprop (j + 1) _ _ hinv⟩

theorem tryResolve_propagates_nested_unable_witness :
    Context.tryResolve zooClasses 5 (hungryWorld.m_context 0) "IAnimal" "Monkey" hungryWorld
      = (.error (.UnableToResolveException
          ("Unable to resolve <IFood>  resolve path = "
            ++ "resolve<IAnimal>(Monkey).to<Monkey> -> resolve<IFood>(Monkey)")),
         hungryWorld.traceCreate ⟨0, "IAnimal", "Monkey"⟩)
    ∧ Context.tryResolve zooClasses 5 (hungryWorld.m_context 0) "IFood" "Monkey" hungryWorld
      = (.ok none, hungryWorld) :=
  ⟨((tryResolve_propagates_nested_unable zooClasses hungryWorld (hungryWorld.m_context 0)
      "IAnimal" "Monkey" "IFood" "Monkey" 0 0 0 2 ⟨.functor9 "Monkey", .functor9 "Monkey"⟩
      "Monkey" .done false (Nearest.here rfl) rfl (Or.inl ⟨Or.inr rfl, rfl⟩)
      (Unbound.root (l := 0) rfl rfl rfl) (by decide) (by decide) (by decide)
      (by decide)).2.2).trans rfl,
   rfl⟩

/-! ## The order of the deferred callbacks -/

/-- C35: let `this` be a root context and `resolve` of `(t, n)` on it a top-level resolve.
(1) A callback registered from any context of the call tree (they all carry the root of
`this`) is appended at the end of the list of that root. (2) No engine call made on a
context of the call tree removes or reorders what the list holds: afterwards the list is
the one from before followed by what was registered in between, so the list is in
registration order. (3) When the lookup has obtained its instance, the list is run from its
first element to its last: running a list `fns ++ gns` is running `fns` and then `gns`, each
callback on a root context of its own. So the callbacks are run first registered, first run,
whichever contexts registered them. -/
theorem callbacks_run_in_registration_order (cls : TypeId → Script) (fuel : Nat)
    (this : Context) (t : TypeId) (n : String) (w : World)
    (hroot : this.isRoot = true) (hne : this.frames ≠ [])
    (hcyc : ∀ f ∈ this.frames, ¬ (f.m_interfaceType = t ∧ f.m_name = n)) :
    (∀ (sl : Context) (res tryRes : Context → TypeId → String → World → Out Ptr)
        (fn rest : Script) (fields : List Ptr) (w0 : World), sl.m_root = this.m_root →
        this.m_root < w0.fnAfterResolveLists.length →
        runScript res tryRes sl (.afterResolve fn rest) fields w0
          = runScript res tryRes sl rest fields (w0.pushAfterResolve this.m_root fn)
        ∧ (w0.pushAfterResolve this.m_root fn).fnAfterResolveLists.getD this.m_root []
          = w0.fnAfterResolveLists.getD this.m_root [] ++ [fn])
    ∧ (∀ (k : Nat) (sl : Context) (t2 : TypeId) (n2 : String) (w0 : World),
        sl.isRoot = false → sl.m_root = this.m_root →
        (∃ registered, (Context.resolve cls k sl t2 n2 w0).2.fnAfterResolveLists.getD
            this.m_root [] = w0.fnAfterResolveLists.getD this.m_root [] ++ registered)
        ∧ (∃ registered, (Context.tryResolve cls k sl t2 n2 w0).2.fnAfterResolveLists.getD
            this.m_root [] = w0.fnAfterResolveLists.getD this.m_root [] ++ registered))
    ∧ (∃ registered, (m_resolve cls fuel t this.m_sl (this.child t n)
          w).2.fnAfterResolveLists.getD this.m_root []
        = w.fnAfterResolveLists.getD this.m_root [] ++ registered)
    ∧ Context.resolve cls (fuel + 1) this t n w =
        (match m_resolve cls fuel t this.m_sl (this.child t n) w with
        | (.error e, w1) => (.error e, w1)
        | (.ok p, w1) =>
          match runCallbacks (Context.resolve cls fuel) (Context.tryResolve cls fuel)
              this.m_sl (w1.fnAfterResolveLists.getD this.m_root []) w1 with
          | (.error e, w2) => (.error e, w2)
          | (.ok _, w2) =>
            (.ok p, { w2 with fnAfterResolveLists := w2.fnAfterResolveLists.set this.m_root [] }))
    ∧ (∀ (res tryRes : Context → TypeId → String → World → Out Ptr) (m_sl : Nat)
        (fns gns : List Script) (w0 : World),
        runCallbacks res tryRes m_sl (fns ++ gns) w0 =
          match runCallbacks res tryRes m_sl fns w0 with
          | (.error e, w1) => (.error e, w1)
          | (.ok _, w1) => runCallbacks res tryRes m_sl gns w1) := by
  refine ⟨?_, ?_, ?_, ?_, fun res tryRes m_sl fns gns w0 =>
    runCallbacks_append res tryRes m_sl fns gns w0⟩
  · intro sl res tryRes fn rest fields w0 hsl hlt
    refine ⟨?_, getD_pushAfterResolve w0 this.m_root fn hlt⟩
    simp only [runScript, hsl]
  · intro k sl t2 n2 w0 hnr hsl
    obtain ⟨_, _, _, ihr, ihtr⟩ := engine_queues cls this.m_root k
    exact ⟨(ihr sl t2 n2 w0 ⟨hnr, hsl⟩).2.2, (ihtr sl t2 n2 w0 ⟨hnr, hsl⟩).2.2⟩
  · exact ((engine_queues cls this.m_root fuel).2.1 t this.m_sl (this.child t n) w
      (Below.of_child rfl hne t n)).2.2
  · rw [resolve_top_level cls fuel this t n w hroot hcyc]
    rcases m_resolve cls fuel t this.m_sl (this.child t n) w with ⟨r, w1⟩
    cases r with
    | error e => rfl
    | ok p =>
      simp only [Context.drain]
      rcases runCallbacks (Context.resolve cls fuel) (Context.tryResolve cls fuel)
        this.m_sl (w1.fnAfterResolveLists.getD this.m_root []) w1 with ⟨r2, w2⟩
      cases r2 <;> rfl

theorem callbacks_run_in_registration_order_witness :
    (m_resolve orderClasses 6 "First" 0 ((orderWorld.m_context 0).child "First" "")
        orderWorld).2.fnAfterResolveLists
      = [[.resolve "LogA" "" .done, .resolve "LogB" "" .done, .resolve "LogC" "" .done]]
    ∧ (Context.resolve orderClasses 7 (orderWorld.m_context 0) "First" "" orderWorld).1
      = .ok (some 1)
    ∧ (Context.resolve orderClasses 7 (orderWorld.m_context 0) "First" ""
        orderWorld).2.heap.map Obj.type = ["Second", "First", "LogA", "LogB", "LogC"]
    ∧ (∃ registered, (m_resolve orderClasses 6 "First" (orderWorld.m_context 0).m_sl
          ((orderWorld.m_context 0).child "First" "") orderWorld).2.fnAfterResolveLists.getD
            (orderWorld.m_context 0).m_root []
        = orderWorld.fnAfterResolveLists.getD (orderWorld.m_context 0).m_root []
            ++ registered) :=
  ⟨rfl, rfl, rfl,
   (callbacks_run_in_registration_order orderClasses 6 (orderWorld.m_context 0) "First" ""
      orderWorld rfl (by decide) (by decide)).2.2.1⟩

/-! ## Parent chains -/

/-- C37: in every world that a program reaches through `create()`, `enter()`, configuration
statements and resolutions, the parent of every locator was created before it, so no locator
is its own ancestor, and every locator `l` has a finite parent chain of some depth `d` that
ends in a locator without parent. The fallback walks from `l` are bounded by that depth: for
every key the walk of `resolve` and `tryResolve` either reaches the nearest binding after at
most `d` steps to a parent or ends at the root after `d` steps (then `m_resolve` throws
`UnableToResolve` and `m_tryResolve` returns the empty pointer, with `d + 1` units of fuel);
`_canResolve` returns with `d + 1` units of fuel; and the walk of `_visitAll` with depth
`d + 1` visits exactly the bindings of the chain. -/
theorem parent_chains_end_in_root (cls : TypeId → Script) (w : World) (l : Nat)
    (hw : Built w) (hl : l < w.locators.length) :
    ParentsBelow w
    ∧ ∃ d, d ≤ l ∧ Rooted w l d
      ∧ (∀ (t : TypeId) (n : String),
          Unbound w t n l d ∨ ∃ d' o, d' ≤ d ∧ Nearest w t n l d' o)
      ∧ (∀ (t : TypeId) (n : String) (slc : Context) (fuel : Nat), slc.getName = n →
          Unbound w t n l d → d < fuel →
          m_resolve cls fuel t l slc w = (.error (unableToResolve slc), w)
          ∧ m_tryResolve cls fuel t l slc w = (.ok none, w))
      ∧ (∀ (t : TypeId) (n : String) (slc : Context) (d' o fuel : Nat), slc.getName = n →
          Nearest w t n l d' o →
          m_resolve cls (fuel + d') t l slc w = m_resolve cls fuel t o slc w
          ∧ m_tryResolve cls (fuel + d') t l slc w = m_tryResolve cls fuel t o slc w)
      ∧ (∀ (t : TypeId) (slc : Context) (fuel : Nat), d < fuel →
          ∃ b, _canResolve fuel t l slc w = (.ok b, w))
      ∧ (∀ (t : TypeId) (m_ctx : Context) (m_all : List Ptr) (fuel depth : Nat), d < depth →
          ∃ refs, Visited w t l d refs
            ∧ _visitAll cls fuel depth t l m_ctx m_all w
              = resolveEach cls fuel m_ctx t refs m_all w) := by
  have hpb := hw.parentsBelow
  obtain ⟨d, hd, hr⟩ := hpb.rooted l hl
  refine ⟨hpb, d, hd, hr, fun t n => hr.nearest_or_unbound t n, ?_, ?_, ?_, ?_⟩
  · intro t n slc fuel hn hun hf
    exact ⟨m_resolve_unbound cls hun slc hn fuel (by omega),
      m_tryResolve_unbound cls hun slc hn fuel (by omega)⟩
  · intro t n slc d' o fuel hn hnear
    exact ⟨m_resolve_walk cls hnear slc hn fuel, m_tryResolve_walk cls hnear slc hn fuel⟩
  · intro t slc fuel hf
    exact _canResolve_total hr t slc fuel hf
  · intro t m_ctx m_all fuel depth hdep
    obtain ⟨refs, hv⟩ := hr.visited t
    exact ⟨refs, hv, _visitAll_eq_resolveEach cls fuel m_ctx t depth l d refs m_all w hv hdep⟩

theorem parent_chains_end_in_root_witness :
    Built nestedWorld
    ∧ ParentsBelow nestedWorld
    ∧ (∃ d, d ≤ 2 ∧ Rooted nestedWorld 2 d)
    ∧ Rooted nestedWorld 2 1 :=
  have h0 : Built (create World.init).2 := Built.create Built.init
  have h1 : Built nestedRoot :=
    Built.configure 0 h0
      (ConfiguredOn.clause "ITest" "" (fun _ => ⟨.functor9 "TestA", .functor9 "TestA"⟩)
        (ConfiguredOn.bind "ITest" "" (ConfiguredOn.start _)))
  have h2 : Built (enter 0 (enter 0 nestedRoot).2).2 :=
    Built.enter 0 (by decide) (Built.enter 0 (by decide) h1)
  have h3 : Built nestedWorld :=
    Built.configure 1 h2
      (ConfiguredOn.clause "ITest" "" (fun _ => ⟨.functor9 "TestB", .functor9 "TestB"⟩)
        (ConfiguredOn.bind "ITest" "" (ConfiguredOn.start _)))
  have h := parent_chains_end_in_root testClasses nestedWorld 2 h3 (by decide)
  ⟨h3, h.1, h.2.imp (fun _ hd => ⟨hd.1, hd.2.1⟩),
   Rooted.up (l := 2) (p := 0)
     (show nestedWorld.locators[2]? = some ⟨[], [], some 0, 2⟩ from rfl) rfl
     (Rooted.root (l := 0)
       (show nestedWorld.locators[0]?
         = some ⟨[("ITest", [("", ⟨.functor9 "TestA", .functor9 "TestA"⟩)])], [], none, 0⟩
         from rfl) rfl)⟩

/-! ## Distinct keys on a context chain -/

/-- C32: let the keys on the chain of the context `this` be pairwise distinct (as they are
for every root context). Then (1) the context that `resolve` or `tryResolve` of `(t, n)`
hands to the lookup once the cycle check has passed, and the context that the visitor of
`resolveAll` hands to a binding, have pairwise distinct keys; (2) every object built during
a `resolve`, a `tryResolve` or a `resolveAll` on `this`, at whatever depth of the call tree
and in whatever deferred callback, was built by its creation function on a chain with
pairwise distinct keys; (3) the length of a chain with pairwise distinct keys is at most
the number of distinct keys requested on it plus one, for the root context. -/
theorem chains_have_distinct_keys (cls : TypeId → Script) (fuel : Nat) (this : Context)
    (t : TypeId) (n : String) (all : List Ptr) (w : World) (hthis : Distinct this) :
    (∀ u, checkRecursiveResolve (this.child t n) this.frames = .ok u →
        Distinct (this.child t n))
    ∧ (∀ u, checkRecursiveResolve (this.child t "") this.frames = .ok u →
        Distinct (this.child t ""))
    ∧ Builds w (Context.resolve cls fuel this t n w).2
    ∧ Builds w (Context.tryResolve cls fuel this t n w).2
    ∧ Builds w (Context.resolveAll cls fuel this t all w).2
    ∧ (∀ c : Context, Distinct c → ∀ S : Finset (TypeId × String),
        (∀ k ∈ c.keys.dropLast, k ∈ S) → c.frames.length ≤ S.card + 1)
    ∧ (∀ sl root : Nat, Distinct (Context.root sl root)) :=
  ⟨fun u h => hthis.of_check t n u h, fun u h => hthis.of_check t "" u h,
    (engine_builds cls fuel).2.2.2.1 this t n w hthis,
    (engine_builds cls fuel).2.2.2.2 this t n w hthis,
    resolveAll_builds cls fuel this t all w hthis,
    fun _ hc S hS => hc.depth_le S hS,
    fun sl root => Distinct.of_root sl root⟩

theorem chains_have_distinct_keys_witness :
    Distinct (deepWorld.m_context 0)
    ∧ Builds deepWorld
        (Context.resolve testClasses 6 (deepWorld.m_context 0) "TestC" "" deepWorld).2
    ∧ (Context.resolve testClasses 6 (deepWorld.m_context 0) "TestC" ""
        deepWorld).2.heap.map (fun o => o.slc.keys)
      = [[("ITest", ""), ("TestC", ""), ("void", "")], [("TestC", ""), ("void", "")]]
    ∧ (Context.resolve cycleClasses 9 (cycleWorld.m_context 0) "A" "" cycleWorld).2.heap = [] :=
  have hd : Distinct (deepWorld.m_context 0) := Distinct.of_root 0 0
  ⟨hd, (chains_have_distinct_keys testClasses 6 (deepWorld.m_context 0) "TestC" "" []
      deepWorld hd).2.2.1, rfl, rfl⟩

end ServiceLocator
